import Mathlib

/-!
Gas-pipeline network: the graph engine of `lr4/main.cpp` (and `lr3/main.cpp`).

A shallow embedding of the entity store, the graph builder and the graph
algorithms of `PipelineSystem`, followed by theorems about them.

Conventions of the embedding.

* C++ `int` identifiers are `Int`; vector positions are `Nat`; the sentinel
  `-1` of an index or of a parent array is `none`.
* C++ `double` values are exact rationals `ℚ`; rounding is not modelled.
  A `double` that may be `+∞` (a weight, a distance) is a `Dist`.
* `std::sqrt` has no rational counterpart; `Pipe.getCapacity` takes it as the
  parameter `sqrt`.
* The statements on the value of the capacity are about a second embedding
  of `Pipe::getCapacity`, `Pipe.getCapacityDouble`, over the type `Double`
  with the rounding and the range of IEEE 754 binary64; there the library
  functions `std::pow(·, 5)` and `std::sqrt` are the parameters `pow5` and
  `sqrt`.
* `std::set<int>` is a strictly ascending list; `std::map<int, V>` keyed by
  ids is an association list kept in ascending key order; the
  `map<int, vector<GraphEdge>>` keyed by dense node indices is a list of
  adjacency lists (an absent key and an empty vector are the same to every
  reader of the map).
* Loops whose termination is not structural take a `fuel` argument and
  return `none` when the fuel is used up.
* A menu action that changes the store is a function of the store and of
  the values it reads from the console; what `InputValidator` guarantees of
  those values is the predicate `Command.valid`. Counters are unbounded
  integers.
-/

namespace Pipeline

/-! ## Data model -/

inductive ConnectionType where
  | STATION_TO_STATION
  | STATION_TO_PIPE
  | PIPE_TO_STATION
  | PIPE_TO_PIPE
  deriving DecidableEq, Repr

/-- A `double` that may be `+∞` (`numeric_limits<double>::infinity()`). -/
inductive Dist where
  | fin (q : ℚ)
  | inf
  deriving DecidableEq

/-- Addition of two extended values, `a + b` on doubles. -/
def Dist.add : Dist → Dist → Dist
  | .fin a, .fin b => .fin (a + b)
  | _, _ => .inf

/-- Strict comparison `a < b` on doubles. -/
def Dist.lt : Dist → Dist → Bool
  | .fin a, .fin b => decide (a < b)
  | .fin _, .inf => true
  | .inf, _ => false

structure PipeCapacity where
  diameter : Int
  capacity : ℚ

/-- The table `PIPE_CAPACITIES`. -/
def PIPE_CAPACITIES : List PipeCapacity :=
  [⟨500, 1000⟩, ⟨700, 2500⟩, ⟨1000, 5000⟩, ⟨1400, 10000⟩]

structure Pipe where
  id : Int
  name : String
  length : ℚ
  diameter : Int
  underRepair : Bool
  inUse : Bool
  startId : Int
  endId : Int
  startType : ConnectionType
  endType : ConnectionType
  deriving DecidableEq

/-- The method `Pipe::getCapacity`: `0` under repair, otherwise the table
entry of the diameter scaled by `0.01 * sqrt(diameter_m^5 / length_m)`, and
`1000` for a diameter outside the table. -/
def Pipe.getCapacity (sqrt : ℚ → ℚ) (p : Pipe) : ℚ :=
  if p.underRepair then 0
  else
    match PIPE_CAPACITIES.find? (fun cap => cap.diameter == p.diameter) with
    | some cap =>
      let diameter_m : ℚ := (p.diameter : ℚ) / 1000
      let length_m : ℚ := p.length * 1000
      let adjustment : ℚ := 1 / 100
      cap.capacity * adjustment * sqrt (diameter_m ^ 5 / length_m)
    | none => 1000

/-- The method `Pipe::getWeight`: `+∞` under repair, otherwise the length. -/
def Pipe.getWeight (p : Pipe) : Dist :=
  if p.underRepair then .inf else .fin p.length

structure CompressorStation where
  id : Int
  name : String
  totalWorkshops : Int
  activeWorkshops : Int
  stationClass : Int
  deriving DecidableEq

structure NetworkConnection where
  pipeId : Int
  startId : Int
  endId : Int
  startType : ConnectionType
  endType : ConnectionType
  deriving DecidableEq

structure GraphEdge where
  to_ : Nat
  pipeId : Int
  capacity : ℚ
  flow : ℚ
  weight : Dist
  rev : Nat
  deriving DecidableEq

/-- The private state of `PipelineSystem` (the logger apart). -/
structure PipelineSystem where
  pipes : List Pipe
  stations : List CompressorStation
  network : List NetworkConnection
  nextPipeId : Int
  nextStationId : Int

/-! ## Lookups -/

/-- The method `findPipeIndexById`: position of the first pipe with the id. -/
def findPipeIndexById (s : PipelineSystem) (id : Int) : Option Nat :=
  s.pipes.findIdx? (fun p => p.id == id)

/-- The method `findStationIndexById`. -/
def findStationIndexById (s : PipelineSystem) (id : Int) : Option Nat :=
  s.stations.findIdx? (fun st => st.id == id)

/-- The method `getObjectInfo`: `(true, index)` for a station id, else
`(false, index)` for a pipe id, else `(false, none)`. -/
def getObjectInfo (s : PipelineSystem) (id : Int) : Bool × Option Nat :=
  match findStationIndexById s id with
  | some i => (true, some i)
  | none =>
    match findPipeIndexById s id with
    | some i => (false, some i)
    | none => (false, none)

/-! ## Graph builder -/

/-- Adjacency lists indexed by dense node index. -/
abbrev Graph := List (List GraphEdge)

/-- The vector `graph[u]` (empty when the key is absent). -/
def adj (g : Graph) (u : Nat) : List GraphEdge := g.getD u []

/-- The statement `graph[u].push_back(e)`. -/
def pushEdge (g : Graph) (u : Nat) (e : GraphEdge) : Graph :=
  g.set u (adj g u ++ [e])

/-- Insertion into a `std::set<int>`, kept as a strictly ascending list. -/
def setInsert (x : Int) : List Int → List Int
  | [] => [x]
  | y :: ys =>
    if x < y then x :: y :: ys
    else if x = y then y :: ys
    else y :: setInsert x ys

/-- The set `nodes` of `buildGraphForAlgorithms`: every connection inserts
its `startId` and then its `endId`. -/
def collectNodes (network : List NetworkConnection) : List Int :=
  network.foldl (fun nodes conn => setInsert conn.endId (setInsert conn.startId nodes)) []

/-- The lookup `idToIndex[id]`: ids receive `0, 1, …` in ascending order, so
the index of an id is its position in the ascending list of nodes. -/
def idToIndex (nodes : List Int) (id : Int) : Nat := nodes.indexOf id

/-- One pass of the edge loop of `buildGraphForAlgorithms`: a connection
whose pipe exists appends a forward edge at its start node and a backward
edge at its end node; both sizes are read before either `push_back`. -/
def addConnection (sqrt : ℚ → ℚ) (s : PipelineSystem) (nodes : List Int)
    (graph : Graph) (conn : NetworkConnection) : Graph :=
  match findPipeIndexById s conn.pipeId with
  | none => graph
  | some pipeIndex =>
    match s.pipes.get? pipeIndex with
    | none => graph
    | some pipe =>
      let forwardIndex := (adj graph (idToIndex nodes conn.startId)).length
      let backwardIndex := (adj graph (idToIndex nodes conn.endId)).length
      let forward : GraphEdge :=
        { to_ := idToIndex nodes conn.endId, pipeId := conn.pipeId,
          capacity := pipe.getCapacity sqrt, flow := 0,
          weight := pipe.getWeight, rev := backwardIndex }
      let backward : GraphEdge :=
        { to_ := idToIndex nodes conn.startId, pipeId := conn.pipeId,
          capacity := 0, flow := 0,
          weight := pipe.getWeight, rev := forwardIndex }
      pushEdge (pushEdge graph (idToIndex nodes conn.startId) forward)
        (idToIndex nodes conn.endId) backward

/-- The method `buildGraphForAlgorithms`: the adjacency lists and the
ascending list of node ids (the domain of `idToIndex`). -/
def buildGraphForAlgorithms (sqrt : ℚ → ℚ) (s : PipelineSystem) : Graph × List Int :=
  let nodes := collectNodes s.network
  (s.network.foldl (addConnection sqrt s nodes) (List.replicate nodes.length []), nodes)

/-! ## Weighted shortest path -/

/-- Working state of the main loop of `dijkstraShortestPath`. -/
structure DijkstraState where
  dist : List Dist
  prev : List (Option Nat)
  prevPipe : List (Option Int)
  pq : List (Dist × Nat)

/-- Order `greater<pair<double,int>>` turns the queue into a min-heap: the
pair `a` comes out before `b` when `a < b` lexicographically. -/
def pairLt (a b : Dist × Nat) : Bool :=
  a.1.lt b.1 || (a.1 == b.1 && decide (a.2 < b.2))

/-- The least pair of a non-empty queue (`pq.top()`). -/
def pqTop : List (Dist × Nat) → Option (Dist × Nat)
  | [] => none
  | a :: rest =>
    match pqTop rest with
    | none => some a
    | some b => if pairLt b a then some b else some a

/-- The calls `pq.top()` and `pq.pop()`: the least pair and the queue
without one copy of it. -/
def pqPop (pq : List (Dist × Nat)) : Option ((Dist × Nat) × List (Dist × Nat)) :=
  match pqTop pq with
  | none => none
  | some a => some (a, pq.erase a)

/-- The relaxation loop `for (const auto& edge : graph[u])`. -/
def relaxEdges (u : Nat) (edges : List GraphEdge) (st : DijkstraState) : DijkstraState :=
  edges.foldl (fun st edge =>
    let v := edge.to_
    let newDist := (st.dist.getD u .inf).add edge.weight
    if newDist.lt (st.dist.getD v .inf) then
      { dist := st.dist.set v newDist
        prev := st.prev.set v (some u)
        prevPipe := st.prevPipe.set v (some edge.pipeId)
        pq := st.pq ++ [(newDist, v)] }
    else st) st

/-- The loop `while (!pq.empty())` of `dijkstraShortestPath`. -/
def dijkstraLoop (graph : Graph) (endIndex : Nat) : Nat → DijkstraState → Option DijkstraState
  | 0, _ => none
  | fuel + 1, st =>
    match pqPop st.pq with
    | none => some st
    | some ((currentDist, u), rest) =>
      let st1 := { st with pq := rest }
      if (st1.dist.getD u .inf).lt currentDist then dijkstraLoop graph endIndex fuel st1
      else if u = endIndex then some st1
      else dijkstraLoop graph endIndex fuel (relaxEdges u (adj graph u) st1)

/-- The loop `for (int v = endIndex; v != -1; v = prev[v])`: the nodes it
visits, in visiting order. -/
def walkPrev (prev : List (Option Nat)) : Nat → Option Nat → Option (List Nat)
  | _, none => some []
  | 0, some _ => none
  | fuel + 1, some v => (walkPrev prev fuel (prev.getD v none)).map (fun rest => v :: rest)

/-- The method `dijkstraShortestPath`: total distance and path of entity
ids, `(+∞, [])` when an id is not a node or the end is not reached. -/
def dijkstraShortestPath (sqrt : ℚ → ℚ) (s : PipelineSystem) (fuel : Nat)
    (startId endId : Int) : Option (Dist × List Int) :=
  let (graph, nodes) := buildGraphForAlgorithms sqrt s
  if ¬ (startId ∈ nodes ∧ endId ∈ nodes) then some (.inf, [])
  else
    let startIndex := idToIndex nodes startId
    let endIndex := idToIndex nodes endId
    let n := nodes.length
    let st0 : DijkstraState :=
      { dist := (List.replicate n Dist.inf).set startIndex (.fin 0)
        prev := List.replicate n none
        prevPipe := List.replicate n none
        pq := [(.fin 0, startIndex)] }
    match dijkstraLoop graph endIndex fuel st0 with
    | none => none
    | some st =>
      if (st.dist.getD endIndex .inf).lt .inf then
        match walkPrev st.prev fuel (some endIndex) with
        | none => none
        | some path =>
          some (st.dist.getD endIndex .inf, path.reverse.map (fun idx => nodes.getD idx 0))
      else some (.inf, [])

/-! ## Maximum flow -/

/-- The tolerance `1e-9` of the augmenting-path search. -/
def eps : ℚ := 1 / 1000000000

/-- Working state of the breadth-first search of `edmondsKarpMaxFlow`. -/
structure BfsState where
  parent : List (Option Nat)
  parentEdge : List (Option Nat)
  q : List Nat

/-- The loop `for (int i = 0; i < residualGraph[u].size(); ++i)`, entered at
position `i` with the edges from that position on. -/
def bfsScan (u : Nat) : Nat → List GraphEdge → BfsState → BfsState
  | _, [], st => st
  | i, edge :: rest, st =>
    if st.parent.getD edge.to_ none = none ∧ edge.capacity - edge.flow > eps then
      bfsScan u (i + 1) rest
        { parent := st.parent.set edge.to_ (some u)
          parentEdge := st.parentEdge.set edge.to_ (some i)
          q := st.q ++ [edge.to_] }
    else bfsScan u (i + 1) rest st

/-- The loop `while (!q.empty() && parent[sink] == -1)`. -/
def bfsLoop (g : Graph) (sink : Nat) : Nat → BfsState → Option BfsState
  | 0, _ => none
  | fuel + 1, st =>
    match st.q with
    | [] => some st
    | u :: rest =>
      if st.parent.getD sink none ≠ none then some st
      else bfsLoop g sink fuel (bfsScan u 0 (adj g u) { st with q := rest })

/-- The loop `for (int v = sink; v != source; v = parent[v])`: the triples
`(parent[v], parentEdge[v], v)` it visits, in visiting order. -/
def walkParents (parent parentEdge : List (Option Nat)) (source : Nat) :
    Nat → Nat → Option (List (Nat × Nat × Nat))
  | 0, v => if v = source then some [] else none
  | fuel + 1, v =>
    if v = source then some []
    else
      match parent.getD v none, parentEdge.getD v none with
      | some u, some edgeIdx =>
        (walkParents parent parentEdge source fuel u).map (fun rest => (u, edgeIdx, v) :: rest)
      | _, _ => none

/-- The fold `pathFlow = min(pathFlow, capacity - flow)` over the path,
starting from `+∞`. -/
def pathFlowOf (g : Graph) (path : List (Nat × Nat × Nat)) : Dist :=
  path.foldl (fun pathFlow step =>
    match (adj g step.1).get? step.2.1 with
    | some edge =>
      if (Dist.fin (edge.capacity - edge.flow)).lt pathFlow then .fin (edge.capacity - edge.flow)
      else pathFlow
    | none => pathFlow) .inf

/-- The assignment `residualGraph[u][i].flow += d`. -/
def addFlow (g : Graph) (u i : Nat) (d : ℚ) : Graph :=
  match (adj g u).get? i with
  | some edge => g.set u ((adj g u).set i { edge with flow := edge.flow + d })
  | none => g

/-- One pass of the update loop: `rev` is read, the path edge gains
`pathFlow` and its sibling at the far node loses it. -/
def pushFlow (pathFlow : ℚ) (g : Graph) (step : Nat × Nat × Nat) : Graph :=
  match (adj g step.1).get? step.2.1 with
  | some edge => addFlow (addFlow g step.1 step.2.1 pathFlow) step.2.2 edge.rev (-pathFlow)
  | none => g

/-- The initial search state: only `parent[source] = source` is set and the
queue holds the source. -/
def bfsInit (n source : Nat) : BfsState :=
  { parent := (List.replicate n none).set source (some source)
    parentEdge := List.replicate n none
    q := [source] }

/-- One pass of `while (true)`: `none` when the inner loops do not finish,
`some none` at `break` (the sink was not reached), and otherwise the
bottleneck with the updated residual graph. A bottleneck of `+∞` arises only
from an empty path, that is for `source == sink`, and then the pass repeats
for ever. -/
def augmentOnce (fuel source sink n : Nat) (g : Graph) : Option (Option (ℚ × Graph)) :=
  match bfsLoop g sink fuel (bfsInit n source) with
  | none => none
  | some st =>
    if st.parent.getD sink none = none then some none
    else
      match walkParents st.parent st.parentEdge source fuel sink with
      | none => none
      | some path =>
        match pathFlowOf g path with
        | .inf => none
        | .fin pathFlow => some (some (pathFlow, path.foldl (pushFlow pathFlow) g))

/-- The loop `while (true)` of `edmondsKarpMaxFlow`; `inner` is the fuel of
the inner loops. -/
def augmentLoop (inner source sink n : Nat) : Nat → Graph → ℚ → Option (ℚ × Graph)
  | 0, _, _ => none
  | fuel + 1, g, maxFlow =>
    match augmentOnce inner source sink n g with
    | none => none
    | some none => some (maxFlow, g)
    | some (some (pathFlow, g1)) => augmentLoop inner source sink n fuel g1 (maxFlow + pathFlow)

/-- Lexicographic `<` of `pair<int,int>` keys. -/
def keyLt (a b : Int × Int) : Bool :=
  decide (a.1 < b.1) || (decide (a.1 = b.1) && decide (a.2 < b.2))

/-- The assignment `m[k] = v` on a `std::map`, kept in ascending key order. -/
def mapSet {κ α : Type} [DecidableEq κ] (lt : κ → κ → Bool) (k : κ) (v : α) :
    List (κ × α) → List (κ × α)
  | [] => [(k, v)]
  | (k1, v1) :: rest =>
    if lt k k1 then (k, v) :: (k1, v1) :: rest
    else if k = k1 then (k, v) :: rest
    else (k1, v1) :: mapSet lt k v rest

/-- A read `m[k]` of a `std::map`, with the value-initialised default. -/
def mapGet {κ α : Type} [DecidableEq κ] (dflt : α) (m : List (κ × α)) (k : κ) : α :=
  match m.find? (fun kv => decide (kv.1 = k)) with
  | some kv => kv.2
  | none => dflt

/-- The loops that fill `flowMap`: every edge of positive capacity of the
graph they iterate over records its `flow` under `(uId, vId)`. -/
def flowMapOf (nodes : List Int) (graph : Graph) : List ((Int × Int) × ℚ) :=
  (graph.enum.foldl (fun fm (uIdx, edges) =>
    edges.foldl (fun fm edge =>
      if edge.capacity > 0 then
        mapSet keyLt (nodes.getD uIdx 0, nodes.getD edge.to_ 0) edge.flow fm
      else fm) fm) [])

/-- The total and the residual graph at the exit of the augmentation loop
of `edmondsKarpMaxFlow`; when an id is not a node the method returns before
the loop, with total 0 and the graph as built. -/
def edmondsKarpResidual (sqrt : ℚ → ℚ) (s : PipelineSystem) (fuel : Nat)
    (sourceId sinkId : Int) : Option (ℚ × Graph) :=
  let (graph, nodes) := buildGraphForAlgorithms sqrt s
  if ¬ (sourceId ∈ nodes ∧ sinkId ∈ nodes) then some (0, graph)
  else
    augmentLoop fuel (idToIndex nodes sourceId) (idToIndex nodes sinkId) nodes.length fuel graph 0

/-- The method `edmondsKarpMaxFlow`: `(0, {})` when an id is not a node,
otherwise the total and the flow map; the final loops read `graph`, the
graph as built, and not `residualGraph`. -/
def edmondsKarpMaxFlow (sqrt : ℚ → ℚ) (s : PipelineSystem) (fuel : Nat)
    (sourceId sinkId : Int) : Option (ℚ × List ((Int × Int) × ℚ)) :=
  let (graph, nodes) := buildGraphForAlgorithms sqrt s
  if ¬ (sourceId ∈ nodes ∧ sinkId ∈ nodes) then some (0, [])
  else
    match edmondsKarpResidual sqrt s fuel sourceId sinkId with
    | none => none
    | some (maxFlow, _) => some (maxFlow, flowMapOf nodes graph)

/-! ## Topological order of the stations -/

/-- Outcome of `topologicalSort`: the early return on an empty network, the
cycle report with the ids it lists, or the printed order. -/
inductive TopoResult where
  | emptyNetwork
  | cycle (stations : List Int)
  | order (ids : List Int)
  deriving DecidableEq

/-- Working state of Kahn's loop; the head of `zeroDegreeNodes` is the
`back()` of the vector. -/
structure KahnState where
  inDegree : List (Int × Int)
  zeroDegreeNodes : List Int
  result : List Int

/-- First loop of `topologicalSort`: `inDegree[station.id] = 0`. -/
def initInDegree (stations : List CompressorStation) : List (Int × Int) :=
  stations.foldl (fun m st => mapSet (fun a b => decide (a < b)) st.id 0 m) []

/-- One pass of the second loop of `topologicalSort`: a connection between
two stations extends `adjList[startId]` and increments `inDegree[endId]`. -/
def stationGraphStep (s : PipelineSystem) (acc : List (Int × List Int) × List (Int × Int))
    (conn : NetworkConnection) : List (Int × List Int) × List (Int × Int) :=
  if (getObjectInfo s conn.startId).1 && (getObjectInfo s conn.endId).1 then
    (mapSet (fun a b => decide (a < b)) conn.startId
        (mapGet [] acc.1 conn.startId ++ [conn.endId]) acc.1,
     mapSet (fun a b => decide (a < b)) conn.endId (mapGet 0 acc.2 conn.endId + 1) acc.2)
  else acc

/-- Second loop of `topologicalSort`: the maps `adjList` and `inDegree`. -/
def buildStationGraph (s : PipelineSystem) :
    List (Int × List Int) × List (Int × Int) :=
  s.network.foldl (stationGraphStep s) ([], initInDegree s.stations)

/-- One pass of the loop over the neighbours: `inDegree[neighbor]--`, and a
`push_back` when the count reaches 0. -/
def kahnRelaxStep (acc : List (Int × Int) × List Int) (neighbor : Int) :
    List (Int × Int) × List Int :=
  let d := mapGet 0 acc.1 neighbor - 1
  let inDegree1 := mapSet (fun a b => decide (a < b)) neighbor d acc.1
  if d = 0 then (inDegree1, neighbor :: acc.2) else (inDegree1, acc.2)

/-- The loop `for (int neighbor : adjList[node])`. -/
def kahnRelax (neighbors : List Int) (inDegree : List (Int × Int)) (zero : List Int) :
    List (Int × Int) × List Int :=
  neighbors.foldl kahnRelaxStep (inDegree, zero)

/-- The loop `while (!zeroDegreeNodes.empty())`. -/
def kahnLoop (adjList : List (Int × List Int)) : Nat → KahnState → Option KahnState
  | 0, _ => none
  | fuel + 1, st =>
    match st.zeroDegreeNodes with
    | [] => some st
    | node :: rest =>
      let r := kahnRelax (mapGet [] adjList node) st.inDegree rest
      kahnLoop adjList fuel
        { inDegree := r.1, zeroDegreeNodes := r.2, result := st.result ++ [node] }

/-- The list `result` at the exit of Kahn's loop. -/
def kahnResult (s : PipelineSystem) (fuel : Nat) : Option (List Int) :=
  let (adjList, inDegree) := buildStationGraph s
  let zero := ((inDegree.filter (fun kv => kv.2 == 0)).map Prod.fst).reverse
  (kahnLoop adjList fuel { inDegree := inDegree, zeroDegreeNodes := zero, result := [] }).map
    (fun st => st.result)

/-- The method `topologicalSort`, with what it prints as its value. -/
def topologicalSort (s : PipelineSystem) (fuel : Nat) : Option TopoResult :=
  if s.network = [] then some .emptyNetwork
  else
    match kahnResult s fuel with
    | none => none
    | some result =>
      if result.length ≠ s.stations.length then
        some (.cycle ((s.stations.filter (fun st => decide (st.id ∉ result))).map (fun st => st.id)))
      else
        some (.order (result.filter (fun id => (findStationIndexById s id).isSome)))

/-! ## Vocabulary of the statements -/

/-- Ids of the stations, in store order. -/
def stationIds (s : PipelineSystem) : List Int := s.stations.map (fun st => st.id)

/-- Some station of the store has the id. -/
def IsStationId (s : PipelineSystem) (id : Int) : Prop := ∃ st ∈ s.stations, st.id = id

/-- Some connection leads from `u` to `v` and both are ids of stations. -/
def StationEdge (s : PipelineSystem) (u v : Int) : Prop :=
  (∃ conn ∈ s.network, conn.startId = u ∧ conn.endId = v) ∧ IsStationId s u ∧ IsStationId s v

/-- The station-to-station connections contain a directed cycle. -/
def HasStationCycle (s : PipelineSystem) : Prop :=
  ∃ v, Relation.TransGen (StationEdge s) v v

/-- In the list `l`, `u` occurs at an earlier position than an occurrence of `v`. -/
def Before (l : List Int) (u v : Int) : Prop :=
  ∃ l1 l2, l = l1 ++ v :: l2 ∧ u ∈ l1

/-- Endpoint pairs of the connections between two stations, in network
order (the arcs that `topologicalSort` enters into `adjList`). -/
def stationEdges (s : PipelineSystem) : List (Int × Int) :=
  s.network.filterMap (fun conn =>
    if (getObjectInfo s conn.startId).1 && (getObjectInfo s conn.endId).1 then
      some (conn.startId, conn.endId)
    else none)

/-- What the maps `adjList` and `inDegree` hold once the arcs `E` are entered. -/
def StationGraphOf (s : PipelineSystem) (acc : List (Int × List Int) × List (Int × Int))
    (E : List (Int × Int)) : Prop :=
  (∀ u, mapGet [] acc.1 u = (E.filter (fun e => decide (e.1 = u))).map Prod.snd) ∧
  (∀ v, mapGet 0 acc.2 v = ((E.countP (fun e => decide (e.2 = v)) : Nat) : Int)) ∧
  (acc.2.map Prod.fst).Pairwise (· < ·) ∧
  (∀ k, k ∈ acc.2.map Prod.fst ↔ IsStationId s k)

/-- Number of arcs of `E` that enter `v` from a node outside `result`. -/
def remIn (E : List (Int × Int)) (result : List Int) (v : Int) : Nat :=
  E.countP (fun e => decide (e.2 = v) && decide (e.1 ∉ result))

/-- Invariant of Kahn's loop: the counters are the numbers of arcs from
nodes not yet emitted, the emitted and the waiting nodes are exactly the
stations whose counter is 0, none occurs twice, and every arc into an
emitted node starts at a node emitted before it. -/
structure KahnInv (s : PipelineSystem) (st : KahnState) : Prop where
  deg : ∀ v, mapGet 0 st.inDegree v = ((remIn (stationEdges s) st.result v : Nat) : Int)
  nodup : (st.zeroDegreeNodes ++ st.result).Nodup
  ready : ∀ v, (v ∈ st.zeroDegreeNodes ∨ v ∈ st.result) ↔
    (IsStationId s v ∧ remIn (stationEdges s) st.result v = 0)
  sound : ∀ e ∈ stationEdges s, e.2 ∈ st.result → Before st.result e.1 e.2

/-- What holds of the list `result` at the exit of Kahn's loop. -/
structure KahnFinal (s : PipelineSystem) (result : List Int) : Prop where
  nodup : result.Nodup
  stations : ∀ v ∈ result, IsStationId s v
  blocked : ∀ v, IsStationId s v → v ∉ result → ∃ u, StationEdge s u v ∧ u ∉ result
  sound : ∀ u v, StationEdge s u v → v ∈ result → Before result u v

/-- A connection whose pipe exists, as the builder sees it: node indices of
its ends, pipe id, capacity and weight of the pipe. -/
structure Arc where
  s : Nat
  t : Nat
  pipeId : Int
  cap : ℚ
  w : Dist

/-- The two `push_back`s of the builder for one arc, with flow `x` on the
forward edge and `-x` on the backward edge (the builder itself has `x = 0`). -/
def addArc (g : Graph) (a : Arc) (x : ℚ) : Graph :=
  pushEdge
    (pushEdge g a.s
      { to_ := a.t, pipeId := a.pipeId, capacity := a.cap, flow := x, weight := a.w,
        rev := (adj g a.t).length })
    a.t
    { to_ := a.s, pipeId := a.pipeId, capacity := 0, flow := -x, weight := a.w,
      rev := (adj g a.s).length }

/-- The graph on `n` nodes built from arcs that carry the given flows. -/
def buildArcs (n : Nat) (fa : List (Arc × ℚ)) : Graph :=
  fa.foldl (fun g p => addArc g p.1 p.2) (List.replicate n [])

/-- The arc of a connection, if its pipe exists. -/
def arcOf (sqrt : ℚ → ℚ) (s : PipelineSystem) (nodes : List Int) (conn : NetworkConnection) :
    Option Arc :=
  match findPipeIndexById s conn.pipeId with
  | none => none
  | some pipeIndex =>
    match s.pipes.get? pipeIndex with
    | none => none
    | some pipe =>
      some
        { s := idToIndex nodes conn.startId, t := idToIndex nodes conn.endId,
          pipeId := conn.pipeId, cap := pipe.getCapacity sqrt, w := pipe.getWeight }

/-- The arcs of the network, in connection order. -/
def arcsOf (sqrt : ℚ → ℚ) (s : PipelineSystem) : List Arc :=
  s.network.filterMap (arcOf sqrt s (collectNodes s.network))

/-- The edge at position `i` of an adjacency list gains `d` units of flow. -/
def bump (l : List GraphEdge) (i : Nat) (d : ℚ) : List GraphEdge :=
  match l.get? i with
  | some e => l.set i { e with flow := e.flow + d }
  | none => l

/-- Net flow that the arcs send out of node `y`: flow on the arcs that
leave `y` minus flow on the arcs that enter it. -/
def netOut (fa : List (Arc × ℚ)) (y : Nat) : ℚ :=
  (fa.map (fun p => (if p.1.s = y then p.2 else 0) - (if p.1.t = y then p.2 else 0))).sum

/-- Every edge of the graph carries at most its capacity. -/
def CapOK (g : Graph) : Prop := ∀ y, ∀ e ∈ adj g y, e.flow ≤ e.capacity

/-- Invariant of the breadth-first search on the graph `g` with `n` nodes;
`vis` lists the nodes discovered so far in discovery order. -/
structure BfsInv (g : Graph) (n source : Nat) (st : BfsState) (vis : List Nat) : Prop where
  lenParent : st.parent.length = n
  lenEdge : st.parentEdge.length = n
  nodup : vis.Nodup
  bound : ∀ v ∈ vis, v < n
  first : vis.indexOf source = 0 ∧ source ∈ vis
  seen : ∀ v, st.parent.getD v none ≠ none ↔ v ∈ vis
  queued : ∀ v ∈ st.q, v ∈ vis
  tree : ∀ v ∈ vis, v ≠ source → ∃ u i e,
    st.parent.getD v none = some u ∧ st.parentEdge.getD v none = some i ∧
    (adj g u)[i]? = some e ∧ e.to_ = v ∧ eps < e.capacity - e.flow ∧
    u ∈ vis ∧ vis.indexOf u < vis.indexOf v

/-- The list `path` is a chain of edges of `g` with residual capacity above
the tolerance that leads from `source` to `v`, listed from `v` backwards as
triples `(tail node, position of the edge at the tail, head node)`. -/
def PathOK (g : Graph) (source : Nat) : List (Nat × Nat × Nat) → Nat → Prop
  | [], v => v = source
  | step :: rest, v =>
    step.2.2 = v ∧ v ≠ source ∧ step.1 ≠ v ∧
    (∃ e, (adj g step.1)[step.2.1]? = some e ∧ e.to_ = v ∧ eps < e.capacity - e.flow) ∧
    PathOK g source rest step.1

/-- During the update loop the graph `g` keeps the shape of the graph `g0`
the path was found in; an edge at a node outside `D` carries at most the
flow it had in `g0`, and an edge at a node of `D` at most its capacity. -/
structure Tracks (g0 g : Graph) (D : List Nat) : Prop where
  len : ∀ y, (adj g y).length = (adj g0 y).length
  edge : ∀ (y i : Nat) (e0 : GraphEdge), (adj g0 y)[i]? = some e0 →
    ∃ e : GraphEdge, (adj g y)[i]? = some e ∧ e.to_ = e0.to_ ∧ e.rev = e0.rev ∧
      e.capacity = e0.capacity ∧ e.flow ≤ (if y ∈ D then e0.capacity else e0.flow)

/-- Invariant of the augmentation loop: the residual graph is the graph of
the arcs with some flow on each arc (so every backward edge carries the
negated flow of its forward edge), no edge exceeds its capacity, the flow is
conserved at every node other than the source and the sink, and the total
is the net flow out of the source. -/
def FlowInv (n source sink : Nat) (arcs : List Arc) (g : Graph) (total : ℚ) : Prop :=
  CapOK g ∧ ∃ fa : List (Arc × ℚ), fa.map Prod.fst = arcs ∧ g = buildArcs n fa ∧
    (∀ y, y ≠ source → y ≠ sink → netOut fa y = 0) ∧ netOut fa source = total

/-- Capacity of the cut given by the node set `S`: the capacities of the
arcs that leave `S`. -/
def arcCut (arcs : List Arc) (S : Nat → Bool) : ℚ :=
  (arcs.map (fun a => if S a.s = true ∧ S a.t = false then a.cap else 0)).sum

/-- Capacity that a connection brings into the graph: the capacity of its
pipe, and nothing when the pipe does not exist (no edge is built). -/
def connCapacity (sqrt : ℚ → ℚ) (s : PipelineSystem) (conn : NetworkConnection) : ℚ :=
  match findPipeIndexById s conn.pipeId with
  | none => 0
  | some pipeIndex =>
    match s.pipes.get? pipeIndex with
    | none => 0
    | some pipe => pipe.getCapacity sqrt

/-- Capacity of the cut whose source side is the set `S` of ids: the sum of
the capacities of the connections that lead from `S` to its complement. -/
def cutCapacity (sqrt : ℚ → ℚ) (s : PipelineSystem) (S : Int → Bool) : ℚ :=
  (s.network.map (fun conn =>
    if S conn.startId = true ∧ S conn.endId = false then connCapacity sqrt s conn else 0)).sum

/-- Sum of the capacities of the connections that leave the id. -/
def sourceOutCapacity (sqrt : ℚ → ℚ) (s : PipelineSystem) (sourceId : Int) : ℚ :=
  (s.network.map (fun conn =>
    if conn.startId = sourceId then connCapacity sqrt s conn else 0)).sum

/-- Flow that the arcs carry into node `y`. -/
def inflow (fa : List (Arc × ℚ)) (y : Nat) : ℚ :=
  (fa.map (fun p => if p.1.t = y then p.2 else 0)).sum

/-- Flow that the arcs carry out of node `y`. -/
def outflow (fa : List (Arc × ℚ)) (y : Nat) : ℚ :=
  (fa.map (fun p => if p.1.s = y then p.2 else 0)).sum

/-- The pairs of residual graph and total that the augmentation loop passes
through, from the graph `g0` with total 0. -/
inductive Reached (inner source sink n : Nat) (g0 : Graph) : Graph → ℚ → Prop where
  | start : Reached inner source sink n g0 g0 0
  | step {g g1 : Graph} {total pathFlow : ℚ} :
      Reached inner source sink n g0 g total →
      augmentOnce inner source sink n g = some (some (pathFlow, g1)) →
      Reached inner source sink n g0 g1 (total + pathFlow)

/-- An edge with residual capacity above the tolerance leads from `u` to `w`. -/
def ResEdge (g : Graph) (u w : Nat) : Prop :=
  ∃ e ∈ adj g u, e.to_ = w ∧ eps < e.capacity - e.flow

/-- Every discovered node that has left the queue has all its residual
edges leading to discovered nodes. -/
def BfsClosed (g : Graph) (st : BfsState) (vis : List Nat) : Prop :=
  ∀ u ∈ vis, u ∈ st.q ∨ ∀ w, ResEdge g u w → w ∈ vis

/-! ## Connecting and disconnecting -/

/-- The method `findAvailablePipeByDiameter`: position of the first pipe of
the diameter that is neither in use nor under repair. -/
def findAvailablePipeByDiameter (s : PipelineSystem) (diameter : Int) : Option Nat :=
  s.pipes.findIdx? (fun p => p.diameter == diameter && !p.inUse && !p.underRepair)

/-- The method `determineConnectionType`. -/
def determineConnectionType (isStartStation isEndStation : Bool) : ConnectionType :=
  if isStartStation && isEndStation then .STATION_TO_STATION
  else if !isStartStation && !isEndStation then .PIPE_TO_PIPE
  else if isStartStation && !isEndStation then .STATION_TO_PIPE
  else .PIPE_TO_STATION

/-- The method `canConnectObjects`, its messages apart. A field of
`pipes[index]` is read through `get?`; the index comes from `getObjectInfo`
and is always in range. -/
def canConnectObjects (s : PipelineSystem) (startId endId diameter : Int) : Bool :=
  if startId = endId then false
  else
    let startInfo := getObjectInfo s startId
    let endInfo := getObjectInfo s endId
    match startInfo.2, endInfo.2 with
    | none, _ => false
    | some _, none => false
    | some startIndex, some endIndex =>
      if !startInfo.1 && (s.pipes.get? startIndex).any (fun startPipe => startPipe.underRepair)
      then false
      else if !endInfo.1 && (s.pipes.get? endIndex).any (fun endPipe => endPipe.underRepair)
      then false
      else if s.network.any (fun conn => conn.startId == startId && conn.endId == endId)
      then false
      else if !startInfo.1 && !endInfo.1 &&
          ((s.pipes.get? startIndex).any (fun startPipe => startPipe.diameter != diameter) ||
            (s.pipes.get? endIndex).any (fun endPipe => endPipe.diameter != diameter))
      then false
      else true

/-- What `connectObjects` reads from the console: the menu choice of the
connection kind (it selects the prompts only), the two ids, the diameter,
and the name and length asked for when a pipe has to be created. -/
structure ConnectInput where
  connectionType : Int
  startId : Int
  endId : Int
  diameter : Int
  name : String
  length : ℚ

/-- The method `connectObjects`. -/
def connectObjects (s : PipelineSystem) (inp : ConnectInput) : PipelineSystem :=
  if s.pipes.isEmpty && s.stations.isEmpty then s
  else if !canConnectObjects s inp.startId inp.endId inp.diameter then s
  else
    let isStartStation := (getObjectInfo s inp.startId).1
    let isEndStation := (getObjectInfo s inp.endId).1
    match findAvailablePipeByDiameter s inp.diameter with
    | some pipeIndex =>
      match s.pipes.get? pipeIndex with
      | none => s
      | some pipe =>
        let startType := determineConnectionType isStartStation isEndStation
        let used : Pipe :=
          { pipe with inUse := true, startId := inp.startId, endId := inp.endId,
                      startType := startType, endType := startType }
        let conn : NetworkConnection :=
          { pipeId := used.id, startId := inp.startId, endId := inp.endId,
            startType := determineConnectionType isStartStation isEndStation,
            endType := determineConnectionType isStartStation isEndStation }
        { s with pipes := s.pipes.set pipeIndex used, network := s.network ++ [conn] }
    | none =>
      let startType := determineConnectionType isStartStation isEndStation
      let newPipe : Pipe :=
        { id := s.nextPipeId, name := inp.name, length := inp.length,
          diameter := inp.diameter, underRepair := false, inUse := true,
          startId := inp.startId, endId := inp.endId,
          startType := startType, endType := startType }
      let conn : NetworkConnection :=
        { pipeId := newPipe.id, startId := inp.startId, endId := inp.endId,
          startType := determineConnectionType isStartStation isEndStation,
          endType := determineConnectionType isStartStation isEndStation }
      { s with pipes := s.pipes ++ [newPipe], network := s.network ++ [conn],
               nextPipeId := s.nextPipeId + 1 }

/-- The method `disconnectPipe`, for the pipe id read from the console. -/
def disconnectPipe (s : PipelineSystem) (pipeId : Int) : PipelineSystem :=
  if s.network.isEmpty then s
  else
    match findPipeIndexById s pipeId with
    | none => s
    | some pipeIndex =>
      match s.pipes.get? pipeIndex with
      | none => s
      | some pipe =>
        if !pipe.inUse then s
        else
          { s with
            network := s.network.filter (fun conn => !(conn.pipeId == pipeId)),
            pipes := s.pipes.set pipeIndex { pipe with inUse := false, startId := 0, endId := 0 } }

/-! ## Adding, editing and deleting -/

/-- The method `addPipe`, for the name, length and diameter read. -/
def addPipe (s : PipelineSystem) (name : String) (length : ℚ) (diameter : Int) :
    PipelineSystem :=
  let newPipe : Pipe :=
    { id := s.nextPipeId, name := name, length := length, diameter := diameter,
      underRepair := false, inUse := false, startId := 0, endId := 0,
      startType := .STATION_TO_STATION, endType := .STATION_TO_STATION }
  { s with pipes := s.pipes ++ [newPipe], nextPipeId := s.nextPipeId + 1 }

/-- The method `addStation`, for the values read. -/
def addStation (s : PipelineSystem) (name : String)
    (totalWorkshops activeWorkshops stationClass : Int) : PipelineSystem :=
  let newStation : CompressorStation :=
    { id := s.nextStationId, name := name, totalWorkshops := totalWorkshops,
      activeWorkshops := activeWorkshops, stationClass := stationClass }
  { s with stations := s.stations ++ [newStation], nextStationId := s.nextStationId + 1 }

/-- What `editPipe` reads: the id, the menu choice (1 toggles the repair
flag, 2 edits the parameters), and the new name, length and diameter. -/
structure EditPipeInput where
  id : Int
  choice : Int
  name : String
  length : ℚ
  diameter : Int

/-- The method `editPipe`; the diameter changes only for a pipe not in use. -/
def editPipe (s : PipelineSystem) (inp : EditPipeInput) : PipelineSystem :=
  if s.pipes.isEmpty then s
  else
    match findPipeIndexById s inp.id with
    | none => s
    | some index =>
      match s.pipes.get? index with
      | none => s
      | some pipe =>
        if inp.choice = 1 then
          { s with pipes := s.pipes.set index { pipe with underRepair := !pipe.underRepair } }
        else
          let renamed : Pipe := { pipe with name := inp.name, length := inp.length }
          let edited : Pipe :=
            if !renamed.inUse then { renamed with diameter := inp.diameter } else renamed
          { s with pipes := s.pipes.set index edited }

/-- What `editStation` reads: the id, the menu choice (1 starts or stops a
workshop, 2 edits the parameters), the action (1 start, 2 stop), and the
new name, workshop count and class. -/
structure EditStationInput where
  id : Int
  choice : Int
  action : Int
  name : String
  newTotal : Int
  stationClass : Int

/-- The method `editStation`. -/
def editStation (s : PipelineSystem) (inp : EditStationInput) : PipelineSystem :=
  if s.stations.isEmpty then s
  else
    match findStationIndexById s inp.id with
    | none => s
    | some index =>
      match s.stations.get? index with
      | none => s
      | some st =>
        if inp.choice = 1 then
          if inp.action = 1 ∧ st.activeWorkshops < st.totalWorkshops then
            { s with stations :=
                s.stations.set index { st with activeWorkshops := st.activeWorkshops + 1 } }
          else if inp.action = 2 ∧ st.activeWorkshops > 0 then
            { s with stations :=
                s.stations.set index { st with activeWorkshops := st.activeWorkshops - 1 } }
          else s
        else
          let renamed : CompressorStation := { st with name := inp.name }
          let capped : CompressorStation :=
            if inp.newTotal < renamed.activeWorkshops then
              { renamed with activeWorkshops := inp.newTotal }
            else renamed
          let edited : CompressorStation :=
            { capped with totalWorkshops := inp.newTotal, stationClass := inp.stationClass }
          { s with stations := s.stations.set index edited }

/-- The ids of the pipes, in store order (`getPipeIds`). -/
def getPipeIds (s : PipelineSystem) : List Int := s.pipes.map (fun pipe => pipe.id)

/-- The ids of the stations, in store order (`getStationIds`). -/
def getStationIds (s : PipelineSystem) : List Int := s.stations.map (fun station => station.id)

/-- The line typed at the prompt of `selectMultipleObjects`: the word `all`,
or comma-separated tokens, of which those that are numbers count. -/
inductive Selection where
  | all
  | ids (tokens : List Int)

/-- The algorithm `std::unique`: of each run of equal neighbours the first stays. -/
def unique : List Nat → List Nat
  | [] => []
  | [x] => [x]
  | x :: y :: rest => if x = y then unique (y :: rest) else x :: unique (y :: rest)

/-- The method `parseIndicesFromInput`: every position for `all`, otherwise
the first position of each id that exists, sorted and without repetition. -/
def parseIndicesFromInput (input : Selection) (validIds : List Int) : List Nat :=
  match input with
  | .all => List.range validIds.length
  | .ids tokens =>
    let indices := tokens.filterMap (fun id => validIds.findIdx? (fun v => v == id))
    unique (indices.insertionSort (fun a b => a ≤ b))

/-- The method `selectMultipleObjects`. -/
def selectMultipleObjects (validIds : List Int) (input : Selection) : List Nat :=
  if validIds.isEmpty then [] else parseIndicesFromInput input validIds

/-- One pass of the deletion loop of `deleteObjects` for a station: its
connections leave the network, the pipes that name its id are released, and
the station is erased. -/
def deleteStationAt (s : PipelineSystem) (index : Nat) : PipelineSystem :=
  match s.stations.get? index with
  | none => s
  | some station =>
    let stationId := station.id
    { s with
      network := s.network.filter
        (fun conn => !(conn.startId == stationId || conn.endId == stationId)),
      pipes := s.pipes.map (fun pipe =>
        if pipe.startId == stationId || pipe.endId == stationId then
          { pipe with inUse := false, startId := 0, endId := 0 }
        else pipe),
      stations := s.stations.eraseIdx index }

/-- One pass of the deletion loop of `deleteObjects` for a pipe. -/
def deletePipeAt (s : PipelineSystem) (index : Nat) : PipelineSystem :=
  { s with pipes := s.pipes.eraseIdx index }

/-- The method `deleteObjects`: pipes in use are dropped from the selection,
and the positions are erased from the highest down. -/
def deleteObjects (s : PipelineSystem) (isPipe : Bool) (input : Selection) : PipelineSystem :=
  let indices :=
    if isPipe then selectMultipleObjects (getPipeIds s) input
    else selectMultipleObjects (getStationIds s) input
  if indices.isEmpty then s
  else
    let indices :=
      if isPipe then
        indices.filter (fun index => !(s.pipes.get? index).any (fun pipe => pipe.inUse))
      else indices
    let indices := indices.insertionSort (fun a b => a ≥ b)
    indices.foldl (fun s index => if isPipe then deletePipeAt s index else deleteStationAt s index) s

/-! ## The menu actions that change the store -/

/-- A menu action of `run` that changes the store, with what it reads from
the console. -/
inductive Command where
  | addPipe (name : String) (length : ℚ) (diameter : Int)
  | addStation (name : String) (totalWorkshops activeWorkshops stationClass : Int)
  | editPipe (inp : EditPipeInput)
  | editStation (inp : EditStationInput)
  | deleteObjects (isPipe : Bool) (input : Selection)
  | connectObjects (inp : ConnectInput)
  | disconnectPipe (pipeId : Int)

/-- What `InputValidator::getDiameterInput` lets through: a diameter of the table. -/
def isTableDiameter (diameter : Int) : Bool :=
  PIPE_CAPACITIES.any (fun cap => cap.diameter == diameter)

/-- What `InputValidator` guarantees of the values an action reads: names
are not empty, lengths are at least `0.001`, diameters are in the table, ids
and counts are at least 1, menu choices are in their range. -/
def Command.valid : Command → Prop
  | .addPipe name length diameter =>
    name ≠ "" ∧ 1 / 1000 ≤ length ∧ isTableDiameter diameter = true
  | .addStation name totalWorkshops activeWorkshops stationClass =>
    name ≠ "" ∧ 1 ≤ totalWorkshops ∧ 0 ≤ activeWorkshops ∧
      activeWorkshops ≤ totalWorkshops ∧ 1 ≤ stationClass
  | .editPipe inp =>
    1 ≤ inp.id ∧ (inp.choice = 1 ∨ inp.choice = 2) ∧ inp.name ≠ "" ∧
      1 / 1000 ≤ inp.length ∧ isTableDiameter inp.diameter = true
  | .editStation inp =>
    1 ≤ inp.id ∧ (inp.choice = 1 ∨ inp.choice = 2) ∧ (inp.action = 1 ∨ inp.action = 2) ∧
      inp.name ≠ "" ∧ 1 ≤ inp.newTotal ∧ 1 ≤ inp.stationClass
  | .deleteObjects _ _ => True
  | .connectObjects inp =>
    1 ≤ inp.connectionType ∧ inp.connectionType ≤ 4 ∧ 1 ≤ inp.startId ∧ 1 ≤ inp.endId ∧
      isTableDiameter inp.diameter = true ∧ inp.name ≠ "" ∧ 1 / 1000 ≤ inp.length
  | .disconnectPipe pipeId => 1 ≤ pipeId

/-- The store after a menu action. -/
def execute (s : PipelineSystem) : Command → PipelineSystem
  | .addPipe name length diameter => addPipe s name length diameter
  | .addStation name totalWorkshops activeWorkshops stationClass =>
    addStation s name totalWorkshops activeWorkshops stationClass
  | .editPipe inp => editPipe s inp
  | .editStation inp => editStation s inp
  | .deleteObjects isPipe input => deleteObjects s isPipe input
  | .connectObjects inp => connectObjects s inp
  | .disconnectPipe pipeId => disconnectPipe s pipeId

/-- The store of a fresh `PipelineSystem`: nothing stored, both counters at 1. -/
def emptyStore : PipelineSystem :=
  { pipes := [], stations := [], network := [], nextPipeId := 1, nextStationId := 1 }

/-- The stores the menu can reach from the fresh one by adding, editing,
connecting, disconnecting and deleting. -/
inductive Reachable : PipelineSystem → Prop where
  | init : Reachable emptyStore
  | step (s : PipelineSystem) (c : Command) : Reachable s → c.valid → Reachable (execute s c)

/-- The store after a list of menu actions, the first of the list first. -/
def executeAll (s : PipelineSystem) (cs : List Command) : PipelineSystem :=
  cs.foldl execute s

/-- Some pipe of the store has the id. -/
def IsPipeId (s : PipelineSystem) (id : Int) : Prop := ∃ p ∈ s.pipes, p.id = id

/-- Position `i` of `l` holds the first element of `l` with the property `P`. -/
def IsFirst {α : Type} (P : α → Prop) (l : List α) (i : Nat) : Prop :=
  (∃ a, l.get? i = some a ∧ P a) ∧ ∀ j, j < i → ∀ b, l.get? j = some b → ¬ P b

/-- The id resolves to the pipe `p`: no station has the id, and `p` is the
first pipe of the store that has it. -/
def ResolvesToPipe (s : PipelineSystem) (id : Int) (p : Pipe) : Prop :=
  ¬ IsStationId s id ∧ ∃ i, s.pipes.get? i = some p ∧ IsFirst (fun q => q.id = id) s.pipes i

/-- Two stations and no connection. -/
def storeTwoStations : PipelineSystem :=
  { pipes := [],
    stations := [⟨1, "A", 1, 1, 1⟩, ⟨2, "B", 1, 1, 1⟩],
    network := [], nextPipeId := 1, nextStationId := 3 }

/-- Stations 1 and 2, not connected, and three free pipes of diameter 700,
500 and 500. -/
def storeFree : PipelineSystem :=
  { pipes := [⟨1, "p1", 5, 700, false, false, 0, 0, .STATION_TO_STATION, .STATION_TO_STATION⟩,
              ⟨2, "p2", 5, 500, false, false, 0, 0, .STATION_TO_STATION, .STATION_TO_STATION⟩,
              ⟨3, "p3", 5, 500, false, false, 0, 0, .STATION_TO_STATION, .STATION_TO_STATION⟩],
    stations := [⟨1, "A", 1, 1, 1⟩, ⟨2, "B", 1, 1, 1⟩],
    network := [], nextPipeId := 4, nextStationId := 3 }

/-- The type tag that `connectObjects` computes for a request: the
connection type of how the two ids resolve in the store. -/
def requestTag (s : PipelineSystem) (startId endId : Int) : ConnectionType :=
  determineConnectionType (getObjectInfo s startId).1 (getObjectInfo s endId).1

/-- A pipe that `findAvailablePipeByDiameter` may select: of the diameter,
not in use, not under repair. -/
def IsAvailable (diameter : Int) (p : Pipe) : Prop :=
  p.diameter = diameter ∧ p.inUse = false ∧ p.underRepair = false

/-- The ids that occur as the start or the end of some connection. -/
def endpointIds (s : PipelineSystem) : Finset Int :=
  (s.network.map (fun conn => conn.startId) ++ s.network.map (fun conn => conn.endId)).toFinset

/-- The entry of `PIPE_CAPACITIES` for a diameter of the table. -/
def tableCapacity (diameter : Int) : ℚ :=
  if diameter = 500 then 1000
  else if diameter = 700 then 2500
  else if diameter = 1000 then 5000
  else 10000

/-- The stores that menu actions reach from the store `s0`. -/
inductive ReachableFrom (s0 : PipelineSystem) : PipelineSystem → Prop where
  | refl : ReachableFrom s0 s0
  | step (s : PipelineSystem) (c : Command) :
      ReachableFrom s0 s → c.valid → ReachableFrom s0 (execute s c)

/-- The tag of the connection says that its start was a station. -/
def StartTaggedStation (conn : NetworkConnection) : Prop :=
  conn.startType = .STATION_TO_STATION ∨ conn.startType = .STATION_TO_PIPE

/-- The tag of the connection says that its end was a station. -/
def EndTaggedStation (conn : NetworkConnection) : Prop :=
  conn.startType = .STATION_TO_STATION ∨ conn.startType = .PIPE_TO_STATION

/-- Two stations are added and joined by the connection `1 → 2`, for which
a pipe of diameter 500 is created. -/
def scriptConnect : List Command :=
  [.addStation "A" 1 1 1, .addStation "B" 1 1 1, .connectObjects ⟨1, 1, 2, 500, "p", 5⟩]

/-- Two pipes and a station are added, station 1 is connected to pipe 2
(over pipe 1, the first free pipe of diameter 500), and a second station is
added, which receives the id 2. -/
def scriptRetag : List Command :=
  [.addPipe "a" 1 500, .addPipe "b" 1 500, .addStation "s" 1 1 1,
   .connectObjects ⟨2, 1, 2, 500, "c", 1⟩, .addStation "t" 1 1 1]

/-- In the store every endpoint that a connection tags as a station is the
id of a station. -/
def TagInv (s : PipelineSystem) : Prop :=
  ∀ conn ∈ s.network,
    (StartTaggedStation conn → IsStationId s conn.startId) ∧
    (EndTaggedStation conn → IsStationId s conn.endId)

/-- One pipe marked in use, and no connection. -/
def storeDangling : PipelineSystem :=
  { pipes := [⟨1, "p1", 5, 500, false, true, 1, 2, .STATION_TO_STATION, .STATION_TO_STATION⟩],
    stations := [⟨1, "A", 1, 1, 1⟩, ⟨2, "B", 1, 1, 1⟩],
    network := [], nextPipeId := 2, nextStationId := 3 }

/-- The forward edge that the builder emits for an arc, with flow `x`. -/
def forwardEdge (a : Arc) (x : ℚ) (rev : Nat) : GraphEdge :=
  { to_ := a.t, pipeId := a.pipeId, capacity := a.cap, flow := x, weight := a.w, rev := rev }

/-- The residual edge that the builder emits for an arc, with flow `-x`. -/
def backwardEdge (a : Arc) (x : ℚ) (rev : Nat) : GraphEdge :=
  { to_ := a.s, pipeId := a.pipeId, capacity := 0, flow := -x, weight := a.w, rev := rev }

/-- The edges that a connection contributes to the adjacency list of node
`u`, with `rev` left at 0: nothing when no pipe has its `pipeId`; otherwise,
for the first pipe with that id, the forward edge when `u` is the index of
its start and then the residual edge when `u` is the index of its end. -/
def expectedEdges (sqrt : ℚ → ℚ) (s : PipelineSystem) (u : Nat) (conn : NetworkConnection) :
    List GraphEdge :=
  match s.pipes.find? (fun p => p.id == conn.pipeId) with
  | none => []
  | some pipe =>
    (if u = idToIndex (collectNodes s.network) conn.startId then
      [{ to_ := idToIndex (collectNodes s.network) conn.endId, pipeId := conn.pipeId,
         capacity := pipe.getCapacity sqrt, flow := 0, weight := pipe.getWeight, rev := 0 }]
     else []) ++
    (if u = idToIndex (collectNodes s.network) conn.endId then
      [{ to_ := idToIndex (collectNodes s.network) conn.startId, pipeId := conn.pipeId,
         capacity := 0, flow := 0, weight := pipe.getWeight, rev := 0 }]
     else [])

/-- The edge `e` in the adjacency list of node `u` is the forward edge of
the connection over the pipe: from the index of its start to the index of
its end, with the capacity and the weight of the pipe and no flow. -/
def IsForwardOf (sqrt : ℚ → ℚ) (s : PipelineSystem) (conn : NetworkConnection) (pipe : Pipe)
    (u : Nat) (e : GraphEdge) : Prop :=
  u = idToIndex (collectNodes s.network) conn.startId ∧
  e.to_ = idToIndex (collectNodes s.network) conn.endId ∧
  e.pipeId = conn.pipeId ∧ e.capacity = pipe.getCapacity sqrt ∧
  e.weight = pipe.getWeight ∧ e.flow = 0

/-- The edge `e` in the adjacency list of node `u` is the residual edge of
the connection over the pipe: from the index of its end to the index of its
start, with capacity 0 and no flow. -/
def IsResidualOf (s : PipelineSystem) (conn : NetworkConnection) (pipe : Pipe)
    (u : Nat) (e : GraphEdge) : Prop :=
  u = idToIndex (collectNodes s.network) conn.endId ∧
  e.to_ = idToIndex (collectNodes s.network) conn.startId ∧
  e.pipeId = conn.pipeId ∧ e.capacity = 0 ∧ e.weight = pipe.getWeight ∧ e.flow = 0

/-- In the residual graph `g` every edge is paired with the edge at position
`rev` of the node it leads to, which leads back and holds the position of
the first and the negated flow; of the two, one has capacity 0 and the other
carries a flow between 0 and its capacity; and `total` is the sum of the
flows of the edges at `source` (flow out minus flow in). -/
def ResidualOK (g : Graph) (source : Nat) (total : ℚ) : Prop :=
  (∀ (u i : Nat) (e : GraphEdge), (adj g u)[i]? = some e →
    ∃ e' : GraphEdge, (adj g e.to_)[e.rev]? = some e' ∧ e'.to_ = u ∧ e'.rev = i ∧ e'.flow = -e.flow ∧
      ((0 ≤ e.flow ∧ e.flow ≤ e.capacity ∧ e'.capacity = 0) ∨
       (e.capacity = 0 ∧ 0 ≤ e'.flow ∧ e'.flow ≤ e'.capacity))) ∧
  total = ((adj g source).map (fun e => e.flow)).sum

/-- The elements of `l` whose position satisfies `P`, in their order. -/
def keepAt {α : Type} (P : Nat → Bool) (l : List α) : List α :=
  (l.enum.filter (fun p => P p.1)).map Prod.snd

/-- The pipe released: not in use, start and end 0. -/
def Pipe.released (p : Pipe) : Pipe := { p with inUse := false, startId := 0, endId := 0 }

/-- The ids of the stations at the positions that `deleteObjects` selects
for the input. -/
def selectedStationIds (s : PipelineSystem) (input : Selection) : List Int :=
  (selectMultipleObjects (getStationIds s) input).filterMap
    (fun i => (s.stations.get? i).map (fun st => st.id))

/-- The pipe after the stations with the ids `D` are deleted: released when
its start or its end is one of the ids, otherwise as it was. -/
def releaseFor (D : List Int) (p : Pipe) : Pipe :=
  if p.startId ∈ D ∨ p.endId ∈ D then p.released else p

/-- The connection touches none of the ids `D`. -/
def untouched (D : List Int) (conn : NetworkConnection) : Bool :=
  decide (conn.startId ∉ D ∧ conn.endId ∉ D)

/-- The pipes and the connections agree: pipe ids are distinct and below
the counter, every connection names a pipe in use with the same start and
end, connections have distinct pipe ids, and every pipe in use has a
connection. -/
def PipeInv (pipes : List Pipe) (network : List NetworkConnection) (next : Int) : Prop :=
  (pipes.map (fun p => p.id)).Nodup ∧
  (∀ p ∈ pipes, p.id < next) ∧
  (∀ conn ∈ network, ∃ p ∈ pipes, p.id = conn.pipeId ∧ p.inUse = true ∧
    p.startId = conn.startId ∧ p.endId = conn.endId) ∧
  (network.map (fun conn => conn.pipeId)).Nodup ∧
  (∀ p ∈ pipes, p.inUse = true → ∃ conn ∈ network, conn.pipeId = p.id)

/-- The positions of the pipes that `deleteObjects` erases for the input:
the selected positions whose pipe is not in use. -/
def deletedPipePositions (s : PipelineSystem) (input : Selection) : List Nat :=
  (selectMultipleObjects (getPipeIds s) input).filter
    (fun index => !(s.pipes.get? index).any (fun pipe => pipe.inUse))

/-! ## Path search of lr3

The store of `src/lr3/main.cpp` has the same three vectors and the same
lookups (`findPipeIndexById`, `getObjectInfo`) as that of lr4. Its graph is
a `std::map<int, GraphNode>`, kept here as an association list in ascending
key order. -/

/-- The struct `GraphNode` of lr3: `connections` holds the pairs
(id of the neighbour, id of the pipe). -/
structure GraphNode where
  id : Int
  isStation : Bool
  connections : List (Int × Int)
  deriving DecidableEq, Repr

/-- The test `m.find(k) != m.end()` on a `std::map` with `int` keys. -/
def mapHas {α : Type} (m : List (Int × α)) (k : Int) : Bool :=
  m.any (fun kv => decide (kv.1 = k))

/-- The method `buildGraph` of lr3: a node for every station, a node for
every pipe in use of which the start or the end is not a station (unless
the id is taken), and for every connection whose start is a node the pair
(end, pipe) at that node. -/
def buildGraph (s : PipelineSystem) : List (Int × GraphNode) :=
  let graph : List (Int × GraphNode) := s.stations.foldl (fun graph station =>
    mapSet (fun a b => decide (a < b)) station.id ⟨station.id, true, []⟩ graph) []
  let graph := s.pipes.foldl (fun graph pipe =>
    if pipe.inUse then
      let isStartStation := (getObjectInfo s pipe.startId).1
      let isEndStation := (getObjectInfo s pipe.endId).1
      if !isStartStation || !isEndStation then
        if !mapHas graph pipe.id then
          mapSet (fun a b => decide (a < b)) pipe.id ⟨pipe.id, false, []⟩ graph
        else graph
      else graph
    else graph) graph
  s.network.foldl (fun graph conn =>
    if mapHas graph conn.startId then
      let node := mapGet (⟨0, false, []⟩ : GraphNode) graph conn.startId
      mapSet (fun a b => decide (a < b)) conn.startId
        { node with connections := node.connections ++ [(conn.endId, conn.pipeId)] } graph
    else graph) graph

/-- The local variables of the search loop of `findPath`: the maps `parent`
and `parentPipe`, the queue and the set `visited`. -/
structure FindPathState where
  parent : List (Int × Int)
  parentPipe : List (Int × Int)
  q : List Int
  visited : List Int
  deriving DecidableEq, Repr

/-- One pass of the loop over `graph[current].connections`. -/
def visitNeighbor (current : Int) (st : FindPathState) (edge : Int × Int) : FindPathState :=
  if edge.1 ∈ st.visited then st
  else
    { visited := setInsert edge.1 st.visited,
      parent := mapSet (fun a b => decide (a < b)) edge.1 current st.parent,
      parentPipe := mapSet (fun a b => decide (a < b)) edge.1 edge.2 st.parentPipe,
      q := st.q ++ [edge.1] }

/-- The search loop of `findPath`, `while (!q.empty())`, with a bound on the
number of passes. -/
def findPathLoop (graph : List (Int × GraphNode)) (endId : Int) :
    Nat → FindPathState → Option FindPathState
  | 0, _ => none
  | fuel + 1, st =>
    match st.q with
    | [] => some st
    | current :: rest =>
      let st := { st with q := rest }
      if current = endId then some st
      else if mapHas graph current then
        findPathLoop graph endId fuel
          ((mapGet (⟨0, false, []⟩ : GraphNode) graph current).connections.foldl
            (visitNeighbor current) st)
      else findPathLoop graph endId fuel st

/-- The loop `while (current != -1)` of `findPath` that collects the path and
its pipes from the end backwards. A read `parent[current]` of an absent key
gives 0, as `mapGet 0` does; that such a read also enters the key with the
value 0 changes no later read. -/
def walkBack (parent parentPipe : List (Int × Int)) (startId : Int) :
    Nat → Int → List Int → List Int → Option (List Int × List Int)
  | 0, _, _, _ => none
  | fuel + 1, current, path, pipesPath =>
    if current = -1 then some (path, pipesPath)
    else
      let path := path ++ [current]
      let pipesPath :=
        if current ≠ startId ∧ mapHas parentPipe current = true then
          pipesPath ++ [mapGet 0 parentPipe current]
        else pipesPath
      walkBack parent parentPipe startId fuel (mapGet 0 parent current) path pipesPath

/-- What `findPath` prints: one of its five messages, or the path found, the
pipes along it, and the total length, which is printed when the list of
pipes is not empty. -/
inductive PathResult where
  | emptyNetwork
  | startNotFound
  | endNotFound
  | notConnected
  | noPath
  | found (path : List Int) (pipesPath : List Int) (totalLength : Option ℚ)
  deriving DecidableEq, Repr

/-- The sum `totalLength` of `findPath` over the pipes that exist. -/
def totalLength (s : PipelineSystem) (pipesPath : List Int) : ℚ :=
  pipesPath.foldl (fun total pipeId =>
    match findPipeIndexById s pipeId with
    | none => total
    | some pipeIdx =>
      match s.pipes.get? pipeIdx with
      | none => total
      | some pipe => total + pipe.length) 0

/-- The method `findPath` of lr3 for the two ids read; `fuel` bounds the
passes of each of its two loops. -/
def findPath (s : PipelineSystem) (fuel : Nat) (startId endId : Int) : Option PathResult :=
  if s.network.isEmpty then some .emptyNetwork
  else if (getObjectInfo s startId).2 = none then some .startNotFound
  else if (getObjectInfo s endId).2 = none then some .endNotFound
  else
    let graph := buildGraph s
    if !mapHas graph startId || !mapHas graph endId then some .notConnected
    else
      let st0 : FindPathState :=
        { parent := mapSet (fun a b => decide (a < b)) startId (-1) [],
          parentPipe := [],
          q := [startId],
          visited := setInsert startId [] }
      match findPathLoop graph endId fuel st0 with
      | none => none
      | some st =>
        if !mapHas st.parent endId then some .noPath
        else
          match walkBack st.parent st.parentPipe startId fuel endId [] [] with
          | none => none
          | some (path, pipesPath) =>
            let path := path.reverse
            let pipesPath := pipesPath.reverse
            some (.found path pipesPath
              (if pipesPath.isEmpty then none else some (totalLength s pipesPath)))

/-- The neighbours of a node in the graph, none for an id that is not a node. -/
def adjOf (graph : List (Int × GraphNode)) (u : Int) : List (Int × Int) :=
  if mapHas graph u then (mapGet (⟨0, false, []⟩ : GraphNode) graph u).connections else []

/-- The id is a node of the graph of lr3: the id of a station, or of a pipe
in use of which the start or the end is not the id of a station. -/
def IsGraphNode (s : PipelineSystem) (id : Int) : Prop :=
  IsStationId s id ∨
  ∃ p ∈ s.pipes, p.id = id ∧ p.inUse = true ∧
    ¬ (IsStationId s p.startId ∧ IsStationId s p.endId)

/-- A step of the search: `a` is a node of the graph and some connection
leads from `a` to `b`. -/
def Hop (s : PipelineSystem) (a b : Int) : Prop :=
  IsGraphNode s a ∧ ∃ conn ∈ s.network, conn.startId = a ∧ conn.endId = b

/-- The ids form a chain of connections in forward direction in which every
id before the last is a node of the graph. -/
def NodePath (s : PipelineSystem) (path : List Int) : Prop :=
  List.Chain' (Hop s) path

/-- The list of pipes goes with the list of ids: one pipe for each
consecutive pair, and a connection of the network over that pipe leads
from the first of the pair to the second. -/
def Linked (s : PipelineSystem) : List Int → List Int → Prop
  | [_], [] => True
  | a :: b :: rest, p :: ps =>
    (∃ conn ∈ s.network, conn.startId = a ∧ conn.endId = b ∧ conn.pipeId = p) ∧
      Linked s (b :: rest) ps
  | _, _ => False

/-- Three pipes of diameter 500, no station; pipe 1 connects pipe 2 to
pipe 3 (the store after three `addPipe` and one `connectObjects` from 2 to
3). -/
def storePipeEnds : PipelineSystem :=
  { pipes := [⟨1, "a", 1, 500, false, true, 2, 3, .PIPE_TO_PIPE, .PIPE_TO_PIPE⟩,
              ⟨2, "b", 1, 500, false, false, 0, 0, .STATION_TO_STATION, .STATION_TO_STATION⟩,
              ⟨3, "c", 1, 500, false, false, 0, 0, .STATION_TO_STATION, .STATION_TO_STATION⟩],
    stations := [],
    network := [⟨1, 2, 3, .PIPE_TO_PIPE, .PIPE_TO_PIPE⟩],
    nextPipeId := 4, nextStationId := 1 }

/-- What holds of the search loop of `findPath` between two passes of
either loop, for the neighbour lists `adj`. `done` lists the ids taken from
the queue, in that order, `full` those whose neighbours have all been
looked at, and `lvl` counts the connections from the start along `parent`. -/
structure SearchInv (adj : Int → List (Int × Int)) (startId : Int) (lvl : Int → Nat)
    (done full : List Int) (st : FindPathState) : Prop where
  visited_iff : ∀ v, v ∈ st.visited ↔ v ∈ done ∨ v ∈ st.q
  nodup : (done ++ st.q).Nodup
  parent_keys : ∀ v, mapHas st.parent v = true ↔ v ∈ st.visited
  start_visited : startId ∈ st.visited
  start_lvl : lvl startId = 0
  start_parent : mapGet 0 st.parent startId = -1
  tree : ∀ v ∈ st.visited, v ≠ startId →
    mapGet 0 st.parent v ∈ done ∧ mapHas st.parentPipe v = true ∧
    (v, mapGet 0 st.parentPipe v) ∈ adj (mapGet 0 st.parent v) ∧
    lvl v = lvl (mapGet 0 st.parent v) + 1
  sorted : (done ++ st.q).Pairwise (fun a b => lvl a ≤ lvl b)
  lvl_lt : ∀ v ∈ st.visited, lvl v < (done ++ st.q).length
  closed : ∀ u ∈ full, ∀ e ∈ adj u, e.1 ∈ st.visited ∧ lvl e.1 ≤ lvl u + 1
  full_done : ∀ u ∈ full, u ∈ done

/-- The ids `nodes`, listed from `v` back to `a`, follow the neighbour lists
`adj` from `a` to `v`, and `pipes` lists the pipes of the steps, that of the
last step first. -/
inductive BackChain (adj : Int → List (Int × Int)) (a : Int) :
    Int → List Int → List Int → Prop where
  | root : BackChain adj a a [a] []
  | step (u v p : Int) (ns ps : List Int) :
      BackChain adj a u ns ps → (v, p) ∈ adj u → BackChain adj a v (v :: ns) (p :: ps)

/-- The ids form a chain of connections in forward direction. -/
def ConnPath (s : PipelineSystem) (path : List Int) : Prop :=
  List.Chain' (fun a b => ∃ conn ∈ s.network, conn.startId = a ∧ conn.endId = b) path

/-! ## Vocabulary of the shortest path -/

/-- The value of a `double` that may be `+∞`, in the rationals with a top. -/
def Dist.toW : Dist → WithTop ℚ
  | .fin q => (q : WithTop ℚ)
  | .inf => ⊤

/-- A walk in the adjacency lists: `GWalk g u es v` when the edges `es`, each
taken from the list of the node the one before leads to, lead from `u` to
`v`. -/
inductive GWalk (g : Graph) : Nat → List GraphEdge → Nat → Prop where
  | nil (u : Nat) : GWalk g u [] u
  | cons (u v : Nat) (e : GraphEdge) (es : List GraphEdge) :
      e ∈ adj g u → GWalk g e.to_ es v → GWalk g u (e :: es) v

/-- Total weight of a list of edges. -/
def walkWeight (es : List GraphEdge) : Dist :=
  es.foldr (fun e acc => e.weight.add acc) (.fin 0)

/-- One pass of the relaxation loop (the body of `relaxEdges`). -/
def relaxStep (u : Nat) (st : DijkstraState) (edge : GraphEdge) : DijkstraState :=
  let v := edge.to_
  let newDist := (st.dist.getD u .inf).add edge.weight
  if newDist.lt (st.dist.getD v .inf) then
    { dist := st.dist.set v newDist
      prev := st.prev.set v (some u)
      prevPipe := st.prevPipe.set v (some edge.pipeId)
      pq := st.pq ++ [(newDist, v)] }
  else st

/-- What holds of the main loop of `dijkstraShortestPath` between two passes
of either loop, when no weight is negative. `S` lists the nodes whose edges
have been relaxed, in that order, and `F` those of them with all edges
relaxed. -/
structure DCore (g : Graph) (start : Nat) (S F : List Nat) (st : DijkstraState) : Prop where
  len_dist : st.dist.length = g.length
  len_prev : st.prev.length = g.length
  start_lt : start < g.length
  dist_start : st.dist.getD start .inf = .fin 0
  prev_start : st.prev.getD start none = none
  nonneg : ∀ v, (0 : WithTop ℚ) ≤ (st.dist.getD v .inf).toW
  tree : ∀ v, v ≠ start → (st.dist.getD v .inf).toW ≠ ⊤ →
    ∃ u e, st.prev.getD v none = some u ∧ u ∈ S ∧ e ∈ adj g u ∧ e.to_ = v ∧
      (st.dist.getD v .inf).toW = (st.dist.getD u .inf).toW + e.weight.toW ∧
      (v ∈ S → S.indexOf u < S.indexOf v)
  closed : ∀ u ∈ F, ∀ e ∈ adj g u,
    (st.dist.getD e.to_ .inf).toW ≤ (st.dist.getD u .inf).toW + e.weight.toW
  pq_sound : ∀ kv ∈ st.pq, kv.1.toW ≠ ⊤ ∧ (st.dist.getD kv.2 .inf).toW ≤ kv.1.toW ∧
    kv.2 < g.length
  settled_le : ∀ u ∈ S, ∀ kv ∈ st.pq, (st.dist.getD u .inf).toW ≤ kv.1.toW
  settled_fin : ∀ u ∈ S, (st.dist.getD u .inf).toW ≠ ⊤
  nodup : S.Nodup
  settled_lt : ∀ u ∈ S, u < g.length
  full_sub : ∀ u ∈ F, u ∈ S

/-- Every node with a finite distance whose edges have not been relaxed is
in the queue with its distance. -/
def Covered (S : List Nat) (st : DijkstraState) : Prop :=
  ∀ v, (st.dist.getD v .inf).toW ≠ ⊤ → v ∉ S → (st.dist.getD v .inf, v) ∈ st.pq

/-- The number of edges of the nodes whose edges have not been relaxed. -/
def pendingEdges (g : Graph) (S : List Nat) : Nat :=
  ∑ v in (Finset.range g.length).filter (fun v => v ∉ S), (adj g v).length

/-- The pipe of an edge: the first pipe of the store with the `pipeId` of the
edge, the one the builder took the weight from. -/
def edgePipe (s : PipelineSystem) (e : GraphEdge) : Option Pipe :=
  s.pipes.find? (fun p => p.id == e.pipeId)

/-- The integer nearest to `t`; of two nearest integers, the even one. -/
def roundEven (t : ℚ) : ℤ :=
  if t - ⌊t⌋ < 1 / 2 then ⌊t⌋
  else if 1 / 2 < t - ⌊t⌋ then ⌊t⌋ + 1
  else if ⌊t⌋ % 2 = 0 then ⌊t⌋
  else ⌊t⌋ + 1

/-- The binary exponent of the grid of `double` numbers around `x`: that of
`x` itself, and `-1022` in the range of the subnormal numbers. -/
def binaryExponent (x : ℚ) : ℤ := max (Int.log 2 |x|) (-1022)

/-- Rounding of an exact result to the nearest number with a significand of
53 bits and an exponent from `-1022` on (the exponent is not bounded above
here; `Double.ofExact` checks the range). -/
def roundNearest (x : ℚ) : ℚ :=
  (roundEven (x / 2 ^ (binaryExponent x - 52)) : ℚ) * 2 ^ (binaryExponent x - 52)

/-- The largest finite `double`, `numeric_limits<double>::max()`. -/
def DBL_MAX : ℚ := (2 ^ 53 - 1) * 2 ^ 971

/-- A value of type `double`: a finite number, `+∞`, `-∞` or a NaN. -/
inductive Double where
  | fin (q : ℚ)
  | pinf
  | ninf
  | nan
  deriving DecidableEq

/-- The `double` that an operation with the exact result `x` returns: `x`
rounded, or an infinity when the rounded value is out of range. -/
def Double.ofExact (x : ℚ) : Double :=
  if DBL_MAX < roundNearest x then .pinf
  else if roundNearest x < -DBL_MAX then .ninf
  else .fin (roundNearest x)

/-- The product `a * b` of two `double` values. -/
def Double.mul : Double → Double → Double
  | .fin a, .fin b => Double.ofExact (a * b)
  | .fin a, .pinf => if 0 < a then .pinf else if a < 0 then .ninf else .nan
  | .fin a, .ninf => if 0 < a then .ninf else if a < 0 then .pinf else .nan
  | .pinf, .fin b => if 0 < b then .pinf else if b < 0 then .ninf else .nan
  | .ninf, .fin b => if 0 < b then .ninf else if b < 0 then .pinf else .nan
  | .pinf, .pinf => .pinf
  | .pinf, .ninf => .ninf
  | .ninf, .pinf => .ninf
  | .ninf, .ninf => .pinf
  | .nan, _ => .nan
  | _, .nan => .nan

/-- The quotient `a / b` of two `double` values (a zero divisor counts as
`+0`). -/
def Double.div : Double → Double → Double
  | .fin a, .fin b =>
    if b = 0 then (if 0 < a then .pinf else if a < 0 then .ninf else .nan)
    else Double.ofExact (a / b)
  | .fin _, .pinf => .fin 0
  | .fin _, .ninf => .fin 0
  | .pinf, .fin b => if 0 ≤ b then .pinf else .ninf
  | .ninf, .fin b => if 0 ≤ b then .ninf else .pinf
  | .pinf, .pinf => .nan
  | .pinf, .ninf => .nan
  | .ninf, .pinf => .nan
  | .ninf, .ninf => .nan
  | .nan, _ => .nan
  | _, .nan => .nan

/-- The call `sqrt(x)`; the parameter `sqrt` is `std::sqrt` on the positive
finite numbers. -/
def Double.sqrt (sqrt : ℚ → ℚ) : Double → Double
  | .fin a => if a < 0 then .nan else if a = 0 then .fin 0 else .fin (sqrt a)
  | .pinf => .pinf
  | .ninf => .nan
  | .nan => .nan

/-- The call `pow(x, 5)`; the parameter `pow5` is `std::pow(·, 5)` on the
finite numbers (the arguments that occur have finite results). -/
def Double.pow (pow5 : ℚ → ℚ) : Double → Double
  | .fin a => .fin (pow5 a)
  | .pinf => .pinf
  | .ninf => .ninf
  | .nan => .nan

/-- The comparison `a < b` of two `double` values. -/
def Double.lt : Double → Double → Bool
  | .fin a, .fin b => decide (a < b)
  | .fin _, .pinf => true
  | .ninf, .fin _ => true
  | .ninf, .pinf => true
  | _, _ => false

/-- The comparison `a <= b` of two `double` values. -/
def Double.le : Double → Double → Bool
  | .fin a, .fin b => decide (a ≤ b)
  | .fin _, .pinf => true
  | .ninf, .fin _ => true
  | .ninf, .pinf => true
  | .pinf, .pinf => true
  | .ninf, .ninf => true
  | _, _ => false

/-- A `double` that is a number from zero on, or `+∞`. -/
def Double.NonNeg : Double → Prop
  | .fin a => 0 ≤ a
  | .pinf => True
  | .ninf => False
  | .nan => False

/-- The method `Pipe::getCapacity` in the arithmetic of `double`: `0.0` under
repair, otherwise `cap.capacity * adjustment * sqrt(pow(diameter_m, 5) /
length_m)` for the table entry of the diameter, with `diameter_m = diameter
/ 1000.0`, `length_m = length * 1000.0` and `adjustment = 0.01`, and `1000.0`
for a diameter outside the table. -/
def Pipe.getCapacityDouble (pow5 sqrt : ℚ → ℚ) (p : Pipe) : Double :=
  if p.underRepair then .fin 0
  else
    match PIPE_CAPACITIES.find? (fun cap => cap.diameter == p.diameter) with
    | some cap =>
      let diameter_m := Double.div (.fin (p.diameter : ℚ)) (.fin 1000)
      let length_m := Double.mul (.fin p.length) (.fin 1000)
      let adjustment := Double.ofExact (1 / 100)
      Double.mul (Double.mul (.fin cap.capacity) adjustment)
        (Double.sqrt sqrt (Double.div (Double.pow pow5 diameter_m) length_m))
    | none => .fin 1000

/-- A pipe in service with the given diameter and length. -/
def pipeInService (diameter : Int) (length : ℚ) : Pipe :=
  ⟨1, "p", length, diameter, false, false, 0, 0, .STATION_TO_STATION, .STATION_TO_STATION⟩

/-! ## Example stores -/

/-- Stations 1 and 2 joined by the single connection `1 → 2` over pipe 1
(length 5, in service). -/
def storeAB : PipelineSystem :=
  { pipes := [⟨1, "p1", 5, 500, false, true, 1, 2, .STATION_TO_STATION, .STATION_TO_STATION⟩]
    stations := [⟨1, "A", 1, 1, 1⟩, ⟨2, "B", 1, 1, 1⟩]
    network := [⟨1, 1, 2, .STATION_TO_STATION, .STATION_TO_STATION⟩]
    nextPipeId := 2
    nextStationId := 3 }

/-- Stations 1, 2, 3 in series `1 → 2 → 3` over pipes of diameter 500 and
700; with `sqrt` returning 100 their capacities are 1000 and 2500. -/
def storeSeries : PipelineSystem :=
  { pipes := [⟨1, "p1", 5, 500, false, true, 1, 2, .STATION_TO_STATION, .STATION_TO_STATION⟩,
              ⟨2, "p2", 5, 700, false, true, 2, 3, .STATION_TO_STATION, .STATION_TO_STATION⟩]
    stations := [⟨1, "A", 1, 1, 1⟩, ⟨2, "B", 1, 1, 1⟩, ⟨3, "C", 1, 1, 1⟩]
    network := [⟨1, 1, 2, .STATION_TO_STATION, .STATION_TO_STATION⟩,
                ⟨2, 2, 3, .STATION_TO_STATION, .STATION_TO_STATION⟩]
    nextPipeId := 3
    nextStationId := 4 }

/-- The store `storeSeries` with the further connection `3 → 1`. -/
def storeCycle : PipelineSystem :=
  { storeSeries with
    pipes := storeSeries.pipes ++
      [⟨3, "p3", 5, 500, false, true, 3, 1, .STATION_TO_STATION, .STATION_TO_STATION⟩]
    network := storeSeries.network ++ [⟨3, 3, 1, .STATION_TO_STATION, .STATION_TO_STATION⟩]
    nextPipeId := 4 }

/-! ## Fuel: more fuel never changes a result -/

theorem walkPrev_mono (prev : List (Option Nat)) :
    ∀ (fuel : Nat) (v : Option Nat) (l : List Nat),
      walkPrev prev fuel v = some l → walkPrev prev (fuel + 1) v = some l := by
  intro fuel
  induction fuel with
  | zero =>
    intro v l h
    cases v with
    | none => simpa [walkPrev] using h
    | some v => simp [walkPrev] at h
  | succ k ih =>
    intro v l h
    cases v with
    | none => simpa [walkPrev] using h
    | some v =>
      simp only [walkPrev, Option.map_eq_some'] at h ⊢
      obtain ⟨rest, hrest, rfl⟩ := h
      exact ⟨rest, ih _ _ hrest, rfl⟩

theorem dijkstraLoop_mono (graph : Graph) (endIndex : Nat) :
    ∀ (fuel : Nat) (st r : DijkstraState),
      dijkstraLoop graph endIndex fuel st = some r →
      dijkstraLoop graph endIndex (fuel + 1) st = some r := by
  intro fuel
  induction fuel with
  | zero => intro st r h; simp [dijkstraLoop] at h
  | succ k ih =>
    intro st r h
    rw [dijkstraLoop] at h ⊢
    split
    · rename_i hq; rw [hq] at h; exact h
    · rename_i currentDist u rest hq
      rw [hq] at h
      simp only at h ⊢
      split_ifs at h ⊢ with h1 h2
      · exact ih _ _ h
      · exact h
      · exact ih _ _ h

theorem dijkstraShortestPath_mono (sqrt : ℚ → ℚ) (s : PipelineSystem) (startId endId : Int)
    (fuel : Nat) (r : Dist × List Int)
    (h : dijkstraShortestPath sqrt s fuel startId endId = some r) :
    ∀ k, dijkstraShortestPath sqrt s (fuel + k) startId endId = some r := by
  intro k
  induction k with
  | zero => exact h
  | succ k ih =>
    rw [← Nat.add_assoc]
    generalize fuel + k = f at ih
    unfold dijkstraShortestPath at ih ⊢
    simp only at ih ⊢
    by_cases hmem : (startId ∈ (buildGraphForAlgorithms sqrt s).2 ∧
        endId ∈ (buildGraphForAlgorithms sqrt s).2)
    · rw [if_neg (not_not.mpr hmem)] at ih ⊢
      revert ih
      generalize hst0 : DijkstraState.mk _ _ _ _ = st0
      intro ih
      cases hl : dijkstraLoop (buildGraphForAlgorithms sqrt s).1
          (idToIndex (buildGraphForAlgorithms sqrt s).2 endId) f st0 with
      | none => rw [hl] at ih; simp at ih
      | some st =>
        rw [hl] at ih
        rw [dijkstraLoop_mono _ _ _ _ _ hl]
        simp only at ih ⊢
        by_cases hd : (st.dist.getD (idToIndex (buildGraphForAlgorithms sqrt s).2 endId)
            Dist.inf).lt Dist.inf = true
        · rw [if_pos hd] at ih ⊢
          cases hw : walkPrev st.prev f
              (some (idToIndex (buildGraphForAlgorithms sqrt s).2 endId)) with
          | none => rw [hw] at ih; simp at ih
          | some path =>
            rw [hw] at ih
            rw [walkPrev_mono _ _ _ _ hw]
            exact ih
        · rw [if_neg hd] at ih ⊢
          exact ih
    · rw [if_pos hmem] at ih ⊢
      exact ih

/-! ## The graph as built -/

theorem length_pushEdge (g : Graph) (u : Nat) (e : GraphEdge) :
    (pushEdge g u e).length = g.length := by
  simp [pushEdge]

theorem adj_pushEdge (g : Graph) (u : Nat) (e : GraphEdge) (x : Nat) (hu : u < g.length) :
    adj (pushEdge g u e) x = if x = u then adj g u ++ [e] else adj g x := by
  unfold pushEdge adj
  simp only [List.getD_eq_getElem?_getD, List.getElem?_set]
  by_cases hx : x = u
  · subst hx; simp [hu]
  · simp [hx, Ne.symm hx]

theorem adj_mem_or_nil (g : Graph) (u : Nat) : adj g u ∈ g ∨ adj g u = [] := by
  unfold adj
  rw [List.getD_eq_getElem?_getD]
  cases h : g[u]? with
  | none => right; rfl
  | some l => left; simpa using List.getElem?_mem h

theorem edges_pushEdge (P : GraphEdge → Prop) (g : Graph) (u : Nat) (e : GraphEdge)
    (hg : ∀ l ∈ g, ∀ x ∈ l, P x) (he : P e) : ∀ l ∈ pushEdge g u e, ∀ x ∈ l, P x := by
  intro l hl x hx
  rcases List.mem_or_eq_of_mem_set hl with h | h
  · exact hg l h x hx
  · subst h
    rcases List.mem_append.mp hx with h1 | h1
    · rcases adj_mem_or_nil g u with h2 | h2
      · exact hg _ h2 x h1
      · rw [h2] at h1; simp at h1
    · simp at h1; subst h1; exact he

theorem edges_addConnection (P : GraphEdge → Prop) (sqrt : ℚ → ℚ) (s : PipelineSystem)
    (nodes : List Int) (g : Graph) (conn : NetworkConnection)
    (hP : ∀ e : GraphEdge, e.flow = 0 → P e)
    (hg : ∀ l ∈ g, ∀ x ∈ l, P x) : ∀ l ∈ addConnection sqrt s nodes g conn, ∀ x ∈ l, P x := by
  unfold addConnection
  split
  · exact hg
  · split
    · exact hg
    · exact edges_pushEdge P _ _ _ (edges_pushEdge P _ _ _ hg (hP _ rfl)) (hP _ rfl)

theorem edges_build_flow_zero (sqrt : ℚ → ℚ) (s : PipelineSystem) :
    ∀ l ∈ (buildGraphForAlgorithms sqrt s).1, ∀ x ∈ l, x.flow = 0 := by
  unfold buildGraphForAlgorithms
  simp only
  generalize collectNodes s.network = nodes
  have key : ∀ (conns : List NetworkConnection) (g : Graph),
      (∀ l ∈ g, ∀ x ∈ l, x.flow = 0) →
      ∀ l ∈ conns.foldl (addConnection sqrt s nodes) g, ∀ x ∈ l, x.flow = 0 := by
    intro conns
    induction conns with
    | nil => intro g hg; simpa using hg
    | cons c cs ih =>
      intro g hg
      simp only [List.foldl_cons]
      exact ih _ (edges_addConnection (fun e => e.flow = 0) sqrt s nodes g c (fun _ h => h) hg)
  apply key
  intro l hl x hx
  rw [List.mem_replicate] at hl
  rw [hl.2] at hx
  simp at hx

theorem mapSet_values {κ α : Type} [DecidableEq κ] (lt : κ → κ → Bool) (k : κ) (v : α) :
    ∀ (m : List (κ × α)) (kv : κ × α), kv ∈ mapSet lt k v m → kv = (k, v) ∨ kv ∈ m := by
  intro m
  induction m with
  | nil => intro kv h; simp [mapSet] at h; exact Or.inl h
  | cons hd tl ih =>
    intro kv h
    obtain ⟨k1, v1⟩ := hd
    simp only [mapSet] at h
    split_ifs at h with h1 h2
    · rcases List.mem_cons.mp h with h | h
      · exact Or.inl h
      · exact Or.inr h
    · rcases List.mem_cons.mp h with h | h
      · exact Or.inl h
      · exact Or.inr (List.mem_cons_of_mem _ h)
    · rcases List.mem_cons.mp h with h | h
      · exact Or.inr (h ▸ List.mem_cons_self _ _)
      · rcases ih kv h with h | h
        · exact Or.inl h
        · exact Or.inr (List.mem_cons_of_mem _ h)

theorem flowMapOf_values (nodes : List Int) (graph : Graph)
    (hg : ∀ l ∈ graph, ∀ x ∈ l, x.flow = 0) :
    ∀ kv ∈ flowMapOf nodes graph, kv.2 = 0 := by
  unfold flowMapOf
  have inner : ∀ (uIdx : Nat) (edges : List GraphEdge) (fm : List ((Int × Int) × ℚ)),
      (∀ x ∈ edges, x.flow = 0) → (∀ kv ∈ fm, kv.2 = 0) →
      ∀ kv ∈ edges.foldl (fun fm edge =>
        if edge.capacity > 0 then
          mapSet keyLt (nodes.getD uIdx 0, nodes.getD edge.to_ 0) edge.flow fm
        else fm) fm, kv.2 = 0 := by
    intro uIdx edges
    induction edges with
    | nil => intro fm _ hfm; simpa using hfm
    | cons e es ih =>
      intro fm he hfm
      simp only [List.foldl_cons]
      apply ih _ (fun x hx => he x (List.mem_cons_of_mem _ hx))
      intro kv hkv
      split_ifs at hkv with hc
      · rcases mapSet_values _ _ _ _ _ hkv with h | h
        · rw [h]; exact he e (List.mem_cons_self _ _)
        · exact hfm kv h
      · exact hfm kv hkv
  have outer : ∀ (L : List (Nat × List GraphEdge)) (fm : List ((Int × Int) × ℚ)),
      (∀ p ∈ L, ∀ x ∈ p.2, x.flow = 0) → (∀ kv ∈ fm, kv.2 = 0) →
      ∀ kv ∈ L.foldl (fun fm (p : Nat × List GraphEdge) =>
        p.2.foldl (fun fm edge =>
          if edge.capacity > 0 then
            mapSet keyLt (nodes.getD p.1 0, nodes.getD edge.to_ 0) edge.flow fm
          else fm) fm) fm, kv.2 = 0 := by
    intro L
    induction L with
    | nil => intro fm _ hfm; simpa using hfm
    | cons p ps ih =>
      intro fm hL hfm
      simp only [List.foldl_cons]
      exact ih _ (fun q hq => hL q (List.mem_cons_of_mem _ hq))
        (inner p.1 p.2 fm (hL p (List.mem_cons_self _ _)) hfm)
  apply outer
  · intro p hp x hx
    obtain ⟨i, l⟩ := p
    exact hg l (List.getElem?_mem (List.mk_mem_enum_iff_getElem?.mp hp)) x hx
  · simp

/-! ## Association lists as `std::map` -/

theorem mapGet_mapSet {κ α : Type} [DecidableEq κ] (lt : κ → κ → Bool) (d : α) (k : κ) (v : α) :
    ∀ (m : List (κ × α)) (k' : κ),
      mapGet d (mapSet lt k v m) k' = if k' = k then v else mapGet d m k' := by
  intro m
  induction m with
  | nil =>
    intro k'
    by_cases h : k' = k
    · simp [mapSet, mapGet, h]
    · simp [mapSet, mapGet, h, Ne.symm h]
  | cons hd tl ih =>
    intro k'
    obtain ⟨k1, v1⟩ := hd
    simp only [mapSet]
    by_cases h1 : lt k k1 = true
    · rw [if_pos h1]
      by_cases h : k' = k
      · simp [mapGet, h]
      · simp [mapGet, h, Ne.symm h]
    · rw [if_neg h1]
      by_cases h2 : k = k1
      · rw [if_pos h2]
        subst h2
        by_cases h : k' = k
        · simp [mapGet, h]
        · simp [mapGet, h, Ne.symm h]
      · rw [if_neg h2]
        have := ih k'
        by_cases h : k' = k
        · subst h
          simp only [if_true] at this ⊢
          simp only [mapGet, List.find?_cons] at this ⊢
          simp only [Ne.symm h2, decide_False]
          exact this
        · simp only [if_neg h] at this ⊢
          simp only [mapGet, List.find?_cons] at this ⊢
          by_cases h3 : k1 = k'
          · simp [h3]
          · simp only [h3, decide_False]
            exact this

theorem mem_keys_mapSet {κ α : Type} [DecidableEq κ] (lt : κ → κ → Bool) (k : κ) (v : α) :
    ∀ (m : List (κ × α)) (k' : κ),
      k' ∈ (mapSet lt k v m).map Prod.fst ↔ k' = k ∨ k' ∈ m.map Prod.fst := by
  intro m
  induction m with
  | nil => intro k'; simp [mapSet]
  | cons hd tl ih =>
    intro k'
    obtain ⟨k1, v1⟩ := hd
    simp only [mapSet]
    split_ifs with h1 h2
    · simp
    · subst h2; simp
    · simp only [List.map_cons, List.mem_cons, ih k']
      tauto

theorem sorted_keys_mapSet {α : Type} (k : Int) (v : α) :
    ∀ (m : List (Int × α)), (m.map Prod.fst).Pairwise (· < ·) →
      ((mapSet (fun a b => decide (a < b)) k v m).map Prod.fst).Pairwise (· < ·) := by
  intro m
  induction m with
  | nil => intro _; simp [mapSet]
  | cons hd tl ih =>
    intro h
    obtain ⟨k1, v1⟩ := hd
    simp only [mapSet]
    simp only [List.map_cons, List.pairwise_cons] at h
    split_ifs with h1 h2
    · simp only [decide_eq_true_eq] at h1
      simp only [List.map_cons, List.pairwise_cons, List.mem_cons]
      refine ⟨?_, h⟩
      rintro a (rfl | ha)
      · exact h1
      · exact lt_trans h1 (h.1 a ha)
    · subst h2
      simpa using h
    · simp only [decide_eq_true_eq, not_lt] at h1
      simp only [List.map_cons, List.pairwise_cons]
      refine ⟨?_, ih h.2⟩
      intro a ha
      rcases (mem_keys_mapSet _ k v tl a).mp ha with rfl | ha
      · exact lt_of_le_of_ne h1 (Ne.symm h2)
      · exact h.1 a ha

theorem mapGet_of_mem {α : Type} (d : α) :
    ∀ (m : List (Int × α)), (m.map Prod.fst).Nodup → ∀ kv ∈ m, mapGet d m kv.1 = kv.2 := by
  intro m
  induction m with
  | nil => intro _ kv h; simp at h
  | cons hd tl ih =>
    intro hnd kv hkv
    simp only [List.map_cons, List.nodup_cons] at hnd
    rcases List.mem_cons.mp hkv with rfl | h
    · simp [mapGet]
    · have hne : hd.1 ≠ kv.1 := by
        intro heq
        exact hnd.1 (heq ▸ List.mem_map_of_mem Prod.fst h)
      have := ih hnd.2 kv h
      simp only [mapGet, List.find?_cons] at this ⊢
      simp only [hne, decide_False]
      exact this

theorem mapGet_of_not_mem {α : Type} (d : α) (m : List (Int × α)) (k : Int)
    (h : k ∉ m.map Prod.fst) : mapGet d m k = d := by
  unfold mapGet
  have : m.find? (fun kv => decide (kv.1 = k)) = none := by
    rw [List.find?_eq_none]
    intro x hx hk
    simp only [decide_eq_true_eq] at hk
    exact h (hk ▸ List.mem_map_of_mem Prod.fst hx)
  rw [this]

/-! ## The station graph of `topologicalSort` -/

theorem getObjectInfo_isStation (s : PipelineSystem) (id : Int) :
    (getObjectInfo s id).1 = true ↔ IsStationId s id := by
  unfold getObjectInfo IsStationId
  cases h : findStationIndexById s id with
  | some i =>
    simp only [true_iff]
    have h2 : (s.stations.findIdx? (fun st => st.id == id)).isSome = true := by
      unfold findStationIndexById at h; rw [h]; rfl
    rw [List.findIdx?_isSome, List.any_eq_true] at h2
    obtain ⟨x, hx, hxid⟩ := h2
    exact ⟨x, hx, by simpa using hxid⟩
  | none =>
    have h2 : ¬ ∃ st ∈ s.stations, st.id = id := by
      rintro ⟨st, hst, hid⟩
      unfold findStationIndexById at h
      rw [List.findIdx?_eq_none_iff] at h
      have := h st hst
      simp [hid] at this
    constructor
    · intro hf
      cases hp : findPipeIndexById s id <;> simp [hp] at hf
    · intro hf; exact absurd hf h2

theorem mem_stationEdges (s : PipelineSystem) (u v : Int) :
    (u, v) ∈ stationEdges s ↔ StationEdge s u v := by
  unfold stationEdges StationEdge
  simp only [List.mem_filterMap]
  constructor
  · rintro ⟨conn, hc, h⟩
    split_ifs at h with hst
    simp only [Option.some.injEq, Prod.mk.injEq] at h
    simp only [Bool.and_eq_true] at hst
    rw [getObjectInfo_isStation, getObjectInfo_isStation, h.1, h.2] at hst
    exact ⟨⟨conn, hc, h.1, h.2⟩, hst⟩
  · rintro ⟨⟨conn, hc, h1, h2⟩, hu, hv⟩
    refine ⟨conn, hc, ?_⟩
    have : ((getObjectInfo s conn.startId).1 && (getObjectInfo s conn.endId).1) = true := by
      simp only [Bool.and_eq_true]
      rw [getObjectInfo_isStation, getObjectInfo_isStation, h1, h2]
      exact ⟨hu, hv⟩
    rw [if_pos this, h1, h2]

theorem initInDegree_spec (stations : List CompressorStation) :
    ((initInDegree stations).map Prod.fst).Pairwise (· < ·) ∧
    (∀ k, k ∈ (initInDegree stations).map Prod.fst ↔ ∃ st ∈ stations, st.id = k) ∧
    (∀ kv ∈ initInDegree stations, kv.2 = 0) := by
  unfold initInDegree
  have key : ∀ (sts : List CompressorStation) (m : List (Int × Int)),
      (m.map Prod.fst).Pairwise (· < ·) → (∀ kv ∈ m, kv.2 = 0) →
      ((sts.foldl (fun m st => mapSet (fun a b => decide (a < b)) st.id 0 m) m).map
          Prod.fst).Pairwise (· < ·) ∧
      (∀ k, k ∈ (sts.foldl (fun m st => mapSet (fun a b => decide (a < b)) st.id 0 m) m).map
          Prod.fst ↔ (k ∈ m.map Prod.fst ∨ ∃ st ∈ sts, st.id = k)) ∧
      (∀ kv ∈ sts.foldl (fun m st => mapSet (fun a b => decide (a < b)) st.id 0 m) m,
          kv.2 = 0) := by
    intro sts
    induction sts with
    | nil =>
      intro m h1 h2
      simp only [List.foldl_nil]
      exact ⟨h1, fun k => by simp, h2⟩
    | cons st rest ih =>
      intro m h1 h2
      simp only [List.foldl_cons]
      have h3 := ih (mapSet (fun a b => decide (a < b)) st.id 0 m) (sorted_keys_mapSet _ _ _ h1)
        (by
          intro kv hkv
          rcases mapSet_values _ _ _ _ _ hkv with h | h
          · rw [h]
          · exact h2 kv h)
      refine ⟨h3.1, ?_, h3.2.2⟩
      intro k
      rw [h3.2.1 k, mem_keys_mapSet]
      simp only [List.mem_cons, exists_eq_or_imp]
      constructor
      · rintro ((h | h) | h)
        · exact Or.inr (Or.inl h.symm)
        · exact Or.inl h
        · exact Or.inr (Or.inr h)
      · rintro (h | h | h)
        · exact Or.inl (Or.inr h)
        · exact Or.inl (Or.inl h.symm)
        · exact Or.inr h
  have := key stations [] (by simp) (by simp)
  simpa using this

theorem stationGraphStep_spec (s : PipelineSystem)
    (acc : List (Int × List Int) × List (Int × Int)) (E : List (Int × Int))
    (conn : NetworkConnection) (h : StationGraphOf s acc E) :
    StationGraphOf s (stationGraphStep s acc conn)
      (E ++ (if (getObjectInfo s conn.startId).1 && (getObjectInfo s conn.endId).1 then
        [(conn.startId, conn.endId)] else [])) := by
  unfold stationGraphStep
  by_cases hst : ((getObjectInfo s conn.startId).1 && (getObjectInfo s conn.endId).1) = true
  · rw [if_pos hst, if_pos hst]
    obtain ⟨h1, h2, h3, h4⟩ := h
    refine ⟨?_, ?_, sorted_keys_mapSet _ _ _ h3, ?_⟩
    · intro u
      rw [mapGet_mapSet, List.filter_append, List.map_append]
      by_cases hu : u = conn.startId
      · subst hu; simp [h1]
      · simp [hu, Ne.symm hu, h1]
    · intro v
      rw [mapGet_mapSet, List.countP_append]
      by_cases hv : v = conn.endId
      · subst hv; simp [h2, List.countP_cons]
      · simp [hv, Ne.symm hv, h2, List.countP_cons]
    · intro k
      rw [mem_keys_mapSet, h4]
      simp only [Bool.and_eq_true] at hst
      constructor
      · rintro (h | h)
        · rw [h]; exact (getObjectInfo_isStation s _).mp hst.2
        · exact h
      · exact Or.inr
  · rw [if_neg hst, if_neg hst]
    simpa using h

theorem buildStationGraph_spec (s : PipelineSystem) :
    StationGraphOf s (buildStationGraph s) (stationEdges s) := by
  unfold buildStationGraph stationEdges
  have key : ∀ (conns : List NetworkConnection) (acc : List (Int × List Int) × List (Int × Int))
      (E : List (Int × Int)), StationGraphOf s acc E →
      StationGraphOf s (conns.foldl (stationGraphStep s) acc)
        (E ++ conns.filterMap (fun conn =>
          if (getObjectInfo s conn.startId).1 && (getObjectInfo s conn.endId).1 then
            some (conn.startId, conn.endId)
          else none)) := by
    intro conns
    induction conns with
    | nil => intro acc E h; simpa using h
    | cons c cs ih =>
      intro acc E h
      simp only [List.foldl_cons]
      have h1 := ih _ _ (stationGraphStep_spec s acc E c h)
      rw [List.filterMap_cons]
      by_cases hst : ((getObjectInfo s c.startId).1 && (getObjectInfo s c.endId).1) = true
      · rw [if_pos hst] at h1 ⊢
        simpa using h1
      · rw [if_neg hst] at h1 ⊢
        simpa using h1
  have h0 : StationGraphOf s ([], initInDegree s.stations) [] := by
    obtain ⟨i1, i2, i3⟩ := initInDegree_spec s.stations
    refine ⟨?_, ?_, i1, ?_⟩
    · intro u; simp [mapGet]
    · intro v
      simp only [List.countP_nil, Nat.cast_zero]
      by_cases hv : v ∈ (initInDegree s.stations).map Prod.fst
      · obtain ⟨kv, hkv, rfl⟩ := List.mem_map.mp hv
        rw [mapGet_of_mem 0 _ i1.nodup kv hkv]
        exact i3 kv hkv
      · exact mapGet_of_not_mem 0 _ _ hv
    · intro k; rw [i2 k]; rfl
  simpa using key s.network _ _ h0

/-! ## Kahn's loop -/

theorem kahnRelax_spec :
    ∀ (ns : List Int) (m : List (Int × Int)) (zero : List Int),
      (∀ w, ((ns.count w : Nat) : Int) ≤ mapGet 0 m w) →
      (∀ v, mapGet 0 (kahnRelax ns m zero).1 v = mapGet 0 m v - ((ns.count v : Nat) : Int)) ∧
      ∃ pushed, (kahnRelax ns m zero).2 = pushed ++ zero ∧ pushed.Nodup ∧
        ∀ w, w ∈ pushed ↔ (w ∈ ns ∧ mapGet 0 m w = ((ns.count w : Nat) : Int)) := by
  intro ns
  induction ns with
  | nil =>
    intro m zero _
    refine ⟨fun v => by simp [kahnRelax], [], by simp [kahnRelax], List.nodup_nil, ?_⟩
    intro w; simp
  | cons w ns ih =>
    intro m zero hpre
    have hstep : kahnRelax (w :: ns) m zero
        = kahnRelax ns (kahnRelaxStep (m, zero) w).1 (kahnRelaxStep (m, zero) w).2 := by
      simp [kahnRelax]
    rw [hstep]
    have hm1 : ∀ x, mapGet 0 (kahnRelaxStep (m, zero) w).1 x
        = if x = w then mapGet 0 m w - 1 else mapGet 0 m x := by
      intro x
      unfold kahnRelaxStep
      simp only
      split_ifs <;> simp_all [mapGet_mapSet]
    have hpre1 : ∀ x, ((ns.count x : Nat) : Int) ≤ mapGet 0 (kahnRelaxStep (m, zero) w).1 x := by
      intro x
      rw [hm1 x]
      have := hpre x
      rw [List.count_cons] at this
      by_cases hx : x = w
      · subst hx
        simp only [beq_self_eq_true, if_true, Nat.cast_add, Nat.cast_one] at this
        simp only [if_true]
        omega
      · have hb : (w == x) = false := by simpa using Ne.symm hx
        simp only [hb, Bool.false_eq_true, if_false, Nat.add_zero] at this
        simp only [if_neg hx]
        exact this
    obtain ⟨ih1, pushed, ih2, ih3, ih4⟩ :=
      ih (kahnRelaxStep (m, zero) w).1 (kahnRelaxStep (m, zero) w).2 hpre1
    refine ⟨?_, ?_⟩
    · intro v
      rw [ih1 v, hm1 v, List.count_cons]
      by_cases hv : v = w
      · subst hv; simp; ring
      · have hb : (w == v) = false := by simpa using Ne.symm hv
        simp [hv, hb]
    · have hw := hpre w
      rw [List.count_cons] at hw
      simp only [beq_self_eq_true, if_true, Nat.cast_add, Nat.cast_one] at hw
      by_cases hd : mapGet 0 m w - 1 = 0
      · have hz : (kahnRelaxStep (m, zero) w).2 = w :: zero := by
          unfold kahnRelaxStep; simp only; rw [if_pos hd]
        have hcw : ns.count w = 0 := by omega
        have hwns : w ∉ ns := List.count_eq_zero.mp hcw
        have hwp : w ∉ pushed := by
          intro hmem
          exact hwns ((ih4 w).mp hmem).1
        refine ⟨pushed ++ [w], by rw [ih2, hz]; simp, ?_, ?_⟩
        · rw [List.nodup_append]
          refine ⟨ih3, List.nodup_singleton w, ?_⟩
          intro a ha hb
          simp only [List.mem_singleton] at hb
          exact hwp (hb ▸ ha)
        · intro x
          rw [List.mem_append, ih4 x, hm1 x, List.count_cons]
          by_cases hx : x = w
          · subst hx
            simp only [List.mem_singleton, or_true, List.mem_cons, true_or, beq_self_eq_true,
              if_true, true_and, true_iff, Nat.cast_add, Nat.cast_one]
            omega
          · have hb : (w == x) = false := by simpa using Ne.symm hx
            simp [hx, hb]
      · have hz : (kahnRelaxStep (m, zero) w).2 = zero := by
          unfold kahnRelaxStep; simp only; rw [if_neg hd]
        refine ⟨pushed, by rw [ih2, hz], ih3, ?_⟩
        intro x
        rw [ih4 x, hm1 x, List.count_cons]
        by_cases hx : x = w
        · subst hx
          simp only [if_true, List.mem_cons, true_or, beq_self_eq_true, true_and, Nat.cast_add,
            Nat.cast_one]
          constructor
          · rintro ⟨_, h⟩; omega
          · intro h
            refine ⟨?_, by omega⟩
            apply List.count_pos_iff.mp
            omega
        · have hb : (w == x) = false := by simpa using Ne.symm hx
          simp [hx, hb]

theorem remIn_snoc (E : List (Int × Int)) (result : List Int) (node v : Int)
    (hnode : node ∉ result) :
    remIn E result v = remIn E (result ++ [node]) v
      + ((E.filter (fun e => decide (e.1 = node))).map Prod.snd).count v := by
  unfold remIn
  induction E with
  | nil => simp
  | cons e es ih =>
    rw [List.countP_cons, List.countP_cons, List.filter_cons, ih]
    by_cases h1 : e.1 = node
    · have h1r : e.1 ∉ result := h1 ▸ hnode
      by_cases h2 : e.2 = v
      · simp [h1, h2, hnode, List.count_cons]
        omega
      · have hb : (e.2 == v) = false := by simpa using h2
        simp [h1, h2, hnode, List.count_cons, hb]
    · by_cases h2 : e.2 = v
      · by_cases h3 : e.1 ∈ result
        · simp [h1, h2, h3]
        · simp [h1, h2, h3]
          omega
      · simp [h1, h2]

theorem Before.snoc {l : List Int} {u v : Int} (h : Before l u v) (x : Int) :
    Before (l ++ [x]) u v := by
  obtain ⟨l1, l2, rfl, hu⟩ := h
  exact ⟨l1, l2 ++ [x], by simp, hu⟩

theorem remIn_eq_zero {E : List (Int × Int)} {result : List Int} {v : Int}
    (h : remIn E result v = 0) : ∀ e ∈ E, e.2 = v → e.1 ∈ result := by
  intro e he hev
  unfold remIn at h
  rw [List.countP_eq_zero] at h
  have := h e he
  simp only [Bool.and_eq_true, decide_eq_true_eq, not_and, not_not] at this
  exact this hev

theorem remIn_pos {E : List (Int × Int)} {result : List Int} {v : Int}
    (h : remIn E result v ≠ 0) : ∃ e ∈ E, e.2 = v ∧ e.1 ∉ result := by
  unfold remIn at h
  have h1 : 0 < E.countP (fun e => decide (e.2 = v) && decide (e.1 ∉ result)) :=
    Nat.pos_of_ne_zero h
  rw [List.countP_pos_iff] at h1
  obtain ⟨e, he, hp⟩ := h1
  simp only [Bool.and_eq_true, decide_eq_true_eq] at hp
  exact ⟨e, he, hp.1, hp.2⟩

theorem mem_neighbours_iff (E : List (Int × Int)) (node w : Int) :
    w ∈ (E.filter (fun e => decide (e.1 = node))).map Prod.snd ↔ (node, w) ∈ E := by
  simp only [List.mem_map, List.mem_filter, decide_eq_true_eq]
  constructor
  · rintro ⟨e, ⟨he, h1⟩, h2⟩
    obtain ⟨a, b⟩ := e
    simp only at h1 h2
    subst h1; subst h2
    exact he
  · intro h
    exact ⟨(node, w), ⟨h, rfl⟩, rfl⟩

theorem kahnInv_step (s : PipelineSystem) (node : Int) (rest result : List Int)
    (deg : List (Int × Int))
    (h : KahnInv s { inDegree := deg, zeroDegreeNodes := node :: rest, result := result }) :
    KahnInv s
      { inDegree := (kahnRelax (mapGet [] (buildStationGraph s).1 node) deg rest).1
        zeroDegreeNodes := (kahnRelax (mapGet [] (buildStationGraph s).1 node) deg rest).2
        result := result ++ [node] } := by
  obtain ⟨hdeg, hnd, hready, hsound⟩ := h
  simp only at hdeg hnd hready hsound
  have hns := (buildStationGraph_spec s).1 node
  rw [hns]
  set ns := ((stationEdges s).filter (fun e => decide (e.1 = node))).map Prod.snd with hnsdef
  have hnode : node ∉ result := by
    intro hmem
    have := (List.nodup_append.mp hnd).2.2 (List.mem_cons_self node rest) hmem
    exact this
  have hcount : ∀ v, remIn (stationEdges s) result v = remIn (stationEdges s) (result ++ [node]) v + ns.count v :=
    fun v => remIn_snoc (stationEdges s) result node v hnode
  have hpre : ∀ w, ((ns.count w : Nat) : Int) ≤ mapGet 0 deg w := by
    intro w
    rw [hdeg w, hcount w]
    push_cast
    omega
  obtain ⟨r1, pushed, r2, r3, r4⟩ := kahnRelax_spec ns deg rest hpre
  have hpushed : ∀ w ∈ pushed, w ∉ node :: rest ∧ w ∉ result := by
    intro w hw
    obtain ⟨hwns, hweq⟩ := (r4 w).mp hw
    have hpos : 0 < ns.count w := List.count_pos_iff.mpr hwns
    have hrem : remIn (stationEdges s) result w ≠ 0 := by
      have := hdeg w
      rw [hweq] at this
      have h2 : ns.count w = remIn (stationEdges s) result w := by exact_mod_cast this
      omega
    have hnot : ¬ (w ∈ node :: rest ∨ w ∈ result) := fun hc => hrem ((hready w).mp hc).2
    exact ⟨fun h1 => hnot (Or.inl h1), fun h1 => hnot (Or.inr h1)⟩
  refine ⟨?_, ?_, ?_, ?_⟩
  · intro v
    simp only
    rw [r1 v, hdeg v, hcount v]
    push_cast
    ring
  · simp only
    rw [r2]
    have hperm : (pushed ++ rest ++ (result ++ [node])).Perm (pushed ++ (node :: rest ++ result)) := by
      rw [List.append_assoc]
      apply List.Perm.append_left
      have : (rest ++ (result ++ [node])).Perm (node :: (rest ++ result)) := by
        rw [← List.append_assoc]
        exact List.perm_append_singleton node (rest ++ result)
      simpa using this
    rw [hperm.nodup_iff, List.nodup_append]
    refine ⟨r3, hnd, ?_⟩
    intro a ha hb
    rcases List.mem_append.mp hb with h1 | h1
    · exact (hpushed a ha).1 h1
    · exact (hpushed a ha).2 h1
  · intro v
    simp only
    rw [r2]
    have hold := hready v
    have hc := hcount v
    constructor
    · intro hv
      have hcase : v ∈ pushed ∨ (v ∈ node :: rest ∨ v ∈ result) := by
        simp only [List.mem_append, List.mem_singleton, List.mem_cons] at hv ⊢
        tauto
      rcases hcase with h1 | h1
      · obtain ⟨hvns, hveq⟩ := (r4 v).mp h1
        have hedge : (node, v) ∈ (stationEdges s) := (mem_neighbours_iff (stationEdges s) node v).mp hvns
        have hst : IsStationId s v := ((mem_stationEdges s node v).mp hedge).2.2
        refine ⟨hst, ?_⟩
        have := hdeg v
        rw [hveq] at this
        have h2 : ns.count v = remIn (stationEdges s) result v := by exact_mod_cast this
        omega
      · obtain ⟨hst, hz⟩ := hold.mp h1
        exact ⟨hst, by omega⟩
    · rintro ⟨hst, hz⟩
      by_cases hcz : ns.count v = 0
      · have : v ∈ node :: rest ∨ v ∈ result := hold.mpr ⟨hst, by omega⟩
        simp only [List.mem_append, List.mem_singleton, List.mem_cons] at this ⊢
        tauto
      · have hvns : v ∈ ns := List.count_pos_iff.mp (Nat.pos_of_ne_zero hcz)
        have hveq : mapGet 0 deg v = ((ns.count v : Nat) : Int) := by
          rw [hdeg v, hc, hz]; simp
        have : v ∈ pushed := (r4 v).mpr ⟨hvns, hveq⟩
        simp only [List.mem_append]
        exact Or.inl (Or.inl this)
  · intro e he hmem
    simp only at hmem ⊢
    rcases List.mem_append.mp hmem with h1 | h1
    · exact (hsound e he h1).snoc node
    · simp only [List.mem_singleton] at h1
      have hz : remIn (stationEdges s) result node = 0 :=
        ((hready node).mp (Or.inl (List.mem_cons_self node rest))).2
      have hin : e.1 ∈ result := remIn_eq_zero hz e he h1
      exact ⟨result, [], by rw [h1], hin⟩

theorem kahnInv_init (s : PipelineSystem) :
    KahnInv s
      { inDegree := (buildStationGraph s).2
        zeroDegreeNodes :=
          (((buildStationGraph s).2.filter (fun kv => kv.2 == 0)).map Prod.fst).reverse
        result := [] } := by
  obtain ⟨_, h2, h3, h4⟩ := buildStationGraph_spec s
  have hrem : ∀ v, remIn (stationEdges s) [] v
      = (stationEdges s).countP (fun e => decide (e.2 = v)) := by
    intro v; unfold remIn; simp
  have hzero : ∀ v, v ∈ (((buildStationGraph s).2.filter (fun kv => kv.2 == 0)).map
      Prod.fst).reverse ↔ (IsStationId s v ∧ remIn (stationEdges s) [] v = 0) := by
    intro v
    rw [List.mem_reverse, List.mem_map]
    constructor
    · rintro ⟨kv, hkv, rfl⟩
      rw [List.mem_filter] at hkv
      have hk : kv.1 ∈ (buildStationGraph s).2.map Prod.fst := List.mem_map_of_mem _ hkv.1
      refine ⟨(h4 _).mp hk, ?_⟩
      have hg := mapGet_of_mem 0 _ h3.nodup kv hkv.1
      rw [h2 kv.1] at hg
      have hz : kv.2 = 0 := by simpa using hkv.2
      rw [hz] at hg
      rw [hrem]
      exact_mod_cast hg
    · rintro ⟨hst, hz⟩
      obtain ⟨kv, hkv, hk⟩ := List.mem_map.mp ((h4 v).mpr hst)
      refine ⟨kv, ?_, hk⟩
      rw [List.mem_filter]
      refine ⟨hkv, ?_⟩
      have hg := mapGet_of_mem 0 _ h3.nodup kv hkv
      rw [hk, h2 v, ← hrem, hz] at hg
      simp only [Nat.cast_zero] at hg
      simp [← hg]
  refine ⟨?_, ?_, ?_, ?_⟩
  · intro v; simp only; rw [h2 v, hrem]
  · simp only [List.append_nil]
    rw [List.nodup_reverse]
    exact (h3.nodup.sublist ((List.filter_sublist _).map Prod.fst))
  · intro v
    simp only [List.not_mem_nil, or_false]
    exact hzero v
  · intro e _ hmem; simp at hmem

theorem kahnLoop_inv (s : PipelineSystem) :
    ∀ (fuel : Nat) (st st' : KahnState), KahnInv s st →
      kahnLoop (buildStationGraph s).1 fuel st = some st' →
      KahnInv s st' ∧ st'.zeroDegreeNodes = [] := by
  intro fuel
  induction fuel with
  | zero => intro st st' _ h; simp [kahnLoop] at h
  | succ k ih =>
    intro st st' hinv h
    obtain ⟨deg, zero, result⟩ := st
    cases zero with
    | nil =>
      simp only [kahnLoop, Option.some.injEq] at h
      subst h
      exact ⟨hinv, rfl⟩
    | cons node rest =>
      simp only [kahnLoop] at h
      exact ih _ _ (kahnInv_step s node rest result deg hinv) h

theorem kahnInv_length (s : PipelineSystem) (st : KahnState) (h : KahnInv s st) :
    st.zeroDegreeNodes.length + st.result.length ≤ s.stations.length := by
  have hsub : (st.zeroDegreeNodes ++ st.result) ⊆ stationIds s := by
    intro v hv
    have := ((h.ready v).mp (List.mem_append.mp hv)).1
    obtain ⟨x, hx, hid⟩ := this
    exact List.mem_map.mpr ⟨x, hx, hid⟩
  have := (List.subperm_of_subset h.nodup hsub).length_le
  simpa [stationIds] using this

theorem kahnLoop_terminates (s : PipelineSystem) :
    ∀ (fuel : Nat) (st : KahnState), KahnInv s st →
      s.stations.length < fuel + st.result.length →
      ∃ st', kahnLoop (buildStationGraph s).1 fuel st = some st' := by
  intro fuel
  induction fuel with
  | zero =>
    intro st hinv hlt
    have := kahnInv_length s st hinv
    omega
  | succ k ih =>
    intro st hinv hlt
    obtain ⟨deg, zero, result⟩ := st
    cases zero with
    | nil => exact ⟨{ inDegree := deg, zeroDegreeNodes := [], result := result }, by simp [kahnLoop]⟩
    | cons node rest =>
      simp only [kahnLoop]
      apply ih _ (kahnInv_step s node rest result deg hinv)
      simp only [List.length_append, List.length_singleton] at hlt ⊢
      omega

theorem kahnFinal_of_inv (s : PipelineSystem) (st : KahnState) (h : KahnInv s st)
    (hz : st.zeroDegreeNodes = []) : KahnFinal s st.result := by
  obtain ⟨hdeg, hnd, hready, hsound⟩ := h
  rw [hz] at hnd hready
  simp only [List.nil_append, List.not_mem_nil, false_or] at hnd hready
  refine ⟨hnd, fun v hv => ((hready v).mp hv).1, ?_, ?_⟩
  · intro v hst hv
    have hne : remIn (stationEdges s) st.result v ≠ 0 := fun h0 => hv ((hready v).mpr ⟨hst, h0⟩)
    obtain ⟨e, he, hev, heu⟩ := remIn_pos hne
    obtain ⟨a, b⟩ := e
    simp only at hev heu
    subst hev
    exact ⟨a, (mem_stationEdges s a b).mp he, heu⟩
  · intro u v huv hv
    exact hsound (u, v) ((mem_stationEdges s u v).mpr huv) hv

theorem kahnResult_final (s : PipelineSystem) (fuel : Nat) (result : List Int)
    (h : kahnResult s fuel = some result) : KahnFinal s result := by
  unfold kahnResult at h
  simp only [Option.map_eq_some'] at h
  obtain ⟨st, hst, rfl⟩ := h
  obtain ⟨hinv, hz⟩ := kahnLoop_inv s fuel _ st (kahnInv_init s) hst
  exact kahnFinal_of_inv s st hinv hz

theorem kahnResult_terminates (s : PipelineSystem) (fuel : Nat)
    (hfuel : s.stations.length < fuel) : ∃ result, kahnResult s fuel = some result := by
  obtain ⟨st, hst⟩ := kahnLoop_terminates s fuel _ (kahnInv_init s) (by simpa using hfuel)
  exact ⟨st.result, by unfold kahnResult; simp only; rw [hst]; rfl⟩

theorem Before.indexOf_lt {l : List Int} {u v : Int} (h : Before l u v) (hnd : l.Nodup) :
    u ∈ l ∧ l.indexOf u < l.indexOf v := by
  obtain ⟨l1, l2, rfl, hu⟩ := h
  have hv : v ∉ l1 := by
    intro hv
    have := (List.nodup_append.mp hnd).2.2 hv (List.mem_cons_self v l2)
    exact this
  refine ⟨List.mem_append_left _ hu, ?_⟩
  rw [List.indexOf_append_of_mem hu, List.indexOf_append_of_not_mem hv, List.indexOf_cons_self]
  have := List.indexOf_lt_length.mpr hu
  omega

theorem kahnFinal_transGen (s : PipelineSystem) (result : List Int) (h : KahnFinal s result) :
    ∀ u v, Relation.TransGen (StationEdge s) u v → v ∈ result →
      u ∈ result ∧ result.indexOf u < result.indexOf v := by
  intro u v huv
  induction huv with
  | single hedge =>
    intro hv
    exact (h.sound _ _ hedge hv).indexOf_lt h.nodup
  | tail _ hedge ih =>
    intro hv
    have h1 := (h.sound _ _ hedge hv).indexOf_lt h.nodup
    have h2 := ih h1.1
    exact ⟨h2.1, lt_trans h2.2 h1.2⟩

theorem kahnFinal_cycle_not_mem (s : PipelineSystem) (result : List Int) (h : KahnFinal s result)
    (v : Int) (hv : Relation.TransGen (StationEdge s) v v) : v ∉ result := by
  intro hmem
  exact lt_irrefl _ (kahnFinal_transGen s result h v v hv hmem).2

theorem transGen_fst_station (s : PipelineSystem) (u v : Int)
    (h : Relation.TransGen (StationEdge s) u v) : IsStationId s u ∧ IsStationId s v := by
  induction h with
  | single hedge => exact ⟨hedge.2.1, hedge.2.2⟩
  | tail _ hedge ih => exact ⟨ih.1, hedge.2.2⟩

theorem kahnFinal_all_of_acyclic (s : PipelineSystem) (result : List Int) (h : KahnFinal s result)
    (hac : ¬ HasStationCycle s) : ∀ v, IsStationId s v → v ∈ result := by
  by_contra hcon
  push_neg at hcon
  obtain ⟨v0, hv0, hv0r⟩ := hcon
  let T := { x : Int // x ∈ (stationIds s).toFinset }
  let r : T → T → Prop := fun a b => Relation.TransGen (StationEdge s) a.1 b.1
  haveI : IsTrans T r := ⟨fun _ _ _ h1 h2 => Relation.TransGen.trans h1 h2⟩
  haveI : IsIrrefl T r := ⟨fun a ha => hac ⟨a.1, ha⟩⟩
  have wf : WellFounded r := Finite.wellFounded_of_trans_of_irrefl r
  have hmemT : ∀ x, IsStationId s x → x ∈ (stationIds s).toFinset := by
    intro x hx
    obtain ⟨st, hst, hid⟩ := hx
    rw [List.mem_toFinset]
    exact List.mem_map.mpr ⟨st, hst, hid⟩
  obtain ⟨m, hm, hmin⟩ := wf.has_min { a : T | a.1 ∉ result } ⟨⟨v0, hmemT v0 hv0⟩, hv0r⟩
  have hmst : IsStationId s m.1 := by
    have := m.2
    rw [List.mem_toFinset] at this
    obtain ⟨st, hst, hid⟩ := List.mem_map.mp this
    exact ⟨st, hst, hid⟩
  obtain ⟨u, hedge, hu⟩ := h.blocked m.1 hmst hm
  exact hmin ⟨u, hmemT u hedge.2.1⟩ hu (Relation.TransGen.single hedge)

theorem kahnFinal_perm_of_acyclic (s : PipelineSystem) (result : List Int)
    (h : KahnFinal s result) (hac : ¬ HasStationCycle s) (hdist : (stationIds s).Nodup) :
    result.Perm (stationIds s) := by
  apply List.perm_of_nodup_nodup_toFinset_eq h.nodup hdist
  ext x
  simp only [List.mem_toFinset]
  constructor
  · intro hx
    obtain ⟨st, hst, hid⟩ := h.stations x hx
    exact List.mem_map.mpr ⟨st, hst, hid⟩
  · intro hx
    obtain ⟨st, hst, hid⟩ := List.mem_map.mp hx
    exact kahnFinal_all_of_acyclic s result h hac x ⟨st, hst, hid⟩

theorem filter_isStation_eq (s : PipelineSystem) (result : List Int)
    (h : ∀ v ∈ result, IsStationId s v) :
    result.filter (fun id => (findStationIndexById s id).isSome) = result := by
  rw [List.filter_eq_self]
  intro v hv
  have := (getObjectInfo_isStation s v).mpr (h v hv)
  unfold getObjectInfo at this
  cases hf : findStationIndexById s v with
  | some i => rfl
  | none =>
    rw [hf] at this
    cases hp : findPipeIndexById s v <;> simp [hp] at this

theorem topologicalSort_eq (s : PipelineSystem) (fuel : Nat) (result : List Int)
    (hnet : s.network ≠ []) (h : kahnResult s fuel = some result) :
    topologicalSort s fuel =
      if result.length ≠ s.stations.length then
        some (.cycle ((s.stations.filter (fun st => decide (st.id ∉ result))).map
          (fun st => st.id)))
      else some (.order result) := by
  unfold topologicalSort
  rw [if_neg hnet, h]
  simp only
  split_ifs with hlen
  · rfl
  · rw [filter_isStation_eq s result (kahnResult_final s fuel result h).stations]

/-! ## Chains -/

theorem chain'_of_zip_tail (R : Int → Int → Prop) :
    ∀ c : List Int, (∀ p ∈ c.zip c.tail, R p.1 p.2) → c.Chain' R := by
  intro c
  induction c with
  | nil => intro _; exact List.chain'_nil
  | cons a t ih =>
    intro h
    cases t with
    | nil => exact List.chain'_singleton a
    | cons b t =>
      rw [List.chain'_cons]
      refine ⟨h (a, b) (by simp), ih ?_⟩
      intro p hp
      apply h p
      simp only [List.tail_cons, List.zip_cons_cons, List.mem_cons] at hp ⊢
      exact Or.inr hp

theorem zip_tail_indexOf_lt :
    ∀ c : List Int, c.Nodup → ∀ u v, (u, v) ∈ c.zip c.tail → c.indexOf u < c.indexOf v := by
  intro c
  induction c with
  | nil => intro _ u v h; simp at h
  | cons a t ih =>
    intro hnd u v h
    cases t with
    | nil => simp at h
    | cons b t =>
      simp only [List.tail_cons, List.zip_cons_cons, List.mem_cons, Prod.mk.injEq] at h
      have hnd' := List.nodup_cons.mp hnd
      rcases h with ⟨rfl, rfl⟩ | h
      · have hne : v ≠ u := by
          intro heq
          exact hnd'.1 (heq ▸ List.mem_cons_self v t)
        rw [List.indexOf_cons_self, List.indexOf_cons_ne _ (Ne.symm hne)]
        omega
      · have hmem := List.of_mem_zip h
        have hu : u ≠ a := fun heq => hnd'.1 (heq ▸ hmem.1)
        have hv : v ≠ a := fun heq => hnd'.1 (heq ▸ List.mem_cons_of_mem _ hmem.2)
        rw [List.indexOf_cons_ne _ (Ne.symm hu), List.indexOf_cons_ne _ (Ne.symm hv)]
        have := ih hnd'.2 u v (by simpa using h)
        omega

theorem pairwise_indexOf_of_nodup (l : List Int) (h : l.Nodup) :
    l.Pairwise (fun a b => l.indexOf a < l.indexOf b) := by
  rw [List.pairwise_iff_getElem]
  intro i j hi hj hij
  rw [List.indexOf_getElem h i hi, List.indexOf_getElem h j hj]
  exact hij

/-! ## Structure of the residual graph -/

theorem graph_ext (g g' : Graph) (hl : g.length = g'.length) (h : ∀ u, adj g u = adj g' u) :
    g = g' := by
  apply List.ext_getElem? 
  intro u
  by_cases hu : u < g.length
  · have hu' : u < g'.length := hl ▸ hu
    have := h u
    unfold adj at this
    rw [List.getD_eq_getElem?_getD, List.getD_eq_getElem?_getD,
      List.getElem?_eq_getElem hu, List.getElem?_eq_getElem hu'] at this
    simp only [Option.getD_some] at this
    rw [List.getElem?_eq_getElem hu, List.getElem?_eq_getElem hu', this]
  · have hu' : ¬ u < g'.length := hl ▸ hu
    rw [List.getElem?_eq_none (not_lt.mp hu), List.getElem?_eq_none (not_lt.mp hu')]

theorem adj_of_ge (g : Graph) (u : Nat) (h : g.length ≤ u) : adj g u = [] := by
  unfold adj
  rw [List.getD_eq_getElem?_getD, List.getElem?_eq_none h]
  rfl

theorem adj_set (g : Graph) (u : Nat) (l : List GraphEdge) (y : Nat) (hu : u < g.length) :
    adj (g.set u l) y = if y = u then l else adj g y := by
  unfold adj
  simp only [List.getD_eq_getElem?_getD, List.getElem?_set]
  by_cases hy : y = u
  · subst hy; simp [hu]
  · simp [hy, Ne.symm hy]

theorem length_addFlow (g : Graph) (u i : Nat) (d : ℚ) : (addFlow g u i d).length = g.length := by
  unfold addFlow
  split <;> simp

theorem adj_addFlow (g : Graph) (u i : Nat) (d : ℚ) (y : Nat) :
    adj (addFlow g u i d) y = if y = u then bump (adj g u) i d else adj g y := by
  unfold addFlow bump
  cases h : (adj g u).get? i with
  | none =>
    simp only
    split_ifs with hy
    · rw [hy]
    · rfl
  | some e =>
    simp only
    have hu : u < g.length := by
      by_contra hcon
      rw [adj_of_ge g u (not_lt.mp hcon)] at h
      simp at h
    exact adj_set g u _ y hu

theorem length_bump (l : List GraphEdge) (i : Nat) (d : ℚ) : (bump l i d).length = l.length := by
  unfold bump
  split <;> simp

theorem bump_append_left (l l' : List GraphEdge) (i : Nat) (d : ℚ) (hi : i < l.length) :
    bump (l ++ l') i d = bump l i d ++ l' := by
  unfold bump
  have h1 : (l ++ l').get? i = l.get? i := by
    simp only [List.get?_eq_getElem?]
    exact List.getElem?_append_left hi
  rw [h1]
  cases h : l.get? i with
  | none => rfl
  | some e =>
    simp only
    rw [List.set_append_left _ _ hi]

theorem getElem?_bump (l : List GraphEdge) (i : Nat) (d : ℚ) (j : Nat) :
    (bump l i d)[j]? =
      if j = i then (l[i]?).map (fun e => { e with flow := e.flow + d }) else l[j]? := by
  unfold bump
  cases h : l.get? i with
  | none =>
    simp only [List.get?_eq_getElem?] at h
    simp only
    split_ifs with hj
    · rw [hj, h]; rfl
    · rfl
  | some e =>
    simp only [List.get?_eq_getElem?] at h
    simp only
    rw [List.getElem?_set]
    have hi : i < l.length := by
      by_contra hcon
      rw [List.getElem?_eq_none (not_lt.mp hcon)] at h
      simp at h
    split_ifs with h1 h2 h3
    · rw [h]; rfl
    · exact absurd h1.symm h2
    · exact absurd h3.symm h1
    · rfl

theorem length_addArc (g : Graph) (a : Arc) (x : ℚ) : (addArc g a x).length = g.length := by
  simp [addArc, length_pushEdge]

theorem adj_addArc (g : Graph) (a : Arc) (x : ℚ) (y : Nat) (hs : a.s < g.length)
    (ht : a.t < g.length) :
    adj (addArc g a x) y =
      adj g y
        ++ (if y = a.s then
              [{ to_ := a.t, pipeId := a.pipeId, capacity := a.cap, flow := x, weight := a.w,
                 rev := (adj g a.t).length }]
            else [])
        ++ (if y = a.t then
              [{ to_ := a.s, pipeId := a.pipeId, capacity := 0, flow := -x, weight := a.w,
                 rev := (adj g a.s).length }]
            else []) := by
  unfold addArc
  rw [adj_pushEdge _ _ _ _ (by rw [length_pushEdge]; exact ht)]
  rw [adj_pushEdge _ _ _ _ hs, adj_pushEdge _ _ _ _ hs]
  by_cases h1 : y = a.t
  · by_cases h2 : y = a.s
    · have h3 : a.t = a.s := h1.symm.trans h2
      simp [h1, h3]
    · have h3 : a.t ≠ a.s := fun h => h2 (h1.trans h)
      simp [h1, h3]
  · by_cases h2 : y = a.s
    · have h3 : a.s ≠ a.t := fun h => h1 (h2.trans h)
      simp [h2, h3]
    · simp [h1, h2]

theorem buildArcs_snoc (n : Nat) (fa : List (Arc × ℚ)) (a : Arc) (x : ℚ) :
    buildArcs n (fa ++ [(a, x)]) = addArc (buildArcs n fa) a x := by
  simp [buildArcs, List.foldl_append]

theorem length_buildArcs (n : Nat) (fa : List (Arc × ℚ)) : (buildArcs n fa).length = n := by
  induction fa using List.reverseRecOn with
  | nil => simp [buildArcs]
  | append_singleton fa p ih =>
    obtain ⟨a, x⟩ := p
    rw [buildArcs_snoc, length_addArc, ih]

theorem length_pushFlow (f : ℚ) (g : Graph) (st : Nat × Nat × Nat) :
    (pushFlow f g st).length = g.length := by
  unfold pushFlow
  split
  · rw [length_addFlow, length_addFlow]
  · rfl

theorem adj_pushFlow (f : ℚ) (g : Graph) (u i v : Nat) (e : GraphEdge)
    (he : (adj g u)[i]? = some e) (huv : u ≠ v) (y : Nat) :
    adj (pushFlow f g (u, i, v)) y =
      if y = u then bump (adj g u) i f
      else if y = v then bump (adj g v) e.rev (-f)
      else adj g y := by
  unfold pushFlow
  simp only [List.get?_eq_getElem?, he]
  rw [adj_addFlow, adj_addFlow, adj_addFlow]
  by_cases h1 : y = v
  · have h2 : y ≠ u := fun h => huv (h.symm.trans h1)
    have h3 : v ≠ u := fun h => huv h.symm
    simp [h1, h3]
  · simp [h1]

theorem length_adj_addFlow (g : Graph) (u i : Nat) (d : ℚ) (y : Nat) :
    (adj (addFlow g u i d) y).length = (adj g y).length := by
  rw [adj_addFlow]
  split_ifs with h
  · rw [length_bump, h]
  · rfl

theorem length_adj_pushFlow (f : ℚ) (g : Graph) (st : Nat × Nat × Nat) (y : Nat) :
    (adj (pushFlow f g st) y).length = (adj g y).length := by
  unfold pushFlow
  split
  · rw [length_adj_addFlow, length_adj_addFlow]
  · rfl

theorem bump_append_right (l : List GraphEdge) (e : GraphEdge) (l' : List GraphEdge) (d : ℚ) :
    bump (l ++ e :: l') l.length d = l ++ { e with flow := e.flow + d } :: l' := by
  unfold bump
  have h : (l ++ e :: l').get? l.length = some e := by
    rw [List.get?_eq_getElem?, List.getElem?_append_right (le_refl _)]
    simp
  rw [h]
  simp

theorem pushFlow_addArc_old (f : ℚ) (g : Graph) (a : Arc) (x : ℚ) (u i : Nat) (e : GraphEdge)
    (hs : a.s < g.length) (ht : a.t < g.length)
    (he : (adj g u)[i]? = some e) (hne : e.to_ ≠ u) (hrev : e.rev < (adj g e.to_).length) :
    pushFlow f (addArc g a x) (u, i, e.to_) = addArc (pushFlow f g (u, i, e.to_)) a x := by
  have hi : i < (adj g u).length := by
    by_contra hcon
    rw [List.getElem?_eq_none (not_lt.mp hcon)] at he
    simp at he
  have he' : (adj (addArc g a x) u)[i]? = some e := by
    rw [adj_addArc g a x u hs ht, List.append_assoc, List.getElem?_append_left hi]
    exact he
  apply graph_ext
  · rw [length_pushFlow, length_addArc, length_addArc, length_pushFlow]
  · intro y
    rw [adj_pushFlow f _ u i e.to_ e he' (Ne.symm hne) y]
    rw [adj_addArc (pushFlow f g (u, i, e.to_)) a x y (by rw [length_pushFlow]; exact hs)
      (by rw [length_pushFlow]; exact ht)]
    rw [length_adj_pushFlow, length_adj_pushFlow]
    rw [adj_pushFlow f g u i e.to_ e he (Ne.symm hne) y]
    by_cases h1 : y = u
    · subst h1
      rw [if_pos rfl, if_pos rfl, adj_addArc g a x y hs ht, List.append_assoc,
        bump_append_left _ _ _ _ hi, List.append_assoc]
    · rw [if_neg h1, if_neg h1]
      by_cases h2 : y = e.to_
      · rw [if_pos h2, if_pos h2, adj_addArc g a x e.to_ hs ht, List.append_assoc,
          bump_append_left _ _ _ _ hrev, List.append_assoc, h2]
      · rw [if_neg h2, if_neg h2, adj_addArc g a x y hs ht]

theorem pushFlow_addArc_fwd (f : ℚ) (g : Graph) (a : Arc) (x : ℚ)
    (hs : a.s < g.length) (ht : a.t < g.length) (hne : a.s ≠ a.t) :
    pushFlow f (addArc g a x) (a.s, (adj g a.s).length, a.t) = addArc g a (x + f) := by
  have he : (adj (addArc g a x) a.s)[(adj g a.s).length]? =
      some { to_ := a.t, pipeId := a.pipeId, capacity := a.cap, flow := x, weight := a.w,
             rev := (adj g a.t).length } := by
    rw [adj_addArc g a x a.s hs ht]
    simp [hne]
  apply graph_ext
  · rw [length_pushFlow, length_addArc, length_addArc]
  · intro y
    rw [adj_pushFlow f _ _ _ _ _ he hne y, adj_addArc g a (x + f) y hs ht]
    by_cases h1 : y = a.s
    · subst h1
      rw [if_pos rfl, adj_addArc g a x a.s hs ht]
      simp only [if_true, if_neg hne, List.append_nil]
      rw [bump_append_right]
    · rw [if_neg h1]
      by_cases h2 : y = a.t
      · subst h2
        rw [if_pos rfl, adj_addArc g a x a.t hs ht]
        simp only [if_neg h1, if_true, List.append_nil]
        rw [bump_append_right]
        simp only [List.append_cancel_left_eq, List.cons.injEq, and_true]
        congr 1
        ring
      · rw [if_neg h2, adj_addArc g a x y hs ht]
        simp [h1, h2]

theorem pushFlow_addArc_bwd (f : ℚ) (g : Graph) (a : Arc) (x : ℚ)
    (hs : a.s < g.length) (ht : a.t < g.length) (hne : a.s ≠ a.t) :
    pushFlow f (addArc g a x) (a.t, (adj g a.t).length, a.s) = addArc g a (x - f) := by
  have hne' : a.t ≠ a.s := fun h => hne h.symm
  have he : (adj (addArc g a x) a.t)[(adj g a.t).length]? =
      some { to_ := a.s, pipeId := a.pipeId, capacity := 0, flow := -x, weight := a.w,
             rev := (adj g a.s).length } := by
    rw [adj_addArc g a x a.t hs ht]
    simp [hne']
  apply graph_ext
  · rw [length_pushFlow, length_addArc, length_addArc]
  · intro y
    rw [adj_pushFlow f _ _ _ _ _ he hne' y, adj_addArc g a (x - f) y hs ht]
    by_cases h1 : y = a.t
    · subst h1
      rw [if_pos rfl, adj_addArc g a x a.t hs ht]
      simp only [if_true, if_neg hne', List.append_nil]
      rw [bump_append_right]
      simp only [List.append_cancel_left_eq, List.cons.injEq, and_true]
      congr 1
      ring
    · rw [if_neg h1]
      by_cases h2 : y = a.s
      · subst h2
        rw [if_pos rfl, adj_addArc g a x a.s hs ht]
        simp only [if_neg h1, if_true, List.append_nil]
        rw [bump_append_right]
        simp only [List.append_cancel_left_eq, List.cons.injEq, and_true]
        congr 1
        ring
      · rw [if_neg h2, adj_addArc g a x y hs ht]
        simp [h1, h2]

theorem adj_buildArcs_nil (n y : Nat) : adj (buildArcs n []) y = [] := by
  unfold adj buildArcs
  simp only [List.foldl_nil, List.getD_eq_getElem?_getD]
  by_cases h : y < n
  · simp [h]
  · simp [List.getElem?_eq_none, h]

theorem push_buildArcs (n : Nat) :
    ∀ fa : List (Arc × ℚ), (∀ p ∈ fa, p.1.s < n ∧ p.1.t < n) →
    ∀ u i e, (adj (buildArcs n fa) u)[i]? = some e → e.to_ ≠ u →
      e.rev < (adj (buildArcs n fa) e.to_).length ∧
      ∃ k a x, fa[k]? = some (a, x) ∧
        ((a.s = u ∧ a.t = e.to_ ∧ e.capacity = a.cap ∧ e.flow = x ∧
            ∀ f, pushFlow f (buildArcs n fa) (u, i, e.to_)
              = buildArcs n (fa.set k (a, x + f))) ∨
         (a.t = u ∧ a.s = e.to_ ∧ e.capacity = 0 ∧ e.flow = -x ∧
            ∀ f, pushFlow f (buildArcs n fa) (u, i, e.to_)
              = buildArcs n (fa.set k (a, x - f)))) := by
  intro fa
  induction fa using List.reverseRecOn with
  | nil =>
    intro _ u i e he _
    rw [adj_buildArcs_nil] at he
    simp at he
  | append_singleton fa p ih =>
    obtain ⟨a0, x0⟩ := p
    intro hv u i e he hne
    have hvfa : ∀ p ∈ fa, p.1.s < n ∧ p.1.t < n := fun p hp => hv p (List.mem_append_left _ hp)
    have hv0 := hv (a0, x0) (List.mem_append_right _ (List.mem_singleton_self _))
    simp only at hv0
    have hs0 : a0.s < (buildArcs n fa).length := by rw [length_buildArcs]; exact hv0.1
    have ht0 : a0.t < (buildArcs n fa).length := by rw [length_buildArcs]; exact hv0.2
    rw [buildArcs_snoc] at he ⊢
    rw [adj_addArc _ a0 x0 u hs0 ht0] at he
    by_cases hi : i < (adj (buildArcs n fa) u).length
    · rw [List.append_assoc, List.getElem?_append_left hi] at he
      obtain ⟨hrev, k, a, x, hk, hcase⟩ := ih hvfa u i e he hne
      have hklt : k < fa.length := by
        by_contra hcon
        rw [List.getElem?_eq_none (not_lt.mp hcon)] at hk
        simp at hk
      have hk' : (fa ++ [(a0, x0)])[k]? = some (a, x) := by
        rw [List.getElem?_append_left hklt]; exact hk
      have hset : ∀ v, (fa ++ [(a0, x0)]).set k v = fa.set k v ++ [(a0, x0)] :=
        fun v => List.set_append_left _ _ hklt
      refine ⟨?_, k, a, x, hk', ?_⟩
      · rw [adj_addArc _ a0 x0 e.to_ hs0 ht0]
        simp only [List.length_append]
        omega
      · rcases hcase with ⟨h1, h2, h3, h4, hpush⟩ | ⟨h1, h2, h3, h4, hpush⟩
        · refine Or.inl ⟨h1, h2, h3, h4, fun f => ?_⟩
          rw [pushFlow_addArc_old f _ a0 x0 u i e hs0 ht0 he hne hrev, hpush f, hset,
            buildArcs_snoc]
        · refine Or.inr ⟨h1, h2, h3, h4, fun f => ?_⟩
          rw [pushFlow_addArc_old f _ a0 x0 u i e hs0 ht0 he hne hrev, hpush f, hset,
            buildArcs_snoc]
    · have hk' : (fa ++ [(a0, x0)])[fa.length]? = some (a0, x0) := by
        rw [List.getElem?_append_right (le_refl _)]; simp
      have hset : ∀ v, (fa ++ [(a0, x0)]).set fa.length v = fa ++ [v] := by
        intro v
        rw [List.set_append_right _ _ (le_refl _)]
        simp
      rw [List.append_assoc, List.getElem?_append_right (not_lt.mp hi)] at he
      by_cases hus : u = a0.s
      · by_cases hut : u = a0.t
        · -- a self-loop: both new edges point back to `u`
          rw [if_pos hus, if_pos hut] at he
          have hmem := List.getElem?_mem he
          simp only [List.singleton_append, List.mem_cons, List.mem_singleton,
            List.not_mem_nil, or_false] at hmem
          rcases hmem with rfl | rfl
          · exact absurd hut.symm hne
          · exact absurd hus.symm hne
        · rw [if_pos hus, if_neg hut] at he
          have hmem := List.getElem?_mem he
          simp only [List.append_nil, List.mem_singleton] at hmem
          have hidx : i = (adj (buildArcs n fa) u).length := by
            have : i - (adj (buildArcs n fa) u).length < 1 := by
              by_contra hcon
              rw [List.getElem?_eq_none (by
                simp only [List.length_append, List.length_singleton, List.length_nil]; omega)] at he
              simp at he
            omega
          have hst : a0.s ≠ a0.t := fun h => hut (hus.trans h)
          subst hmem
          refine ⟨?_, fa.length, a0, x0, hk', Or.inl ⟨hus.symm, rfl, rfl, rfl, fun f => ?_⟩⟩
          · simp only
            rw [adj_addArc _ a0 x0 a0.t hs0 ht0]
            simp [Ne.symm hst]
          · simp only
            rw [hidx, hus, pushFlow_addArc_fwd f _ a0 x0 hs0 ht0 hst, hset, buildArcs_snoc]
      · by_cases hut : u = a0.t
        · rw [if_neg hus, if_pos hut] at he
          have hmem := List.getElem?_mem he
          simp only [List.nil_append, List.mem_singleton] at hmem
          have hidx : i = (adj (buildArcs n fa) u).length := by
            have : i - (adj (buildArcs n fa) u).length < 1 := by
              by_contra hcon
              rw [List.getElem?_eq_none (by
                simp only [List.length_append, List.length_singleton, List.length_nil]; omega)] at he
              simp at he
            omega
          have hst : a0.s ≠ a0.t := fun h => hus (hut.trans h.symm)
          subst hmem
          refine ⟨?_, fa.length, a0, x0, hk', Or.inr ⟨hut.symm, rfl, rfl, rfl, fun f => ?_⟩⟩
          · simp only
            rw [adj_addArc _ a0 x0 a0.s hs0 ht0]
            simp [hst]
          · simp only
            rw [hidx, hut, pushFlow_addArc_bwd f _ a0 x0 hs0 ht0 hst, hset, buildArcs_snoc]
        · rw [if_neg hus, if_neg hut] at he
          simp at he

theorem sum_map_set {α : Type} (g : α → ℚ) :
    ∀ (l : List α) (k : Nat) (v w : α), l[k]? = some w →
      ((l.set k v).map g).sum = (l.map g).sum + (g v - g w) := by
  intro l
  induction l with
  | nil => intro k v w h; simp at h
  | cons a t ih =>
    intro k v w h
    cases k with
    | zero =>
      simp only [List.getElem?_cons_zero, Option.some.injEq] at h
      subst h
      simp only [List.set_cons_zero, List.map_cons, List.sum_cons]
      ring
    | succ k =>
      simp only [List.getElem?_cons_succ] at h
      simp only [List.set_cons_succ, List.map_cons, List.sum_cons, ih k v w h]
      ring

theorem netOut_set (fa : List (Arc × ℚ)) (k : Nat) (a : Arc) (x x' : ℚ) (y : Nat)
    (hk : fa[k]? = some (a, x)) :
    netOut (fa.set k (a, x')) y
      = netOut fa y + (x' - x) * ((if a.s = y then 1 else 0) - (if a.t = y then 1 else 0)) := by
  unfold netOut
  rw [sum_map_set _ fa k (a, x') (a, x) hk]
  simp only
  split_ifs <;> ring

theorem map_fst_set (fa : List (Arc × ℚ)) (k : Nat) (a : Arc) (x x' : ℚ)
    (hk : fa[k]? = some (a, x)) : (fa.set k (a, x')).map Prod.fst = fa.map Prod.fst := by
  apply List.ext_getElem?
  intro j
  simp only [List.getElem?_map, List.getElem?_set]
  by_cases hj : k = j
  · subst hj
    have hlt : k < fa.length := by
      by_contra hcon
      rw [List.getElem?_eq_none (not_lt.mp hcon)] at hk
      simp at hk
    simp [hlt, hk]
  · simp [hj]

theorem mem_adj_buildArcs (n : Nat) :
    ∀ (fa : List (Arc × ℚ)), (∀ p ∈ fa, p.1.s < n ∧ p.1.t < n) →
      ∀ y e, e ∈ adj (buildArcs n fa) y →
        ∃ p ∈ fa, (p.1.s = y ∧ e.to_ = p.1.t ∧ e.capacity = p.1.cap ∧ e.flow = p.2) ∨
          (p.1.t = y ∧ e.to_ = p.1.s ∧ e.capacity = 0 ∧ e.flow = -p.2) := by
  intro fa
  induction fa using List.reverseRecOn with
  | nil => intro _ y e he; rw [adj_buildArcs_nil] at he; simp at he
  | append_singleton fa p ih =>
    obtain ⟨a0, x0⟩ := p
    intro hv y e he
    have hvfa : ∀ p ∈ fa, p.1.s < n ∧ p.1.t < n := fun p hp => hv p (List.mem_append_left _ hp)
    have hv0 := hv (a0, x0) (List.mem_append_right _ (List.mem_singleton_self _))
    simp only at hv0
    rw [buildArcs_snoc, adj_addArc _ a0 x0 y (by rw [length_buildArcs]; exact hv0.1)
      (by rw [length_buildArcs]; exact hv0.2)] at he
    rcases List.mem_append.mp he with h1 | h1
    · rcases List.mem_append.mp h1 with h2 | h2
      · obtain ⟨p, hp, hcase⟩ := ih hvfa y e h2
        exact ⟨p, List.mem_append_left _ hp, hcase⟩
      · split_ifs at h2 with hy
        · simp only [List.mem_singleton] at h2
          subst h2
          exact ⟨(a0, x0), by simp, Or.inl ⟨hy.symm, rfl, rfl, rfl⟩⟩
        · simp at h2
    · split_ifs at h1 with hy
      · simp only [List.mem_singleton] at h1
        subst h1
        exact ⟨(a0, x0), by simp, Or.inr ⟨hy.symm, rfl, rfl, rfl⟩⟩
      · simp at h1

theorem arc_edges_buildArcs (n : Nat) :
    ∀ (fa : List (Arc × ℚ)), (∀ p ∈ fa, p.1.s < n ∧ p.1.t < n) →
      ∀ p ∈ fa,
        (∃ e ∈ adj (buildArcs n fa) p.1.s,
          e.capacity = p.1.cap ∧ e.flow = p.2 ∧ e.to_ = p.1.t) ∧
        (∃ e ∈ adj (buildArcs n fa) p.1.t,
          e.capacity = 0 ∧ e.flow = -p.2 ∧ e.to_ = p.1.s) := by
  intro fa
  induction fa using List.reverseRecOn with
  | nil => intro _ p hp; simp at hp
  | append_singleton fa q ih =>
    obtain ⟨a0, x0⟩ := q
    intro hv p hp
    have hvfa : ∀ p ∈ fa, p.1.s < n ∧ p.1.t < n := fun p hp => hv p (List.mem_append_left _ hp)
    have hv0 := hv (a0, x0) (List.mem_append_right _ (List.mem_singleton_self _))
    simp only at hv0
    have hs0 : a0.s < (buildArcs n fa).length := by rw [length_buildArcs]; exact hv0.1
    have ht0 : a0.t < (buildArcs n fa).length := by rw [length_buildArcs]; exact hv0.2
    rw [buildArcs_snoc]
    rcases List.mem_append.mp hp with h1 | h1
    · obtain ⟨⟨e1, he1, h11⟩, ⟨e2, he2, h22⟩⟩ := ih hvfa p h1
      refine ⟨⟨e1, ?_, h11⟩, ⟨e2, ?_, h22⟩⟩
      · rw [adj_addArc _ a0 x0 _ hs0 ht0, List.append_assoc]
        exact List.mem_append_left _ he1
      · rw [adj_addArc _ a0 x0 _ hs0 ht0, List.append_assoc]
        exact List.mem_append_left _ he2
    · simp only [List.mem_singleton] at h1
      subst h1
      simp only
      refine ⟨⟨{ to_ := a0.t, pipeId := a0.pipeId, capacity := a0.cap, flow := x0, weight := a0.w,
                 rev := (adj (buildArcs n fa) a0.t).length }, ?_, rfl, rfl, rfl⟩,
              ⟨{ to_ := a0.s, pipeId := a0.pipeId, capacity := 0, flow := -x0, weight := a0.w,
                 rev := (adj (buildArcs n fa) a0.s).length }, ?_, rfl, rfl, rfl⟩⟩
      · rw [adj_addArc _ a0 x0 _ hs0 ht0, if_pos rfl]
        exact List.mem_append_left _ (List.mem_append_right _ (List.mem_singleton_self _))
      · rw [adj_addArc _ a0 x0 _ hs0 ht0, if_pos rfl]
        exact List.mem_append_right _ (List.mem_singleton_self _)

theorem arc_bounds_of_capOK (n : Nat) (fa : List (Arc × ℚ))
    (hv : ∀ p ∈ fa, p.1.s < n ∧ p.1.t < n) (hc : CapOK (buildArcs n fa)) :
    ∀ p ∈ fa, 0 ≤ p.2 ∧ p.2 ≤ p.1.cap := by
  intro p hp
  obtain ⟨⟨e1, he1, h1c, h1f, _⟩, ⟨e2, he2, h2c, h2f, _⟩⟩ := arc_edges_buildArcs n fa hv p hp
  have b1 := hc _ e1 he1
  have b2 := hc _ e2 he2
  rw [h1c, h1f] at b1
  rw [h2c, h2f] at b2
  exact ⟨by linarith, b1⟩

theorem adj_to_lt (n : Nat) (fa : List (Arc × ℚ)) (hv : ∀ p ∈ fa, p.1.s < n ∧ p.1.t < n)
    (y : Nat) (e : GraphEdge) (he : e ∈ adj (buildArcs n fa) y) : e.to_ < n := by
  obtain ⟨p, hp, h | h⟩ := mem_adj_buildArcs n fa hv y e he
  · rw [h.2.1]; exact (hv p hp).2
  · rw [h.2.1]; exact (hv p hp).1

/-! ## The builder in terms of arcs -/

theorem mem_setInsert (x y : Int) : ∀ l : List Int, x ∈ setInsert y l ↔ x = y ∨ x ∈ l := by
  intro l
  induction l with
  | nil => simp [setInsert]
  | cons z zs ih =>
    simp only [setInsert]
    split_ifs with h1 h2
    · simp
    · subst h2; simp
    · simp only [List.mem_cons, ih]
      tauto

theorem mem_collectNodes (network : List NetworkConnection) (x : Int) :
    x ∈ collectNodes network ↔ ∃ conn ∈ network, x = conn.startId ∨ x = conn.endId := by
  unfold collectNodes
  have key : ∀ (L : List NetworkConnection) (acc : List Int),
      x ∈ L.foldl (fun nodes conn => setInsert conn.endId (setInsert conn.startId nodes)) acc ↔
        (x ∈ acc ∨ ∃ conn ∈ L, x = conn.startId ∨ x = conn.endId) := by
    intro L
    induction L with
    | nil => intro acc; simp
    | cons c cs ih =>
      intro acc
      simp only [List.foldl_cons, ih, mem_setInsert, List.mem_cons, exists_eq_or_imp]
      constructor
      · rintro ((h | h | h) | h)
        · exact Or.inr (Or.inl (Or.inr h))
        · exact Or.inr (Or.inl (Or.inl h))
        · exact Or.inl h
        · exact Or.inr (Or.inr h)
      · rintro (h | (h | h) | h)
        · exact Or.inl (Or.inr (Or.inr h))
        · exact Or.inl (Or.inr (Or.inl h))
        · exact Or.inl (Or.inl h)
        · exact Or.inr h
  simpa using key network []

theorem idToIndex_lt (nodes : List Int) (id : Int) (h : id ∈ nodes) :
    idToIndex nodes id < nodes.length :=
  List.indexOf_lt_length.mpr h

theorem getD_idToIndex (nodes : List Int) (id : Int) (h : id ∈ nodes) :
    nodes.getD (idToIndex nodes id) 0 = id := by
  have hlt := idToIndex_lt nodes id h
  unfold idToIndex at hlt ⊢
  rw [List.getD_eq_getElem?_getD, List.getElem?_eq_getElem hlt]
  simp [List.getElem_indexOf]

theorem addConnection_eq (sqrt : ℚ → ℚ) (s : PipelineSystem) (nodes : List Int) (g : Graph)
    (conn : NetworkConnection) :
    addConnection sqrt s nodes g conn =
      match arcOf sqrt s nodes conn with
      | none => g
      | some a => addArc g a 0 := by
  unfold addConnection arcOf
  cases findPipeIndexById s conn.pipeId with
  | none => rfl
  | some i =>
    simp only
    cases s.pipes.get? i with
    | none => rfl
    | some pipe => simp [addArc]

theorem foldl_addConnection (sqrt : ℚ → ℚ) (s : PipelineSystem) (nodes : List Int) :
    ∀ (L : List NetworkConnection) (g : Graph),
      L.foldl (addConnection sqrt s nodes) g =
        ((L.filterMap (arcOf sqrt s nodes)).map (fun a => (a, (0 : ℚ)))).foldl
          (fun g p => addArc g p.1 p.2) g := by
  intro L
  induction L with
  | nil => intro g; rfl
  | cons c cs ih =>
    intro g
    rw [List.foldl_cons, ih, addConnection_eq, List.filterMap_cons]
    cases arcOf sqrt s nodes c with
    | none => rfl
    | some a => simp

theorem build_eq (sqrt : ℚ → ℚ) (s : PipelineSystem) :
    (buildGraphForAlgorithms sqrt s).1 =
      buildArcs (collectNodes s.network).length ((arcsOf sqrt s).map (fun a => (a, (0 : ℚ)))) := by
  unfold buildGraphForAlgorithms buildArcs arcsOf
  simp only
  rw [foldl_addConnection]

theorem build_nodes (sqrt : ℚ → ℚ) (s : PipelineSystem) :
    (buildGraphForAlgorithms sqrt s).2 = collectNodes s.network := rfl

theorem arcOf_some (sqrt : ℚ → ℚ) (s : PipelineSystem) (nodes : List Int)
    (conn : NetworkConnection) (a : Arc) (h : arcOf sqrt s nodes conn = some a) :
    a.s = idToIndex nodes conn.startId ∧ a.t = idToIndex nodes conn.endId ∧
      ∃ pipe ∈ s.pipes, a.cap = pipe.getCapacity sqrt := by
  unfold arcOf at h
  cases hi : findPipeIndexById s conn.pipeId with
  | none => rw [hi] at h; simp at h
  | some i =>
    rw [hi] at h
    simp only at h
    cases hp : s.pipes.get? i with
    | none => rw [hp] at h; simp at h
    | some pipe =>
      rw [hp] at h
      simp only [Option.some.injEq] at h
      subst h
      exact ⟨rfl, rfl, pipe, List.get?_mem hp, rfl⟩

theorem arcsOf_valid (sqrt : ℚ → ℚ) (s : PipelineSystem) :
    ∀ a ∈ arcsOf sqrt s,
      a.s < (collectNodes s.network).length ∧ a.t < (collectNodes s.network).length := by
  intro a ha
  unfold arcsOf at ha
  obtain ⟨conn, hc, harc⟩ := List.mem_filterMap.mp ha
  obtain ⟨h1, h2, _⟩ := arcOf_some sqrt s _ conn a harc
  rw [h1, h2]
  exact ⟨idToIndex_lt _ _ ((mem_collectNodes _ _).mpr ⟨conn, hc, Or.inl rfl⟩),
    idToIndex_lt _ _ ((mem_collectNodes _ _).mpr ⟨conn, hc, Or.inr rfl⟩)⟩

/-! ## Breadth-first search -/

theorem getD_set_option (l : List (Option Nat)) (k : Nat) (x : Option Nat) (v : Nat)
    (hk : k < l.length) :
    (l.set k x).getD v none = if v = k then x else l.getD v none := by
  simp only [List.getD_eq_getElem?_getD, List.getElem?_set]
  by_cases h : v = k
  · subst h; simp [hk]
  · simp [h, Ne.symm h]

theorem bfsScan_inv (g : Graph) (n source u : Nat)
    (hto : ∀ y, ∀ e ∈ adj g y, e.to_ < n) :
    ∀ (edges : List GraphEdge) (i : Nat) (st : BfsState) (vis : List Nat),
      BfsInv g n source st vis → u ∈ vis →
      (∀ j e, edges[j]? = some e → (adj g u)[i + j]? = some e) →
      ∃ new, BfsInv g n source (bfsScan u i edges st) (vis ++ new) ∧
        (bfsScan u i edges st).q = st.q ++ new := by
  intro edges
  induction edges with
  | nil =>
    intro i st vis hinv _ _
    exact ⟨[], by simpa [bfsScan] using hinv, by simp [bfsScan]⟩
  | cons edge rest ih =>
    intro i st vis hinv hu hedges
    have hrest : ∀ j e, rest[j]? = some e → (adj g u)[(i + 1) + j]? = some e := by
      intro j e hj
      have := hedges (j + 1) e (by simpa using hj)
      rw [show i + 1 + j = i + (j + 1) by omega]
      exact this
    have hedge : (adj g u)[i]? = some edge := by
      have := hedges 0 edge (by simp)
      simpa using this
    have hton : edge.to_ < n := hto u edge (List.getElem?_mem hedge)
    simp only [bfsScan]
    by_cases hc : st.parent.getD edge.to_ none = none ∧ edge.capacity - edge.flow > eps
    · rw [if_pos hc]
      have hnew : edge.to_ ∉ vis := by
        intro hmem
        exact (hinv.seen edge.to_).mpr hmem hc.1
      have hinv1 : BfsInv g n source
          { parent := st.parent.set edge.to_ (some u)
            parentEdge := st.parentEdge.set edge.to_ (some i)
            q := st.q ++ [edge.to_] } (vis ++ [edge.to_]) := by
        refine ⟨by simp [hinv.lenParent], by simp [hinv.lenEdge], ?_, ?_, ?_, ?_, ?_, ?_⟩
        · rw [List.nodup_append]
          refine ⟨hinv.nodup, List.nodup_singleton _, ?_⟩
          intro a ha hb
          simp only [List.mem_singleton] at hb
          exact hnew (hb ▸ ha)
        · intro v hv
          rcases List.mem_append.mp hv with h | h
          · exact hinv.bound v h
          · simp only [List.mem_singleton] at h; rw [h]; exact hton
        · exact ⟨by rw [List.indexOf_append_of_mem hinv.first.2]; exact hinv.first.1,
            List.mem_append_left _ hinv.first.2⟩
        · intro v
          simp only
          rw [getD_set_option _ _ _ _ (by rw [hinv.lenParent]; exact hton)]
          by_cases hv : v = edge.to_
          · simp [hv]
          · rw [if_neg hv, hinv.seen v]
            simp [hv]
        · intro v hv
          simp only at hv
          rcases List.mem_append.mp hv with h | h
          · exact List.mem_append_left _ (hinv.queued v h)
          · exact List.mem_append_right _ h
        · intro v hv hvs
          simp only
          rw [getD_set_option _ _ _ _ (by rw [hinv.lenParent]; exact hton),
            getD_set_option _ _ _ _ (by rw [hinv.lenEdge]; exact hton)]
          by_cases hvt : v = edge.to_
          · subst hvt
            refine ⟨u, i, edge, by simp, by simp, hedge, rfl, hc.2, List.mem_append_left _ hu, ?_⟩
            rw [List.indexOf_append_of_mem hu, List.indexOf_append_of_not_mem hnew,
              List.indexOf_cons_self]
            have := List.indexOf_lt_length.mpr hu
            omega
          · have hv' : v ∈ vis := by
              rcases List.mem_append.mp hv with h | h
              · exact h
              · simp only [List.mem_singleton] at h; exact absurd h hvt
            obtain ⟨u', i', e', h1, h2, h3, h4, h5, h6, h7⟩ := hinv.tree v hv' hvs
            refine ⟨u', i', e', by rw [if_neg hvt]; exact h1, by rw [if_neg hvt]; exact h2, h3, h4,
              h5, List.mem_append_left _ h6, ?_⟩
            rw [List.indexOf_append_of_mem h6, List.indexOf_append_of_mem hv']
            exact h7
      obtain ⟨new, hinv2, hq2⟩ := ih (i + 1) _ (vis ++ [edge.to_]) hinv1
        (List.mem_append_left _ hu) hrest
      refine ⟨edge.to_ :: new, ?_, ?_⟩
      · simpa using hinv2
      · rw [hq2]; simp
    · rw [if_neg hc]
      exact ih (i + 1) st vis hinv hu hrest

theorem vis_length_le (n : Nat) (vis : List Nat) (hnd : vis.Nodup) (hb : ∀ v ∈ vis, v < n) :
    vis.length ≤ n := by
  have hsub : vis ⊆ List.range n := fun v hv => List.mem_range.mpr (hb v hv)
  have := (List.subperm_of_subset hnd hsub).length_le
  simpa using this

theorem bfsLoop_inv (g : Graph) (n source sink : Nat)
    (hto : ∀ y, ∀ e ∈ adj g y, e.to_ < n) :
    ∀ (fuel : Nat) (st : BfsState) (vis : List Nat),
      BfsInv g n source st vis → n + st.q.length < fuel + vis.length →
      ∃ st' vis', bfsLoop g sink fuel st = some st' ∧ BfsInv g n source st' vis' := by
  intro fuel
  induction fuel with
  | zero =>
    intro st vis hinv hlt
    have := vis_length_le n vis hinv.nodup hinv.bound
    omega
  | succ k ih =>
    intro st vis hinv hlt
    obtain ⟨parent, parentEdge, q⟩ := st
    cases q with
    | nil => exact ⟨_, vis, by simp [bfsLoop], hinv⟩
    | cons u rest =>
      simp only [bfsLoop]
      by_cases hs : parent.getD sink none ≠ none
      · rw [if_pos hs]
        exact ⟨_, vis, rfl, hinv⟩
      · rw [if_neg hs]
        have hu : u ∈ vis := hinv.queued u (List.mem_cons_self u rest)
        have hinv1 : BfsInv g n source
            { parent := parent, parentEdge := parentEdge, q := rest } vis :=
          ⟨hinv.lenParent, hinv.lenEdge, hinv.nodup, hinv.bound, hinv.first, hinv.seen,
            fun v hv => hinv.queued v (List.mem_cons_of_mem _ hv), hinv.tree⟩
        obtain ⟨new, hinv2, hq2⟩ := bfsScan_inv g n source u hto (adj g u) 0 _ vis hinv1 hu
          (by intro j e hj; simpa using hj)
        apply ih _ (vis ++ new) hinv2
        rw [hq2]
        simp only [List.length_append, List.length_cons] at hlt ⊢
        omega

theorem bfsInit_inv (g : Graph) (n source : Nat) (hs : source < n) :
    BfsInv g n source (bfsInit n source) [source] := by
  refine ⟨by simp [bfsInit], by simp [bfsInit], List.nodup_singleton _, ?_, ?_, ?_, ?_, ?_⟩
  · intro v hv; simp only [List.mem_singleton] at hv; rw [hv]; exact hs
  · simp
  · intro v
    simp only [bfsInit]
    rw [getD_set_option _ _ _ _ (by simpa using hs)]
    by_cases hv : v = source
    · simp [hv]
    · simp only [if_neg hv, List.mem_singleton, hv, iff_false, not_not]
      rw [List.getD_eq_getElem?_getD]
      by_cases hvn : v < n
      · simp [hvn]
      · simp [List.getElem?_eq_none, hvn]
  · intro v hv; simpa [bfsInit] using hv
  · intro v hv hne
    simp only [List.mem_singleton] at hv
    exact absurd hv hne

theorem walkParents_spec (g : Graph) (n source : Nat) (st : BfsState) (vis : List Nat)
    (hinv : BfsInv g n source st vis) :
    ∀ (fuel v : Nat), v ∈ vis → vis.indexOf v ≤ fuel →
      ∃ path, walkParents st.parent st.parentEdge source fuel v = some path ∧
        PathOK g source path v ∧
        (∀ x ∈ path.map (fun step => step.1), vis.indexOf x < vis.indexOf v) ∧
        (path.map (fun step => step.1)).Nodup := by
  intro fuel
  induction fuel with
  | zero =>
    intro v hv hidx
    have h0 : vis.indexOf v = vis.indexOf source := by rw [hinv.first.1]; omega
    have hvs : v = source := by
      have h1 := List.getElem_indexOf (List.indexOf_lt_length.mpr hv)
      have h2 := List.getElem_indexOf (List.indexOf_lt_length.mpr hinv.first.2)
      rw [← h1, ← h2]
      simp only [h0]
    refine ⟨[], by simp [walkParents, hvs], hvs, by simp, by simp⟩
  | succ k ih =>
    intro v hv hidx
    by_cases hvs : v = source
    · exact ⟨[], by simp [walkParents, hvs], hvs, by simp, by simp⟩
    · obtain ⟨u, i, e, h1, h2, h3, h4, h5, h6, h7⟩ := hinv.tree v hv hvs
      obtain ⟨path, hp1, hp2, hp3, hp4⟩ := ih u h6 (by omega)
      refine ⟨(u, i, v) :: path, ?_, ?_, ?_, ?_⟩
      · simp only [walkParents, if_neg hvs, h1, h2, hp1, Option.map_some']
      · refine ⟨rfl, hvs, ?_, ⟨e, h3, h4, h5⟩, hp2⟩
        intro huv
        simp only at huv
        rw [huv] at h7
        exact lt_irrefl _ h7
      · intro x hx
        simp only [List.map_cons, List.mem_cons] at hx
        rcases hx with rfl | hx
        · exact h7
        · exact lt_trans (hp3 x hx) h7
      · simp only [List.map_cons, List.nodup_cons]
        refine ⟨?_, hp4⟩
        intro hmem
        exact lt_irrefl _ (hp3 u hmem)

theorem pathFlowOf_spec (g : Graph) :
    ∀ (path : List (Nat × Nat × Nat)) (acc : Dist),
      (∀ step ∈ path, ∃ e, (adj g step.1)[step.2.1]? = some e ∧ eps < e.capacity - e.flow) →
      (∀ a, acc = .fin a → eps < a) →
      ((path ≠ [] ∨ acc ≠ .inf) →
        ∃ f, path.foldl (fun pathFlow step =>
            match (adj g step.1).get? step.2.1 with
            | some edge =>
              if (Dist.fin (edge.capacity - edge.flow)).lt pathFlow then
                .fin (edge.capacity - edge.flow)
              else pathFlow
            | none => pathFlow) acc = .fin f ∧ eps < f ∧
          (∀ step ∈ path, ∀ e, (adj g step.1)[step.2.1]? = some e → f ≤ e.capacity - e.flow) ∧
          (∀ a, acc = .fin a → f ≤ a)) := by
  intro path
  induction path with
  | nil =>
    intro acc _ hacc hne
    rcases hne with h | h
    · exact absurd rfl h
    · cases acc with
      | inf => exact absurd rfl h
      | fin a =>
        exact ⟨a, rfl, hacc a rfl, by simp, fun b hb => by
          simp only [Dist.fin.injEq] at hb; rw [hb]⟩
  | cons step rest ih =>
    intro acc hedges hacc _
    obtain ⟨e, he, hres⟩ := hedges step (List.mem_cons_self _ _)
    have hrest : ∀ s ∈ rest, ∃ e, (adj g s.1)[s.2.1]? = some e ∧ eps < e.capacity - e.flow :=
      fun s hs => hedges s (List.mem_cons_of_mem _ hs)
    simp only [List.foldl_cons, List.get?_eq_getElem?, he]
    by_cases hlt : (Dist.fin (e.capacity - e.flow)).lt acc = true
    · rw [if_pos hlt]
      obtain ⟨f, hf1, hf2, hf3, hf4⟩ := ih (.fin (e.capacity - e.flow)) hrest
        (fun a ha => by simp only [Dist.fin.injEq] at ha; rw [← ha]; exact hres)
        (Or.inr (by simp))
      refine ⟨f, by simpa [List.get?_eq_getElem?] using hf1, hf2, ?_, ?_⟩
      · intro s hs e' he'
        rcases List.mem_cons.mp hs with rfl | hs
        · rw [he] at he'
          simp only [Option.some.injEq] at he'
          rw [← he']
          exact hf4 _ rfl
        · exact hf3 s hs e' he'
      · intro a ha
        subst ha
        have := hf4 _ rfl
        simp only [Dist.lt, decide_eq_true_eq] at hlt
        linarith
    · rw [if_neg hlt]
      cases acc with
      | inf => simp [Dist.lt] at hlt
      | fin a =>
        simp only [Dist.lt, decide_eq_true_eq, not_lt] at hlt
        obtain ⟨f, hf1, hf2, hf3, hf4⟩ := ih (.fin a) hrest hacc (Or.inr (by simp))
        refine ⟨f, by simpa [List.get?_eq_getElem?] using hf1, hf2, ?_, hf4⟩
        intro s hs e' he'
        rcases List.mem_cons.mp hs with rfl | hs
        · rw [he] at he'
          simp only [Option.some.injEq] at he'
          rw [← he']
          have := hf4 a rfl
          linarith
        · exact hf3 s hs e' he'

theorem PathOK.edges {g : Graph} {source : Nat} :
    ∀ {path : List (Nat × Nat × Nat)} {v : Nat}, PathOK g source path v →
      ∀ step ∈ path, ∃ e, (adj g step.1)[step.2.1]? = some e ∧ eps < e.capacity - e.flow := by
  intro path
  induction path with
  | nil => intro v _ step hs; simp at hs
  | cons s rest ih =>
    intro v h step hs
    obtain ⟨_, _, _, ⟨e, he, _, hres⟩, hrest⟩ := h
    rcases List.mem_cons.mp hs with rfl | hs
    · exact ⟨e, he, hres⟩
    · exact ih hrest step hs

/-! ## One augmentation -/

theorem tracks_refl (g0 : Graph) : Tracks g0 g0 [] :=
  ⟨fun _ => rfl, fun _ _ e0 h => ⟨e0, h, rfl, rfl, rfl, by simp⟩⟩

theorem capOK_of_tracks (g0 g : Graph) (D : List Nat) (h0 : CapOK g0) (ht : Tracks g0 g D) :
    CapOK g := by
  intro y e he
  obtain ⟨j, hj, hje⟩ := List.mem_iff_getElem.mp he
  have hj0 : j < (adj g0 y).length := by rw [← ht.len y]; exact hj
  obtain ⟨e', he', _, _, hc, hfl⟩ := ht.edge y j _ (List.getElem?_eq_getElem hj0)
  rw [List.getElem?_eq_getElem hj, hje] at he'
  simp only [Option.some.injEq] at he'
  subst he'
  have hb := h0 y _ (List.getElem_mem hj0)
  rw [hc]
  split_ifs at hfl
  · exact hfl
  · exact le_trans hfl hb

theorem tracks_push (g0 g : Graph) (D : List Nat) (f : ℚ) (u i v : Nat) (e0 : GraphEdge)
    (h0 : CapOK g0) (ht : Tracks g0 g D) (hu : u ∉ D) (huv : u ≠ v)
    (he0 : (adj g0 u)[i]? = some e0) (hf0 : 0 ≤ f) (hf : f ≤ e0.capacity - e0.flow) :
    Tracks g0 (pushFlow f g (u, i, v)) (u :: D) := by
  obtain ⟨e, he, hto, hrev, hcap, hflow⟩ := ht.edge u i e0 he0
  rw [if_neg hu] at hflow
  refine ⟨fun y => by rw [length_adj_pushFlow]; exact ht.len y, ?_⟩
  intro y j e0' he0'
  obtain ⟨e', he', hto', hrev', hcap', hflow'⟩ := ht.edge y j e0' he0'
  have hb0 := h0 y e0' (List.getElem?_mem he0')
  rw [adj_pushFlow f g u i v e he huv y]
  by_cases hyu : y = u
  · subst hyu
    rw [if_pos rfl, getElem?_bump]
    rw [if_neg hu] at hflow'
    by_cases hji : j = i
    · subst hji
      rw [if_pos rfl, he]
      rw [he0] at he0'
      simp only [Option.some.injEq] at he0'
      subst he0'
      refine ⟨_, rfl, hto, hrev, hcap, ?_⟩
      simp only [List.mem_cons, true_or, if_true]
      linarith
    · rw [if_neg hji]
      refine ⟨e', he', hto', hrev', hcap', ?_⟩
      simp only [List.mem_cons, true_or, if_true]
      linarith
  · rw [if_neg hyu]
    have hmem : (y ∈ u :: D) ↔ y ∈ D := by simp [hyu]
    by_cases hyv : y = v
    · subst hyv
      rw [if_pos rfl, getElem?_bump]
      by_cases hjr : j = e.rev
      · rw [if_pos hjr, ← hjr, he']
        refine ⟨_, rfl, hto', hrev', hcap', ?_⟩
        simp only [hmem]
        have : e'.flow + -f ≤ e'.flow := by linarith
        exact le_trans this hflow'
      · rw [if_neg hjr]
        refine ⟨e', he', hto', hrev', hcap', ?_⟩
        simp only [hmem]
        exact hflow'
    · rw [if_neg hyv]
      refine ⟨e', he', hto', hrev', hcap', ?_⟩
      simp only [hmem]
      exact hflow'

theorem augment_fold (n source : Nat) (arcs : List Arc) (g0 : Graph) (f : ℚ)
    (hvalid : ∀ a ∈ arcs, a.s < n ∧ a.t < n) (hcap0 : CapOK g0) (hf0 : 0 ≤ f) :
    ∀ (path : List (Nat × Nat × Nat)) (g : Graph) (fa : List (Arc × ℚ)) (v : Nat)
      (D : List Nat),
      g = buildArcs n fa → fa.map Prod.fst = arcs → Tracks g0 g D →
      PathOK g0 source path v →
      (∀ x ∈ path.map (fun step => step.1), x ∉ D) →
      (path.map (fun step => step.1)).Nodup →
      (∀ step ∈ path, ∀ e, (adj g0 step.1)[step.2.1]? = some e → f ≤ e.capacity - e.flow) →
      ∃ fa' D', path.foldl (pushFlow f) g = buildArcs n fa' ∧ fa'.map Prod.fst = arcs ∧
        Tracks g0 (path.foldl (pushFlow f) g) D' ∧
        ∀ y, netOut fa' y
          = netOut fa y + f * ((if source = y then 1 else 0) - (if v = y then 1 else 0)) := by
  intro path
  induction path with
  | nil =>
    intro g fa v D hg hfa ht hp _ _ _
    simp only [PathOK] at hp
    refine ⟨fa, D, hg, hfa, ht, ?_⟩
    intro y
    rw [hp]
    simp
  | cons step rest ih =>
    intro g fa v D hg hfa ht hp hD hnd hbound
    obtain ⟨u, i, w⟩ := step
    obtain ⟨hw, hvs, huv, ⟨e0, he0, he0to, _⟩, hrest⟩ := hp
    simp only at hw huv he0 hrest
    subst hw
    have hfav : ∀ p ∈ fa, p.1.s < n ∧ p.1.t < n := by
      intro p hp
      apply hvalid
      rw [← hfa]
      exact List.mem_map_of_mem Prod.fst hp
    obtain ⟨e, he, hto, hrev, hcap, hflow⟩ := ht.edge u i e0 he0
    have hetow : e.to_ = w := hto.trans he0to
    have hne : e.to_ ≠ u := by rw [hetow]; exact fun h => huv h.symm
    rw [hg] at he
    obtain ⟨_, k, a, x, hk, hcase⟩ := push_buildArcs n fa hfav u i e he hne
    rw [hetow] at hcase
    have huD : u ∉ D := hD u (by simp)
    have hfb : f ≤ e0.capacity - e0.flow := hbound (u, i, w) (List.mem_cons_self _ _) e0 he0
    have ht1 : Tracks g0 (pushFlow f g (u, i, w)) (u :: D) :=
      tracks_push g0 g D f u i w e0 hcap0 ht huD huv he0 hf0 hfb
    have hD1 : ∀ x ∈ rest.map (fun step => step.1), x ∉ u :: D := by
      intro x hx hmem
      rcases List.mem_cons.mp hmem with h | h
      · subst h
        simp only [List.map_cons, List.nodup_cons] at hnd
        exact hnd.1 hx
      · exact hD x (by simp only [List.map_cons, List.mem_cons]; exact Or.inr hx) h
    have hnd1 : (rest.map (fun step => step.1)).Nodup := by
      simp only [List.map_cons, List.nodup_cons] at hnd
      exact hnd.2
    have hb1 : ∀ step ∈ rest, ∀ e, (adj g0 step.1)[step.2.1]? = some e →
        f ≤ e.capacity - e.flow :=
      fun s hs => hbound s (List.mem_cons_of_mem _ hs)
    simp only [List.foldl_cons]
    rcases hcase with ⟨h1, h2, _, _, hpush⟩ | ⟨h1, h2, _, _, hpush⟩
    · have hg1 : pushFlow f g (u, i, w) = buildArcs n (fa.set k (a, x + f)) := by
        rw [hg]; exact hpush f
      obtain ⟨fa', D', r1, r2, r3, r4⟩ := ih _ (fa.set k (a, x + f)) u (u :: D) hg1
        (by rw [map_fst_set fa k a x _ hk]; exact hfa) ht1 hrest hD1 hnd1 hb1
      refine ⟨fa', D', r1, r2, r3, ?_⟩
      intro y
      rw [r4 y, netOut_set fa k a x _ y hk, h1, h2]
      ring
    · have hg1 : pushFlow f g (u, i, w) = buildArcs n (fa.set k (a, x - f)) := by
        rw [hg]; exact hpush f
      obtain ⟨fa', D', r1, r2, r3, r4⟩ := ih _ (fa.set k (a, x - f)) u (u :: D) hg1
        (by rw [map_fst_set fa k a x _ hk]; exact hfa) ht1 hrest hD1 hnd1 hb1
      refine ⟨fa', D', r1, r2, r3, ?_⟩
      intro y
      rw [r4 y, netOut_set fa k a x _ y hk, h1, h2]
      ring

/-! ## The augmentation loop -/

theorem eps_pos : 0 < eps := by unfold eps; norm_num

theorem augmentOnce_spec (n source sink : Nat) (arcs : List Arc) (g : Graph) (total : ℚ)
    (fuel : Nat) (hvalid : ∀ a ∈ arcs, a.s < n ∧ a.t < n) (hs : source < n)
    (hne : source ≠ sink) (hfuel : n < fuel) (hinv : FlowInv n source sink arcs g total) :
    augmentOnce fuel source sink n g = some none ∨
      ∃ f g', augmentOnce fuel source sink n g = some (some (f, g')) ∧ eps < f ∧
        FlowInv n source sink arcs g' (total + f) := by
  obtain ⟨hcap, fa, hfa, hg, hcons, htot⟩ := hinv
  have hfav : ∀ p ∈ fa, p.1.s < n ∧ p.1.t < n := by
    intro p hp
    apply hvalid
    rw [← hfa]
    exact List.mem_map_of_mem Prod.fst hp
  have hto : ∀ y, ∀ e ∈ adj g y, e.to_ < n := by
    intro y e he
    rw [hg] at he
    exact adj_to_lt n fa hfav y e he
  obtain ⟨st, vis, hbfs, hb⟩ := bfsLoop_inv g n source sink hto fuel (bfsInit n source) [source]
    (bfsInit_inv g n source hs) (by simp [bfsInit]; omega)
  unfold augmentOnce
  rw [hbfs]
  simp only
  by_cases hsink : st.parent.getD sink none = none
  · left
    rw [if_pos hsink]
  · right
    rw [if_neg hsink]
    have hsv : sink ∈ vis := (hb.seen sink).mp hsink
    have hidx : vis.indexOf sink ≤ fuel := by
      have h1 := List.indexOf_lt_length.mpr hsv
      have h2 := vis_length_le n vis hb.nodup hb.bound
      omega
    obtain ⟨path, hw, hpath, _, hnd⟩ := walkParents_spec g n source st vis hb fuel sink hsv hidx
    rw [hw]
    simp only
    have hpne : path ≠ [] := by
      intro h
      rw [h] at hpath
      simp only [PathOK] at hpath
      exact hne hpath.symm
    obtain ⟨f, hf1, hf2, hf3, _⟩ := pathFlowOf_spec g path .inf hpath.edges
      (fun a ha => by simp at ha) (Or.inl hpne)
    have hpf : pathFlowOf g path = .fin f := hf1
    rw [hpf]
    simp only
    have hf0 : 0 ≤ f := le_of_lt (lt_trans eps_pos hf2)
    obtain ⟨fa', D', r1, r2, r3, r4⟩ := augment_fold n source arcs g f hvalid hcap hf0 path g fa
      sink [] hg hfa (tracks_refl g) hpath (fun x _ => by simp) hnd hf3
    refine ⟨f, _, rfl, hf2, capOK_of_tracks g _ D' hcap r3, fa', r2, r1, ?_, ?_⟩
    · intro y hy1 hy2
      rw [r4 y, hcons y hy1 hy2, if_neg (Ne.symm hy1), if_neg (Ne.symm hy2)]
      ring
    · rw [r4 source, htot, if_pos rfl, if_neg (Ne.symm hne)]
      ring

theorem sum_range_ite_netOut (n : Nat) (S : Nat → Bool) :
    ∀ fa : List (Arc × ℚ), (∀ p ∈ fa, p.1.s < n ∧ p.1.t < n) →
      (Finset.range n).sum (fun y => if S y = true then netOut fa y else 0)
        = (fa.map (fun p => (if S p.1.s = true then p.2 else 0)
            - (if S p.1.t = true then p.2 else 0))).sum := by
  intro fa
  induction fa with
  | nil => intro _; simp [netOut]
  | cons p rest ih =>
    intro hv
    have hp := hv p (List.mem_cons_self _ _)
    have hrest := ih (fun q hq => hv q (List.mem_cons_of_mem _ hq))
    have hsplit : ∀ y, (if S y = true then netOut (p :: rest) y else 0)
        = ((if p.1.s = y then (if S y = true then p.2 else 0) else 0)
            - (if p.1.t = y then (if S y = true then p.2 else 0) else 0))
          + (if S y = true then netOut rest y else 0) := by
      intro y
      simp only [netOut, List.map_cons, List.sum_cons]
      split_ifs <;> ring
    simp only [hsplit, Finset.sum_add_distrib, Finset.sum_sub_distrib, hrest, List.map_cons,
      List.sum_cons]
    rw [Finset.sum_ite_eq, Finset.sum_ite_eq]
    simp [hp.1, hp.2]

theorem flow_le_cut (n source sink : Nat) (arcs : List Arc) (g : Graph) (total : ℚ)
    (hvalid : ∀ a ∈ arcs, a.s < n ∧ a.t < n) (hs : source < n)
    (hinv : FlowInv n source sink arcs g total) (S : Nat → Bool)
    (hS1 : S source = true) (hS2 : S sink = false) : total ≤ arcCut arcs S := by
  obtain ⟨hcap, fa, hfa, hg, hcons, htot⟩ := hinv
  have hfav : ∀ p ∈ fa, p.1.s < n ∧ p.1.t < n := by
    intro p hp
    apply hvalid
    rw [← hfa]
    exact List.mem_map_of_mem Prod.fst hp
  rw [hg] at hcap
  have hb := arc_bounds_of_capOK n fa hfav hcap
  have h1 : (Finset.range n).sum (fun y => if S y = true then netOut fa y else 0)
      = netOut fa source := by
    rw [Finset.sum_eq_single source]
    · rw [if_pos hS1]
    · intro y _ hy
      by_cases hSy : S y = true
      · rw [if_pos hSy]
        apply hcons y hy
        intro h
        rw [h, hS2] at hSy
        exact absurd hSy (by simp)
      · rw [if_neg hSy]
    · intro h
      exact absurd (Finset.mem_range.mpr hs) h
  rw [← htot, ← h1, sum_range_ite_netOut n S fa hfav]
  unfold arcCut
  rw [← hfa, List.map_map]
  apply List.sum_le_sum
  intro p hp
  obtain ⟨hp0, hp1⟩ := hb p hp
  simp only [Function.comp]
  by_cases ha : S p.1.s = true
  · by_cases hbt : S p.1.t = true
    · simp [ha, hbt]
    · have hbf : S p.1.t = false := by simpa using hbt
      simp [ha, hbf, hp1]
  · by_cases hbt : S p.1.t = true
    · simp [ha, hbt, hp0]
    · simp [ha, hbt]

theorem augmentLoop_spec (n source sink : Nat) (arcs : List Arc) (inner : Nat) (C : ℚ)
    (hvalid : ∀ a ∈ arcs, a.s < n ∧ a.t < n) (hs : source < n)
    (hne : source ≠ sink) (hinner : n < inner)
    (hC : ∀ g total, FlowInv n source sink arcs g total → total ≤ C) :
    ∀ (fuel : Nat) (g : Graph) (total : ℚ), FlowInv n source sink arcs g total →
      C - total < fuel * eps →
      ∃ total' g', augmentLoop inner source sink n fuel g total = some (total', g') ∧
        FlowInv n source sink arcs g' total' ∧ total ≤ total' := by
  intro fuel
  induction fuel with
  | zero =>
    intro g total hinv hlt
    have := hC g total hinv
    simp only [Nat.cast_zero, zero_mul] at hlt
    linarith
  | succ k ih =>
    intro g total hinv hlt
    simp only [augmentLoop]
    rcases augmentOnce_spec n source sink arcs g total inner hvalid hs hne hinner hinv with
      h | ⟨f, g', h, hf, hinv'⟩
    · rw [h]
      exact ⟨total, g, rfl, hinv, le_refl _⟩
    · rw [h]
      simp only
      have hlt' : C - (total + f) < k * eps := by
        push_cast at hlt
        linarith
      obtain ⟨total', g'', r1, r2, r3⟩ := ih g' (total + f) hinv' hlt'
      exact ⟨total', g'', r1, r2, by linarith [eps_pos]⟩

/-! ## Cuts and capacities of the store -/

theorem netOut_eq (fa : List (Arc × ℚ)) (y : Nat) : netOut fa y = outflow fa y - inflow fa y := by
  unfold netOut outflow inflow
  induction fa with
  | nil => simp
  | cons p rest ih =>
    simp only [List.map_cons, List.sum_cons, ih]
    ring

theorem getCapacity_nonneg (sqrt : ℚ → ℚ) (hsqrt : ∀ x, 0 ≤ sqrt x) (p : Pipe) :
    0 ≤ p.getCapacity sqrt := by
  unfold Pipe.getCapacity
  split_ifs
  · exact le_refl _
  · split
    · rename_i cap hfind
      have hmem := List.mem_of_find?_eq_some hfind
      have hc : 0 ≤ cap.capacity := by
        simp only [PIPE_CAPACITIES, List.mem_cons, List.mem_singleton, List.not_mem_nil,
          or_false] at hmem
        rcases hmem with rfl | rfl | rfl | rfl <;> norm_num
      simp only
      exact mul_nonneg (mul_nonneg hc (by norm_num)) (hsqrt _)
    · norm_num

theorem arcOf_cap (sqrt : ℚ → ℚ) (s : PipelineSystem) (nodes : List Int)
    (conn : NetworkConnection) :
    (arcOf sqrt s nodes conn = none ∧ connCapacity sqrt s conn = 0) ∨
      ∃ a, arcOf sqrt s nodes conn = some a ∧ a.cap = connCapacity sqrt s conn ∧
        a.s = idToIndex nodes conn.startId ∧ a.t = idToIndex nodes conn.endId := by
  unfold arcOf connCapacity
  cases findPipeIndexById s conn.pipeId with
  | none => left; exact ⟨rfl, rfl⟩
  | some i =>
    simp only
    cases s.pipes.get? i with
    | none => left; exact ⟨rfl, rfl⟩
    | some pipe => right; exact ⟨_, rfl, rfl, rfl, rfl⟩

theorem connCapacity_nonneg (sqrt : ℚ → ℚ) (s : PipelineSystem)
    (hcap : ∀ p ∈ s.pipes, 0 ≤ p.getCapacity sqrt) (conn : NetworkConnection) :
    0 ≤ connCapacity sqrt s conn := by
  unfold connCapacity
  cases findPipeIndexById s conn.pipeId with
  | none => exact le_refl _
  | some i =>
    simp only
    cases hp : s.pipes.get? i with
    | none => exact le_refl _
    | some pipe => exact hcap pipe (List.get?_mem hp)

theorem arcCut_eq_cutCapacity (sqrt : ℚ → ℚ) (s : PipelineSystem) (S : Int → Bool) :
    arcCut (arcsOf sqrt s) (fun y => S ((collectNodes s.network).getD y 0))
      = cutCapacity sqrt s S := by
  unfold arcCut arcsOf cutCapacity
  have key : ∀ L : List NetworkConnection,
      (∀ conn ∈ L, conn.startId ∈ collectNodes s.network ∧
        conn.endId ∈ collectNodes s.network) →
      ((L.filterMap (arcOf sqrt s (collectNodes s.network))).map (fun a =>
          if S ((collectNodes s.network).getD a.s 0) = true ∧
              S ((collectNodes s.network).getD a.t 0) = false then a.cap else 0)).sum
        = (L.map (fun conn =>
            if S conn.startId = true ∧ S conn.endId = false then connCapacity sqrt s conn
            else 0)).sum := by
    intro L
    induction L with
    | nil => intro _; rfl
    | cons c cs ih =>
      intro hL
      have hc := hL c (List.mem_cons_self _ _)
      have hrest := ih (fun conn h => hL conn (List.mem_cons_of_mem _ h))
      rw [List.filterMap_cons]
      rcases arcOf_cap sqrt s (collectNodes s.network) c with ⟨h1, h2⟩ | ⟨a, h1, h2, h3, h4⟩
      · rw [h1]
        simp only [List.map_cons, List.sum_cons, hrest, h2]
        simp
      · rw [h1]
        simp only [List.map_cons, List.sum_cons, hrest, h2, h3, h4,
          getD_idToIndex _ _ hc.1, getD_idToIndex _ _ hc.2]
  apply key
  intro conn hc
  exact ⟨(mem_collectNodes _ _).mpr ⟨conn, hc, Or.inl rfl⟩,
    (mem_collectNodes _ _).mpr ⟨conn, hc, Or.inr rfl⟩⟩

theorem cutCapacity_source_le (sqrt : ℚ → ℚ) (s : PipelineSystem)
    (hcap : ∀ p ∈ s.pipes, 0 ≤ p.getCapacity sqrt) (sourceId : Int) :
    cutCapacity sqrt s (fun id => decide (id = sourceId)) ≤ sourceOutCapacity sqrt s sourceId := by
  unfold cutCapacity sourceOutCapacity
  apply List.sum_le_sum
  intro conn _
  have := connCapacity_nonneg sqrt s hcap conn
  by_cases h1 : conn.startId = sourceId
  · by_cases h2 : conn.endId = sourceId
    · simp [h1, h2, this]
    · simp [h1, h2]
  · simp [h1]

theorem flowInv_init_arcs (sqrt : ℚ → ℚ) (s : PipelineSystem) (source sink : Nat)
    (harcs : ∀ a ∈ arcsOf sqrt s, 0 ≤ a.cap) :
    FlowInv (collectNodes s.network).length source sink (arcsOf sqrt s)
      (buildGraphForAlgorithms sqrt s).1 0 := by
  have hnet : ∀ y, netOut ((arcsOf sqrt s).map (fun a => (a, (0 : ℚ)))) y = 0 := by
    intro y
    unfold netOut
    rw [List.map_map]
    apply List.sum_eq_zero
    intro x hx
    obtain ⟨a, _, rfl⟩ := List.mem_map.mp hx
    simp
  have hv : ∀ p ∈ (arcsOf sqrt s).map (fun a => (a, (0 : ℚ))),
      p.1.s < (collectNodes s.network).length ∧ p.1.t < (collectNodes s.network).length := by
    intro p hp
    obtain ⟨a, ha, rfl⟩ := List.mem_map.mp hp
    exact arcsOf_valid sqrt s a ha
  refine ⟨?_, (arcsOf sqrt s).map (fun a => (a, (0 : ℚ))), ?_, build_eq sqrt s,
    fun y _ _ => hnet y, hnet _⟩
  · intro y e he
    rw [build_eq] at he
    obtain ⟨p, hp, h | h⟩ := mem_adj_buildArcs _ _ hv y e he
    · obtain ⟨a, ha, rfl⟩ := List.mem_map.mp hp
      rw [h.2.2.1, h.2.2.2]
      exact harcs a ha
    · obtain ⟨a, ha, rfl⟩ := List.mem_map.mp hp
      rw [h.2.2.1, h.2.2.2]
      simp
  · rw [List.map_map]
    exact List.map_id' _

theorem flowInv_init (sqrt : ℚ → ℚ) (s : PipelineSystem) (source sink : Nat)
    (hcap : ∀ p ∈ s.pipes, 0 ≤ p.getCapacity sqrt) :
    FlowInv (collectNodes s.network).length source sink (arcsOf sqrt s)
      (buildGraphForAlgorithms sqrt s).1 0 := by
  apply flowInv_init_arcs
  intro a ha
  unfold arcsOf at ha
  obtain ⟨conn, _, harc⟩ := List.mem_filterMap.mp ha
  obtain ⟨_, _, pipe, hpipe, hc⟩ := arcOf_some sqrt s _ conn a harc
  rw [hc]
  exact hcap pipe hpipe

theorem idToIndex_inj (nodes : List Int) (a b : Int) (ha : a ∈ nodes)
    (h : idToIndex nodes a = idToIndex nodes b) : a = b := by
  have h1 := getD_idToIndex nodes a ha
  unfold idToIndex at h h1
  have hb : b ∈ nodes := by
    apply List.indexOf_lt_length.mp
    rw [← h]
    exact List.indexOf_lt_length.mpr ha
  have h2 := getD_idToIndex nodes b hb
  unfold idToIndex at h2
  rw [← h1, ← h2, h]

theorem reached_flowInv (n source sink : Nat) (arcs : List Arc) (inner : Nat) (g0 : Graph)
    (hvalid : ∀ a ∈ arcs, a.s < n ∧ a.t < n) (hs : source < n)
    (hne : source ≠ sink) (hinner : n < inner)
    (h0 : FlowInv n source sink arcs g0 0) :
    ∀ g total, Reached inner source sink n g0 g total → FlowInv n source sink arcs g total := by
  intro g total h
  induction h with
  | start => exact h0
  | step _ hstep ih =>
    rcases augmentOnce_spec n source sink arcs _ _ inner hvalid hs hne hinner ih with
      h | ⟨f, g', h, _, hinv⟩
    · rw [h] at hstep; simp at hstep
    · rw [h] at hstep
      simp only [Option.some.injEq, Prod.mk.injEq] at hstep
      rw [← hstep.1, ← hstep.2]
      exact hinv

/-- With enough fuel the augmentation loop finishes, and its exit state
satisfies the flow invariant. -/
theorem edmondsKarpResidual_spec (sqrt : ℚ → ℚ) (s : PipelineSystem) (sourceId sinkId : Int)
    (hcap : ∀ p ∈ s.pipes, 0 ≤ p.getCapacity sqrt) (hne : sourceId ≠ sinkId)
    (hsrc : sourceId ∈ collectNodes s.network) (hsnk : sinkId ∈ collectNodes s.network) :
    ∃ fuel0, ∀ fuel, fuel0 ≤ fuel →
      ∃ total g, edmondsKarpResidual sqrt s fuel sourceId sinkId = some (total, g) ∧
        FlowInv (collectNodes s.network).length (idToIndex (collectNodes s.network) sourceId)
          (idToIndex (collectNodes s.network) sinkId) (arcsOf sqrt s) g total := by
  set nodes := collectNodes s.network with hnodes
  have hs : idToIndex nodes sourceId < nodes.length := idToIndex_lt _ _ hsrc
  have hne' : idToIndex nodes sourceId ≠ idToIndex nodes sinkId :=
    fun h => hne (idToIndex_inj nodes _ _ hsrc h)
  have hvalid := arcsOf_valid sqrt s
  have hC : ∀ g total, FlowInv nodes.length (idToIndex nodes sourceId) (idToIndex nodes sinkId)
      (arcsOf sqrt s) g total →
      total ≤ arcCut (arcsOf sqrt s) (fun y => decide (y = idToIndex nodes sourceId)) := by
    intro g total hinv
    exact flow_le_cut _ _ _ _ g total hvalid hs hinv _ (by simp) (by simpa using Ne.symm hne')
  obtain ⟨N, hN⟩ := exists_nat_gt
    (arcCut (arcsOf sqrt s) (fun y => decide (y = idToIndex nodes sourceId)) / eps)
  refine ⟨max (nodes.length + 1) N, fun fuel hfuel => ?_⟩
  have h1 : nodes.length < fuel := by
    have := le_max_left (nodes.length + 1) N
    omega
  have h2 : N ≤ fuel := le_trans (le_max_right _ _) hfuel
  have hlt : arcCut (arcsOf sqrt s) (fun y => decide (y = idToIndex nodes sourceId)) - 0
      < fuel * eps := by
    rw [div_lt_iff₀ eps_pos] at hN
    have : (N : ℚ) ≤ fuel := by exact_mod_cast h2
    have := mul_le_mul_of_nonneg_right this (le_of_lt eps_pos)
    linarith
  obtain ⟨total, g, r1, r2, _⟩ := augmentLoop_spec _ _ _ _ fuel _ hvalid hs hne' h1 hC fuel _ 0
    (flowInv_init sqrt s _ _ hcap) hlt
  refine ⟨total, g, ?_, r2⟩
  unfold edmondsKarpResidual
  simp only [build_nodes]
  rw [if_neg (not_not.mpr ⟨hsrc, hsnk⟩)]
  exact r1

theorem edmondsKarpMaxFlow_of_residual (sqrt : ℚ → ℚ) (s : PipelineSystem) (fuel : Nat)
    (sourceId sinkId : Int) (total : ℚ) (g : Graph)
    (h : edmondsKarpResidual sqrt s fuel sourceId sinkId = some (total, g)) :
    ∃ fm, edmondsKarpMaxFlow sqrt s fuel sourceId sinkId = some (total, fm) := by
  unfold edmondsKarpMaxFlow
  simp only
  by_cases hmem : (sourceId ∈ (buildGraphForAlgorithms sqrt s).2 ∧
      sinkId ∈ (buildGraphForAlgorithms sqrt s).2)
  · rw [if_neg (not_not.mpr hmem), h]
    exact ⟨_, rfl⟩
  · rw [if_pos hmem]
    unfold edmondsKarpResidual at h
    simp only at h
    rw [if_pos hmem] at h
    simp only [Option.some.injEq, Prod.mk.injEq] at h
    rw [← h.1]
    exact ⟨_, rfl⟩

/-! ## Completeness of the search -/

theorem bfsScan_parent (n u : Nat) :
    ∀ (edges : List GraphEdge) (i : Nat) (st : BfsState),
      st.parent.length = n → (∀ e ∈ edges, e.to_ < n) →
      (bfsScan u i edges st).parent.length = n ∧
      (∀ v, st.parent.getD v none ≠ none → (bfsScan u i edges st).parent.getD v none ≠ none) ∧
      ∀ e ∈ edges, eps < e.capacity - e.flow →
        (bfsScan u i edges st).parent.getD e.to_ none ≠ none := by
  intro edges
  induction edges with
  | nil => intro i st hl _; exact ⟨hl, fun v h => h, fun e he => by simp at he⟩
  | cons edge rest ih =>
    intro i st hl hto
    have hton := hto edge (List.mem_cons_self _ _)
    have hrest : ∀ e ∈ rest, e.to_ < n := fun e he => hto e (List.mem_cons_of_mem _ he)
    simp only [bfsScan]
    by_cases hc : st.parent.getD edge.to_ none = none ∧ edge.capacity - edge.flow > eps
    · rw [if_pos hc]
      obtain ⟨r1, r2, r3⟩ := ih (i + 1)
        { parent := st.parent.set edge.to_ (some u)
          parentEdge := st.parentEdge.set edge.to_ (some i)
          q := st.q ++ [edge.to_] } (by simp [hl]) hrest
      have hset : ∀ v, st.parent.getD v none ≠ none →
          (st.parent.set edge.to_ (some u)).getD v none ≠ none := by
        intro v hv
        rw [getD_set_option _ _ _ _ (by rw [hl]; exact hton)]
        split_ifs
        · simp
        · exact hv
      refine ⟨r1, fun v hv => r2 v (hset v hv), ?_⟩
      intro e he hres
      rcases List.mem_cons.mp he with rfl | he
      · apply r2
        simp only
        rw [getD_set_option _ _ _ _ (by rw [hl]; exact hton), if_pos rfl]
        simp
      · exact r3 e he hres
    · rw [if_neg hc]
      obtain ⟨r1, r2, r3⟩ := ih (i + 1) st hl hrest
      refine ⟨r1, r2, ?_⟩
      intro e he hres
      rcases List.mem_cons.mp he with rfl | he
      · apply r2
        intro hnone
        exact hc ⟨hnone, hres⟩
      · exact r3 e he hres

theorem bfsLoop_complete (g : Graph) (n source sink : Nat)
    (hto : ∀ y, ∀ e ∈ adj g y, e.to_ < n) :
    ∀ (fuel : Nat) (st st' : BfsState) (vis : List Nat),
      BfsInv g n source st vis → BfsClosed g st vis →
      bfsLoop g sink fuel st = some st' →
      ∃ vis', BfsInv g n source st' vis' ∧ BfsClosed g st' vis' ∧
        (st'.parent.getD sink none ≠ none ∨ st'.q = []) := by
  intro fuel
  induction fuel with
  | zero => intro st st' vis _ _ h; simp [bfsLoop] at h
  | succ k ih =>
    intro st st' vis hinv hcl h
    obtain ⟨parent, parentEdge, q⟩ := st
    cases q with
    | nil =>
      simp only [bfsLoop, Option.some.injEq] at h
      subst h
      exact ⟨vis, hinv, hcl, Or.inr rfl⟩
    | cons u rest =>
      simp only [bfsLoop] at h
      by_cases hs : parent.getD sink none ≠ none
      · rw [if_pos hs] at h
        simp only [Option.some.injEq] at h
        subst h
        exact ⟨vis, hinv, hcl, Or.inl hs⟩
      · rw [if_neg hs] at h
        have hu : u ∈ vis := hinv.queued u (List.mem_cons_self u rest)
        have hinv1 : BfsInv g n source
            { parent := parent, parentEdge := parentEdge, q := rest } vis :=
          ⟨hinv.lenParent, hinv.lenEdge, hinv.nodup, hinv.bound, hinv.first, hinv.seen,
            fun v hv => hinv.queued v (List.mem_cons_of_mem _ hv), hinv.tree⟩
        obtain ⟨new, hinv2, hq2⟩ := bfsScan_inv g n source u hto (adj g u) 0 _ vis hinv1 hu
          (by intro j e hj; simpa using hj)
        obtain ⟨_, _, hcov⟩ := bfsScan_parent n u (adj g u) 0
          { parent := parent, parentEdge := parentEdge, q := rest } hinv.lenParent (hto u)
        apply ih _ st' (vis ++ new) hinv2 _ h
        intro x hx
        rcases List.mem_append.mp hx with hxv | hxn
        · rcases hcl x hxv with hq | hclosed
          · rcases List.mem_cons.mp hq with rfl | hq
            · right
              intro w ⟨e, he, hew, hres⟩
              rw [← hew]
              exact (hinv2.seen e.to_).mp (hcov e he hres)
            · left
              rw [hq2]
              exact List.mem_append_left _ hq
          · right
            intro w hw
            exact List.mem_append_left _ (hclosed w hw)
        · left
          rw [hq2]
          exact List.mem_append_right _ hxn

theorem bfs_no_path (g : Graph) (n source sink : Nat) (fuel : Nat) (st : BfsState)
    (hto : ∀ y, ∀ e ∈ adj g y, e.to_ < n) (hs : source < n)
    (h : bfsLoop g sink fuel (bfsInit n source) = some st)
    (hsink : st.parent.getD sink none = none) :
    ¬ Relation.ReflTransGen (ResEdge g) source sink := by
  obtain ⟨vis, hinv, hcl, hexit⟩ := bfsLoop_complete g n source sink hto fuel _ st [source]
    (bfsInit_inv g n source hs)
    (by intro u hu; left; simpa [bfsInit] using hu) h
  have hq : st.q = [] := by
    rcases hexit with h1 | h1
    · exact absurd hsink h1
    · exact h1
  intro hpath
  have hall : ∀ w, Relation.ReflTransGen (ResEdge g) source w → w ∈ vis := by
    intro w hw
    induction hw with
    | refl => exact hinv.first.2
    | tail _ hedge ih =>
      rcases hcl _ ih with h1 | h1
      · rw [hq] at h1; simp at h1
      · exact h1 _ hedge
  exact (hinv.seen sink).mpr (hall sink hpath) hsink

theorem pathFlowOf_attained (g : Graph) :
    ∀ (path : List (Nat × Nat × Nat)) (acc : Dist) (f : ℚ),
      path.foldl (fun pathFlow step =>
          match (adj g step.1).get? step.2.1 with
          | some edge =>
            if (Dist.fin (edge.capacity - edge.flow)).lt pathFlow then
              .fin (edge.capacity - edge.flow)
            else pathFlow
          | none => pathFlow) acc = .fin f →
      acc = .fin f ∨ ∃ step ∈ path, ∃ e, (adj g step.1)[step.2.1]? = some e ∧
        f = e.capacity - e.flow := by
  intro path
  induction path with
  | nil => intro acc f h; left; simpa using h
  | cons step rest ih =>
    intro acc f h
    simp only [List.foldl_cons] at h
    rcases ih _ f h with h1 | ⟨s, hs, e, he, hf⟩
    · cases hget : (adj g step.1).get? step.2.1 with
      | none => rw [hget] at h1; left; exact h1
      | some edge =>
        rw [hget] at h1
        simp only at h1
        split_ifs at h1 with hlt
        · right
          simp only [Dist.fin.injEq] at h1
          exact ⟨step, List.mem_cons_self _ _, edge, by simpa using hget, h1.symm⟩
        · left; exact h1
    · right
      exact ⟨s, List.mem_cons_of_mem _ hs, e, he, hf⟩

theorem augmentOnce_bottleneck (fuel source sink n : Nat) (g g' : Graph) (f : ℚ)
    (h : augmentOnce fuel source sink n g = some (some (f, g'))) :
    ∃ y, ∃ e ∈ adj g y, f = e.capacity - e.flow := by
  unfold augmentOnce at h
  cases hb : bfsLoop g sink fuel (bfsInit n source) with
  | none => rw [hb] at h; simp at h
  | some st =>
    rw [hb] at h
    simp only at h
    by_cases hsink : st.parent.getD sink none = none
    · rw [if_pos hsink] at h; simp at h
    · rw [if_neg hsink] at h
      cases hw : walkParents st.parent st.parentEdge source fuel sink with
      | none => rw [hw] at h; simp at h
      | some path =>
        rw [hw] at h
        simp only at h
        cases hp : pathFlowOf g path with
        | inf => rw [hp] at h; simp at h
        | fin pf =>
          rw [hp] at h
          simp only [Option.some.injEq, Prod.mk.injEq] at h
          rcases pathFlowOf_attained g path .inf pf hp with h1 | ⟨s, _, e, he, hf⟩
          · simp at h1
          · exact ⟨s.1, e, List.getElem?_mem he, by rw [← h.1]; exact hf⟩

theorem augmentOnce_complete (fuel source sink n : Nat) (g : Graph)
    (hto : ∀ y, ∀ e ∈ adj g y, e.to_ < n) (hs : source < n)
    (h : augmentOnce fuel source sink n g = some none) :
    ¬ Relation.ReflTransGen (ResEdge g) source sink := by
  unfold augmentOnce at h
  cases hb : bfsLoop g sink fuel (bfsInit n source) with
  | none => rw [hb] at h; simp at h
  | some st =>
    rw [hb] at h
    simp only at h
    by_cases hsink : st.parent.getD sink none = none
    · exact bfs_no_path g n source sink fuel st hto hs hb hsink
    · rw [if_neg hsink] at h
      cases hw : walkParents st.parent st.parentEdge source fuel sink with
      | none => rw [hw] at h; simp at h
      | some path =>
        rw [hw] at h
        simp only at h
        cases hp : pathFlowOf g path with
        | inf => rw [hp] at h; simp at h
        | fin pf => rw [hp] at h; simp at h

/-- The flow carried by a series of two arcs `x → y → z`, whichever of the
two the builder saw first. -/
theorem series_core (n : Nat) (arcs : List Arc) (a1 a2 : Arc) (g0 : Graph)
    (harcs : arcs = [a1, a2] ∨ arcs = [a2, a1])
    (h12 : a1.t = a2.s) (hd1 : a1.s ≠ a1.t) (hd2 : a2.s ≠ a2.t) (hd3 : a1.s ≠ a2.t)
    (hv1 : a1.s < n ∧ a1.t < n) (hv2 : a2.s < n ∧ a2.t < n)
    (hc1 : eps < a1.cap) (hc2 : eps < a2.cap)
    (hg0 : g0 = buildArcs n (arcs.map (fun a => (a, (0 : ℚ)))))
    (hinv0 : FlowInv n a1.s a2.t arcs g0 0) :
    ∃ fuel0, ∀ fuel, fuel0 ≤ fuel →
      ∃ g, augmentLoop fuel a1.s a2.t n fuel g0 0 = some (min a1.cap a2.cap, g) := by
  have hvalid : ∀ a ∈ arcs, a.s < n ∧ a.t < n := by
    intro a ha
    rcases harcs with h | h <;> rw [h] at ha <;>
      simp only [List.mem_cons, List.mem_singleton, List.not_mem_nil, or_false] at ha <;>
      rcases ha with rfl | rfl <;> assumption
  have hmem1 : a1 ∈ arcs := by rcases harcs with h | h <;> rw [h] <;> simp
  have hmem2 : a2 ∈ arcs := by rcases harcs with h | h <;> rw [h] <;> simp
  have hfav : ∀ p ∈ arcs.map (fun a => (a, (0 : ℚ))), p.1.s < n ∧ p.1.t < n := by
    intro p hp
    obtain ⟨a, ha, rfl⟩ := List.mem_map.mp hp
    exact hvalid a ha
  have hto : ∀ y, ∀ e ∈ adj g0 y, e.to_ < n := by
    intro y e he
    rw [hg0] at he
    exact adj_to_lt n _ hfav y e he
  -- the two forward edges form a residual path in the graph as built
  have hres : ∀ a ∈ arcs, eps < a.cap → ResEdge g0 a.s a.t := by
    intro a ha hc
    obtain ⟨⟨e, he, h1, h2, h3⟩, _⟩ := arc_edges_buildArcs n _ hfav (a, 0)
      (List.mem_map.mpr ⟨a, ha, rfl⟩)
    rw [← hg0] at he
    exact ⟨e, he, h3, by rw [h1, h2]; simpa using hc⟩
  have hpath : Relation.ReflTransGen (ResEdge g0) a1.s a2.t := by
    have e1 := hres a1 hmem1 hc1
    have e2 := hres a2 hmem2 hc2
    rw [h12] at e1
    exact Relation.ReflTransGen.tail (Relation.ReflTransGen.single e1) e2
  -- bounds from the two cuts
  have hcut1 : arcCut arcs (fun y => decide (y = a1.s)) = a1.cap := by
    have hx : ¬ a2.s = a1.s := fun h => hd1 (h12.trans h).symm
    rcases harcs with h | h <;> rw [h] <;> simp [arcCut, Ne.symm hd1, hx]
  have hcut2 : arcCut arcs (fun y => decide (y ≠ a2.t)) = a2.cap := by
    have hx : ¬ a1.t = a2.t := fun h => hd2 (h12.symm.trans h)
    rcases harcs with h | h <;> rw [h] <;> simp [arcCut, hd3, hx, hd2]
  have hC : ∀ g total, FlowInv n a1.s a2.t arcs g total → total ≤ a1.cap := by
    intro g total hinv
    rw [← hcut1]
    exact flow_le_cut n _ _ arcs g total hvalid hv1.1 hinv _ (by simp) (by simpa using Ne.symm hd3)
  have hC2 : ∀ g total, FlowInv n a1.s a2.t arcs g total → total ≤ a2.cap := by
    intro g total hinv
    rw [← hcut2]
    exact flow_le_cut n _ _ arcs g total hvalid hv1.1 hinv _ (by simpa using hd3) (by simp)
  obtain ⟨N, hN⟩ := exists_nat_gt (a1.cap / eps)
  refine ⟨max (n + 1) (N + 1), fun fuel hfuel => ?_⟩
  have hinner : n < fuel := by
    have := le_max_left (n + 1) (N + 1)
    omega
  have hNf : N + 1 ≤ fuel := le_trans (le_max_right _ _) hfuel
  obtain ⟨k, hk⟩ : ∃ k, fuel = k + 1 := ⟨fuel - 1, by omega⟩
  -- the first pass finds the path and pushes a whole capacity
  rcases augmentOnce_spec n a1.s a2.t arcs g0 0 fuel hvalid hv1.1 hd3 hinner hinv0 with
    h | ⟨f, g1, h, hf, hinv1⟩
  · exact absurd hpath (augmentOnce_complete fuel a1.s a2.t n g0 hto hv1.1 h)
  · obtain ⟨y, e, he, hfe⟩ := augmentOnce_bottleneck fuel a1.s a2.t n g0 g1 f h
    have hfmin : min a1.cap a2.cap ≤ f := by
      rw [hg0] at he
      obtain ⟨p, hp, hcase | hcase⟩ := mem_adj_buildArcs n _ hfav y e he
      · obtain ⟨a, ha, rfl⟩ := List.mem_map.mp hp
        rw [hfe, hcase.2.2.1, hcase.2.2.2]
        simp only [sub_zero]
        rcases harcs with h' | h' <;> rw [h'] at ha <;>
          simp only [List.mem_cons, List.mem_singleton, List.not_mem_nil, or_false] at ha <;>
          rcases ha with rfl | rfl <;> simp
      · obtain ⟨a, ha, rfl⟩ := List.mem_map.mp hp
        rw [hcase.2.2.1, hcase.2.2.2] at hfe
        simp only [neg_zero, sub_zero] at hfe
        rw [hfe] at hf
        exact absurd hf (not_lt.mpr (le_of_lt eps_pos))
    have hlt : a1.cap - (0 + f) < k * eps := by
      rw [div_lt_iff₀ eps_pos] at hN
      have h1 : (N : ℚ) ≤ k := by
        have : N ≤ k := by omega
        exact_mod_cast this
      have h2 := mul_le_mul_of_nonneg_right h1 (le_of_lt eps_pos)
      have h3 := lt_trans eps_pos hf
      linarith
    obtain ⟨total', g', r1, r2, r3⟩ := augmentLoop_spec n a1.s a2.t arcs fuel a1.cap hvalid
      hv1.1 hd3 hinner hC k g1 (0 + f) hinv1 hlt
    have htot : total' = min a1.cap a2.cap := by
      apply le_antisymm
      · exact le_min (hC g' total' r2) (hC2 g' total' r2)
      · linarith
    refine ⟨g', ?_⟩
    rw [hk] at h ⊢
    simp only [augmentLoop]
    rw [← hk] at h ⊢
    rw [h]
    simp only
    rw [r1, htot]

/-! ## Lookups by id -/

theorem findIdx?_eq_some_iff_isFirst {α : Type} (p : α → Bool) (l : List α) (i : Nat) :
    l.findIdx? p = some i ↔ IsFirst (fun a => p a = true) l i := by
  rw [List.findIdx?_eq_some_iff_getElem]
  unfold IsFirst
  constructor
  · rintro ⟨h, hp, hlt⟩
    refine ⟨⟨l[i], by simp [List.getElem?_eq_getElem h], hp⟩, ?_⟩
    intro j hj b hb
    have hjl : j < l.length := lt_trans hj h
    have : l[j] = b := by
      have := hb
      simp [List.getElem?_eq_getElem hjl] at this
      exact this
    rw [← this]
    exact hlt j hj
  · rintro ⟨⟨a, ha, hpa⟩, hlt⟩
    have h : i < l.length := by
      by_contra hcon
      have : l.get? i = none := by
        simp only [List.get?_eq_getElem?]
        exact List.getElem?_eq_none (by omega)
      rw [this] at ha
      exact absurd ha (by simp)
    have hai : l[i] = a := by
      simp [List.getElem?_eq_getElem h] at ha
      exact ha
    refine ⟨h, by rw [hai]; exact hpa, ?_⟩
    intro j hj
    exact hlt j hj _ (by simp [List.getElem?_eq_getElem (lt_trans hj h)])

theorem findIdx?_eq_none_iff_forall {α : Type} (p : α → Bool) (l : List α) :
    l.findIdx? p = none ↔ ∀ a ∈ l, p a = false := by
  rw [List.findIdx?_eq_none_iff]

theorem findStationIndexById_eq_some (s : PipelineSystem) (id : Int) (i : Nat) :
    findStationIndexById s id = some i ↔ IsFirst (fun st => st.id = id) s.stations i := by
  unfold findStationIndexById
  rw [findIdx?_eq_some_iff_isFirst]
  simp only [beq_iff_eq]

theorem findPipeIndexById_eq_some (s : PipelineSystem) (id : Int) (i : Nat) :
    findPipeIndexById s id = some i ↔ IsFirst (fun p => p.id = id) s.pipes i := by
  unfold findPipeIndexById
  rw [findIdx?_eq_some_iff_isFirst]
  simp only [beq_iff_eq]

theorem findStationIndexById_eq_none (s : PipelineSystem) (id : Int) :
    findStationIndexById s id = none ↔ ¬ IsStationId s id := by
  unfold findStationIndexById IsStationId
  rw [findIdx?_eq_none_iff_forall]
  simp

theorem findPipeIndexById_eq_none (s : PipelineSystem) (id : Int) :
    findPipeIndexById s id = none ↔ ¬ IsPipeId s id := by
  unfold findPipeIndexById IsPipeId
  rw [findIdx?_eq_none_iff_forall]
  simp

theorem isFirst_unique {α : Type} (P : α → Prop) (l : List α) (i j : Nat)
    (hi : IsFirst P l i) (hj : IsFirst P l j) : i = j := by
  obtain ⟨⟨a, ha, hpa⟩, hia⟩ := hi
  obtain ⟨⟨b, hb, hpb⟩, hjb⟩ := hj
  rcases Nat.lt_trichotomy i j with h | h | h
  · exact absurd hpa (hjb i h a ha)
  · exact h
  · exact absurd hpb (hia j h b hb)

/-- The three cases of `getObjectInfo`. -/
theorem getObjectInfo_cases (s : PipelineSystem) (id : Int) :
    (IsStationId s id ∧ ∃ i, getObjectInfo s id = (true, some i) ∧
        IsFirst (fun st => st.id = id) s.stations i) ∨
    (¬ IsStationId s id ∧ IsPipeId s id ∧ ∃ i, getObjectInfo s id = (false, some i) ∧
        IsFirst (fun p => p.id = id) s.pipes i) ∨
    (¬ IsStationId s id ∧ ¬ IsPipeId s id ∧ getObjectInfo s id = (false, none)) := by
  unfold getObjectInfo
  cases hs : findStationIndexById s id with
  | some i =>
    left
    have hf := (findStationIndexById_eq_some s id i).mp hs
    obtain ⟨⟨st, hst, hid⟩, _⟩ := hf
    exact ⟨⟨st, List.get?_mem hst, hid⟩, i, rfl, (findStationIndexById_eq_some s id i).mp hs⟩
  | none =>
    right
    have hns := (findStationIndexById_eq_none s id).mp hs
    cases hp : findPipeIndexById s id with
    | some i =>
      left
      have hf := (findPipeIndexById_eq_some s id i).mp hp
      obtain ⟨⟨p, hpi, hid⟩, _⟩ := hf
      exact ⟨hns, ⟨p, List.get?_mem hpi, hid⟩, i, rfl, (findPipeIndexById_eq_some s id i).mp hp⟩
    | none =>
      right
      exact ⟨hns, (findPipeIndexById_eq_none s id).mp hp, rfl⟩

/-! ## The validator of connections -/

/-- What `getObjectInfo` found when it returns an index: a station, or the
first pipe with the id. -/
theorem getObjectInfo_some (s : PipelineSystem) (id : Int) (i : Nat)
    (h : (getObjectInfo s id).2 = some i) :
    ((getObjectInfo s id).1 = true ∧ IsStationId s id ∧ ∀ p, ¬ ResolvesToPipe s id p) ∨
    ((getObjectInfo s id).1 = false ∧ ¬ IsStationId s id ∧ IsPipeId s id ∧
      ∃ p0, s.pipes.get? i = some p0 ∧ ∀ p, ResolvesToPipe s id p ↔ p = p0) := by
  rcases getObjectInfo_cases s id with ⟨h1, j, hj, _⟩ | ⟨h1, h2, j, hj, hf⟩ | ⟨_, _, hj⟩
  · left
    exact ⟨by rw [hj], h1, fun p hp => hp.1 h1⟩
  · right
    rw [hj] at h
    have hij : j = i := by simpa using h
    subst hij
    obtain ⟨⟨p0, hp0, hid⟩, hlt⟩ := hf
    refine ⟨by rw [hj], h1, h2, p0, hp0, ?_⟩
    intro p
    constructor
    · rintro ⟨_, k, hk, hkf⟩
      have hkj : k = j := isFirst_unique _ _ _ _ hkf ⟨⟨p0, hp0, hid⟩, hlt⟩
      subst hkj
      rw [hp0] at hk
      exact (Option.some.inj hk).symm
    · rintro rfl
      exact ⟨h1, j, hp0, ⟨⟨p, hp0, hid⟩, hlt⟩⟩
  · rw [hj] at h
    exact absurd h (by simp)

theorem getObjectInfo_none (s : PipelineSystem) (id : Int) :
    (getObjectInfo s id).2 = none ↔ (¬ IsStationId s id ∧ ¬ IsPipeId s id) := by
  rcases getObjectInfo_cases s id with ⟨h1, i, hi, _⟩ | ⟨h1, h2, i, hi, _⟩ | ⟨h1, h2, hi⟩
  · rw [hi]; simp [h1]
  · rw [hi]; simp [h2]
  · rw [hi]; simp [h1, h2]

theorem canConnectObjects_eq_true (s : PipelineSystem) (startId endId diameter : Int) :
    canConnectObjects s startId endId diameter = true ↔
      (startId ≠ endId ∧
       (IsStationId s startId ∨ IsPipeId s startId) ∧
       (IsStationId s endId ∨ IsPipeId s endId) ∧
       (∀ p, ResolvesToPipe s startId p → p.underRepair = false) ∧
       (∀ p, ResolvesToPipe s endId p → p.underRepair = false) ∧
       (∀ conn ∈ s.network, ¬ (conn.startId = startId ∧ conn.endId = endId)) ∧
       (∀ p q, ResolvesToPipe s startId p → ResolvesToPipe s endId q →
          p.diameter = diameter ∧ q.diameter = diameter)) := by
  unfold canConnectObjects
  by_cases hne : startId = endId
  · simp [hne]
  rw [if_neg hne]
  simp only
  cases ha : (getObjectInfo s startId).2 with
  | none =>
    have := (getObjectInfo_none s startId).mp ha
    simp [this.1, this.2]
  | some i =>
    cases hb : (getObjectInfo s endId).2 with
    | none =>
      have := (getObjectInfo_none s endId).mp hb
      simp [this.1, this.2]
    | some j =>
      simp only
      have hnet : (s.network.any (fun conn => conn.startId == startId && conn.endId == endId)) = true ↔
          ¬ ∀ conn ∈ s.network, ¬ (conn.startId = startId ∧ conn.endId = endId) := by
        simp [List.any_eq_true]
      have hN : ∀ P : Prop, ((∀ conn ∈ s.network, ¬ (conn.startId = startId ∧ conn.endId = endId)) ↔ P) →
          ((∀ conn ∈ s.network, conn.startId = startId → ¬ conn.endId = endId) ↔ P) := by
        intro P hP
        rw [← hP]
        constructor
        · intro h c hc hh; exact h c hc hh.1 hh.2
        · intro h c hc h1 h2; exact h c hc ⟨h1, h2⟩
      by_cases hn : ∀ conn ∈ s.network, ¬ (conn.startId = startId ∧ conn.endId = endId)
      · have hn2 : (s.network.any (fun conn => conn.startId == startId && conn.endId == endId)) = false := by
          simpa using (not_iff_not.mpr hnet).mpr (not_not.mpr hn)
        have hn3 := hN True (iff_true_intro hn)
        rcases getObjectInfo_some s startId i ha with ⟨a1, a2, a3⟩ | ⟨a1, a2, a3, p0, hp0, a4⟩ <;>
        rcases getObjectInfo_some s endId j hb with ⟨b1, b2, b3⟩ | ⟨b1, b2, b3, q0, hq0, b4⟩
        · simp [a1, b1, a2, b2, a3, b3, hne, hn2, hn3]
        · have hq1 : s.pipes[j]? = some q0 := by simpa using hq0
          simp [a1, b1, a2, b3, a3, b4, hne, hq1, hn2, hn3, Option.any]
        · have hp1 : s.pipes[i]? = some p0 := by simpa using hp0
          simp [a1, b1, a3, b2, a4, b3, hne, hp1, hn2, hn3, Option.any]
        · have hp1 : s.pipes[i]? = some p0 := by simpa using hp0
          have hq1 : s.pipes[j]? = some q0 := by simpa using hq0
          simp [a1, b1, a3, b3, a4, b4, hne, hp1, hq1, hn2, hn3, Option.any]
      · have hn2 := hnet.mpr hn
        have hn3 := hN False (iff_false_intro hn)
        simp [hn2, hn3]

theorem findAvailablePipeByDiameter_eq_some (s : PipelineSystem) (diameter : Int) (i : Nat) :
    findAvailablePipeByDiameter s diameter = some i ↔ IsFirst (IsAvailable diameter) s.pipes i := by
  unfold findAvailablePipeByDiameter
  rw [findIdx?_eq_some_iff_isFirst]
  have : (fun p : Pipe => (p.diameter == diameter && !p.inUse && !p.underRepair) = true) =
      IsAvailable diameter := by
    funext p
    simp [IsAvailable, and_assoc]
  rw [this]

theorem findAvailablePipeByDiameter_eq_none (s : PipelineSystem) (diameter : Int) :
    findAvailablePipeByDiameter s diameter = none ↔ ∀ p ∈ s.pipes, ¬ IsAvailable diameter p := by
  unfold findAvailablePipeByDiameter
  rw [findIdx?_eq_none_iff_forall]
  constructor
  · intro h p hp hav
    have := h p hp
    simp [hav.1, hav.2.1, hav.2.2] at this
  · intro h p hp
    have := h p hp
    by_contra hcon
    apply this
    simp only [Bool.not_eq_false, Bool.and_eq_true, beq_iff_eq, Bool.not_eq_eq_eq_not,
      Bool.not_true] at hcon
    exact ⟨hcon.1.1, hcon.1.2, hcon.2⟩

/-- An accepted request finds the store non-empty. -/
theorem canConnectObjects_nonempty (s : PipelineSystem) (startId endId diameter : Int)
    (h : canConnectObjects s startId endId diameter = true) :
    (s.pipes.isEmpty && s.stations.isEmpty) = false := by
  have h2 := ((canConnectObjects_eq_true s startId endId diameter).mp h).2.1
  rcases h2 with ⟨st, hst, _⟩ | ⟨p, hp, _⟩
  · cases hs : s.stations with
    | nil => rw [hs] at hst; exact absurd hst (by simp)
    | cons a l => simp
  · cases hs : s.pipes with
    | nil => rw [hs] at hp; exact absurd hp (by simp)
    | cons a l => simp

/-- The two branches of `connectObjects` on an accepted request. -/
theorem connectObjects_of_accepted (s : PipelineSystem) (inp : ConnectInput)
    (h : canConnectObjects s inp.startId inp.endId inp.diameter = true) :
    connectObjects s inp =
      match findAvailablePipeByDiameter s inp.diameter with
      | some pipeIndex =>
        match s.pipes.get? pipeIndex with
        | none => s
        | some pipe =>
          { s with
            pipes := s.pipes.set pipeIndex
              { pipe with inUse := true, startId := inp.startId, endId := inp.endId,
                          startType := requestTag s inp.startId inp.endId,
                          endType := requestTag s inp.startId inp.endId },
            network := s.network ++
              [⟨pipe.id, inp.startId, inp.endId, requestTag s inp.startId inp.endId,
                requestTag s inp.startId inp.endId⟩] }
      | none =>
        { s with
          pipes := s.pipes ++
            [⟨s.nextPipeId, inp.name, inp.length, inp.diameter, false, true, inp.startId,
              inp.endId, requestTag s inp.startId inp.endId,
              requestTag s inp.startId inp.endId⟩],
          network := s.network ++
            [⟨s.nextPipeId, inp.startId, inp.endId, requestTag s inp.startId inp.endId,
              requestTag s inp.startId inp.endId⟩],
          nextPipeId := s.nextPipeId + 1 } := by
  unfold connectObjects
  rw [canConnectObjects_nonempty s _ _ _ h, h]
  simp only [Bool.false_eq_true, if_false, Bool.not_true, requestTag]

theorem connectObjects_of_rejected (s : PipelineSystem) (inp : ConnectInput)
    (h : canConnectObjects s inp.startId inp.endId inp.diameter = false) :
    connectObjects s inp = s := by
  unfold connectObjects
  rw [h]
  by_cases hg : (s.pipes.isEmpty && s.stations.isEmpty) = true
  · rw [if_pos hg]
  · rw [if_neg hg]; simp

/-! ## Capacity of a pipe -/

theorem find_PIPE_CAPACITIES (d : Int) :
    PIPE_CAPACITIES.find? (fun cap => cap.diameter == d) =
      if d = 500 then some ⟨500, 1000⟩
      else if d = 700 then some ⟨700, 2500⟩
      else if d = 1000 then some ⟨1000, 5000⟩
      else if d = 1400 then some ⟨1400, 10000⟩
      else none := by
  unfold PIPE_CAPACITIES
  by_cases h1 : d = 500
  · subst h1; rfl
  by_cases h2 : d = 700
  · subst h2; rfl
  by_cases h3 : d = 1000
  · subst h3; rfl
  by_cases h4 : d = 1400
  · subst h4; rfl
  rw [if_neg h1, if_neg h2, if_neg h3, if_neg h4]
  rw [List.find?_eq_none]
  intro x hx
  simp only [List.mem_cons, List.mem_singleton, List.not_mem_nil, or_false] at hx
  rcases hx with rfl | rfl | rfl | rfl <;> simp <;> omega

theorem isTableDiameter_iff (d : Int) :
    isTableDiameter d = true ↔ (d = 500 ∨ d = 700 ∨ d = 1000 ∨ d = 1400) := by
  simp only [isTableDiameter, PIPE_CAPACITIES, List.any_cons, List.any_nil, Bool.or_false,
    Bool.or_eq_true, beq_iff_eq]
  omega

/-! ## The node set of the builder -/

theorem setInsert_sorted (x : Int) : ∀ l : List Int, l.Pairwise (· < ·) →
    (setInsert x l).Pairwise (· < ·) := by
  intro l
  induction l with
  | nil => intro _; simp [setInsert]
  | cons y ys ih =>
    intro h
    simp only [setInsert]
    have hy := List.pairwise_cons.mp h
    split_ifs with h1 h2
    · refine List.pairwise_cons.mpr ⟨?_, h⟩
      intro z hz
      rcases List.mem_cons.mp hz with rfl | hz
      · exact h1
      · exact lt_trans h1 (hy.1 z hz)
    · exact h
    · refine List.pairwise_cons.mpr ⟨?_, ih hy.2⟩
      intro z hz
      rcases (mem_setInsert z x ys).mp hz with rfl | hz
      · omega
      · exact hy.1 z hz

theorem collectNodes_sorted (network : List NetworkConnection) :
    (collectNodes network).Pairwise (· < ·) := by
  unfold collectNodes
  have key : ∀ (L : List NetworkConnection) (acc : List Int), acc.Pairwise (· < ·) →
      (L.foldl (fun nodes conn => setInsert conn.endId (setInsert conn.startId nodes))
        acc).Pairwise (· < ·) := by
    intro L
    induction L with
    | nil => intro acc h; exact h
    | cons c cs ih =>
      intro acc h
      exact ih _ (setInsert_sorted _ _ (setInsert_sorted _ _ h))
  exact key network [] List.Pairwise.nil

theorem collectNodes_nodup (network : List NetworkConnection) : (collectNodes network).Nodup :=
  (collectNodes_sorted network).imp (fun h => ne_of_lt h)

/-- In a strictly ascending list the position of a member is the number of
smaller members. -/
theorem indexOf_eq_countLt : ∀ (l : List Int), l.Pairwise (· < ·) → ∀ id ∈ l,
    l.indexOf id = (l.filter (fun x => decide (x < id))).length := by
  intro l
  induction l with
  | nil => intro _ id hid; exact absurd hid (by simp)
  | cons a t ih =>
    intro h id hid
    have ha := List.pairwise_cons.mp h
    by_cases hai : a = id
    · subst hai
      rw [List.indexOf_cons_self]
      have : (a :: t).filter (fun x => decide (x < a)) = [] := by
        rw [List.filter_eq_nil_iff]
        intro z hz
        rcases List.mem_cons.mp hz with rfl | hz
        · simp
        · have := ha.1 z hz
          simp only [decide_eq_true_eq, not_lt]
          omega
      rw [this]; rfl
    · have hidt : id ∈ t := by
        rcases List.mem_cons.mp hid with h1 | h1
        · exact absurd h1.symm hai
        · exact h1
      have hlt : a < id := ha.1 id hidt
      rw [List.indexOf_cons_ne _ hai, ih ha.2 id hidt]
      rw [List.filter_cons_of_pos (by simpa using hlt)]
      rfl

theorem mem_endpointIds (s : PipelineSystem) (id : Int) :
    id ∈ endpointIds s ↔ ∃ conn ∈ s.network, conn.startId = id ∨ conn.endId = id := by
  unfold endpointIds
  simp only [List.mem_toFinset, List.mem_append, List.mem_map]
  constructor
  · rintro (⟨c, hc, h⟩ | ⟨c, hc, h⟩)
    · exact ⟨c, hc, Or.inl h⟩
    · exact ⟨c, hc, Or.inr h⟩
  · rintro ⟨c, hc, h | h⟩
    · exact Or.inl ⟨c, hc, h⟩
    · exact Or.inr ⟨c, hc, h⟩

theorem collectNodes_toFinset (s : PipelineSystem) :
    (collectNodes s.network).toFinset = endpointIds s := by
  ext id
  rw [List.mem_toFinset, mem_collectNodes, mem_endpointIds]
  constructor
  · rintro ⟨c, hc, h | h⟩
    · exact ⟨c, hc, Or.inl h.symm⟩
    · exact ⟨c, hc, Or.inr h.symm⟩
  · rintro ⟨c, hc, h | h⟩
    · exact ⟨c, hc, Or.inl h.symm⟩
    · exact ⟨c, hc, Or.inr h.symm⟩

/-! ## What a menu action does to the lists of the store -/

/-- The action `editPipe` changes at most the pipe list. -/
theorem editPipe_eq (s : PipelineSystem) (inp : EditPipeInput) :
    ∃ pipes, editPipe s inp = { s with pipes := pipes } := by
  unfold editPipe
  by_cases h1 : s.pipes.isEmpty = true
  · rw [if_pos h1]; exact ⟨s.pipes, rfl⟩
  · rw [if_neg h1]
    cases findPipeIndexById s inp.id with
    | none => exact ⟨s.pipes, rfl⟩
    | some i =>
      simp only
      cases s.pipes.get? i with
      | none => exact ⟨s.pipes, rfl⟩
      | some p =>
        simp only
        by_cases h2 : inp.choice = 1
        · rw [if_pos h2]; exact ⟨_, rfl⟩
        · rw [if_neg h2]; exact ⟨_, rfl⟩

theorem editPipe_network (s : PipelineSystem) (inp : EditPipeInput) :
    (editPipe s inp).network = s.network := by
  obtain ⟨p, h⟩ := editPipe_eq s inp
  rw [h]

theorem editPipe_stations (s : PipelineSystem) (inp : EditPipeInput) :
    (editPipe s inp).stations = s.stations := by
  obtain ⟨p, h⟩ := editPipe_eq s inp
  rw [h]

theorem map_set_of_eq {α β : Type} (f : α → β) : ∀ (l : List α) (i : Nat) (a b : α),
    l.get? i = some b → f a = f b → (l.set i a).map f = l.map f := by
  intro l
  induction l with
  | nil => intro i a b h; simp at h
  | cons x xs ih =>
    intro i a b h hf
    cases i with
    | zero =>
      simp only [List.get?_cons_zero, Option.some.injEq] at h
      subst h
      simp [hf]
    | succ k =>
      simp only [List.get?_cons_succ] at h
      simp only [List.set_cons_succ, List.map_cons, ih k a b h hf]

/-- The action `editStation` changes at most the station list, and no id in it. -/
theorem editStation_eq (s : PipelineSystem) (inp : EditStationInput) :
    ∃ stations, editStation s inp = { s with stations := stations } ∧
      stations.map (fun st => st.id) = s.stations.map (fun st => st.id) := by
  unfold editStation
  by_cases h1 : s.stations.isEmpty = true
  · rw [if_pos h1]; exact ⟨s.stations, rfl, rfl⟩
  · rw [if_neg h1]
    cases findStationIndexById s inp.id with
    | none => exact ⟨s.stations, rfl, rfl⟩
    | some i =>
      simp only
      cases hst : s.stations.get? i with
      | none => exact ⟨s.stations, rfl, rfl⟩
      | some st =>
        simp only
        by_cases h2 : inp.choice = 1
        · rw [if_pos h2]
          by_cases h3 : inp.action = 1 ∧ st.activeWorkshops < st.totalWorkshops
          · rw [if_pos h3]
            exact ⟨_, rfl, map_set_of_eq _ _ _ _ _ hst rfl⟩
          · rw [if_neg h3]
            by_cases h4 : inp.action = 2 ∧ st.activeWorkshops > 0
            · rw [if_pos h4]
              exact ⟨_, rfl, map_set_of_eq _ _ _ _ _ hst rfl⟩
            · rw [if_neg h4]
              exact ⟨s.stations, rfl, rfl⟩
        · rw [if_neg h2]
          refine ⟨_, rfl, map_set_of_eq _ _ _ _ _ hst ?_⟩
          split_ifs <;> rfl

theorem editStation_network (s : PipelineSystem) (inp : EditStationInput) :
    (editStation s inp).network = s.network := by
  obtain ⟨p, h, _⟩ := editStation_eq s inp
  rw [h]

/-- The action `disconnectPipe` leaves the store as it is, or removes the
connections of a pipe in use and releases that pipe. -/
theorem disconnectPipe_eq (s : PipelineSystem) (pipeId : Int) :
    disconnectPipe s pipeId = s ∨
    ∃ pipeIndex pipe, findPipeIndexById s pipeId = some pipeIndex ∧
      s.pipes.get? pipeIndex = some pipe ∧ pipe.inUse = true ∧
      disconnectPipe s pipeId =
        { s with
          network := s.network.filter (fun conn => !(conn.pipeId == pipeId)),
          pipes := s.pipes.set pipeIndex
            { pipe with inUse := false, startId := 0, endId := 0 } } := by
  unfold disconnectPipe
  by_cases h1 : s.network.isEmpty = true
  · rw [if_pos h1]; left; rfl
  · rw [if_neg h1]
    cases hf : findPipeIndexById s pipeId with
    | none => left; rfl
    | some i =>
      simp only
      cases hp : s.pipes.get? i with
      | none => left; rfl
      | some p =>
        simp only
        cases hu : p.inUse with
        | false => left; simp
        | true => right; exact ⟨i, p, rfl, hp, hu, by simp⟩

theorem disconnectPipe_stations (s : PipelineSystem) (pipeId : Int) :
    (disconnectPipe s pipeId).stations = s.stations := by
  rcases disconnectPipe_eq s pipeId with h | ⟨i, p, _, _, _, h⟩ <;> rw [h]

/-- After `disconnectPipe` the network is the old one, or the old one
without the connections of the pipe. -/
theorem disconnectPipe_network (s : PipelineSystem) (pipeId : Int) :
    (disconnectPipe s pipeId).network = s.network ∨
    (disconnectPipe s pipeId).network =
      s.network.filter (fun conn => !(conn.pipeId == pipeId)) := by
  rcases disconnectPipe_eq s pipeId with h | ⟨i, p, _, _, _, h⟩ <;> rw [h]
  · left; rfl
  · right; rfl

theorem disconnectPipe_network_sublist (s : PipelineSystem) (pipeId : Int) :
    (disconnectPipe s pipeId).network.Sublist s.network := by
  rcases disconnectPipe_network s pipeId with h | h
  · rw [h]
  · rw [h]; exact List.filter_sublist _

/-- A property that every pass of the deletion loop keeps is kept by
`deleteObjects`. -/
theorem deleteObjects_induction (P : PipelineSystem → Prop)
    (hst : ∀ s i, P s → P (deleteStationAt s i)) (hpi : ∀ s i, P s → P (deletePipeAt s i))
    (s : PipelineSystem) (isPipe : Bool) (input : Selection) (h : P s) :
    P (deleteObjects s isPipe input) := by
  have key : ∀ (f : PipelineSystem → Nat → PipelineSystem),
      (∀ t i, P t → P (f t i)) → ∀ (l : List Nat) (t : PipelineSystem), P t →
        P (l.foldl f t) := by
    intro f hf l
    induction l with
    | nil => intro t ht; exact ht
    | cons a l ih =>
      intro t ht
      simp only [List.foldl_cons]
      exact ih _ (hf t a ht)
  unfold deleteObjects
  cases isPipe with
  | true =>
    simp only [if_true]
    split_ifs
    · exact h
    · exact key _ hpi _ s h
  | false =>
    simp only [Bool.false_eq_true, if_false]
    split_ifs
    · exact h
    · exact key _ hst _ s h

theorem deleteStationAt_network_sublist (s : PipelineSystem) (i : Nat) :
    (deleteStationAt s i).network.Sublist s.network := by
  unfold deleteStationAt
  split
  · exact List.Sublist.refl _
  · exact List.filter_sublist _

theorem deleteObjects_network_sublist (s : PipelineSystem) (isPipe : Bool) (input : Selection) :
    (deleteObjects s isPipe input).network.Sublist s.network := by
  apply deleteObjects_induction (fun t => t.network.Sublist s.network)
  · intro t i ht
    exact (deleteStationAt_network_sublist t i).trans ht
  · intro t i ht
    exact ht
  · exact List.Sublist.refl _

/-- After `connectObjects` the network is the old one, or, for an accepted
request, the old one and a connection between the ids of the request with
the tag of the request. -/
theorem connectObjects_network (s : PipelineSystem) (inp : ConnectInput) :
    (connectObjects s inp).network = s.network ∨
    (canConnectObjects s inp.startId inp.endId inp.diameter = true ∧
      ∃ pipeId, (connectObjects s inp).network = s.network ++
        [⟨pipeId, inp.startId, inp.endId, requestTag s inp.startId inp.endId,
          requestTag s inp.startId inp.endId⟩]) := by
  cases h : canConnectObjects s inp.startId inp.endId inp.diameter with
  | false => left; rw [connectObjects_of_rejected s inp h]
  | true =>
    rw [connectObjects_of_accepted s inp h]
    cases hf : findAvailablePipeByDiameter s inp.diameter with
    | none => right; exact ⟨by simp, _, rfl⟩
    | some i =>
      simp only
      cases hp : s.pipes.get? i with
      | none => left; rfl
      | some p => right; exact ⟨by simp, _, rfl⟩

theorem connectObjects_stations (s : PipelineSystem) (inp : ConnectInput) :
    (connectObjects s inp).stations = s.stations := by
  cases h : canConnectObjects s inp.startId inp.endId inp.diameter with
  | false => rw [connectObjects_of_rejected s inp h]
  | true =>
    rw [connectObjects_of_accepted s inp h]
    cases hf : findAvailablePipeByDiameter s inp.diameter with
    | none => rfl
    | some i =>
      simp only
      cases hp : s.pipes.get? i with
      | none => rfl
      | some p => rfl

/-- The network after a menu action: a sublist of the old one, or the old
one and the connection of an accepted request. -/
theorem execute_network (s : PipelineSystem) (c : Command) :
    (execute s c).network.Sublist s.network ∨
    ∃ (inp : ConnectInput) (pipeId : Int), c = .connectObjects inp ∧
      canConnectObjects s inp.startId inp.endId inp.diameter = true ∧
      (execute s c).network = s.network ++
        [⟨pipeId, inp.startId, inp.endId, requestTag s inp.startId inp.endId,
          requestTag s inp.startId inp.endId⟩] := by
  cases c with
  | addPipe name length diameter => left; exact List.Sublist.refl _
  | addStation name t a k => left; exact List.Sublist.refl _
  | editPipe inp => left; simp only [execute]; rw [editPipe_network]
  | editStation inp => left; simp only [execute]; rw [editStation_network]
  | deleteObjects isPipe input => left; exact deleteObjects_network_sublist s isPipe input
  | connectObjects inp =>
    rcases connectObjects_network s inp with h | ⟨h1, pid, h2⟩
    · left; simp only [execute]; rw [h]
    · right; exact ⟨inp, pid, rfl, h1, h2⟩
  | disconnectPipe pipeId => left; exact disconnectPipe_network_sublist s pipeId

/-- An accepted request has different ids, and no connection joins them yet. -/
theorem canConnectObjects_fresh (s : PipelineSystem) (startId endId diameter : Int)
    (h : canConnectObjects s startId endId diameter = true) :
    startId ≠ endId ∧
    s.network.countP (fun conn => decide (conn.startId = startId ∧ conn.endId = endId)) = 0 := by
  have h2 := (canConnectObjects_eq_true s startId endId diameter).mp h
  refine ⟨h2.1, ?_⟩
  rw [List.countP_eq_zero]
  intro conn hconn
  simpa using h2.2.2.2.2.2.1 conn hconn

theorem reachable_foldl (cs : List Command) : ∀ s, Reachable s → (∀ c ∈ cs, c.valid) →
    Reachable (cs.foldl execute s) := by
  induction cs with
  | nil => intro s h _; exact h
  | cons c cs ih =>
    intro s h hv
    simp only [List.foldl_cons]
    exact ih _ (Reachable.step s c h (hv c (List.mem_cons_self c cs)))
      (fun c2 hc2 => hv c2 (List.mem_cons_of_mem c hc2))

theorem reachable_executeAll (cs : List Command) (h : ∀ c ∈ cs, c.valid) :
    Reachable (executeAll emptyStore cs) :=
  reachable_foldl cs emptyStore Reachable.init h

theorem scriptConnect_valid : ∀ c ∈ scriptConnect, c.valid := by
  intro c hc
  simp only [scriptConnect, List.mem_cons, List.mem_singleton, List.not_mem_nil, or_false] at hc
  rcases hc with rfl | rfl | rfl
  · simp [Command.valid]
  · simp [Command.valid]
  · simp only [Command.valid]
    refine ⟨by decide, by decide, by decide, by decide, by decide, by decide, by norm_num⟩

/-! ## Type tags of the connections -/

theorem scriptRetag_valid : ∀ c ∈ scriptRetag, c.valid := by
  intro c hc
  simp only [scriptRetag, List.mem_cons, List.mem_singleton, List.not_mem_nil, or_false] at hc
  rcases hc with rfl | rfl | rfl | rfl | rfl
  · simp only [Command.valid]
    refine ⟨by decide, by norm_num, by decide⟩
  · simp only [Command.valid]
    refine ⟨by decide, by norm_num, by decide⟩
  · simp [Command.valid]
  · simp only [Command.valid]
    refine ⟨by decide, by decide, by decide, by decide, by decide, by decide, by norm_num⟩
  · simp [Command.valid]

theorem isStationId_iff_mem (s : PipelineSystem) (id : Int) :
    IsStationId s id ↔ id ∈ s.stations.map (fun st => st.id) := by
  unfold IsStationId
  simp only [List.mem_map]

theorem determineConnectionType_start (a b : Bool) :
    (determineConnectionType a b = .STATION_TO_STATION ∨
      determineConnectionType a b = .STATION_TO_PIPE) ↔ a = true := by
  cases a <;> cases b <;> simp [determineConnectionType]

theorem determineConnectionType_end (a b : Bool) :
    (determineConnectionType a b = .STATION_TO_STATION ∨
      determineConnectionType a b = .PIPE_TO_STATION) ↔ b = true := by
  cases a <;> cases b <;> simp [determineConnectionType]

theorem determineConnectionType_inj (a b c d : Bool) :
    determineConnectionType a b = determineConnectionType c d ↔ (a = c ∧ b = d) := by
  cases a <;> cases b <;> cases c <;> cases d <;> simp [determineConnectionType]

theorem tagInv_of_sublist (s t : PipelineSystem) (hnet : t.network.Sublist s.network)
    (hst : ∀ id, IsStationId s id → IsStationId t id) (h : TagInv s) : TagInv t := by
  intro conn hc
  have := h conn (hnet.subset hc)
  exact ⟨fun h1 => hst _ (this.1 h1), fun h1 => hst _ (this.2 h1)⟩

theorem deleteStationAt_tagInv (s : PipelineSystem) (i : Nat) (h : TagInv s) :
    TagInv (deleteStationAt s i) := by
  unfold deleteStationAt
  cases hst : s.stations.get? i with
  | none => exact h
  | some station =>
    simp only
    intro conn hc
    simp only [List.mem_filter, Bool.not_eq_true', Bool.or_eq_false_iff, beq_eq_false_iff_ne,
      ne_eq] at hc
    obtain ⟨hc1, hc2, hc3⟩ := hc
    have keep : ∀ id, id ≠ station.id → IsStationId s id →
        ∃ st ∈ s.stations.eraseIdx i, st.id = id := by
      intro id hid ⟨st, hmem, hst2⟩
      refine ⟨st, ?_, hst2⟩
      rw [List.mem_eraseIdx_iff_getElem?]
      obtain ⟨k, hk⟩ := List.getElem?_of_mem hmem
      refine ⟨k, ?_, hk⟩
      rintro rfl
      simp only [List.get?_eq_getElem?] at hst
      rw [hst] at hk
      have := Option.some.inj hk
      subst this
      exact hid hst2.symm
    have := h conn hc1
    exact ⟨fun h1 => keep _ hc2 (this.1 h1), fun h1 => keep _ hc3 (this.2 h1)⟩

theorem execute_tagInv (s : PipelineSystem) (c : Command) (h : TagInv s) :
    TagInv (execute s c) := by
  cases c with
  | addPipe name length diameter =>
    exact tagInv_of_sublist s _ (List.Sublist.refl _) (fun _ hid => hid) h
  | addStation name t a k =>
    refine tagInv_of_sublist s _ (List.Sublist.refl _) ?_ h
    rintro id ⟨st, hst, hid⟩
    exact ⟨st, List.mem_append_left _ hst, hid⟩
  | editPipe inp =>
    obtain ⟨p, hp⟩ := editPipe_eq s inp
    simp only [execute]
    rw [hp]
    exact tagInv_of_sublist s _ (List.Sublist.refl _) (fun _ hid => hid) h
  | editStation inp =>
    obtain ⟨p, hp, hids⟩ := editStation_eq s inp
    simp only [execute]
    rw [hp]
    refine tagInv_of_sublist s _ (List.Sublist.refl _) ?_ h
    intro id hid
    rw [isStationId_iff_mem] at hid ⊢
    simp only
    rw [hids]
    exact hid
  | deleteObjects isPipe input =>
    apply deleteObjects_induction TagInv _ _ s isPipe input h
    · intro t i ht; exact deleteStationAt_tagInv t i ht
    · intro t i ht
      exact tagInv_of_sublist t _ (List.Sublist.refl _) (fun _ hid => hid) ht
  | connectObjects inp =>
    simp only [execute]
    have hst := connectObjects_stations s inp
    have hid : ∀ id, IsStationId s id → IsStationId (connectObjects s inp) id := by
      intro id hid
      rw [isStationId_iff_mem] at hid ⊢
      rw [hst]
      exact hid
    rcases connectObjects_network s inp with hn | ⟨hacc, pid, hn⟩
    · exact tagInv_of_sublist s _ (by rw [hn]) hid h
    · intro conn hc
      rw [hn] at hc
      rcases List.mem_append.mp hc with hc | hc
      · have := h conn hc
        exact ⟨fun h1 => hid _ (this.1 h1), fun h1 => hid _ (this.2 h1)⟩
      · rw [List.mem_singleton] at hc
        subst hc
        constructor
        · intro h1
          apply hid
          exact (getObjectInfo_isStation s _).mp
            ((determineConnectionType_start _ _).mp h1)
        · intro h1
          apply hid
          exact (getObjectInfo_isStation s _).mp
            ((determineConnectionType_end _ _).mp h1)
  | disconnectPipe pipeId =>
    refine tagInv_of_sublist s _ (disconnectPipe_network_sublist s pipeId) ?_ h
    intro id hid
    rw [isStationId_iff_mem] at hid ⊢
    show id ∈ (disconnectPipe s pipeId).stations.map (fun st => st.id)
    rw [disconnectPipe_stations]
    exact hid

theorem reachable_tagInv (s : PipelineSystem) (h : Reachable s) : TagInv s := by
  induction h with
  | init => intro conn hc; simp [emptyStore] at hc
  | step s c _ _ ih => exact execute_tagInv s c ih

/-- Every connection of a reachable store was appended by `connectObjects`
at an earlier reachable store, with both tags equal to the tag of the
request there. -/
theorem reachable_created (s : PipelineSystem) (h : Reachable s) :
    ∀ conn ∈ s.network, ∃ (s0 : PipelineSystem) (inp : ConnectInput),
      Reachable s0 ∧ canConnectObjects s0 inp.startId inp.endId inp.diameter = true ∧
      (connectObjects s0 inp).network = s0.network ++ [conn] ∧
      ReachableFrom (connectObjects s0 inp) s ∧
      conn.startId = inp.startId ∧ conn.endId = inp.endId ∧
      conn.startType = requestTag s0 inp.startId inp.endId ∧
      conn.endType = requestTag s0 inp.startId inp.endId := by
  induction h with
  | init => intro conn hc; simp [emptyStore] at hc
  | step s c hs hv ih =>
    have old : ∀ conn ∈ s.network, ∃ (s0 : PipelineSystem) (inp : ConnectInput),
        Reachable s0 ∧ canConnectObjects s0 inp.startId inp.endId inp.diameter = true ∧
        (connectObjects s0 inp).network = s0.network ++ [conn] ∧
        ReachableFrom (connectObjects s0 inp) (execute s c) ∧
        conn.startId = inp.startId ∧ conn.endId = inp.endId ∧
        conn.startType = requestTag s0 inp.startId inp.endId ∧
        conn.endType = requestTag s0 inp.startId inp.endId := by
      intro conn hc
      obtain ⟨s0, inp, h1, h2, h3, h4, h5⟩ := ih conn hc
      exact ⟨s0, inp, h1, h2, h3, ReachableFrom.step s c h4 hv, h5⟩
    intro conn hc
    rcases execute_network s c with hsub | ⟨inp, pid, hcmd, hacc, hnet⟩
    · exact old conn (hsub.subset hc)
    · rw [hnet] at hc
      rcases List.mem_append.mp hc with hc | hc
      · exact old conn hc
      · rw [List.mem_singleton] at hc
        subst hc
        subst hcmd
        exact ⟨s, inp, hs, hacc, hnet, ReachableFrom.refl, rfl, rfl, rfl, rfl⟩

theorem scriptRetag_network :
    (executeAll emptyStore scriptRetag).network =
      [⟨1, 1, 2, .STATION_TO_PIPE, .STATION_TO_PIPE⟩] := by
  decide

theorem scriptRetag_resolution :
    determineConnectionType (getObjectInfo (executeAll emptyStore scriptRetag) 1).1
      (getObjectInfo (executeAll emptyStore scriptRetag) 2).1 = .STATION_TO_STATION := by
  decide

/-! ## Edges of the built graph, one connection at a time -/

theorem adj_addArc_edges (g : Graph) (a : Arc) (x : ℚ) (y : Nat) (hs : a.s < g.length)
    (ht : a.t < g.length) :
    adj (addArc g a x) y =
      adj g y ++ (if y = a.s then [forwardEdge a x (adj g a.t).length] else [])
        ++ (if y = a.t then [backwardEdge a x (adj g a.s).length] else []) :=
  adj_addArc g a x y hs ht

/-- The adjacency list of a node of the graph of arcs, `rev` apart: the
arcs in order, each with its forward edge at its tail and its residual edge
at its head. -/
theorem adj_buildArcs_map (n : Nat) :
    ∀ (fa : List (Arc × ℚ)), (∀ p ∈ fa, p.1.s < n ∧ p.1.t < n) → ∀ y,
      (adj (buildArcs n fa) y).map (fun e => { e with rev := 0 }) =
        fa.flatMap (fun p =>
          (if y = p.1.s then [forwardEdge p.1 p.2 0] else []) ++
          (if y = p.1.t then [backwardEdge p.1 p.2 0] else [])) := by
  intro fa
  induction fa using List.reverseRecOn with
  | nil => intro _ y; rw [adj_buildArcs_nil]; rfl
  | append_singleton fa p ih =>
    obtain ⟨a0, x0⟩ := p
    intro hv y
    have hvfa : ∀ p ∈ fa, p.1.s < n ∧ p.1.t < n := fun p hp => hv p (List.mem_append_left _ hp)
    have hv0 := hv (a0, x0) (List.mem_append_right _ (List.mem_singleton_self _))
    simp only at hv0
    have hs0 : a0.s < (buildArcs n fa).length := by rw [length_buildArcs]; exact hv0.1
    have ht0 : a0.t < (buildArcs n fa).length := by rw [length_buildArcs]; exact hv0.2
    rw [buildArcs_snoc, adj_addArc_edges _ a0 x0 y hs0 ht0, List.map_append, List.map_append,
      ih hvfa y, List.flatMap_append]
    simp only [List.flatMap_cons, List.flatMap_nil, List.append_nil, List.append_assoc,
      apply_ite (List.map _), List.map_cons, List.map_nil]
    rfl

/-- In the graph of arcs without loops the edge at position `i` of node `u`
and the edge at position `rev` of the node it leads to are the two edges of
one arc, and each holds the position of the other. -/
theorem pair_buildArcs (n : Nat) :
    ∀ (fa : List (Arc × ℚ)), (∀ p ∈ fa, p.1.s < n ∧ p.1.t < n) →
      (∀ p ∈ fa, p.1.s ≠ p.1.t) →
      ∀ u i e, (adj (buildArcs n fa) u)[i]? = some e →
        ∃ (k : Nat) (a : Arc) (x : ℚ) (j : Nat), fa[k]? = some (a, x) ∧
          ((a.s = u ∧ e = forwardEdge a x j ∧
              (adj (buildArcs n fa) a.t)[j]? = some (backwardEdge a x i)) ∨
           (a.t = u ∧ e = backwardEdge a x j ∧
              (adj (buildArcs n fa) a.s)[j]? = some (forwardEdge a x i))) := by
  intro fa
  induction fa using List.reverseRecOn with
  | nil =>
    intro _ _ u i e he
    rw [adj_buildArcs_nil] at he
    simp at he
  | append_singleton fa p ih =>
    obtain ⟨a0, x0⟩ := p
    intro hv hl u i e he
    have hvfa : ∀ p ∈ fa, p.1.s < n ∧ p.1.t < n := fun p hp => hv p (List.mem_append_left _ hp)
    have hlfa : ∀ p ∈ fa, p.1.s ≠ p.1.t := fun p hp => hl p (List.mem_append_left _ hp)
    have hv0 := hv (a0, x0) (List.mem_append_right _ (List.mem_singleton_self _))
    have hst : a0.s ≠ a0.t := hl (a0, x0) (List.mem_append_right _ (List.mem_singleton_self _))
    simp only at hv0
    have hs0 : a0.s < (buildArcs n fa).length := by rw [length_buildArcs]; exact hv0.1
    have ht0 : a0.t < (buildArcs n fa).length := by rw [length_buildArcs]; exact hv0.2
    rw [buildArcs_snoc] at he ⊢
    rw [adj_addArc_edges _ a0 x0 u hs0 ht0] at he
    by_cases hi : i < (adj (buildArcs n fa) u).length
    · rw [List.append_assoc, List.getElem?_append_left hi] at he
      obtain ⟨k, a, x, j, hk, hcase⟩ := ih hvfa hlfa u i e he
      have hklt : k < fa.length := by
        by_contra hcon
        rw [List.getElem?_eq_none (not_lt.mp hcon)] at hk
        simp at hk
      have hk' : (fa ++ [(a0, x0)])[k]? = some (a, x) := by
        rw [List.getElem?_append_left hklt]; exact hk
      have old : ∀ (y j : Nat) (e1 : GraphEdge), (adj (buildArcs n fa) y)[j]? = some e1 →
          (adj (addArc (buildArcs n fa) a0 x0) y)[j]? = some e1 := by
        intro y j e1 h1
        have hj : j < (adj (buildArcs n fa) y).length := by
          by_contra hcon
          rw [List.getElem?_eq_none (not_lt.mp hcon)] at h1
          simp at h1
        rw [adj_addArc_edges _ a0 x0 y hs0 ht0, List.append_assoc,
          List.getElem?_append_left hj]
        exact h1
      refine ⟨k, a, x, j, hk', ?_⟩
      rcases hcase with ⟨h1, h2, h3⟩ | ⟨h1, h2, h3⟩
      · exact Or.inl ⟨h1, h2, old _ _ _ h3⟩
      · exact Or.inr ⟨h1, h2, old _ _ _ h3⟩
    · have hk' : (fa ++ [(a0, x0)])[fa.length]? = some (a0, x0) := by
        rw [List.getElem?_append_right (le_refl _)]; simp
      rw [List.append_assoc, List.getElem?_append_right (not_lt.mp hi)] at he
      by_cases hus : u = a0.s
      · have hut : u ≠ a0.t := fun h => hst (hus.symm.trans h)
        rw [if_pos hus, if_neg hut] at he
        have hmem := List.getElem?_mem he
        simp only [List.append_nil, List.mem_singleton] at hmem
        have hidx : i = (adj (buildArcs n fa) u).length := by
          have : i - (adj (buildArcs n fa) u).length < 1 := by
            by_contra hcon
            rw [List.getElem?_eq_none (by
              simp only [List.length_append, List.length_singleton, List.length_nil]; omega)] at he
            simp at he
          omega
        refine ⟨fa.length, a0, x0, (adj (buildArcs n fa) a0.t).length, hk',
          Or.inl ⟨hus.symm, hmem, ?_⟩⟩
        rw [adj_addArc_edges _ a0 x0 a0.t hs0 ht0, if_neg (Ne.symm hst), if_pos rfl,
          List.append_nil, List.getElem?_append_right (le_refl _)]
        simp [hidx, hus]
      · by_cases hut : u = a0.t
        · rw [if_neg hus, if_pos hut] at he
          have hmem := List.getElem?_mem he
          simp only [List.nil_append, List.mem_singleton] at hmem
          have hidx : i = (adj (buildArcs n fa) u).length := by
            have : i - (adj (buildArcs n fa) u).length < 1 := by
              by_contra hcon
              rw [List.getElem?_eq_none (by
                simp only [List.length_append, List.length_singleton, List.length_nil]; omega)] at he
              simp at he
            omega
          refine ⟨fa.length, a0, x0, (adj (buildArcs n fa) a0.s).length, hk',
            Or.inr ⟨hut.symm, hmem, ?_⟩⟩
          rw [adj_addArc_edges _ a0 x0 a0.s hs0 ht0, if_pos rfl, if_neg hst,
            List.append_nil, List.getElem?_append_right (le_refl _)]
          simp [hidx, hut]
        · rw [if_neg hus, if_neg hut] at he
          simp at he

/-- The flows of the edges at a node of the graph of arcs add up to the net
flow that the arcs send out of the node. -/
theorem sum_flow_buildArcs (n : Nat) :
    ∀ (fa : List (Arc × ℚ)), (∀ p ∈ fa, p.1.s < n ∧ p.1.t < n) → ∀ y,
      ((adj (buildArcs n fa) y).map (fun e => e.flow)).sum = netOut fa y := by
  intro fa
  induction fa using List.reverseRecOn with
  | nil => intro _ y; rw [adj_buildArcs_nil]; simp [netOut]
  | append_singleton fa p ih =>
    obtain ⟨a0, x0⟩ := p
    intro hv y
    have hvfa : ∀ p ∈ fa, p.1.s < n ∧ p.1.t < n := fun p hp => hv p (List.mem_append_left _ hp)
    have hv0 := hv (a0, x0) (List.mem_append_right _ (List.mem_singleton_self _))
    simp only at hv0
    have hs0 : a0.s < (buildArcs n fa).length := by rw [length_buildArcs]; exact hv0.1
    have ht0 : a0.t < (buildArcs n fa).length := by rw [length_buildArcs]; exact hv0.2
    rw [buildArcs_snoc, adj_addArc_edges _ a0 x0 y hs0 ht0]
    simp only [List.map_append, List.sum_append, ih hvfa y]
    unfold netOut
    simp only [List.map_append, List.sum_append, List.map_cons, List.map_nil, List.sum_cons,
      List.sum_nil]
    by_cases h1 : y = a0.s
    · by_cases h2 : y = a0.t
      · rw [if_pos h1, if_pos h2, if_pos h1.symm, if_pos h2.symm]
        simp only [forwardEdge, backwardEdge, List.map_cons, List.map_nil, List.sum_cons,
          List.sum_nil]
        ring
      · rw [if_pos h1, if_neg h2, if_pos h1.symm, if_neg (fun h => h2 h.symm)]
        simp only [forwardEdge, List.map_cons, List.map_nil, List.sum_cons, List.sum_nil]
        ring
    · by_cases h2 : y = a0.t
      · rw [if_neg h1, if_pos h2, if_neg (fun h => h1 h.symm), if_pos h2.symm]
        simp only [backwardEdge, List.map_cons, List.map_nil, List.sum_cons, List.sum_nil]
        ring
      · rw [if_neg h1, if_neg h2, if_neg (fun h => h1 h.symm), if_neg (fun h => h2 h.symm)]
        simp only [List.map_nil, List.sum_nil]
        ring

theorem get?_findIdx?_eq_find? {α : Type} (p : α → Bool) : ∀ l : List α,
    (l.findIdx? p).bind (fun i => l.get? i) = l.find? p := by
  intro l
  induction l with
  | nil => rfl
  | cons x xs ih =>
    rw [List.findIdx?_cons, List.find?_cons]
    cases hp : p x with
    | true => simp
    | false =>
      simp only [Bool.false_eq_true, if_false]
      rw [← ih]
      simp only [zero_add, List.findIdx?_succ]
      cases List.findIdx? p xs with
      | none => rfl
      | some i => simp

/-- The arc of a connection is built from the first pipe with its `pipeId`. -/
theorem arcOf_eq_find (sqrt : ℚ → ℚ) (s : PipelineSystem) (nodes : List Int)
    (conn : NetworkConnection) :
    arcOf sqrt s nodes conn =
      (s.pipes.find? (fun p => p.id == conn.pipeId)).map (fun pipe =>
        { s := idToIndex nodes conn.startId, t := idToIndex nodes conn.endId,
          pipeId := conn.pipeId, cap := pipe.getCapacity sqrt, w := pipe.getWeight }) := by
  rw [← get?_findIdx?_eq_find?]
  unfold arcOf findPipeIndexById
  cases List.findIdx? (fun p => p.id == conn.pipeId) s.pipes with
  | none => rfl
  | some i =>
    simp only [Option.some_bind]
    cases hg : s.pipes.get? i with
    | none => rfl
    | some pipe => rfl

theorem arcsOf_map_valid (sqrt : ℚ → ℚ) (s : PipelineSystem) :
    ∀ p ∈ (arcsOf sqrt s).map (fun a => (a, (0 : ℚ))),
      p.1.s < (collectNodes s.network).length ∧ p.1.t < (collectNodes s.network).length := by
  intro p hp
  obtain ⟨a, ha, rfl⟩ := List.mem_map.mp hp
  exact arcsOf_valid sqrt s a ha

/-- An arc of the network comes from a connection and the first pipe with
its `pipeId`. -/
theorem mem_arcsOf (sqrt : ℚ → ℚ) (s : PipelineSystem) (a : Arc) (ha : a ∈ arcsOf sqrt s) :
    ∃ conn ∈ s.network, ∃ pipe, s.pipes.find? (fun p => p.id == conn.pipeId) = some pipe ∧
      a = { s := idToIndex (collectNodes s.network) conn.startId,
            t := idToIndex (collectNodes s.network) conn.endId,
            pipeId := conn.pipeId, cap := pipe.getCapacity sqrt, w := pipe.getWeight } := by
  unfold arcsOf at ha
  obtain ⟨conn, hc, harc⟩ := List.mem_filterMap.mp ha
  rw [arcOf_eq_find] at harc
  cases hf : s.pipes.find? (fun p => p.id == conn.pipeId) with
  | none => rw [hf] at harc; simp at harc
  | some pipe =>
    rw [hf] at harc
    simp only [Option.map_some', Option.some.injEq] at harc
    exact ⟨conn, hc, pipe, hf, harc.symm⟩

theorem arcsOf_noLoop (sqrt : ℚ → ℚ) (s : PipelineSystem)
    (hloop : ∀ conn ∈ s.network, conn.startId ≠ conn.endId) :
    ∀ a ∈ arcsOf sqrt s, a.s ≠ a.t := by
  intro a ha
  obtain ⟨conn, hc, pipe, _, rfl⟩ := mem_arcsOf sqrt s a ha
  simp only
  intro heq
  apply hloop conn hc
  exact idToIndex_inj _ _ _
    ((mem_collectNodes s.network conn.startId).mpr ⟨conn, hc, Or.inl rfl⟩) heq

theorem flatMap_arcs_eq (sqrt : ℚ → ℚ) (s : PipelineSystem) (u : Nat) :
    ∀ L : List NetworkConnection,
      ((L.filterMap (arcOf sqrt s (collectNodes s.network))).map
          (fun a => (a, (0 : ℚ)))).flatMap (fun p =>
        (if u = p.1.s then [forwardEdge p.1 p.2 0] else []) ++
        (if u = p.1.t then [backwardEdge p.1 p.2 0] else [])) =
      L.flatMap (expectedEdges sqrt s u) := by
  intro L
  induction L with
  | nil => rfl
  | cons c cs ih =>
    rw [List.flatMap_cons, ← ih, List.filterMap_cons, arcOf_eq_find]
    unfold expectedEdges
    cases s.pipes.find? (fun p => p.id == c.pipeId) with
    | none => rfl
    | some pipe =>
      simp only [Option.map_some', List.map_cons, List.flatMap_cons, forwardEdge, backwardEdge,
        neg_zero]

/-- The residual graph of a flow invariant, edge by edge. -/
theorem flowInv_residualOK (n source sink : Nat) (arcs : List Arc) (g : Graph) (total : ℚ)
    (hvalid : ∀ a ∈ arcs, a.s < n ∧ a.t < n) (hloop : ∀ a ∈ arcs, a.s ≠ a.t)
    (hinv : FlowInv n source sink arcs g total) : ResidualOK g source total := by
  obtain ⟨hcap, fa, hfa, hg, _, htot⟩ := hinv
  have hfav : ∀ p ∈ fa, p.1.s < n ∧ p.1.t < n := by
    intro p hp
    apply hvalid
    rw [← hfa]
    exact List.mem_map_of_mem _ hp
  have hfal : ∀ p ∈ fa, p.1.s ≠ p.1.t := by
    intro p hp
    apply hloop
    rw [← hfa]
    exact List.mem_map_of_mem _ hp
  subst hg
  have hb := arc_bounds_of_capOK n fa hfav hcap
  refine ⟨?_, ?_⟩
  · intro u i e he
    obtain ⟨k, a, x, j, hk, hcase⟩ := pair_buildArcs n fa hfav hfal u i e he
    have hx := hb (a, x) (List.getElem?_mem hk)
    simp only at hx
    rcases hcase with ⟨h1, h2, h3⟩ | ⟨h1, h2, h3⟩
    · subst h2
      refine ⟨backwardEdge a x i, h3, h1, rfl, rfl, Or.inl ⟨hx.1, hx.2, rfl⟩⟩
    · subst h2
      refine ⟨forwardEdge a x i, h3, h1, rfl, ?_, Or.inr ⟨rfl, hx.1, hx.2⟩⟩
      simp [forwardEdge, backwardEdge]
  · rw [sum_flow_buildArcs n fa hfav source, htot]

/-! ## Erasing selected positions -/

theorem keepAt_nil {α : Type} (P : Nat → Bool) : keepAt P ([] : List α) = [] := rfl

theorem keepAt_cons {α : Type} (P : Nat → Bool) (a : α) (t : List α) :
    keepAt P (a :: t) = (if P 0 = true then [a] else []) ++ keepAt (fun j => P (j + 1)) t := by
  unfold keepAt
  rw [List.enum_cons', List.filter_cons]
  have hshift : (List.filter (fun p => P p.1) (List.map (Prod.map (fun x => x + 1) id) t.enum)).map
      Prod.snd = (List.filter (fun p => P (p.1 + 1)) t.enum).map Prod.snd := by
    rw [List.filter_map, List.map_map]
    rfl
  by_cases h0 : P 0 = true
  · simp only [h0, if_true, List.map_cons, List.singleton_append]
    rw [hshift]
  · simp only [h0, if_false, List.nil_append, Bool.false_eq_true]
    rw [hshift]

theorem keepAt_true {α : Type} (l : List α) : keepAt (fun _ => true) l = l := by
  induction l with
  | nil => rfl
  | cons a t ih => rw [keepAt_cons]; simp [ih]

theorem keepAt_congr {α : Type} (P Q : Nat → Bool) (h : ∀ j, P j = Q j) (l : List α) :
    keepAt P l = keepAt Q l := by
  have : P = Q := funext h
  rw [this]

theorem mem_keepAt {α : Type} (P : Nat → Bool) (l : List α) (x : α) :
    x ∈ keepAt P l ↔ ∃ i, l.get? i = some x ∧ P i = true := by
  unfold keepAt
  simp only [List.mem_map, List.mem_filter, Prod.exists, exists_and_right, exists_eq_right]
  constructor
  · rintro ⟨i, hmem, hp⟩
    exact ⟨i, by simpa [List.mk_mem_enum_iff_getElem?] using hmem, hp⟩
  · rintro ⟨i, hget, hp⟩
    exact ⟨i, by simpa [List.mk_mem_enum_iff_getElem?] using hget, hp⟩

theorem keepAt_sublist {α : Type} (P : Nat → Bool) : ∀ (l : List α), (keepAt P l).Sublist l := by
  intro l
  induction l generalizing P with
  | nil => exact List.Sublist.refl _
  | cons a t ih =>
    rw [keepAt_cons]
    by_cases h0 : P 0 = true
    · simp only [h0, if_true, List.singleton_append]
      exact (ih _).cons₂ a
    · simp only [h0, if_false, List.nil_append, Bool.false_eq_true]
      exact (ih _).cons a

/-- Erasing position `i` when every position from `i` on is kept by `P`. -/
theorem keepAt_eraseIdx {α : Type} : ∀ (l : List α) (i : Nat) (P : Nat → Bool),
    (∀ j, i ≤ j → P j = true) →
    keepAt P (l.eraseIdx i) = keepAt (fun j => P j && decide (j ≠ i)) l := by
  intro l
  induction l with
  | nil => intro i P _; rfl
  | cons a t ih =>
    intro i P hP
    cases i with
    | zero =>
      rw [List.eraseIdx_cons_zero, keepAt_cons]
      simp only [ne_eq, not_true_eq_false, decide_False, Bool.and_false, Bool.false_eq_true,
        if_false, List.nil_append]
      have h1 : keepAt P t = t := by
        rw [keepAt_congr P (fun _ => true) (fun j => hP j (Nat.zero_le j)), keepAt_true]
      have h2 : keepAt (fun j => P (j + 1) && decide (¬ j + 1 = 0)) t = t := by
        rw [keepAt_congr _ (fun _ => true) (fun j => by simp [hP (j + 1) (Nat.zero_le _)]),
          keepAt_true]
      rw [h1, h2]
    | succ k =>
      rw [List.eraseIdx_cons_succ, keepAt_cons, keepAt_cons,
        ih k (fun j => P (j + 1)) (fun j hj => hP (j + 1) (by omega))]
      congr 1
      · simp
      · apply keepAt_congr
        intro j
        simp

/-- Erasing positions from the highest down leaves the elements at the
other positions. -/
theorem foldl_eraseIdx_eq {α : Type} : ∀ (L : List Nat), L.Pairwise (· > ·) → ∀ l : List α,
    L.foldl (fun acc i => acc.eraseIdx i) l = keepAt (fun j => decide (j ∉ L)) l := by
  intro L
  induction L with
  | nil => intro _ l; simp [keepAt_true]
  | cons i L' ih =>
    intro hL l
    have hp := List.pairwise_cons.mp hL
    rw [List.foldl_cons, ih hp.2, keepAt_eraseIdx]
    · apply keepAt_congr
      intro j
      by_cases h1 : j = i <;> by_cases h2 : j ∈ L' <;> simp [h1, h2]
    · intro j hj
      simp only [decide_eq_true_eq]
      intro hmem
      have := hp.1 j hmem
      omega

/-- A position below the erased ones holds the element it held. -/
theorem get?_foldl_eraseIdx {α : Type} : ∀ (L : List Nat) (l : List α) (i : Nat),
    (∀ j ∈ L, i < j) → (L.foldl (fun acc k => acc.eraseIdx k) l).get? i = l.get? i := by
  intro L
  induction L with
  | nil => intro l i _; rfl
  | cons k L' ih =>
    intro l i h
    rw [List.foldl_cons, ih _ i (fun j hj => h j (List.mem_cons_of_mem _ hj))]
    simp only [List.get?_eq_getElem?]
    exact List.getElem?_eraseIdx_of_lt l k i (h k (List.mem_cons_self _ _))

/-! ## The positions that `selectMultipleObjects` returns -/

theorem mem_unique (x : Nat) : ∀ l : List Nat, x ∈ unique l ↔ x ∈ l := by
  intro l
  induction l with
  | nil => simp [unique]
  | cons a t ih =>
    cases t with
    | nil => simp [unique]
    | cons b r =>
      simp only [unique]
      split_ifs with h
      · subst h
        rw [ih]
        simp
      · rw [List.mem_cons, ih]
        simp

theorem unique_head (a : Nat) (t : List Nat) : ∀ x ∈ unique (a :: t), x = a ∨ x ∈ unique t := by
  intro x hx
  cases t with
  | nil => left; simpa [unique] using hx
  | cons b r =>
    simp only [unique] at hx
    split_ifs at hx with h
    · right; exact hx
    · rcases List.mem_cons.mp hx with h1 | h1
      · left; exact h1
      · right; exact h1

theorem unique_sorted : ∀ l : List Nat, l.Pairwise (· ≤ ·) → (unique l).Pairwise (· < ·) := by
  intro l
  induction l with
  | nil => intro _; simp [unique]
  | cons a t ih =>
    intro h
    have hp := List.pairwise_cons.mp h
    cases t with
    | nil => simp [unique]
    | cons b r =>
      simp only [unique]
      split_ifs with hab
      · exact ih hp.2
      · refine List.pairwise_cons.mpr ⟨?_, ih hp.2⟩
        intro x hx
        have hx2 := (mem_unique x (b :: r)).mp hx
        have hbx : b ≤ x := by
          rcases List.mem_cons.mp hx2 with h1 | h1
          · omega
          · exact (List.pairwise_cons.mp hp.2).1 x h1
        have := hp.1 b (List.mem_cons_self _ _)
        omega

theorem selectMultipleObjects_eq (validIds : List Int) (input : Selection) :
    selectMultipleObjects validIds input = parseIndicesFromInput input validIds := by
  unfold selectMultipleObjects
  cases validIds with
  | nil =>
    cases input with
    | all => rfl
    | ids tokens =>
      simp only [List.isEmpty_nil, if_true, parseIndicesFromInput, List.findIdx?_nil]
      have : List.filterMap (fun _ : Int => (none : Option Nat)) tokens = [] := by
        induction tokens with
        | nil => rfl
        | cons a t ih => simp
      rw [this]
      rfl
  | cons a t => simp

theorem selectMultipleObjects_sorted (validIds : List Int) (input : Selection) :
    (selectMultipleObjects validIds input).Pairwise (· < ·) := by
  rw [selectMultipleObjects_eq]
  cases input with
  | all => exact List.pairwise_lt_range _
  | ids tokens =>
    simp only [parseIndicesFromInput]
    apply unique_sorted
    exact List.sorted_insertionSort (fun a b => a ≤ b) _

theorem mem_selectMultipleObjects_all (validIds : List Int) (i : Nat) :
    i ∈ selectMultipleObjects validIds .all ↔ i < validIds.length := by
  rw [selectMultipleObjects_eq]
  simp [parseIndicesFromInput]

theorem mem_selectMultipleObjects_ids (validIds : List Int) (tokens : List Int) (i : Nat) :
    i ∈ selectMultipleObjects validIds (.ids tokens) ↔
      ∃ id ∈ tokens, validIds.findIdx? (fun v => v == id) = some i := by
  rw [selectMultipleObjects_eq]
  simp only [parseIndicesFromInput, mem_unique, List.mem_insertionSort, List.mem_filterMap]

/-- The positions in the order in which the deletion loop takes them. -/
theorem descending_pairwise (sel : List Nat) (h : sel.Pairwise (· < ·)) :
    (sel.insertionSort (fun a b => a ≥ b)).Pairwise (· > ·) := by
  have hs : (sel.insertionSort (fun a b => a ≥ b)).Pairwise (fun a b => a ≥ b) :=
    List.sorted_insertionSort (fun a b => a ≥ b) sel
  have hn : (sel.insertionSort (fun a b => a ≥ b)).Nodup :=
    (List.perm_insertionSort (fun a b => a ≥ b) sel).nodup_iff.mpr (h.imp (fun h => ne_of_lt h))
  exact (hs.and hn).imp (fun h => by omega)

/-! ## Deleting stations -/

theorem releaseFor_nil (p : Pipe) : releaseFor [] p = p := by
  simp [releaseFor]

theorem releaseFor_cons (S : Int) (D : List Int) (p : Pipe) :
    releaseFor D (if (p.startId == S || p.endId == S) = true then
        { p with inUse := false, startId := 0, endId := 0 } else p) =
      releaseFor (S :: D) p := by
  unfold releaseFor
  by_cases h1 : p.startId = S ∨ p.endId = S
  · have h1' : (p.startId == S || p.endId == S) = true := by simpa using h1
    rw [if_pos h1']
    have h2 : p.startId ∈ S :: D ∨ p.endId ∈ S :: D := by
      rcases h1 with h | h
      · exact Or.inl (List.mem_cons.mpr (Or.inl h))
      · exact Or.inr (List.mem_cons.mpr (Or.inl h))
    rw [if_pos h2]
    split_ifs <;> rfl
  · have h1' : ¬ (p.startId == S || p.endId == S) = true := by simpa using h1
    rw [if_neg h1']
    push_neg at h1
    by_cases h3 : p.startId ∈ D ∨ p.endId ∈ D
    · rw [if_pos h3, if_pos]
      rcases h3 with h | h
      · exact Or.inl (List.mem_cons_of_mem _ h)
      · exact Or.inr (List.mem_cons_of_mem _ h)
    · rw [if_neg h3, if_neg]
      simp only [List.mem_cons, not_or] at h3 ⊢
      exact ⟨⟨h1.1, h3.1⟩, ⟨h1.2, h3.2⟩⟩

theorem untouched_cons (S : Int) (D : List Int) (conn : NetworkConnection) :
    (untouched D conn && !(conn.startId == S || conn.endId == S)) = untouched (S :: D) conn := by
  unfold untouched
  by_cases h1 : conn.startId = S <;> by_cases h2 : conn.endId = S <;>
    by_cases h3 : conn.startId ∈ D <;> by_cases h4 : conn.endId ∈ D <;>
    simp [h1, h2, h3, h4]

/-- The deletion loop for stations over positions taken from the highest
down, in terms of the store it starts from. -/
theorem foldl_deleteStationAt : ∀ (L : List Nat), L.Pairwise (· > ·) → ∀ s : PipelineSystem,
    L.foldl deleteStationAt s =
      { pipes := s.pipes.map
          (releaseFor (L.filterMap (fun i => (s.stations.get? i).map (fun st => st.id)))),
        stations := L.foldl (fun acc i => acc.eraseIdx i) s.stations,
        network := s.network.filter
          (untouched (L.filterMap (fun i => (s.stations.get? i).map (fun st => st.id)))),
        nextPipeId := s.nextPipeId,
        nextStationId := s.nextStationId } := by
  intro L
  induction L with
  | nil =>
    intro _ s
    have h1 : s.pipes.map (releaseFor []) = s.pipes := by
      rw [List.map_congr_left (fun p _ => releaseFor_nil p), List.map_id']
    have h2 : s.network.filter (untouched []) = s.network := by
      rw [List.filter_eq_self]
      intro c _
      simp [untouched]
    simp only [List.foldl_nil, List.filterMap_nil, h1, h2]
  | cons i L' ih =>
    intro hL s
    have hp := List.pairwise_cons.mp hL
    rw [List.foldl_cons, ih hp.2]
    have hids : L'.filterMap (fun j => ((s.stations.eraseIdx i).get? j).map (fun st => st.id)) =
        L'.filterMap (fun j => (s.stations.get? j).map (fun st => st.id)) := by
      apply List.filterMap_congr
      intro j hj
      simp only [List.get?_eq_getElem?]
      rw [List.getElem?_eraseIdx_of_lt _ _ _ (hp.1 j hj)]
    unfold deleteStationAt
    cases hst : s.stations.get? i with
    | none =>
      simp only [List.filterMap_cons, hst, Option.map_none', List.foldl_cons]
      have : s.stations.eraseIdx i = s.stations := by
        apply List.eraseIdx_of_length_le
        by_contra hcon
        have hlt : i < s.stations.length := by omega
        rw [List.get?_eq_getElem?, List.getElem?_eq_getElem hlt] at hst
        simp at hst
      rw [this]
    | some station =>
      simp only [List.filterMap_cons, hst, Option.map_some', List.foldl_cons]
      rw [hids]
      simp only [List.filter_filter, List.map_map, PipelineSystem.mk.injEq, and_true, true_and]
      refine ⟨?_, ?_⟩
      · apply List.map_congr_left
        intro p _
        exact releaseFor_cons station.id _ p
      · apply List.filter_congr
        intro conn _
        exact untouched_cons station.id _ conn

/-- The store after `deleteObjects` for stations. -/
theorem deleteObjects_stations_eq (s : PipelineSystem) (input : Selection) :
    deleteObjects s false input =
      { pipes := s.pipes.map (releaseFor (selectedStationIds s input)),
        stations := keepAt
          (fun i => decide (i ∉ selectMultipleObjects (getStationIds s) input)) s.stations,
        network := s.network.filter (untouched (selectedStationIds s input)),
        nextPipeId := s.nextPipeId,
        nextStationId := s.nextStationId } := by
  have hsorted := selectMultipleObjects_sorted (getStationIds s) input
  have hdesc := descending_pairwise _ hsorted
  have hmemL : ∀ j, j ∈ (selectMultipleObjects (getStationIds s) input).insertionSort
      (fun a b => a ≥ b) ↔ j ∈ selectMultipleObjects (getStationIds s) input :=
    fun j => List.mem_insertionSort _
  have hrel : ∀ p, releaseFor (((selectMultipleObjects (getStationIds s) input).insertionSort
      (fun a b => a ≥ b)).filterMap (fun i => (s.stations.get? i).map (fun st => st.id))) p =
      releaseFor (selectedStationIds s input) p := by
    intro p
    unfold releaseFor selectedStationIds
    simp only [List.mem_filterMap, hmemL]
  have hunt : ∀ c, untouched (((selectMultipleObjects (getStationIds s) input).insertionSort
      (fun a b => a ≥ b)).filterMap (fun i => (s.stations.get? i).map (fun st => st.id))) c =
      untouched (selectedStationIds s input) c := by
    intro c
    unfold untouched selectedStationIds
    simp only [List.mem_filterMap, hmemL]
  have hkeep : keepAt (fun j => decide (j ∉ (selectMultipleObjects (getStationIds s)
      input).insertionSort (fun a b => a ≥ b))) s.stations =
      keepAt (fun i => decide (i ∉ selectMultipleObjects (getStationIds s) input))
        s.stations := by
    apply keepAt_congr
    intro j
    simp only [hmemL]
  unfold deleteObjects
  simp only [Bool.false_eq_true, if_false]
  by_cases hemp : (selectMultipleObjects (getStationIds s) input).isEmpty = true
  · rw [if_pos hemp]
    have hnil : selectMultipleObjects (getStationIds s) input = [] := List.isEmpty_iff.mp hemp
    have h1 : s.pipes.map (releaseFor (selectedStationIds s input)) = s.pipes := by
      unfold selectedStationIds
      rw [hnil, List.filterMap_nil, List.map_congr_left (fun p _ => releaseFor_nil p),
        List.map_id']
    have h2 : s.network.filter (untouched (selectedStationIds s input)) = s.network := by
      unfold selectedStationIds
      rw [hnil, List.filterMap_nil, List.filter_eq_self]
      intro c _
      simp [untouched]
    have h3 : keepAt (fun i => decide (i ∉ selectMultipleObjects (getStationIds s) input))
        s.stations = s.stations := by
      rw [hnil]
      rw [keepAt_congr _ (fun _ => true) (fun j => by simp), keepAt_true]
    rw [h1, h2, h3]
  · rw [if_neg hemp, foldl_deleteStationAt _ hdesc s, foldl_eraseIdx_eq _ hdesc, hkeep,
      List.map_congr_left (fun p _ => hrel p), List.filter_congr (fun c _ => hunt c)]

theorem get?_inj_of_nodup_map {α β : Type} (f : α → β) (l : List α) (i j : Nat) (a b : α)
    (hn : (l.map f).Nodup) (hi : l.get? i = some a) (hj : l.get? j = some b)
    (hab : f a = f b) : i = j := by
  have hil : i < (l.map f).length := by
    rw [List.length_map]
    by_contra hcon
    rw [List.get?_eq_getElem?, List.getElem?_eq_none (not_lt.mp hcon)] at hi
    simp at hi
  have hjl : j < (l.map f).length := by
    rw [List.length_map]
    by_contra hcon
    rw [List.get?_eq_getElem?, List.getElem?_eq_none (not_lt.mp hcon)] at hj
    simp at hj
  apply (@List.Nodup.getElem_inj_iff _ _ hn i hil j hjl).mp
  have h1 : (l.map f)[i]? = some (f a) := by
    rw [List.getElem?_map]; simp only [List.get?_eq_getElem?] at hi; rw [hi]; rfl
  have h2 : (l.map f)[j]? = some (f b) := by
    rw [List.getElem?_map]; simp only [List.get?_eq_getElem?] at hj; rw [hj]; rfl
  rw [List.getElem?_eq_getElem hil] at h1
  rw [List.getElem?_eq_getElem hjl] at h2
  have h3 := Option.some.inj h1
  have h4 := Option.some.inj h2
  rw [h3, h4, hab]

theorem mem_selectedStationIds (s : PipelineSystem) (input : Selection) (S : Int) :
    S ∈ selectedStationIds s input ↔
      ∃ i st, i ∈ selectMultipleObjects (getStationIds s) input ∧
        s.stations.get? i = some st ∧ st.id = S := by
  unfold selectedStationIds
  simp only [List.mem_filterMap, Option.map_eq_some']
  constructor
  · rintro ⟨i, hi, st, hst, hid⟩; exact ⟨i, st, hi, hst, hid⟩
  · rintro ⟨i, st, hi, hst, hid⟩; exact ⟨i, hi, st, hst, hid⟩

theorem findIdx?_stationIds (s : PipelineSystem) (S : Int) (h : IsStationId s S) :
    ∃ i st, (getStationIds s).findIdx? (fun v => v == S) = some i ∧
      s.stations.get? i = some st ∧ st.id = S := by
  have hex : ∃ x, x ∈ getStationIds s ∧ (fun v => v == S) x = true := by
    obtain ⟨st, hst, hid⟩ := h
    exact ⟨S, List.mem_map.mpr ⟨st, hst, hid⟩, by simp⟩
  have hsome := List.findIdx?_eq_some_of_exists hex
  obtain ⟨⟨a, ha, hpa⟩, _⟩ := (findIdx?_eq_some_iff_isFirst _ _ _).mp hsome
  unfold getStationIds at ha
  simp only [List.get?_eq_getElem?, List.getElem?_map, Option.map_eq_some'] at ha
  obtain ⟨st, hst, hid⟩ := ha
  refine ⟨_, st, hsome, by simpa using hst, ?_⟩
  rw [hid]
  simpa using hpa

/-! ## Pipes and connections of a reachable store -/

theorem eq_of_nodup_map {α β : Type} (f : α → β) (l : List α) (a b : α)
    (hn : (l.map f).Nodup) (ha : a ∈ l) (hb : b ∈ l) (hab : f a = f b) : a = b := by
  obtain ⟨i, hi⟩ := List.get?_of_mem ha
  obtain ⟨j, hj⟩ := List.get?_of_mem hb
  have hij := get?_inj_of_nodup_map f l i j a b hn hi hj hab
  subst hij
  rw [hi] at hj
  exact Option.some.inj hj

theorem set_eq_map_of_nodup {α β : Type} [DecidableEq β] (key : α → β) :
    ∀ (l : List α) (i : Nat) (p q : α), (l.map key).Nodup → l.get? i = some p →
      l.set i q = l.map (fun x => if key x = key p then q else x) := by
  intro l
  induction l with
  | nil => intro i p q _ h; simp at h
  | cons x xs ih =>
    intro i p q hn h
    rw [List.map_cons, List.nodup_cons] at hn
    cases i with
    | zero =>
      simp only [List.get?_cons_zero, Option.some.injEq] at h
      subst h
      simp only [List.set_cons_zero, List.map_cons, if_true]
      congr 1
      symm
      conv_rhs => rw [← List.map_id xs]
      apply List.map_congr_left
      intro y hy
      have : key y ≠ key x := fun hk => hn.1 (hk ▸ List.mem_map_of_mem key hy)
      simp [this]
    | succ i =>
      simp only [List.get?_cons_succ] at h
      have hx : key x ≠ key p := fun hk => hn.1 (hk ▸ List.mem_map_of_mem key (List.get?_mem h))
      simp only [List.set_cons_succ, List.map_cons, if_neg hx]
      rw [ih i p q hn.2 h]

theorem pipeInv_map_filter (pipes : List Pipe) (network : List NetworkConnection) (next : Int)
    (f : Pipe → Pipe) (keep : NetworkConnection → Bool)
    (hid : ∀ x, (f x).id = x.id)
    (hkeep : ∀ x ∈ pipes, ∀ conn ∈ network, conn.pipeId = x.id → x.inUse = true →
      x.startId = conn.startId → x.endId = conn.endId → keep conn = true →
      (f x).inUse = true ∧ (f x).startId = x.startId ∧ (f x).endId = x.endId)
    (hused : ∀ x ∈ pipes, (f x).inUse = true → x.inUse = true ∧
      ∀ conn ∈ network, conn.pipeId = x.id → conn.startId = x.startId →
        conn.endId = x.endId → keep conn = true)
    (h : PipeInv pipes network next) :
    PipeInv (pipes.map f) (network.filter keep) next := by
  obtain ⟨h1, h2, h3, h4, h5⟩ := h
  have hmap : (pipes.map f).map (fun p => p.id) = pipes.map (fun p => p.id) := by
    rw [List.map_map]
    apply List.map_congr_left
    intro x _
    exact hid x
  refine ⟨by rw [hmap]; exact h1, ?_, ?_, ?_, ?_⟩
  · intro y hy
    obtain ⟨x, hx, rfl⟩ := List.mem_map.mp hy
    rw [hid]
    exact h2 x hx
  · intro conn hc
    obtain ⟨hcn, hk⟩ := List.mem_filter.mp hc
    obtain ⟨x, hx, hxid, hxu, hxs, hxe⟩ := h3 conn hcn
    obtain ⟨k1, k2, k3⟩ := hkeep x hx conn hcn hxid.symm hxu hxs hxe hk
    exact ⟨f x, List.mem_map_of_mem f hx, by rw [hid, hxid], k1, by rw [k2, hxs],
      by rw [k3, hxe]⟩
  · exact (List.Sublist.map _ (List.filter_sublist network)).nodup h4
  · intro y hy hyu
    obtain ⟨x, hx, rfl⟩ := List.mem_map.mp hy
    obtain ⟨hxu, hall⟩ := hused x hx hyu
    obtain ⟨conn, hcn, hcid⟩ := h5 x hx hxu
    obtain ⟨x2, hx2, hx2id, _, hx2s, hx2e⟩ := h3 conn hcn
    have hxx : x2 = x :=
      eq_of_nodup_map (fun p : Pipe => p.id) pipes x2 x h1 hx2 hx (by show x2.id = x.id; rw [hx2id, hcid])
    subst hxx
    exact ⟨conn, List.mem_filter.mpr ⟨hcn, hall conn hcn hcid hx2s.symm hx2e.symm⟩,
      by rw [hid, hcid]⟩

/-- An edit that keeps the id, the use flag and both ends of the pipe at a
position. -/
theorem pipeInv_set (pipes : List Pipe) (network : List NetworkConnection) (next : Int)
    (i : Nat) (p q : Pipe) (hp : pipes.get? i = some p) (hid : q.id = p.id)
    (hu : q.inUse = p.inUse) (hs : q.startId = p.startId) (he : q.endId = p.endId)
    (h : PipeInv pipes network next) : PipeInv (pipes.set i q) network next := by
  rw [set_eq_map_of_nodup (fun x : Pipe => x.id) pipes i p q h.1 hp]
  have hf : network.filter (fun _ => true) = network := List.filter_true network
  rw [← hf]
  apply pipeInv_map_filter pipes network next _ _ _ _ _ h
  · intro x
    by_cases hx : x.id = p.id
    · simp only [hx, if_true, hid]
    · simp only [hx, if_false]
  · intro x hx conn _ _ hxu _ _ _
    by_cases hxp : x.id = p.id
    · have : x = p := eq_of_nodup_map (fun x : Pipe => x.id) pipes x p h.1 hx (List.get?_mem hp) hxp
      subst this
      simp only [if_true]
      exact ⟨by rw [hu, hxu], hs, he⟩
    · simp only [hxp, if_false]
      exact ⟨hxu, trivial, trivial⟩
  · intro x hx hfu
    refine ⟨?_, fun _ _ _ _ _ => rfl⟩
    by_cases hxp : x.id = p.id
    · have : x = p := eq_of_nodup_map (fun x : Pipe => x.id) pipes x p h.1 hx (List.get?_mem hp) hxp
      subst this
      simp only [if_true] at hfu
      rw [← hu, hfu]
    · simpa only [hxp, if_false] using hfu

/-- A pipe is released and its connections leave the network. -/
theorem pipeInv_release (pipes : List Pipe) (network : List NetworkConnection) (next : Int)
    (i : Nat) (p q : Pipe) (hp : pipes.get? i = some p) (hid : q.id = p.id)
    (hu : q.inUse = false) (h : PipeInv pipes network next) :
    PipeInv (pipes.set i q) (network.filter (fun conn => !(conn.pipeId == p.id))) next := by
  rw [set_eq_map_of_nodup (fun x : Pipe => x.id) pipes i p q h.1 hp]
  apply pipeInv_map_filter pipes network next _ _ _ _ _ h
  · intro x
    by_cases hx : x.id = p.id
    · simp only [hx, if_true, hid]
    · simp only [hx, if_false]
  · intro x hx conn _ hcid hxu _ _ hk
    have hxp : x.id ≠ p.id := by
      intro hxp
      rw [← hcid] at hxp
      simp [hxp] at hk
    simp only [hxp, if_false]
    exact ⟨hxu, trivial, trivial⟩
  · intro x hx hfu
    have hxp : x.id ≠ p.id := by
      intro hxp
      simp only [hxp, if_true] at hfu
      rw [hu] at hfu
      exact Bool.false_ne_true hfu
    simp only [hxp, if_false] at hfu
    refine ⟨hfu, ?_⟩
    intro conn _ hcid _ _
    simp only [Bool.not_eq_true', beq_eq_false_iff_ne, ne_eq]
    rw [hcid]
    exact hxp

/-- Stations are deleted: the pipes at their ids are released and their
connections leave the network. -/
theorem pipeInv_releaseFor (pipes : List Pipe) (network : List NetworkConnection) (next : Int)
    (D : List Int) (h : PipeInv pipes network next) :
    PipeInv (pipes.map (releaseFor D)) (network.filter (untouched D)) next := by
  apply pipeInv_map_filter pipes network next _ _ _ _ _ h
  · intro x
    unfold releaseFor
    by_cases hx : x.startId ∈ D ∨ x.endId ∈ D
    · rw [if_pos hx]; rfl
    · rw [if_neg hx]
  · intro x _ conn _ _ hxu hxs hxe hk
    have hx : ¬ (x.startId ∈ D ∨ x.endId ∈ D) := by
      simp only [untouched, decide_eq_true_eq] at hk
      rw [hxs, hxe]
      tauto
    unfold releaseFor
    rw [if_neg hx]
    exact ⟨hxu, rfl, rfl⟩
  · intro x _ hfu
    have hx : ¬ (x.startId ∈ D ∨ x.endId ∈ D) := by
      intro hx
      unfold releaseFor at hfu
      rw [if_pos hx] at hfu
      exact Bool.false_ne_true hfu
    unfold releaseFor at hfu
    rw [if_neg hx] at hfu
    refine ⟨hfu, ?_⟩
    intro conn _ _ hcs hce
    simp only [untouched, decide_eq_true_eq]
    rw [hcs, hce]
    tauto

theorem pipeInv_append_free (pipes : List Pipe) (network : List NetworkConnection) (next : Int)
    (q : Pipe) (hid : q.id = next) (hu : q.inUse = false) (h : PipeInv pipes network next) :
    PipeInv (pipes ++ [q]) network (next + 1) := by
  obtain ⟨h1, h2, h3, h4, h5⟩ := h
  refine ⟨?_, ?_, ?_, h4, ?_⟩
  · rw [List.map_append, List.map_singleton, List.nodup_append]
    refine ⟨h1, List.nodup_singleton _, ?_⟩
    intro a ha hb
    obtain ⟨x, hx, rfl⟩ := List.mem_map.mp ha
    rw [List.mem_singleton] at hb
    have := h2 x hx
    omega
  · intro p hp
    rcases List.mem_append.mp hp with hp | hp
    · have := h2 p hp; omega
    · rw [List.mem_singleton] at hp; subst hp; omega
  · intro conn hc
    obtain ⟨x, hx, hr⟩ := h3 conn hc
    exact ⟨x, List.mem_append_left _ hx, hr⟩
  · intro p hp hpu
    rcases List.mem_append.mp hp with hp | hp
    · exact h5 p hp hpu
    · rw [List.mem_singleton] at hp; subst hp; rw [hu] at hpu; exact absurd hpu (by decide)

theorem pipeInv_connect_new (pipes : List Pipe) (network : List NetworkConnection) (next : Int)
    (q : Pipe) (conn : NetworkConnection) (hid : q.id = next) (hu : q.inUse = true)
    (hc : conn.pipeId = next) (hs : q.startId = conn.startId) (he : q.endId = conn.endId)
    (h : PipeInv pipes network next) :
    PipeInv (pipes ++ [q]) (network ++ [conn]) (next + 1) := by
  obtain ⟨h1, h2, h3, h4, h5⟩ := h
  refine ⟨?_, ?_, ?_, ?_, ?_⟩
  · rw [List.map_append, List.map_singleton, List.nodup_append]
    refine ⟨h1, List.nodup_singleton _, ?_⟩
    intro a ha hb
    obtain ⟨x, hx, rfl⟩ := List.mem_map.mp ha
    rw [List.mem_singleton] at hb
    have := h2 x hx
    omega
  · intro p hp
    rcases List.mem_append.mp hp with hp | hp
    · have := h2 p hp; omega
    · rw [List.mem_singleton] at hp; subst hp; omega
  · intro c hcm
    rcases List.mem_append.mp hcm with hcm | hcm
    · obtain ⟨x, hx, hr⟩ := h3 c hcm
      exact ⟨x, List.mem_append_left _ hx, hr⟩
    · rw [List.mem_singleton] at hcm
      subst hcm
      exact ⟨q, List.mem_append_right _ (List.mem_singleton_self q), by rw [hid, hc], hu, hs, he⟩
  · rw [List.map_append, List.map_singleton, List.nodup_append]
    refine ⟨h4, List.nodup_singleton _, ?_⟩
    intro a ha hb
    obtain ⟨c, hcm, rfl⟩ := List.mem_map.mp ha
    rw [List.mem_singleton] at hb
    obtain ⟨x, hx, hxid, _⟩ := h3 c hcm
    have := h2 x hx
    omega
  · intro p hp hpu
    rcases List.mem_append.mp hp with hp | hp
    · obtain ⟨c, hcm, hcid⟩ := h5 p hp hpu
      exact ⟨c, List.mem_append_left _ hcm, hcid⟩
    · rw [List.mem_singleton] at hp
      subst hp
      exact ⟨conn, List.mem_append_right _ (List.mem_singleton_self conn), by rw [hc, hid]⟩

theorem pipeInv_connect_reuse (pipes : List Pipe) (network : List NetworkConnection)
    (next : Int) (i : Nat) (p q : Pipe) (conn : NetworkConnection)
    (hp : pipes.get? i = some p) (hfree : p.inUse = false) (hid : q.id = p.id)
    (hu : q.inUse = true) (hc : conn.pipeId = p.id) (hs : q.startId = conn.startId)
    (he : q.endId = conn.endId) (h : PipeInv pipes network next) :
    PipeInv (pipes.set i q) (network ++ [conn]) next := by
  have hpm : p ∈ pipes := List.get?_mem hp
  rw [set_eq_map_of_nodup (fun x : Pipe => x.id) pipes i p q h.1 hp]
  obtain ⟨h1, h2, h3, h4, h5⟩ := h
  have hfid : ∀ x : Pipe, (if x.id = p.id then q else x).id = x.id := by
    intro x
    by_cases hx : x.id = p.id
    · simp only [hx, if_true, hid]
    · simp only [hx, if_false]
  have hmap : (pipes.map (fun x => if x.id = p.id then q else x)).map (fun p => p.id) =
      pipes.map (fun p => p.id) := by
    rw [List.map_map]
    apply List.map_congr_left
    intro x _
    exact hfid x
  have hnone : ∀ c ∈ network, c.pipeId ≠ p.id := by
    intro c hcm hcp
    obtain ⟨x, hx, hxid, hxu, _⟩ := h3 c hcm
    have : x = p :=
      eq_of_nodup_map (fun x : Pipe => x.id) pipes x p h1 hx hpm (by show x.id = p.id; rw [hxid, hcp])
    subst this
    rw [hfree] at hxu
    exact absurd hxu (by decide)
  refine ⟨by rw [hmap]; exact h1, ?_, ?_, ?_, ?_⟩
  · intro y hy
    obtain ⟨x, hx, rfl⟩ := List.mem_map.mp hy
    rw [hfid]
    exact h2 x hx
  · intro c hcm
    rcases List.mem_append.mp hcm with hcm | hcm
    · obtain ⟨x, hx, hxid, hr⟩ := h3 c hcm
      have hxp : x.id ≠ p.id := by rw [hxid]; exact hnone c hcm
      refine ⟨x, ?_, hxid, hr⟩
      apply List.mem_map.mpr
      exact ⟨x, hx, by simp only [hxp, if_false]⟩
    · rw [List.mem_singleton] at hcm
      subst hcm
      refine ⟨q, ?_, by rw [hid, hc], hu, hs, he⟩
      apply List.mem_map.mpr
      exact ⟨p, hpm, by simp only [if_true]⟩
  · rw [List.map_append, List.map_singleton, List.nodup_append]
    refine ⟨h4, List.nodup_singleton _, ?_⟩
    intro a ha hb
    obtain ⟨c, hcm, rfl⟩ := List.mem_map.mp ha
    rw [List.mem_singleton] at hb
    exact hnone c hcm (by rw [hb, hc])
  · intro y hy hyu
    obtain ⟨x, hx, rfl⟩ := List.mem_map.mp hy
    by_cases hxp : x.id = p.id
    · simp only [hxp, if_true]
      exact ⟨conn, List.mem_append_right _ (List.mem_singleton_self conn), by rw [hc, hid]⟩
    · simp only [hxp, if_false] at hyu ⊢
      obtain ⟨c, hcm, hcid⟩ := h5 x hx hyu
      exact ⟨c, List.mem_append_left _ hcm, hcid⟩

theorem pipeInv_sublist (pipes pipes2 : List Pipe) (network : List NetworkConnection)
    (next : Int) (hsub : pipes2.Sublist pipes)
    (hkept : ∀ p ∈ pipes, p.inUse = true → p ∈ pipes2) (h : PipeInv pipes network next) :
    PipeInv pipes2 network next := by
  obtain ⟨h1, h2, h3, h4, h5⟩ := h
  refine ⟨(hsub.map _).nodup h1, fun p hp => h2 p (hsub.subset hp), ?_, h4,
    fun p hp hpu => h5 p (hsub.subset hp) hpu⟩
  intro conn hc
  obtain ⟨x, hx, hxid, hxu, hr⟩ := h3 conn hc
  exact ⟨x, hkept x hx hxu, hxid, hxu, hr⟩

theorem editPipe_cases (s : PipelineSystem) (inp : EditPipeInput) :
    editPipe s inp = s ∨
    ∃ (i : Nat) (p q : Pipe), s.pipes.get? i = some p ∧ q.id = p.id ∧ q.inUse = p.inUse ∧
      q.startId = p.startId ∧ q.endId = p.endId ∧
      editPipe s inp = { s with pipes := s.pipes.set i q } := by
  unfold editPipe
  by_cases h1 : s.pipes.isEmpty = true
  · rw [if_pos h1]; left; rfl
  · rw [if_neg h1]
    cases findPipeIndexById s inp.id with
    | none => left; rfl
    | some i =>
      simp only
      cases hp : s.pipes.get? i with
      | none => left; rfl
      | some p =>
        simp only
        right
        by_cases h2 : inp.choice = 1
        · rw [if_pos h2]
          exact ⟨i, p, { p with underRepair := !p.underRepair }, hp, rfl, rfl, rfl, rfl, rfl⟩
        · rw [if_neg h2]
          by_cases h3 : p.inUse = true
          · refine ⟨i, p, { p with name := inp.name, length := inp.length }, hp, rfl, rfl, rfl,
              rfl, ?_⟩
            simp [h3]
          · refine ⟨i, p, ⟨p.id, inp.name, inp.length, inp.diameter, p.underRepair, p.inUse,
              p.startId, p.endId, p.startType, p.endType⟩, hp, rfl, rfl, rfl, rfl, ?_⟩
            simp [h3]

theorem foldl_deletePipeAt : ∀ (L : List Nat) (s : PipelineSystem),
    L.foldl deletePipeAt s =
      { s with pipes := L.foldl (fun acc i => acc.eraseIdx i) s.pipes } := by
  intro L
  induction L with
  | nil => intro s; rfl
  | cons i L' ih =>
    intro s
    rw [List.foldl_cons, ih]
    rfl

/-- The store after `deleteObjects` for pipes. -/
theorem deleteObjects_pipes_eq (s : PipelineSystem) (input : Selection) :
    deleteObjects s true input =
      { s with pipes :=
          keepAt (fun j => decide (j ∉ deletedPipePositions s input)) s.pipes } := by
  have hsorted : (deletedPipePositions s input).Pairwise (· < ·) :=
    (selectMultipleObjects_sorted (getPipeIds s) input).sublist (List.filter_sublist _)
  have hdesc := descending_pairwise _ hsorted
  have hkeep : keepAt (fun j => decide (j ∉ (deletedPipePositions s input).insertionSort
      (fun a b => a ≥ b))) s.pipes =
      keepAt (fun j => decide (j ∉ deletedPipePositions s input)) s.pipes := by
    apply keepAt_congr
    intro j
    simp only [List.mem_insertionSort]
  unfold deleteObjects
  simp only [if_true]
  by_cases hemp : (selectMultipleObjects (getPipeIds s) input).isEmpty = true
  · rw [if_pos hemp]
    have hnil : selectMultipleObjects (getPipeIds s) input = [] := List.isEmpty_iff.mp hemp
    have h3 : keepAt (fun j => decide (j ∉ deletedPipePositions s input)) s.pipes = s.pipes := by
      unfold deletedPipePositions
      rw [hnil, List.filter_nil, keepAt_congr _ (fun _ => true) (fun j => by simp), keepAt_true]
    rw [h3]
  · rw [if_neg hemp]
    have := foldl_deletePipeAt ((deletedPipePositions s input).insertionSort (fun a b => a ≥ b)) s
    rw [foldl_eraseIdx_eq _ hdesc, hkeep] at this
    exact this

theorem deleteObjects_pipes_kept (s : PipelineSystem) (input : Selection) (p : Pipe)
    (hp : p ∈ s.pipes) (hu : p.inUse = true) :
    p ∈ keepAt (fun j => decide (j ∉ deletedPipePositions s input)) s.pipes := by
  obtain ⟨i, hi⟩ := List.get?_of_mem hp
  refine (mem_keepAt _ _ _).mpr ⟨i, hi, ?_⟩
  simp only [decide_eq_true_eq]
  intro hmem
  unfold deletedPipePositions at hmem
  have := (List.mem_filter.mp hmem).2
  rw [hi] at this
  simp [hu] at this

/-- Every menu action keeps the agreement of pipes and connections. -/
theorem execute_pipeInv (s : PipelineSystem) (c : Command)
    (h : PipeInv s.pipes s.network s.nextPipeId) :
    PipeInv (execute s c).pipes (execute s c).network (execute s c).nextPipeId := by
  cases c with
  | addPipe name length diameter =>
    exact pipeInv_append_free _ _ _ _ rfl rfl h
  | addStation name t a k => exact h
  | editPipe inp =>
    simp only [execute]
    rcases editPipe_cases s inp with he | ⟨i, p, q, hp, hid, hu, hs, he, heq⟩
    · rw [he]; exact h
    · rw [heq]
      exact pipeInv_set _ _ _ i p q hp hid hu hs he h
  | editStation inp =>
    simp only [execute]
    obtain ⟨st, heq, _⟩ := editStation_eq s inp
    rw [heq]
    exact h
  | deleteObjects isPipe input =>
    simp only [execute]
    cases isPipe with
    | true =>
      rw [deleteObjects_pipes_eq]
      show PipeInv (keepAt (fun j => decide (j ∉ deletedPipePositions s input)) s.pipes)
        s.network s.nextPipeId
      exact pipeInv_sublist _ _ _ _ (keepAt_sublist _ _)
        (fun p hp hu => deleteObjects_pipes_kept s input p hp hu) h
    | false =>
      rw [deleteObjects_stations_eq]
      exact pipeInv_releaseFor _ _ _ _ h
  | connectObjects inp =>
    simp only [execute]
    cases hacc : canConnectObjects s inp.startId inp.endId inp.diameter with
    | false => rw [connectObjects_of_rejected s inp hacc]; exact h
    | true =>
      rw [connectObjects_of_accepted s inp hacc]
      cases hfind : findAvailablePipeByDiameter s inp.diameter with
      | none =>
        simp only
        exact pipeInv_connect_new _ _ _ _ _ rfl rfl rfl rfl rfl h
      | some i =>
        simp only
        cases hp : s.pipes.get? i with
        | none => exact h
        | some p =>
          simp only
          obtain ⟨⟨a, ha, hav⟩, _⟩ := (findAvailablePipeByDiameter_eq_some s _ i).mp hfind
          rw [hp] at ha
          have hap : p = a := Option.some.inj ha
          subst hap
          exact pipeInv_connect_reuse _ _ _ i p _ _ hp hav.2.1 rfl rfl rfl rfl rfl h
  | disconnectPipe pipeId =>
    simp only [execute]
    rcases disconnectPipe_eq s pipeId with he | ⟨i, p, hfind, hp, _, heq⟩
    · rw [he]; exact h
    · rw [heq]
      obtain ⟨⟨a, ha, hav⟩, _⟩ := (findPipeIndexById_eq_some s _ i).mp hfind
      rw [hp] at ha
      have hap : p = a := Option.some.inj ha
      subst hap
      subst hav
      exact pipeInv_release _ _ _ i p _ hp rfl rfl h

theorem reachable_pipeInv (s : PipelineSystem) (h : Reachable s) :
    PipeInv s.pipes s.network s.nextPipeId := by
  induction h with
  | init =>
    refine ⟨by simp [emptyStore], ?_, ?_, by simp [emptyStore], ?_⟩ <;>
      intro x hx <;> simp [emptyStore] at hx
  | step s c _ _ ih => exact execute_pipeInv s c ih

theorem countP_pipeId_eq_one (network : List NetworkConnection) (id : Int)
    (hn : (network.map (fun conn => conn.pipeId)).Nodup)
    (hex : ∃ conn ∈ network, conn.pipeId = id) :
    network.countP (fun conn => conn.pipeId == id) = 1 := by
  have h1 : network.countP (fun conn => conn.pipeId == id) =
      (network.map (fun conn => conn.pipeId)).count id := by
    rw [List.count, List.countP_map]
    rfl
  rw [h1]
  apply List.count_eq_one_of_mem hn
  obtain ⟨conn, hc, hid⟩ := hex
  exact List.mem_map.mpr ⟨conn, hc, hid⟩

/-! ## The graph of lr3 -/

theorem mapHas_iff {α : Type} (m : List (Int × α)) (k : Int) :
    mapHas m k = true ↔ k ∈ m.map Prod.fst := by
  unfold mapHas
  simp only [List.any_eq_true, decide_eq_true_eq, List.mem_map]

theorem mapHas_mapSet {α : Type} (m : List (Int × α)) (k k2 : Int) (v : α) :
    mapHas (mapSet (fun a b => decide (a < b)) k v m) k2 = true ↔
      k2 = k ∨ mapHas m k2 = true := by
  rw [mapHas_iff, mapHas_iff, mem_keys_mapSet]

theorem mapHas_nil {α : Type} (k : Int) : mapHas ([] : List (Int × α)) k = false := rfl

theorem mapGet_mem_or {α : Type} (d : α) : ∀ (m : List (Int × α)) (k : Int),
    mapGet d m k = d ∨ (k, mapGet d m k) ∈ m := by
  intro m k
  unfold mapGet
  cases h : m.find? (fun kv => decide (kv.1 = k)) with
  | none => left; rfl
  | some kv =>
    right
    have h1 := List.find?_some h
    have h2 := List.mem_of_find?_eq_some h
    simp only [decide_eq_true_eq] at h1
    simp only
    rw [← h1]
    exact h2

theorem mapHas_eq_of_iff {α β : Type} (m : List (Int × α)) (m2 : List (Int × β)) (k k2 : Int)
    (h : mapHas m k = true ↔ mapHas m2 k2 = true) : mapHas m k = mapHas m2 k2 := by
  cases h1 : mapHas m k <;> cases h2 : mapHas m2 k2 <;> simp_all

theorem stationNodes_has (l : List CompressorStation) :
    ∀ (g : List (Int × GraphNode)) (k : Int),
      mapHas (l.foldl (fun graph station =>
        mapSet (fun a b => decide (a < b)) station.id ⟨station.id, true, []⟩ graph) g) k = true ↔
      mapHas g k = true ∨ ∃ st ∈ l, st.id = k := by
  induction l with
  | nil => intro g k; simp
  | cons a l ih =>
    intro g k
    rw [List.foldl_cons, ih, mapHas_mapSet]
    simp only [List.mem_cons, exists_eq_or_imp]
    constructor
    · rintro ((h | h) | h)
      · exact Or.inr (Or.inl h.symm)
      · exact Or.inl h
      · exact Or.inr (Or.inr h)
    · rintro (h | h | h)
      · exact Or.inl (Or.inr h)
      · exact Or.inl (Or.inl h.symm)
      · exact Or.inr h

theorem stationNodes_bare (l : List CompressorStation) :
    ∀ (g : List (Int × GraphNode)), (∀ kv ∈ g, kv.2.connections = []) →
      ∀ kv ∈ l.foldl (fun graph station =>
        mapSet (fun a b => decide (a < b)) station.id ⟨station.id, true, []⟩ graph) g,
        kv.2.connections = [] := by
  induction l with
  | nil => intro g hg; exact hg
  | cons a l ih =>
    intro g hg
    rw [List.foldl_cons]
    apply ih
    intro kv hkv
    rcases mapSet_values _ _ _ _ _ hkv with h | h
    · rw [h]
    · exact hg kv h

theorem pipeNodes_has (s : PipelineSystem) (l : List Pipe) :
    ∀ (g : List (Int × GraphNode)) (k : Int),
      mapHas (l.foldl (fun graph pipe =>
        if pipe.inUse then
          let isStartStation := (getObjectInfo s pipe.startId).1
          let isEndStation := (getObjectInfo s pipe.endId).1
          if !isStartStation || !isEndStation then
            if !mapHas graph pipe.id then
              mapSet (fun a b => decide (a < b)) pipe.id ⟨pipe.id, false, []⟩ graph
            else graph
          else graph
        else graph) g) k = true ↔
      mapHas g k = true ∨ ∃ p ∈ l, p.id = k ∧ p.inUse = true ∧
        ¬ (IsStationId s p.startId ∧ IsStationId s p.endId) := by
  induction l with
  | nil => intro g k; simp
  | cons a l ih =>
    intro g k
    rw [List.foldl_cons, ih]
    simp only [List.mem_cons, exists_eq_or_imp]
    have hcond : ((!(getObjectInfo s a.startId).1 || !(getObjectInfo s a.endId).1) = true) ↔
        ¬ (IsStationId s a.startId ∧ IsStationId s a.endId) := by
      rw [← getObjectInfo_isStation, ← getObjectInfo_isStation]
      cases (getObjectInfo s a.startId).1 <;> cases (getObjectInfo s a.endId).1 <;> simp
    by_cases hu : a.inUse = true
    · rw [if_pos hu]
      by_cases hc : (!(getObjectInfo s a.startId).1 || !(getObjectInfo s a.endId).1) = true
      · rw [if_pos hc]
        have hc2 := hcond.mp hc
        by_cases hh : mapHas g a.id = true
        · rw [if_neg (by simp [hh])]
          constructor
          · rintro (h | h)
            · exact Or.inl h
            · exact Or.inr (Or.inr h)
          · rintro (h | ⟨h1, _⟩ | h)
            · exact Or.inl h
            · left; rw [← h1]; exact hh
            · exact Or.inr h
        · rw [if_pos (by simp [hh]), mapHas_mapSet]
          constructor
          · rintro ((h | h) | h)
            · exact Or.inr (Or.inl ⟨h.symm, hu, hc2⟩)
            · exact Or.inl h
            · exact Or.inr (Or.inr h)
          · rintro (h | ⟨h1, _⟩ | h)
            · exact Or.inl (Or.inr h)
            · exact Or.inl (Or.inl h1.symm)
            · exact Or.inr h
      · rw [if_neg hc]
        have hc2 : ¬ ¬ (IsStationId s a.startId ∧ IsStationId s a.endId) :=
          fun h => hc (hcond.mpr h)
        constructor
        · rintro (h | h)
          · exact Or.inl h
          · exact Or.inr (Or.inr h)
        · rintro (h | ⟨_, _, h3⟩ | h)
          · exact Or.inl h
          · exact absurd h3 hc2
          · exact Or.inr h
    · rw [if_neg hu]
      constructor
      · rintro (h | h)
        · exact Or.inl h
        · exact Or.inr (Or.inr h)
      · rintro (h | ⟨_, h2, _⟩ | h)
        · exact Or.inl h
        · exact absurd h2 hu
        · exact Or.inr h

theorem pipeNodes_bare (s : PipelineSystem) (l : List Pipe) :
    ∀ (g : List (Int × GraphNode)), (∀ kv ∈ g, kv.2.connections = []) →
      ∀ kv ∈ l.foldl (fun graph pipe =>
        if pipe.inUse then
          let isStartStation := (getObjectInfo s pipe.startId).1
          let isEndStation := (getObjectInfo s pipe.endId).1
          if !isStartStation || !isEndStation then
            if !mapHas graph pipe.id then
              mapSet (fun a b => decide (a < b)) pipe.id ⟨pipe.id, false, []⟩ graph
            else graph
          else graph
        else graph) g,
        kv.2.connections = [] := by
  induction l with
  | nil => intro g hg; exact hg
  | cons a l ih =>
    intro g hg
    rw [List.foldl_cons]
    apply ih
    intro kv hkv
    by_cases hu : a.inUse = true
    · rw [if_pos hu] at hkv
      by_cases hc : (!(getObjectInfo s a.startId).1 || !(getObjectInfo s a.endId).1) = true
      · rw [if_pos hc] at hkv
        by_cases hh : (!mapHas g a.id) = true
        · rw [if_pos hh] at hkv
          rcases mapSet_values _ _ _ _ _ hkv with h | h
          · rw [h]
          · exact hg kv h
        · rw [if_neg hh] at hkv
          exact hg kv hkv
      · rw [if_neg hc] at hkv
        exact hg kv hkv
    · rw [if_neg hu] at hkv
      exact hg kv hkv

theorem edgeLoop_step (g : List (Int × GraphNode)) (c : NetworkConnection) (u : Int) :
    mapHas (if mapHas g c.startId then
        mapSet (fun a b => decide (a < b)) c.startId
          { mapGet (⟨0, false, []⟩ : GraphNode) g c.startId with
            connections := (mapGet (⟨0, false, []⟩ : GraphNode) g c.startId).connections ++
              [(c.endId, c.pipeId)] } g
      else g) u = mapHas g u ∧
    (mapGet (⟨0, false, []⟩ : GraphNode) (if mapHas g c.startId then
        mapSet (fun a b => decide (a < b)) c.startId
          { mapGet (⟨0, false, []⟩ : GraphNode) g c.startId with
            connections := (mapGet (⟨0, false, []⟩ : GraphNode) g c.startId).connections ++
              [(c.endId, c.pipeId)] } g
      else g) u).connections =
      (mapGet (⟨0, false, []⟩ : GraphNode) g u).connections ++
        (if mapHas g u = true ∧ c.startId = u then [(c.endId, c.pipeId)] else []) := by
  by_cases hk : mapHas g c.startId = true
  · rw [if_pos hk]
    constructor
    · apply mapHas_eq_of_iff
      rw [mapHas_mapSet]
      constructor
      · rintro (h | h)
        · rw [h]; exact hk
        · exact h
      · exact fun h => Or.inr h
    · rw [mapGet_mapSet]
      by_cases hu : u = c.startId
      · rw [if_pos hu, if_pos ⟨by rw [hu]; exact hk, hu.symm⟩, hu]
      · rw [if_neg hu, if_neg (fun h => hu h.2.symm), List.append_nil]
  · rw [if_neg hk]
    refine ⟨rfl, ?_⟩
    rw [if_neg, List.append_nil]
    rintro ⟨h1, h2⟩
    rw [h2] at hk
    exact hk h1

theorem edgeLoop_spec (l : List NetworkConnection) :
    ∀ (g : List (Int × GraphNode)) (u : Int),
      mapHas (l.foldl (fun graph conn =>
        if mapHas graph conn.startId then
          let node := mapGet (⟨0, false, []⟩ : GraphNode) graph conn.startId
          mapSet (fun a b => decide (a < b)) conn.startId
            { node with connections := node.connections ++ [(conn.endId, conn.pipeId)] } graph
        else graph) g) u = mapHas g u ∧
      (mapGet (⟨0, false, []⟩ : GraphNode) (l.foldl (fun graph conn =>
        if mapHas graph conn.startId then
          let node := mapGet (⟨0, false, []⟩ : GraphNode) graph conn.startId
          mapSet (fun a b => decide (a < b)) conn.startId
            { node with connections := node.connections ++ [(conn.endId, conn.pipeId)] } graph
        else graph) g) u).connections =
        (mapGet (⟨0, false, []⟩ : GraphNode) g u).connections ++
          (if mapHas g u = true then
            (l.filter (fun c => decide (c.startId = u))).map (fun c => (c.endId, c.pipeId))
          else []) := by
  induction l with
  | nil => intro g u; simp
  | cons c l ih =>
    intro g u
    rw [List.foldl_cons]
    obtain ⟨h1, h2⟩ := edgeLoop_step g c u
    obtain ⟨i1, i2⟩ := ih _ u
    refine ⟨i1.trans h1, ?_⟩
    rw [i2, h1, h2, List.append_assoc]
    congr 1
    by_cases hk : mapHas g u = true
    · by_cases hu : c.startId = u
      · simp [hk, hu]
      · simp [hk, hu]
    · simp [hk]

/-- The nodes of the graph of lr3. -/
theorem mapHas_buildGraph (s : PipelineSystem) (u : Int) :
    mapHas (buildGraph s) u = true ↔ IsGraphNode s u := by
  unfold buildGraph IsGraphNode
  simp only
  rw [(edgeLoop_spec s.network _ u).1, pipeNodes_has, stationNodes_has]
  simp only [mapHas_nil, Bool.false_eq_true, false_or]
  rfl

/-- The neighbours of a node in the graph of lr3: the connections that
start at the node, in the order of the network. -/
theorem adjOf_buildGraph (s : PipelineSystem) (u : Int) (h : IsGraphNode s u) :
    adjOf (buildGraph s) u =
      (s.network.filter (fun c => decide (c.startId = u))).map
        (fun c => (c.endId, c.pipeId)) := by
  unfold adjOf
  rw [if_pos ((mapHas_buildGraph s u).mpr h)]
  have hk := (mapHas_buildGraph s u).mpr h
  unfold buildGraph at hk ⊢
  simp only at hk ⊢
  rw [(edgeLoop_spec s.network _ u).1] at hk
  rw [(edgeLoop_spec s.network _ u).2, if_pos hk]
  have hbare := pipeNodes_bare s s.pipes _
    (stationNodes_bare s.stations [] (fun kv hkv => absurd hkv (List.not_mem_nil kv)))
  rcases mapGet_mem_or (⟨0, false, []⟩ : GraphNode) _ u with h0 | h0
  · rw [h0]; rfl
  · rw [hbare _ h0]; rfl

theorem mem_adjOf_buildGraph (s : PipelineSystem) (u : Int) (e : Int × Int) :
    e ∈ adjOf (buildGraph s) u ↔
      IsGraphNode s u ∧
      ∃ conn ∈ s.network, conn.startId = u ∧ conn.endId = e.1 ∧ conn.pipeId = e.2 := by
  by_cases h : IsGraphNode s u
  · rw [adjOf_buildGraph s u h]
    simp only [List.mem_map, List.mem_filter, decide_eq_true_eq]
    constructor
    · rintro ⟨c, ⟨hc, hs⟩, rfl⟩
      exact ⟨h, c, hc, hs, rfl, rfl⟩
    · rintro ⟨_, c, hc, hs, h1, h2⟩
      exact ⟨c, ⟨hc, hs⟩, Prod.ext h1 h2⟩
  · unfold adjOf
    rw [if_neg (fun hk => h ((mapHas_buildGraph s u).mp hk))]
    simp [h]

/-! ## The search loop of lr3 -/

theorem findPathLoop_succ (graph : List (Int × GraphNode)) (endId : Int) (fuel : Nat)
    (st : FindPathState) :
    findPathLoop graph endId (fuel + 1) st =
      match st.q with
      | [] => some st
      | current :: rest =>
        if current = endId then some { st with q := rest }
        else findPathLoop graph endId fuel
          ((adjOf graph current).foldl (visitNeighbor current) { st with q := rest }) := by
  rw [findPathLoop]
  cases st.q with
  | nil => rfl
  | cons current rest =>
    simp only
    by_cases h : current = endId
    · rw [if_pos h, if_pos h]
    · rw [if_neg h, if_neg h]
      unfold adjOf
      by_cases hk : mapHas graph current = true
      · rw [if_pos hk, if_pos hk]
      · rw [if_neg hk, if_neg hk]
        rfl

theorem visitNeighbor_inv (adj : Int → List (Int × Int)) (startId : Int) (lvl : Int → Nat)
    (D F : List Int) (c : Int) (st : FindPathState) (e : Int × Int)
    (h : SearchInv adj startId lvl (D ++ [c]) F st)
    (hJ : ∀ w ∈ st.q, lvl w ≤ lvl c + 1) (he : e ∈ adj c) :
    ∃ lvl2, SearchInv adj startId lvl2 (D ++ [c]) F (visitNeighbor c st e) ∧
      (∀ w ∈ (visitNeighbor c st e).q, lvl2 w ≤ lvl2 c + 1) ∧
      (∀ x ∈ st.visited, lvl2 x = lvl x) ∧
      (∀ x ∈ st.visited, x ∈ (visitNeighbor c st e).visited) ∧
      e.1 ∈ (visitNeighbor c st e).visited ∧ lvl2 e.1 ≤ lvl2 c + 1 := by
  have hcdone : c ∈ D ++ [c] := List.mem_append_right _ (List.mem_singleton_self c)
  have hcv : c ∈ st.visited := (h.visited_iff c).mpr (Or.inl hcdone)
  have hdone_le : ∀ x ∈ D ++ [c], lvl x ≤ lvl c := by
    intro x hx
    have hs := (List.pairwise_append.mp h.sorted).1
    rcases List.mem_append.mp hx with hx | hx
    · exact (List.pairwise_append.mp hs).2.2 x hx c (List.mem_singleton_self c)
    · rw [List.mem_singleton] at hx; rw [hx]
  unfold visitNeighbor
  by_cases hv : e.1 ∈ st.visited
  · rw [if_pos hv]
    refine ⟨lvl, h, hJ, fun _ _ => rfl, fun _ hx => hx, hv, ?_⟩
    rcases (h.visited_iff e.1).mp hv with hd | hq
    · exact le_trans (hdone_le _ hd) (Nat.le_succ _)
    · exact hJ _ hq
  · rw [if_neg hv]
    have hvc : c ≠ e.1 := fun hce => hv (hce ▸ hcv)
    have hold : ∀ x ∈ st.visited, (if x = e.1 then lvl c + 1 else lvl x) = lvl x := by
      intro x hx
      rw [if_neg (fun hxe : x = e.1 => hv (hxe ▸ hx))]
    have hlc : (if c = e.1 then lvl c + 1 else lvl c) = lvl c := hold c hcv
    have hnot : e.1 ∉ (D ++ [c]) ++ st.q := by
      intro hm
      rw [List.mem_append] at hm
      exact hv ((h.visited_iff e.1).mpr hm)
    refine ⟨fun x => if x = e.1 then lvl c + 1 else lvl x, ?_, ?_, hold, ?_, ?_, ?_⟩
    · constructor
      · intro v
        simp only [mem_setInsert, List.mem_append, List.mem_singleton]
        rw [h.visited_iff v]
        simp only [List.mem_append, List.mem_singleton]
        tauto
      · simp only
        rw [← List.append_assoc]
        exact List.Nodup.append h.nodup (List.nodup_singleton _)
          (List.disjoint_singleton.mpr hnot)
      · intro v
        simp only [mapHas_mapSet, mem_setInsert]
        rw [h.parent_keys v]
      · simp only [mem_setInsert]
        exact Or.inr h.start_visited
      · show (if startId = e.1 then lvl c + 1 else lvl startId) = 0
        rw [if_neg (fun hxe : startId = e.1 => hv (hxe ▸ h.start_visited))]
        exact h.start_lvl
      · simp only [mapGet_mapSet]
        rw [if_neg (fun hxe : startId = e.1 => hv (hxe ▸ h.start_visited))]
        exact h.start_parent
      · intro v hvm hvs
        simp only [mem_setInsert] at hvm
        simp only [mapGet_mapSet, mapHas_mapSet]
        by_cases hve : v = e.1
        · subst hve
          simp only [if_true, true_or, true_and]
          refine ⟨hcdone, he, ?_⟩
          rw [hlc]
        · have hvold : v ∈ st.visited := hvm.resolve_left hve
          obtain ⟨t1, t2, t3, t4⟩ := h.tree v hvold hvs
          simp only [hve, if_false, false_or]
          refine ⟨t1, t2, t3, ?_⟩
          rw [hold _ ((h.visited_iff _).mpr (Or.inl t1))]
          exact t4
      · simp only
        rw [← List.append_assoc]
        apply List.pairwise_append.mpr
        refine ⟨?_, List.pairwise_singleton _ _, ?_⟩
        · apply List.Pairwise.imp_of_mem _ h.sorted
          intro a b ha hb hab
          rw [List.mem_append] at ha hb
          rw [hold a ((h.visited_iff a).mpr ha), hold b ((h.visited_iff b).mpr hb)]
          exact hab
        · intro a ha b hb
          rw [List.mem_singleton] at hb
          subst hb
          simp only [if_true]
          have hav : a ∈ st.visited := (h.visited_iff a).mpr (List.mem_append.mp ha)
          rw [hold a hav]
          rcases List.mem_append.mp ha with hd | hq
          · exact le_trans (hdone_le _ hd) (Nat.le_succ _)
          · exact hJ _ hq
      · intro v hvm
        simp only [mem_setInsert] at hvm
        simp only [List.length_append, List.length_singleton]
        have hc := h.lvl_lt c hcv
        simp only [List.length_append, List.length_singleton] at hc
        by_cases hve : v = e.1
        · rw [if_pos hve]; omega
        · rw [if_neg hve]
          have := h.lvl_lt v (hvm.resolve_left hve)
          simp only [List.length_append, List.length_singleton] at this
          omega
      · intro u hu e2 he2
        obtain ⟨c1, c2⟩ := h.closed u hu e2 he2
        have huv : u ∈ st.visited := (h.visited_iff u).mpr (Or.inl (h.full_done u hu))
        simp only [mem_setInsert]
        refine ⟨Or.inr c1, ?_⟩
        rw [hold _ c1, hold _ huv]
        exact c2
      · exact h.full_done
    · intro w hw
      simp only [List.mem_append, List.mem_singleton] at hw
      beta_reduce
      rw [hlc]
      rcases hw with hw | hw
      · rw [hold w ((h.visited_iff w).mpr (Or.inr hw))]
        exact hJ w hw
      · rw [if_pos hw]
    · intro x hx
      simp only [mem_setInsert]
      exact Or.inr hx
    · simp only [mem_setInsert, true_or]
    · beta_reduce
      rw [hlc, if_pos rfl]

theorem visitFold_inv (adj : Int → List (Int × Int)) (startId : Int) (D F : List Int)
    (c : Int) : ∀ (edges : List (Int × Int)) (lvl : Int → Nat) (st : FindPathState),
      SearchInv adj startId lvl (D ++ [c]) F st → (∀ w ∈ st.q, lvl w ≤ lvl c + 1) →
      (∀ e ∈ edges, e ∈ adj c) →
      ∃ lvl2, SearchInv adj startId lvl2 (D ++ [c]) F (edges.foldl (visitNeighbor c) st) ∧
        (∀ w ∈ (edges.foldl (visitNeighbor c) st).q, lvl2 w ≤ lvl2 c + 1) ∧
        (∀ x ∈ st.visited, lvl2 x = lvl x) ∧
        (∀ x ∈ st.visited, x ∈ (edges.foldl (visitNeighbor c) st).visited) ∧
        ∀ e ∈ edges, e.1 ∈ (edges.foldl (visitNeighbor c) st).visited ∧
          lvl2 e.1 ≤ lvl2 c + 1 := by
  intro edges
  induction edges with
  | nil =>
    intro lvl st h hJ _
    exact ⟨lvl, h, hJ, fun _ _ => rfl, fun _ hx => hx, fun e he => absurd he (List.not_mem_nil e)⟩
  | cons e rest ih =>
    intro lvl st h hJ hall
    obtain ⟨lvl1, h1, hJ1, hl1, hv1, hm1, hle1⟩ :=
      visitNeighbor_inv adj startId lvl D F c st e h hJ (hall e (List.mem_cons_self e rest))
    obtain ⟨lvl2, h2, hJ2, hl2, hv2, hcl2⟩ :=
      ih lvl1 (visitNeighbor c st e) h1 hJ1 (fun x hx => hall x (List.mem_cons_of_mem e hx))
    have hcv : c ∈ (visitNeighbor c st e).visited :=
      (h1.visited_iff c).mpr (Or.inl (List.mem_append_right _ (List.mem_singleton_self c)))
    rw [List.foldl_cons]
    refine ⟨lvl2, h2, hJ2, ?_, fun x hx => hv2 x (hv1 x hx), ?_⟩
    · intro x hx
      rw [hl2 x (hv1 x hx), hl1 x hx]
    · intro e2 he2
      rcases List.mem_cons.mp he2 with he2 | he2
      · subst he2
        refine ⟨hv2 _ hm1, ?_⟩
        rw [hl2 _ hm1, hl2 _ hcv]
        exact hle1
      · exact hcl2 e2 he2

theorem searchInv_length_le (adj : Int → List (Int × Int)) (startId : Int) (lvl : Int → Nat)
    (D F : List Int) (st : FindPathState) (U : List Int)
    (hU : ∀ u e, e ∈ adj u → e.1 ∈ U) (hs : startId ∈ U)
    (h : SearchInv adj startId lvl D F st) : (D ++ st.q).length ≤ U.length := by
  apply (List.Nodup.subperm h.nodup _).length_le
  intro v hv
  have hvv : v ∈ st.visited := (h.visited_iff v).mpr (List.mem_append.mp hv)
  by_cases hvs : v = startId
  · rw [hvs]; exact hs
  · exact hU _ _ (h.tree v hvv hvs).2.2.1

/-- The search loop comes to an end, and where it ends the queue is empty,
or the end was at the head of the queue. -/
theorem findPathLoop_inv (graph : List (Int × GraphNode)) (endId startId : Int)
    (U : List Int) (hU : ∀ u e, e ∈ adjOf graph u → e.1 ∈ U) (hs : startId ∈ U) :
    ∀ (fuel : Nat) (st : FindPathState) (lvl : Int → Nat) (D : List Int),
      SearchInv (adjOf graph) startId lvl D D st →
      (∀ a ∈ st.q, ∀ b ∈ st.q, lvl a ≤ lvl b + 1) → endId ∉ D →
      U.length + 1 ≤ fuel + D.length →
      ∃ (st2 : FindPathState) (lvl2 : Int → Nat) (D2 q2 : List Int),
        findPathLoop graph endId fuel st = some st2 ∧
        SearchInv (adjOf graph) startId lvl2 D2 D2 { st2 with q := q2 } ∧ endId ∉ D2 ∧
        (q2 = [] ∨ ∃ rest, q2 = endId :: rest) := by
  intro fuel
  induction fuel with
  | zero =>
    intro st lvl D h _ _ hf
    have := searchInv_length_le _ _ _ _ _ _ U hU hs h
    rw [List.length_append] at this
    omega
  | succ fuel ih =>
    intro st lvl D h hspan hend hf
    rw [findPathLoop_succ]
    have hlen := searchInv_length_le _ _ _ _ _ _ U hU hs h
    cases hq : st.q with
    | nil =>
      refine ⟨st, lvl, D, [], rfl, ?_, hend, Or.inl rfl⟩
      have : ({ st with q := [] } : FindPathState) = st := by
        cases st; simp only at hq; rw [hq]
      rw [this]
      exact h
    | cons c rest =>
      simp only
      by_cases hc : c = endId
      · rw [if_pos hc]
        refine ⟨{ st with q := rest }, lvl, D, endId :: rest, rfl, ?_, hend, Or.inr ⟨rest, rfl⟩⟩
        have : ({ st with q := endId :: rest } : FindPathState) = st := by
          cases st; simp only at hq; rw [hq, hc]
        simp only
        rw [this]
        exact h
      · rw [if_neg hc]
        rw [hq, List.length_append, List.length_cons] at hlen
        have hspan2 : ∀ w ∈ rest, lvl w ≤ lvl c + 1 := by
          intro w hw
          apply hspan w _ c _
          · rw [hq]; exact List.mem_cons_of_mem c hw
          · rw [hq]; exact List.mem_cons_self c rest
        have h1 : SearchInv (adjOf graph) startId lvl (D ++ [c]) D { st with q := rest } := by
          constructor
          · intro v
            simp only [List.mem_append, List.mem_singleton]
            rw [h.visited_iff v, hq, List.mem_cons]
            tauto
          · have := h.nodup
            rw [hq] at this
            simpa [List.append_assoc] using this
          · exact h.parent_keys
          · exact h.start_visited
          · exact h.start_lvl
          · exact h.start_parent
          · intro v hv hvs
            obtain ⟨t1, t2, t3, t4⟩ := h.tree v hv hvs
            exact ⟨List.mem_append_left _ t1, t2, t3, t4⟩
          · have := h.sorted
            rw [hq] at this
            simpa [List.append_assoc] using this
          · intro v hv
            have := h.lvl_lt v hv
            rw [hq] at this
            simpa [List.append_assoc] using this
          · exact h.closed
          · intro u hu
            exact List.mem_append_left _ hu
        obtain ⟨lvl2, h2, hJ2, _, _, hcl2⟩ :=
          visitFold_inv (adjOf graph) startId D D c (adjOf graph c) lvl _ h1 hspan2
            (fun e he => he)
        have h3 : SearchInv (adjOf graph) startId lvl2 (D ++ [c]) (D ++ [c])
            ((adjOf graph c).foldl (visitNeighbor c) { st with q := rest }) := by
          refine { h2 with closed := ?_, full_done := fun u hu => hu }
          intro u hu e he
          rcases List.mem_append.mp hu with hu | hu
          · exact h2.closed u hu e he
          · rw [List.mem_singleton] at hu
            subst hu
            exact hcl2 e he
        have hspan3 : ∀ a ∈ ((adjOf graph c).foldl (visitNeighbor c) { st with q := rest }).q,
            ∀ b ∈ ((adjOf graph c).foldl (visitNeighbor c) { st with q := rest }).q,
            lvl2 a ≤ lvl2 b + 1 := by
          intro a ha b hb
          have h4 := hJ2 a ha
          have h5 : lvl2 c ≤ lvl2 b :=
            (List.pairwise_append.mp h2.sorted).2.2 c
              (List.mem_append_right _ (List.mem_singleton_self c)) b hb
          omega
        have hend2 : endId ∉ D ++ [c] := by
          intro hm
          rcases List.mem_append.mp hm with hm | hm
          · exact hend hm
          · rw [List.mem_singleton] at hm
            exact hc hm.symm
        exact ih _ lvl2 (D ++ [c]) h3 hspan3 hend2
          (by rw [List.length_append, List.length_singleton]; omega)

theorem searchInv_init (adj : Int → List (Int × Int)) (startId : Int) :
    SearchInv adj startId (fun _ => 0) [] []
      { parent := mapSet (fun a b => decide (a < b)) startId (-1) [],
        parentPipe := [],
        q := [startId],
        visited := setInsert startId [] } := by
  constructor
  · intro v
    simp [mem_setInsert]
  · simp
  · intro v
    simp only [mapHas_mapSet, mem_setInsert, mapHas_nil, Bool.false_eq_true, List.not_mem_nil]
  · simp [mem_setInsert]
  · rfl
  · rw [mapGet_mapSet, if_pos rfl]
  · intro v hv hvs
    simp only [mem_setInsert, List.not_mem_nil, or_false] at hv
    exact absurd hv hvs
  · simp
  · intro v _
    simp
  · intro u hu
    exact absurd hu (List.not_mem_nil u)
  · intro u hu
    exact hu

theorem backChain_length (adj : Int → List (Int × Int)) (a v : Int) (ns ps : List Int)
    (h : BackChain adj a v ns ps) : ns.length = ps.length + 1 ∧ ns.head? = some v := by
  induction h with
  | root => exact ⟨rfl, rfl⟩
  | step u v p ns ps _ _ ih => exact ⟨by simp [ih.1], rfl⟩

/-- Every id that the search has visited is reached from the start along
`parent`, in as many steps as its level. -/
theorem searchInv_sound (adj : Int → List (Int × Int)) (startId : Int) (lvl : Int → Nat)
    (D F : List Int) (st : FindPathState) (h : SearchInv adj startId lvl D F st) :
    ∀ (n : Nat) (v : Int), v ∈ st.visited → lvl v = n →
      ∃ ns ps, BackChain adj startId v ns ps ∧ ps.length = n := by
  intro n
  induction n with
  | zero =>
    intro v hv hl
    by_cases hvs : v = startId
    · subst hvs
      exact ⟨[v], [], BackChain.root, rfl⟩
    · have := (h.tree v hv hvs).2.2.2
      omega
  | succ n ih =>
    intro v hv hl
    by_cases hvs : v = startId
    · rw [hvs, h.start_lvl] at hl
      omega
    · obtain ⟨t1, _, t3, t4⟩ := h.tree v hv hvs
      obtain ⟨ns, ps, hc, hlen⟩ := ih (mapGet 0 st.parent v)
        ((h.visited_iff _).mpr (Or.inl t1)) (by omega)
      exact ⟨v :: ns, mapGet 0 st.parentPipe v :: ps, BackChain.step _ _ _ _ _ hc t3,
        by simp [hlen]⟩

/-- The loop that collects the path returns the chain along `parent`. -/
theorem walkBack_spec (adj : Int → List (Int × Int)) (startId : Int) (lvl : Int → Nat)
    (D F : List Int) (st : FindPathState) (h : SearchInv adj startId lvl D F st)
    (hneg : ∀ u e, e ∈ adj u → u ≠ -1) :
    ∀ (n : Nat) (v : Int), v ∈ st.visited → lvl v = n → v ≠ -1 →
      ∀ (fuel : Nat), n + 2 ≤ fuel → ∀ (path pipesPath : List Int),
      ∃ ns ps, BackChain adj startId v ns ps ∧ ps.length = n ∧
        walkBack st.parent st.parentPipe startId fuel v path pipesPath =
          some (path ++ ns, pipesPath ++ ps) := by
  intro n
  induction n with
  | zero =>
    intro v hv hl hv1 fuel hf path pp
    have hvs : v = startId := by
      by_contra hvs
      have := (h.tree v hv hvs).2.2.2
      omega
    subst hvs
    refine ⟨[v], [], BackChain.root, rfl, ?_⟩
    obtain ⟨f2, rfl⟩ : ∃ f2, fuel = f2 + 2 := ⟨fuel - 2, by omega⟩
    rw [walkBack, if_neg hv1]
    simp only [ne_eq, not_true_eq_false, false_and, if_false]
    rw [h.start_parent, walkBack, if_pos rfl, List.append_nil]
  | succ n ih =>
    intro v hv hl hv1 fuel hf path pp
    have hvs : v ≠ startId := by
      intro hvs
      rw [hvs, h.start_lvl] at hl
      omega
    obtain ⟨t1, t2, t3, t4⟩ := h.tree v hv hvs
    obtain ⟨f1, rfl⟩ : ∃ f1, fuel = f1 + 1 := ⟨fuel - 1, by omega⟩
    obtain ⟨ns, ps, hc, hlen, hw⟩ := ih (mapGet 0 st.parent v)
      ((h.visited_iff _).mpr (Or.inl t1)) (by omega) (hneg _ _ t3) f1 (by omega)
      (path ++ [v]) (pp ++ [mapGet 0 st.parentPipe v])
    refine ⟨v :: ns, mapGet 0 st.parentPipe v :: ps, BackChain.step _ _ _ _ _ hc t3,
      by simp [hlen], ?_⟩
    rw [walkBack, if_neg hv1]
    simp only
    rw [if_pos ⟨hvs, t2⟩, hw]
    simp

/-- When the end is at the head of the queue, no chain from a visited id to
the end is shorter than the levels allow. -/
theorem searchInv_shortest (adj : Int → List (Int × Int)) (startId endId : Int)
    (lvl : Int → Nat) (D : List Int) (st : FindPathState) (rest : List Int)
    (h : SearchInv adj startId lvl D D st) (hq : st.q = endId :: rest) :
    ∀ (path : List Int) (x : Int) (k : Nat),
      List.Chain' (fun a b => ∃ p, (b, p) ∈ adj a) path → path.head? = some x →
      path.getLast? = some endId → x ∈ st.visited → lvl x ≤ k →
      lvl endId ≤ k + (path.length - 1) := by
  intro path
  induction path with
  | nil => intro x k _ hh; simp at hh
  | cons a t ih =>
    intro x k hch hh hl hx hk
    simp only [List.head?_cons, Option.some.injEq] at hh
    subst hh
    cases t with
    | nil =>
      simp only [List.getLast?_singleton, Option.some.injEq] at hl
      subst hl
      omega
    | cons b t2 =>
      rw [List.chain'_cons] at hch
      obtain ⟨⟨p, hp⟩, hch2⟩ := hch
      rw [List.getLast?_cons_cons] at hl
      by_cases hle : lvl endId ≤ k
      · omega
      · have hxD : a ∈ D := by
          rcases (h.visited_iff a).mp hx with hd | hqm
          · exact hd
          · exfalso
            rw [hq] at hqm
            have hs := (List.pairwise_append.mp h.sorted).2.1
            rw [hq, List.pairwise_cons] at hs
            rcases List.mem_cons.mp hqm with he | hr
            · rw [he] at hk; exact hle hk
            · have := hs.1 a hr
              omega
        obtain ⟨c1, c2⟩ := h.closed a hxD (b, p) hp
        have := ih b (k + 1) hch2 rfl hl c1 (by simp only at c2; omega)
        simp only [List.length_cons] at this ⊢
        omega

/-- When the queue is empty, every chain from a visited id ends at a
visited id. -/
theorem searchInv_complete (adj : Int → List (Int × Int)) (startId : Int)
    (lvl : Int → Nat) (D : List Int) (st : FindPathState)
    (h : SearchInv adj startId lvl D D st) (hq : st.q = []) :
    ∀ (path : List Int) (x y : Int),
      List.Chain' (fun a b => ∃ p, (b, p) ∈ adj a) path → path.head? = some x →
      path.getLast? = some y → x ∈ st.visited → y ∈ st.visited := by
  intro path
  induction path with
  | nil => intro x y _ hh; simp at hh
  | cons a t ih =>
    intro x y hch hh hl hx
    simp only [List.head?_cons, Option.some.injEq] at hh
    subst hh
    cases t with
    | nil =>
      simp only [List.getLast?_singleton, Option.some.injEq] at hl
      subst hl
      exact hx
    | cons b t2 =>
      rw [List.chain'_cons] at hch
      obtain ⟨⟨p, hp⟩, hch2⟩ := hch
      rw [List.getLast?_cons_cons] at hl
      have hxD : a ∈ D := by
        rcases (h.visited_iff a).mp hx with hd | hqm
        · exact hd
        · rw [hq] at hqm; exact absurd hqm (List.not_mem_nil a)
      exact ih b y hch2 rfl hl (h.closed a hxD (b, p) hp).1

/-! ## The path that lr3 finds -/

theorem hop_iff (s : PipelineSystem) (a b : Int) :
    Hop s a b ↔ ∃ p, (b, p) ∈ adjOf (buildGraph s) a := by
  unfold Hop
  constructor
  · rintro ⟨hn, conn, hc, h1, h2⟩
    exact ⟨conn.pipeId, (mem_adjOf_buildGraph s a _).mpr ⟨hn, conn, hc, h1, h2, rfl⟩⟩
  · rintro ⟨p, hp⟩
    obtain ⟨hn, conn, hc, h1, h2, _⟩ := (mem_adjOf_buildGraph s a _).mp hp
    exact ⟨hn, conn, hc, h1, h2⟩

theorem nodePath_connPath (s : PipelineSystem) (path : List Int) (h : NodePath s path) :
    ConnPath s path :=
  List.Chain'.imp (fun _ _ hab => hab.2) h

theorem linked_snoc (s : PipelineSystem) : ∀ (l : List Int) (u v p : Int) (ps : List Int),
    Linked s (l ++ [u]) ps →
    (∃ conn ∈ s.network, conn.startId = u ∧ conn.endId = v ∧ conn.pipeId = p) →
    Linked s (l ++ [u, v]) (ps ++ [p]) := by
  intro l
  induction l with
  | nil =>
    intro u v p ps h hc
    cases ps with
    | nil => simpa [Linked] using hc
    | cons p0 ps0 => simp [Linked] at h
  | cons a l2 ih =>
    intro u v p ps h hc
    cases ps with
    | nil =>
      cases l2 <;> simp [Linked] at h
    | cons p0 ps0 =>
      cases l2 with
      | nil =>
        simp only [List.cons_append, List.nil_append, Linked] at h ⊢
        exact ⟨h.1, ih u v p ps0 h.2 hc⟩
      | cons b l3 =>
        simp only [List.cons_append, Linked] at h ⊢
        exact ⟨h.1, ih u v p ps0 h.2 hc⟩

/-- A chain along `parent`, read from the start, is a chain of connections
through nodes of the graph with its pipes. -/
theorem backChain_forward (s : PipelineSystem) (a v : Int) (ns ps : List Int)
    (h : BackChain (adjOf (buildGraph s)) a v ns ps) :
    NodePath s ns.reverse ∧ Linked s ns.reverse ps.reverse ∧
      ns.reverse.head? = some a ∧ ns.reverse.getLast? = some v := by
  induction h with
  | root => simp [NodePath, Linked]
  | step u v p ns ps hc hedge ih =>
    obtain ⟨i1, i2, i3, i4⟩ := ih
    have hhead := (backChain_length _ _ _ _ _ hc).2
    obtain ⟨ns2, rfl⟩ : ∃ ns2, ns = u :: ns2 := by
      cases ns with
      | nil => simp at hhead
      | cons x ns2 =>
        simp only [List.head?_cons, Option.some.injEq] at hhead
        exact ⟨ns2, by rw [hhead]⟩
    obtain ⟨hn, conn, hcm, h1, h2, h3⟩ := (mem_adjOf_buildGraph s u _).mp hedge
    refine ⟨?_, ?_, ?_, ?_⟩
    · unfold NodePath at i1 ⊢
      rw [List.reverse_cons, List.chain'_append]
      refine ⟨i1, List.chain'_singleton v, ?_⟩
      intro x hx y hy
      rw [i4] at hx
      simp only [Option.mem_def, Option.some.injEq, List.head?_cons] at hx hy
      subst hx
      subst hy
      exact ⟨hn, conn, hcm, h1, h2⟩
    · have := linked_snoc s ns2.reverse u v p ps.reverse
        (by simpa using i2) ⟨conn, hcm, h1, h2, h3⟩
      simpa using this
    · rw [List.reverse_cons, List.head?_append_of_ne_nil _ (by simp)]
      exact i3
    · simp

theorem findPath_empty (s : PipelineSystem) (fuel : Nat) (startId endId : Int)
    (h : s.network = []) : findPath s fuel startId endId = some .emptyNetwork := by
  unfold findPath
  rw [if_pos (by rw [h]; rfl)]

theorem isGraphNode_found (s : PipelineSystem) (id : Int) (h : IsGraphNode s id) :
    ¬ (getObjectInfo s id).2 = none := by
  rw [getObjectInfo_none]
  rintro ⟨h1, h2⟩
  rcases h with h | ⟨p, hp, hid, _⟩
  · exact h1 h
  · exact h2 ⟨p, hp, hid⟩

theorem findPath_notConnected (s : PipelineSystem) (fuel : Nat) (startId endId : Int)
    (hnet : s.network ≠ []) (hs : ¬ (getObjectInfo s startId).2 = none)
    (he : ¬ (getObjectInfo s endId).2 = none)
    (h : ¬ IsGraphNode s startId ∨ ¬ IsGraphNode s endId) :
    findPath s fuel startId endId = some .notConnected := by
  unfold findPath
  rw [if_neg (by simpa using hnet), if_neg hs, if_neg he]
  simp only
  rw [if_pos]
  rw [Bool.or_eq_true]
  rcases h with h | h
  · left
    rw [← mapHas_buildGraph] at h
    simpa using h
  · right
    rw [← mapHas_buildGraph] at h
    simpa using h

theorem findPath_search (s : PipelineSystem) (fuel : Nat) (startId endId : Int)
    (hnet : s.network ≠ []) (hs : IsGraphNode s startId) (he : IsGraphNode s endId) :
    findPath s fuel startId endId =
      match findPathLoop (buildGraph s) endId fuel
        { parent := mapSet (fun a b => decide (a < b)) startId (-1) [],
          parentPipe := [],
          q := [startId],
          visited := setInsert startId [] } with
      | none => none
      | some st =>
        if !mapHas st.parent endId then some .noPath
        else
          match walkBack st.parent st.parentPipe startId fuel endId [] [] with
          | none => none
          | some (path, pipesPath) =>
            some (.found path.reverse pipesPath.reverse
              (if pipesPath.reverse.isEmpty then none
               else some (totalLength s pipesPath.reverse))) := by
  have hc : ¬ ((!mapHas (buildGraph s) startId || !mapHas (buildGraph s) endId) = true) := by
    rw [(mapHas_buildGraph s startId).mpr hs, (mapHas_buildGraph s endId).mpr he]
    decide
  unfold findPath
  rw [if_neg (by simpa using hnet), if_neg (isGraphNode_found s _ hs),
    if_neg (isGraphNode_found s _ he)]
  simp only
  rw [if_neg hc]

/-- Where the search loop of `findPath` ends, for two nodes of the graph and
enough passes. -/
theorem findPathLoop_final (s : PipelineSystem) (fuel : Nat) (startId endId : Int)
    (hfuel : s.network.length + 2 ≤ fuel) :
    ∃ (st2 : FindPathState) (lvl2 : Int → Nat) (D2 q2 : List Int),
      findPathLoop (buildGraph s) endId fuel
        { parent := mapSet (fun a b => decide (a < b)) startId (-1) [],
          parentPipe := [],
          q := [startId],
          visited := setInsert startId [] } = some st2 ∧
      SearchInv (adjOf (buildGraph s)) startId lvl2 D2 D2 { st2 with q := q2 } ∧
      endId ∉ D2 ∧ (q2 = [] ∨ ∃ rest, q2 = endId :: rest) ∧
      (D2 ++ q2).length ≤ s.network.length + 1 := by
  have hU : ∀ u e, e ∈ adjOf (buildGraph s) u →
      e.1 ∈ startId :: s.network.map (fun conn => conn.endId) := by
    intro u e he
    obtain ⟨_, conn, hc, _, h2, _⟩ := (mem_adjOf_buildGraph s u e).mp he
    exact List.mem_cons_of_mem _ (List.mem_map.mpr ⟨conn, hc, h2⟩)
  obtain ⟨st2, lvl2, D2, q2, h1, h2, h3, h4⟩ :=
    findPathLoop_inv (buildGraph s) endId startId
      (startId :: s.network.map (fun conn => conn.endId)) hU (List.mem_cons_self _ _) fuel _
      (fun _ => 0) [] (searchInv_init _ startId) (fun _ _ _ _ => Nat.zero_le _)
      (List.not_mem_nil _) (by simp; omega)
  refine ⟨st2, lvl2, D2, q2, h1, h2, h3, h4, ?_⟩
  have := searchInv_length_le _ _ _ _ _ _ _ hU (List.mem_cons_self _ _) h2
  simpa using this

theorem nodePath_adj (s : PipelineSystem) (path : List Int) (h : NodePath s path) :
    List.Chain' (fun a b => ∃ p, (b, p) ∈ adjOf (buildGraph s) a) path :=
  List.Chain'.imp (fun a b hab => (hop_iff s a b).mp hab) h

theorem findPath_noPath_of (s : PipelineSystem) (fuel : Nat) (startId endId : Int)
    (hfuel : s.network.length + 2 ≤ fuel) (hnet : s.network ≠ [])
    (hs : IsGraphNode s startId) (he : IsGraphNode s endId)
    (hno : ¬ ∃ path, NodePath s path ∧ path.head? = some startId ∧
      path.getLast? = some endId) :
    findPath s fuel startId endId = some .noPath := by
  rw [findPath_search s fuel startId endId hnet hs he]
  obtain ⟨st2, lvl2, D2, q2, hloop, hinv, hend, hq, _⟩ :=
    findPathLoop_final s fuel startId endId hfuel
  rw [hloop]
  simp only
  have hnv : endId ∉ st2.visited := by
    intro hv
    rcases hq with hq | ⟨rest, hq⟩
    · have := (hinv.visited_iff endId).mp hv
      simp only [hq, List.not_mem_nil, or_false] at this
      exact hend this
    · obtain ⟨ns, ps, hc, _⟩ := searchInv_sound _ _ _ _ _ _ hinv (lvl2 endId) endId hv rfl
      obtain ⟨f1, _, f3, f4⟩ := backChain_forward s startId endId ns ps hc
      exact hno ⟨ns.reverse, f1, f3, f4⟩
  have hk : mapHas st2.parent endId = false := by
    cases hm : mapHas st2.parent endId with
    | false => rfl
    | true => exact absurd ((hinv.parent_keys endId).mp hm) hnv
  rw [hk]
  rfl

/-- The search of `findPath` between two nodes of the graph that
`buildGraph` makes (ids of stations, or of pipes in use with an end that is
not a station), for a network that is not empty and no node with the id
`-1`: when a chain of connections leads from the start to the end through
nodes of that graph, the search, with enough passes allowed, returns a path
from the start to the end in which every consecutive pair is a connection in
forward direction that starts at a node, with the pipe of each step, and no
chain through nodes from the start to the end has fewer connections. -/
theorem findPath_shortest (s : PipelineSystem) (fuel : Nat) (startId endId : Int)
    (chain : List Int) (hfuel : s.network.length + 2 ≤ fuel) (hnet : s.network ≠ [])
    (hs : IsGraphNode s startId) (he : IsGraphNode s endId) (hid : ¬ IsGraphNode s (-1))
    (hchain : NodePath s chain) (hhead : chain.head? = some startId)
    (hlast : chain.getLast? = some endId) :
    ∃ path pipesPath,
      findPath s fuel startId endId =
        some (.found path pipesPath
          (if pipesPath.isEmpty then none else some (totalLength s pipesPath))) ∧
      path.head? = some startId ∧ path.getLast? = some endId ∧
      NodePath s path ∧ Linked s path pipesPath ∧
      ∀ other, NodePath s other → other.head? = some startId →
        other.getLast? = some endId → path.length ≤ other.length := by
  rw [findPath_search s fuel startId endId hnet hs he]
  obtain ⟨st2, lvl2, D2, q2, hloop, hinv, hend, hq, hlen⟩ :=
    findPathLoop_final s fuel startId endId hfuel
  rw [hloop]
  simp only
  have hneg : ∀ u e, e ∈ adjOf (buildGraph s) u → u ≠ -1 := by
    intro u e hu hneg
    rw [hneg] at hu
    exact hid ((mem_adjOf_buildGraph s _ e).mp hu).1
  have hend1 : endId ≠ -1 := fun h => hid (h ▸ he)
  rcases hq with hq | ⟨rest, hq⟩
  · exfalso
    subst hq
    have hv := searchInv_complete _ _ _ _ _ hinv rfl chain startId endId
      (nodePath_adj s chain hchain) hhead hlast hinv.start_visited
    have := (hinv.visited_iff endId).mp hv
    simp only [List.not_mem_nil, or_false] at this
    exact hend this
  · subst hq
    have hv : endId ∈ st2.visited :=
      (hinv.visited_iff endId).mpr (Or.inr (List.mem_cons_self _ _))
    have hk : mapHas st2.parent endId = true := (hinv.parent_keys endId).mpr hv
    have hlvl : lvl2 endId < s.network.length + 1 := lt_of_lt_of_le (hinv.lvl_lt endId hv) hlen
    obtain ⟨ns, ps, hc, hps, hw⟩ :=
      walkBack_spec _ _ _ _ _ _ hinv hneg (lvl2 endId) endId hv rfl hend1 fuel (by omega) [] []
    have hw2 : walkBack st2.parent st2.parentPipe startId fuel endId [] [] = some (ns, ps) := by
      simpa using hw
    rw [hk, hw2]
    obtain ⟨f1, f2, f3, f4⟩ := backChain_forward s startId endId ns ps hc
    refine ⟨ns.reverse, ps.reverse, rfl, f3, f4, f1, f2, ?_⟩
    intro other ho hoh hol
    have hsh := searchInv_shortest _ _ endId _ _ _ rest hinv rfl other startId 0
      (nodePath_adj s other ho) hoh hol hinv.start_visited (by rw [hinv.start_lvl])
    have hnl := (backChain_length _ _ _ _ _ hc).1
    have hpos : 0 < other.length := by
      cases other with
      | nil => simp at hoh
      | cons a t => simp
    rw [List.length_reverse]
    omega

/-- The search at the series store, from station 1 to station 3. -/
theorem findPath_shortest_series :
    findPath storeSeries 4 1 3 = some (.found [1, 2, 3] [1, 2] (some 10)) ∧
    ∃ path pipesPath,
      findPath storeSeries 4 1 3 =
        some (.found path pipesPath
          (if pipesPath.isEmpty then none else some (totalLength storeSeries pipesPath))) ∧
      path.head? = some 1 ∧ path.getLast? = some 3 ∧
      NodePath storeSeries path ∧ Linked storeSeries path pipesPath ∧
      ∀ other, NodePath storeSeries other → other.head? = some 1 →
        other.getLast? = some 3 → path.length ≤ other.length :=
  ⟨by with_unfolding_all rfl,
   findPath_shortest storeSeries 4 1 3 [1, 2, 3] (by decide) (by decide)
    (Or.inl ⟨⟨1, "A", 1, 1, 1⟩, by decide, rfl⟩) (Or.inl ⟨⟨3, "C", 1, 1, 1⟩, by decide, rfl⟩)
    (by
      rw [← mapHas_buildGraph]
      decide)
    (by
      unfold NodePath
      refine List.Chain'.cons ⟨Or.inl ⟨⟨1, "A", 1, 1, 1⟩, by decide, rfl⟩,
        ⟨1, 1, 2, .STATION_TO_STATION, .STATION_TO_STATION⟩, by decide, rfl, rfl⟩
        (List.Chain'.cons ⟨Or.inl ⟨⟨2, "B", 1, 1, 1⟩, by decide, rfl⟩,
          ⟨2, 2, 3, .STATION_TO_STATION, .STATION_TO_STATION⟩, by decide, rfl, rfl⟩
          (List.chain'_singleton 3)))
    rfl rfl⟩

/-! ## Extended distances -/

theorem Dist.toW_add (a b : Dist) : (a.add b).toW = a.toW + b.toW := by
  cases a <;> cases b <;> simp [Dist.add, Dist.toW]

theorem Dist.lt_iff (a b : Dist) : a.lt b = true ↔ a.toW < b.toW := by
  cases a <;> cases b <;> simp [Dist.lt, Dist.toW]

theorem Dist.toW_inj (a b : Dist) : a.toW = b.toW ↔ a = b := by
  cases a <;> cases b <;> simp [Dist.toW]

theorem Dist.toW_ne_top (a : Dist) : a.toW ≠ ⊤ ↔ ∃ q, a = .fin q := by
  cases a <;> simp [Dist.toW]

theorem walkWeight_cons (e : GraphEdge) (es : List GraphEdge) :
    (walkWeight (e :: es)).toW = e.weight.toW + (walkWeight es).toW := by
  unfold walkWeight
  rw [List.foldr_cons, Dist.toW_add]

theorem walkWeight_nil : (walkWeight []).toW = 0 := rfl

theorem walkWeight_append (es fs : List GraphEdge) :
    (walkWeight (es ++ fs)).toW = (walkWeight es).toW + (walkWeight fs).toW := by
  induction es with
  | nil => rw [List.nil_append, walkWeight_nil, zero_add]
  | cons e es ih => rw [List.cons_append, walkWeight_cons, walkWeight_cons, ih, add_assoc]

theorem walkWeight_nonneg (es : List GraphEdge)
    (h : ∀ e ∈ es, (0 : WithTop ℚ) ≤ e.weight.toW) : (0 : WithTop ℚ) ≤ (walkWeight es).toW := by
  induction es with
  | nil => rw [walkWeight_nil]
  | cons e es ih =>
    rw [walkWeight_cons]
    exact add_nonneg (h e (List.mem_cons_self e es))
      (ih (fun x hx => h x (List.mem_cons_of_mem e hx)))

theorem gwalk_mem (g : Graph) (u v : Nat) (es : List GraphEdge) (h : GWalk g u es v) :
    ∀ e ∈ es, ∃ x, e ∈ adj g x := by
  induction h with
  | nil u => intro e he; exact absurd he (List.not_mem_nil e)
  | cons u v e es he _ ih =>
    intro x hx
    rcases List.mem_cons.mp hx with hx | hx
    · exact ⟨u, hx ▸ he⟩
    · exact ih x hx

theorem gwalk_snoc (g : Graph) (u v : Nat) (es : List GraphEdge) (e : GraphEdge)
    (h : GWalk g u es v) (he : e ∈ adj g v) : GWalk g u (es ++ [e]) e.to_ := by
  induction h with
  | nil u => exact GWalk.cons u e.to_ e [] he (GWalk.nil e.to_)
  | cons u v x es hx _ ih => exact GWalk.cons u e.to_ x (es ++ [e]) hx (ih he)

/-! ## The priority queue -/

theorem pqTop_eq_none (pq : List (Dist × Nat)) : pqTop pq = none ↔ pq = [] := by
  cases pq with
  | nil => simp [pqTop]
  | cons a rest =>
    simp only [pqTop]
    cases pqTop rest with
    | none => simp
    | some b => by_cases h : pairLt b a = true <;> simp [h]

theorem pairLt_le (a b : Dist × Nat) (h : pairLt a b = true) : a.1.toW ≤ b.1.toW := by
  unfold pairLt at h
  rw [Bool.or_eq_true, Bool.and_eq_true] at h
  rcases h with h | ⟨h, _⟩
  · exact le_of_lt ((Dist.lt_iff _ _).mp h)
  · have : a.1 = b.1 := by simpa using h
    rw [this]

theorem le_of_not_pairLt (a b : Dist × Nat) (h : ¬ pairLt a b = true) : b.1.toW ≤ a.1.toW := by
  unfold pairLt at h
  rw [Bool.or_eq_true, not_or] at h
  have h1 := h.1
  rw [Dist.lt_iff] at h1
  exact not_lt.mp h1

theorem pqTop_spec : ∀ (pq : List (Dist × Nat)) (a : Dist × Nat), pqTop pq = some a →
    a ∈ pq ∧ ∀ b ∈ pq, a.1.toW ≤ b.1.toW := by
  intro pq
  induction pq with
  | nil => intro a h; simp [pqTop] at h
  | cons x rest ih =>
    intro a h
    simp only [pqTop] at h
    cases hr : pqTop rest with
    | none =>
      rw [hr] at h
      simp only [Option.some.injEq] at h
      subst h
      have : rest = [] := (pqTop_eq_none rest).mp hr
      subst this
      exact ⟨List.mem_singleton_self _, fun b hb => by rw [List.mem_singleton.mp hb]⟩
    | some b =>
      rw [hr] at h
      simp only at h
      obtain ⟨hb, hmin⟩ := ih b hr
      by_cases hlt : pairLt b x = true
      · rw [if_pos hlt] at h
        simp only [Option.some.injEq] at h
        subst h
        refine ⟨List.mem_cons_of_mem _ hb, ?_⟩
        intro c hc
        rcases List.mem_cons.mp hc with hc | hc
        · rw [hc]; exact pairLt_le _ _ hlt
        · exact hmin c hc
      · rw [if_neg hlt] at h
        simp only [Option.some.injEq] at h
        subst h
        refine ⟨List.mem_cons_self _ _, ?_⟩
        intro c hc
        rcases List.mem_cons.mp hc with hc | hc
        · rw [hc]
        · exact le_trans (le_of_not_pairLt _ _ hlt) (hmin c hc)

theorem pqPop_eq_none (pq : List (Dist × Nat)) : pqPop pq = none ↔ pq = [] := by
  unfold pqPop
  cases h : pqTop pq with
  | none => simp [(pqTop_eq_none pq).mp h]
  | some a =>
    simp only [false_iff, reduceCtorEq]
    intro hn
    rw [hn] at h
    simp [pqTop] at h

theorem pqPop_spec (pq rest : List (Dist × Nat)) (a : Dist × Nat)
    (h : pqPop pq = some (a, rest)) :
    a ∈ pq ∧ rest = pq.erase a ∧ (∀ b ∈ pq, a.1.toW ≤ b.1.toW) ∧
      rest.length + 1 = pq.length := by
  unfold pqPop at h
  cases ht : pqTop pq with
  | none => rw [ht] at h; simp at h
  | some b =>
    rw [ht] at h
    simp only [Option.some.injEq, Prod.mk.injEq] at h
    obtain ⟨h1, h2⟩ := h
    subst h1
    obtain ⟨hm, hmin⟩ := pqTop_spec pq b ht
    refine ⟨hm, h2.symm, hmin, ?_⟩
    rw [← h2, List.length_erase_of_mem hm]
    have : 0 < pq.length := List.length_pos_of_mem hm
    omega

theorem relaxEdges_eq (u : Nat) (edges : List GraphEdge) (st : DijkstraState) :
    relaxEdges u edges st = edges.foldl (relaxStep u) st := rfl

/-! ## The relaxation loop -/

theorem getD_set_eq {α : Type} (l : List α) (i j : Nat) (a d : α) (hi : i < l.length) :
    (l.set i a).getD j d = if j = i then a else l.getD j d := by
  rw [List.getD_eq_getElem?_getD, List.getD_eq_getElem?_getD, List.getElem?_set]
  by_cases hji : i = j
  · subst hji
    simp [hi]
  · rw [if_neg hji, if_neg (fun h => hji h.symm)]

theorem relaxStep_inv (g : Graph) (start : Nat) (S F : List Nat) (u : Nat)
    (st : DijkstraState) (e : GraphEdge)
    (hto : ∀ x y, y ∈ adj g x → y.to_ < g.length)
    (hw : ∀ x y, y ∈ adj g x → (0 : WithTop ℚ) ≤ y.weight.toW)
    (h : DCore g start S F st) (hc : Covered S st) (hu : u ∈ S)
    (hJ : ∀ v ∈ S, (st.dist.getD v .inf).toW ≤ (st.dist.getD u .inf).toW)
    (he : e ∈ adj g u) :
    DCore g start S F (relaxStep u st e) ∧ Covered S (relaxStep u st e) ∧
    (∀ v ∈ S, (relaxStep u st e).dist.getD v .inf = st.dist.getD v .inf) ∧
    (∀ v, ((relaxStep u st e).dist.getD v .inf).toW ≤ (st.dist.getD v .inf).toW) ∧
    ((relaxStep u st e).dist.getD e.to_ .inf).toW ≤
      ((relaxStep u st e).dist.getD u .inf).toW + e.weight.toW ∧
    (relaxStep u st e).pq.length ≤ st.pq.length + 1 := by
  unfold relaxStep
  simp only
  by_cases ht : ((st.dist.getD u .inf).add e.weight).lt (st.dist.getD e.to_ .inf) = true
  · rw [if_pos ht]
    have hlt := (Dist.lt_iff _ _).mp ht
    rw [Dist.toW_add] at hlt
    have hv : e.to_ < g.length := hto u e he
    have hvd : e.to_ < st.dist.length := by rw [h.len_dist]; exact hv
    have hvp : e.to_ < st.prev.length := by rw [h.len_prev]; exact hv
    have hwe := hw u e he
    have hvS : e.to_ ∉ S := by
      intro hm
      have h1 := hJ _ hm
      have h2 : (st.dist.getD u .inf).toW ≤ (st.dist.getD u .inf).toW + e.weight.toW :=
        le_add_of_nonneg_right hwe
      exact absurd (lt_of_lt_of_le hlt (le_trans h1 h2)) (lt_irrefl _)
    have hnd0 : (0 : WithTop ℚ) ≤ (st.dist.getD u .inf).toW + e.weight.toW :=
      add_nonneg (h.nonneg u) hwe
    have hvs : e.to_ ≠ start := by
      intro hm
      rw [hm, h.dist_start] at hlt
      exact absurd (lt_of_lt_of_le hlt hnd0) (lt_irrefl _)
    have hfin : (st.dist.getD u .inf).toW + e.weight.toW ≠ ⊤ := ne_top_of_lt hlt
    have huv : u ≠ e.to_ := fun hm => hvS (hm ▸ hu)
    have hS : ∀ x ∈ S, x ≠ e.to_ := fun x hx hm => hvS (hm ▸ hx)
    have hdec : ∀ x, ((st.dist.set e.to_ ((st.dist.getD u .inf).add e.weight)).getD x .inf).toW ≤
        (st.dist.getD x .inf).toW := by
      intro x
      rw [getD_set_eq _ _ _ _ _ hvd]
      by_cases hx : x = e.to_
      · rw [if_pos hx, hx, Dist.toW_add]
        exact le_of_lt hlt
      · rw [if_neg hx]
    refine ⟨?_, ?_, ?_, hdec, ?_, ?_⟩
    · constructor
      · simp only [List.length_set]; exact h.len_dist
      · simp only [List.length_set]; exact h.len_prev
      · exact h.start_lt
      · simp only
        rw [getD_set_eq _ _ _ _ _ hvd, if_neg (fun hm => hvs hm.symm)]
        exact h.dist_start
      · simp only
        rw [getD_set_eq _ _ _ _ _ hvp, if_neg (fun hm => hvs hm.symm)]
        exact h.prev_start
      · intro x
        simp only
        rw [getD_set_eq _ _ _ _ _ hvd]
        by_cases hx : x = e.to_
        · rw [if_pos hx, Dist.toW_add]; exact hnd0
        · rw [if_neg hx]; exact h.nonneg x
      · intro x hxs hxf
        simp only at hxf ⊢
        rw [getD_set_eq _ _ _ _ _ hvd] at hxf ⊢
        rw [getD_set_eq _ _ _ _ _ hvp]
        by_cases hx : x = e.to_
        · rw [if_pos hx, if_pos hx]
          refine ⟨u, e, rfl, hu, he, hx.symm, ?_, fun hm => absurd (hx ▸ hm) hvS⟩
          rw [getD_set_eq _ _ _ _ _ hvd, if_neg huv, Dist.toW_add]
        · rw [if_neg hx] at hxf ⊢
          rw [if_neg hx]
          obtain ⟨u0, e0, t1, t2, t3, t4, t5, t6⟩ := h.tree x hxs hxf
          refine ⟨u0, e0, t1, t2, t3, t4, ?_, t6⟩
          rw [getD_set_eq _ _ _ _ _ hvd, if_neg (hS u0 t2)]
          exact t5
      · intro u0 hu0 e0 he0
        simp only
        have hu0S := h.full_sub u0 hu0
        rw [getD_set_eq st.dist e.to_ u0 _ _ hvd, if_neg (hS u0 hu0S)]
        exact le_trans (hdec e0.to_) (h.closed u0 hu0 e0 he0)
      · intro kv hkv
        simp only at hkv ⊢
        rcases List.mem_append.mp hkv with hkv | hkv
        · obtain ⟨p1, p2, p3⟩ := h.pq_sound kv hkv
          exact ⟨p1, le_trans (hdec kv.2) p2, p3⟩
        · rw [List.mem_singleton] at hkv
          subst hkv
          simp only
          refine ⟨by rw [Dist.toW_add]; exact hfin, ?_, hv⟩
          rw [getD_set_eq _ _ _ _ _ hvd, if_pos rfl]
      · intro u0 hu0 kv hkv
        simp only at hkv ⊢
        rw [getD_set_eq _ _ _ _ _ hvd, if_neg (hS u0 hu0)]
        rcases List.mem_append.mp hkv with hkv | hkv
        · exact h.settled_le u0 hu0 kv hkv
        · rw [List.mem_singleton] at hkv
          subst hkv
          simp only
          rw [Dist.toW_add]
          exact le_trans (hJ u0 hu0) (le_add_of_nonneg_right hwe)
      · intro u0 hu0
        simp only
        rw [getD_set_eq _ _ _ _ _ hvd, if_neg (hS u0 hu0)]
        exact h.settled_fin u0 hu0
      · exact h.nodup
      · exact h.settled_lt
      · exact h.full_sub
    · intro x hxf hxS
      simp only at hxf ⊢
      rw [getD_set_eq _ _ _ _ _ hvd] at hxf ⊢
      by_cases hx : x = e.to_
      · rw [if_pos hx, hx]
        exact List.mem_append_right _ (List.mem_singleton_self _)
      · rw [if_neg hx] at hxf ⊢
        exact List.mem_append_left _ (hc x hxf hxS)
    · intro x hx
      simp only
      rw [getD_set_eq _ _ _ _ _ hvd, if_neg (hS x hx)]
    · simp only
      rw [getD_set_eq _ _ _ _ _ hvd, if_pos rfl, getD_set_eq _ _ _ _ _ hvd, if_neg huv,
        Dist.toW_add]
    · simp
  · rw [if_neg ht]
    refine ⟨h, hc, fun _ _ => rfl, fun _ => le_refl _, ?_, Nat.le_succ _⟩
    rw [Dist.lt_iff, Dist.toW_add] at ht
    exact not_lt.mp ht

theorem relaxFold_inv (g : Graph) (start : Nat) (S F : List Nat) (u : Nat)
    (hto : ∀ x y, y ∈ adj g x → y.to_ < g.length)
    (hw : ∀ x y, y ∈ adj g x → (0 : WithTop ℚ) ≤ y.weight.toW) (hu : u ∈ S) :
    ∀ (edges : List GraphEdge) (st : DijkstraState),
      DCore g start S F st → Covered S st →
      (∀ v ∈ S, (st.dist.getD v .inf).toW ≤ (st.dist.getD u .inf).toW) →
      (∀ e ∈ edges, e ∈ adj g u) →
      DCore g start S F (edges.foldl (relaxStep u) st) ∧
      Covered S (edges.foldl (relaxStep u) st) ∧
      (∀ v ∈ S, (edges.foldl (relaxStep u) st).dist.getD v .inf = st.dist.getD v .inf) ∧
      (∀ v, ((edges.foldl (relaxStep u) st).dist.getD v .inf).toW ≤
        (st.dist.getD v .inf).toW) ∧
      (∀ e ∈ edges, ((edges.foldl (relaxStep u) st).dist.getD e.to_ .inf).toW ≤
        ((edges.foldl (relaxStep u) st).dist.getD u .inf).toW + e.weight.toW) ∧
      (edges.foldl (relaxStep u) st).pq.length ≤ st.pq.length + edges.length := by
  intro edges
  induction edges with
  | nil =>
    intro st h hc _ _
    exact ⟨h, hc, fun _ _ => rfl, fun _ => le_refl _,
      fun e he => absurd he (List.not_mem_nil e), Nat.le_refl _⟩
  | cons e rest ih =>
    intro st h hc hJ hall
    obtain ⟨h1, hc1, hs1, hd1, hcl1, hl1⟩ :=
      relaxStep_inv g start S F u st e hto hw h hc hu hJ (hall e (List.mem_cons_self e rest))
    have hJ1 : ∀ v ∈ S, ((relaxStep u st e).dist.getD v .inf).toW ≤
        ((relaxStep u st e).dist.getD u .inf).toW := by
      intro v hv
      rw [hs1 v hv, hs1 u hu]
      exact hJ v hv
    obtain ⟨h2, hc2, hs2, hd2, hcl2, hl2⟩ :=
      ih (relaxStep u st e) h1 hc1 hJ1 (fun x hx => hall x (List.mem_cons_of_mem e hx))
    rw [List.foldl_cons]
    refine ⟨h2, hc2, ?_, fun v => le_trans (hd2 v) (hd1 v), ?_, ?_⟩
    · intro v hv
      rw [hs2 v hv, hs1 v hv]
    · intro x hx
      rcases List.mem_cons.mp hx with hx | hx
      · subst hx
        rw [hs2 u hu]
        exact le_trans (hd2 x.to_) hcl1
      · exact hcl2 x hx
    · rw [List.length_cons]
      omega

theorem relaxFold_noop (u : Nat) : ∀ (edges : List GraphEdge) (st : DijkstraState),
    (∀ e ∈ edges, (st.dist.getD e.to_ .inf).toW ≤ (st.dist.getD u .inf).toW + e.weight.toW) →
    edges.foldl (relaxStep u) st = st := by
  intro edges
  induction edges with
  | nil => intro st _; rfl
  | cons e rest ih =>
    intro st h
    have h1 : relaxStep u st e = st := by
      unfold relaxStep
      simp only
      rw [if_neg]
      rw [Dist.lt_iff, Dist.toW_add]
      exact not_lt.mpr (h e (List.mem_cons_self e rest))
    rw [List.foldl_cons, h1]
    exact ih st (fun x hx => h x (List.mem_cons_of_mem e hx))

theorem pendingEdges_settle (g : Graph) (S : List Nat) (u : Nat) (hu : u ∉ S)
    (hlt : u < g.length) :
    pendingEdges g (S ++ [u]) + (adj g u).length = pendingEdges g S := by
  unfold pendingEdges
  have hmem : u ∈ (Finset.range g.length).filter (fun v => v ∉ S) := by
    simp [hlt, hu]
  have heq : (Finset.range g.length).filter (fun v => v ∉ S ++ [u]) =
      ((Finset.range g.length).filter (fun v => v ∉ S)).erase u := by
    ext x
    simp only [Finset.mem_filter, Finset.mem_range, List.mem_append, List.mem_singleton,
      not_or, Finset.mem_erase]
    tauto
  rw [heq, add_comm]
  exact Finset.add_sum_erase ((Finset.range g.length).filter (fun v => v ∉ S))
    (fun v => (adj g v).length) hmem

/-- The key of a pair that leaves the queue and is not stale is at most the
weight of any walk to its node. -/
theorem popped_le_walk (g : Graph) (start : Nat) (S : List Nat) (st : DijkstraState)
    (hw : ∀ x y, y ∈ adj g x → (0 : WithTop ℚ) ≤ y.weight.toW)
    (h : DCore g start S S st) (hc : Covered S st) (cd : Dist)
    (hmin : ∀ kv ∈ st.pq, cd.toW ≤ kv.1.toW) (x u : Nat) (es : List GraphEdge)
    (hwalk : GWalk g x es u) (hu : cd.toW ≤ (st.dist.getD u .inf).toW) :
    ∀ a : WithTop ℚ, (st.dist.getD x .inf).toW ≤ a → cd.toW ≤ a + (walkWeight es).toW := by
  induction hwalk with
  | nil u =>
    intro a ha
    rw [walkWeight_nil, add_zero]
    exact le_trans hu ha
  | cons x v e es he hrest ih =>
    intro a ha
    by_cases hxS : x ∈ S
    · have h1 := h.closed x hxS e he
      have h2 := ih hu (a + e.weight.toW) (le_trans h1 (add_le_add_right ha _))
      rw [walkWeight_cons, ← add_assoc]
      exact h2
    · have hnn : (0 : WithTop ℚ) ≤ (walkWeight (e :: es)).toW := by
        apply walkWeight_nonneg
        intro y hy
        obtain ⟨z, hz⟩ := gwalk_mem g x v (e :: es) (GWalk.cons x v e es he hrest) y hy
        exact hw z y hz
      by_cases hfin : (st.dist.getD x .inf).toW = ⊤
      · rw [hfin, top_le_iff] at ha
        rw [ha, top_add]
        exact le_top
      · have := hmin _ (hc x hfin hxS)
        exact le_trans (le_trans this ha) (le_add_of_nonneg_right hnn)

/-! ## The main loop -/

theorem dcore_pq_sub (g : Graph) (start : Nat) (S F : List Nat) (st : DijkstraState)
    (rest : List (Dist × Nat)) (hsub : ∀ kv ∈ rest, kv ∈ st.pq) (h : DCore g start S F st) :
    DCore g start S F { st with pq := rest } :=
  ⟨h.len_dist, h.len_prev, h.start_lt, h.dist_start, h.prev_start, h.nonneg, h.tree, h.closed,
    fun kv hkv => h.pq_sound kv (hsub kv hkv),
    fun u hu kv hkv => h.settled_le u hu kv (hsub kv hkv),
    h.settled_fin, h.nodup, h.settled_lt, h.full_sub⟩

theorem dcore_settle (g : Graph) (start : Nat) (S : List Nat) (st : DijkstraState) (u : Nat)
    (h : DCore g start S S st) (hu : u ∉ S) (hlt : u < g.length)
    (hfin : (st.dist.getD u .inf).toW ≠ ⊤)
    (hmin : ∀ kv ∈ st.pq, (st.dist.getD u .inf).toW ≤ kv.1.toW) :
    DCore g start (S ++ [u]) S st := by
  refine ⟨h.len_dist, h.len_prev, h.start_lt, h.dist_start, h.prev_start, h.nonneg, ?_,
    h.closed, h.pq_sound, ?_, ?_, ?_, ?_, fun x hx => List.mem_append_left _ hx⟩
  · intro v hvs hvf
    obtain ⟨u0, e0, t1, t2, t3, t4, t5, t6⟩ := h.tree v hvs hvf
    refine ⟨u0, e0, t1, List.mem_append_left _ t2, t3, t4, t5, ?_⟩
    intro hv
    rw [List.indexOf_append_of_mem t2]
    by_cases hvS : v ∈ S
    · rw [List.indexOf_append_of_mem hvS]
      exact t6 hvS
    · rw [List.indexOf_append_of_not_mem hvS]
      have := List.indexOf_lt_length.mpr t2
      omega
  · intro x hx kv hkv
    rcases List.mem_append.mp hx with hx | hx
    · exact h.settled_le x hx kv hkv
    · rw [List.mem_singleton] at hx
      subst hx
      exact hmin kv hkv
  · intro x hx
    rcases List.mem_append.mp hx with hx | hx
    · exact h.settled_fin x hx
    · rw [List.mem_singleton] at hx
      subst hx
      exact hfin
  · exact List.Nodup.append h.nodup (List.nodup_singleton u)
      (List.disjoint_singleton.mpr hu)
  · intro x hx
    rcases List.mem_append.mp hx with hx | hx
    · exact h.settled_lt x hx
    · rw [List.mem_singleton] at hx
      subst hx
      exact hlt

/-- The main loop comes to an end; where it ends, the queue is empty, or the
end node has left the queue with a key that is its distance and at most the
weight of any walk from the start. -/
theorem dijkstraLoop_inv (g : Graph) (start endIndex : Nat)
    (hto : ∀ x y, y ∈ adj g x → y.to_ < g.length)
    (hw : ∀ x y, y ∈ adj g x → (0 : WithTop ℚ) ≤ y.weight.toW) :
    ∀ (fuel : Nat) (st : DijkstraState) (S : List Nat),
      DCore g start S S st → Covered S st → endIndex ∉ S →
      st.pq.length + pendingEdges g S < fuel →
      ∃ (st2 : DijkstraState) (S2 : List Nat),
        dijkstraLoop g endIndex fuel st = some st2 ∧ DCore g start S2 S2 st2 ∧
        endIndex ∉ S2 ∧
        ((st2.pq = [] ∧ Covered S2 st2) ∨
         (∃ d : ℚ, st2.dist.getD endIndex .inf = .fin d ∧
           ∀ es, GWalk g start es endIndex → (d : WithTop ℚ) ≤ (walkWeight es).toW)) := by
  intro fuel
  induction fuel with
  | zero => intro st S _ _ _ hf; omega
  | succ fuel ih =>
    intro st S h hc hend hf
    rw [dijkstraLoop]
    cases hp : pqPop st.pq with
    | none =>
      have hnil := (pqPop_eq_none st.pq).mp hp
      exact ⟨st, S, rfl, h, hend, Or.inl ⟨hnil, hc⟩⟩
    | some res =>
      obtain ⟨⟨cd, u⟩, rest⟩ := res
      obtain ⟨hmem, herase, hmin, hlen⟩ := pqPop_spec st.pq rest (cd, u) hp
      have hsub : ∀ kv ∈ rest, kv ∈ st.pq := by
        intro kv hkv
        rw [herase] at hkv
        exact List.mem_of_mem_erase hkv
      have h1 := dcore_pq_sub g start S S st rest hsub h
      obtain ⟨pfin, ple, pult⟩ := h.pq_sound (cd, u) hmem
      simp only at pfin ple pult
      have hcov1 : ∀ x, (st.dist.getD x .inf).toW ≠ ⊤ → x ∉ S →
          (st.dist.getD x .inf, x) ≠ (cd, u) → (st.dist.getD x .inf, x) ∈ rest := by
        intro x hx hxS hne
        rw [herase]
        exact (List.mem_erase_of_ne hne).mpr (hc x hx hxS)
      simp only
      by_cases hstale : (st.dist.getD u .inf).lt cd = true
      · rw [if_pos hstale]
        have hlt := (Dist.lt_iff _ _).mp hstale
        apply ih _ S h1 _ hend (by simp only; omega)
        intro x hx hxS
        apply hcov1 x hx hxS
        intro heq
        simp only [Prod.mk.injEq] at heq
        rw [← heq.2, heq.1] at hlt
        exact lt_irrefl _ hlt
      · rw [if_neg hstale]
        have hge : cd.toW ≤ (st.dist.getD u .inf).toW := by
          rw [Dist.lt_iff] at hstale
          exact not_lt.mp hstale
        have heq : st.dist.getD u .inf = cd := (Dist.toW_inj _ _).mp (le_antisymm ple hge)
        by_cases hue : u = endIndex
        · rw [if_pos hue]
          refine ⟨_, S, rfl, h1, hend, Or.inr ?_⟩
          obtain ⟨d, hd⟩ := (Dist.toW_ne_top cd).mp pfin
          refine ⟨d, ?_, ?_⟩
          · show st.dist.getD endIndex .inf = .fin d
            rw [← hue, heq, hd]
          · intro es hes
            have := popped_le_walk g start S st hw h hc cd
              (fun kv hkv => hmin kv hkv) start endIndex es hes (by rw [← hue]; exact hge) 0
              (by rw [h.dist_start]; exact le_refl _)
            rw [zero_add, hd] at this
            exact this
        · rw [if_neg hue, relaxEdges_eq]
          by_cases huS : u ∈ S
          · have hno : (adj g u).foldl (relaxStep u) { st with pq := rest } =
                { st with pq := rest } :=
              relaxFold_noop u (adj g u) _ (fun e he => h.closed u huS e he)
            rw [hno]
            apply ih _ S h1 _ hend (by simp only; omega)
            intro x hx hxS
            apply hcov1 x hx hxS
            intro hxe
            simp only [Prod.mk.injEq] at hxe
            exact hxS (hxe.2 ▸ huS)
          · have hufin : (st.dist.getD u .inf).toW ≠ ⊤ := by rw [heq]; exact pfin
            have h2 : DCore g start (S ++ [u]) S { st with pq := rest } :=
              dcore_settle g start S _ u h1 huS pult hufin
                (fun kv hkv => by
                  show (st.dist.getD u .inf).toW ≤ kv.1.toW
                  rw [heq]
                  exact hmin kv (hsub kv hkv))
            have hc2 : Covered (S ++ [u]) { st with pq := rest } := by
              intro x hx hxS
              have hxS1 : x ∉ S := fun hm => hxS (List.mem_append_left _ hm)
              apply hcov1 x hx hxS1
              intro hxe
              simp only [Prod.mk.injEq] at hxe
              exact hxS (List.mem_append_right _ (by rw [hxe.2]; exact List.mem_singleton_self u))
            have hJ : ∀ v ∈ S ++ [u], (st.dist.getD v .inf).toW ≤
                (st.dist.getD u .inf).toW := by
              intro v hv
              rcases List.mem_append.mp hv with hv | hv
              · rw [heq]
                exact h.settled_le v hv (cd, u) hmem
              · rw [List.mem_singleton] at hv
                rw [hv]
            have huS2 : u ∈ S ++ [u] := List.mem_append_right _ (List.mem_singleton_self u)
            obtain ⟨h3, hc3, _, _, hcl3, hl3⟩ :=
              relaxFold_inv g start (S ++ [u]) S u hto hw huS2 (adj g u) _ h2 hc2 hJ
                (fun e he => he)
            have h4 : DCore g start (S ++ [u]) (S ++ [u])
                ((adj g u).foldl (relaxStep u) { st with pq := rest }) := by
              refine { h3 with closed := ?_, full_sub := fun x hx => hx }
              intro x hx e he
              rcases List.mem_append.mp hx with hx | hx
              · exact h3.closed x hx e he
              · rw [List.mem_singleton] at hx
                subst hx
                exact hcl3 e he
            have hend2 : endIndex ∉ S ++ [u] := by
              intro hm
              rcases List.mem_append.mp hm with hm | hm
              · exact hend hm
              · rw [List.mem_singleton] at hm
                exact hue hm.symm
            have hpe := pendingEdges_settle g S u huS pult
            apply ih _ (S ++ [u]) h4 hc3 hend2
            simp only at hl3
            omega

theorem getD_replicate_inf (n x : Nat) : (List.replicate n Dist.inf).getD x .inf = .inf := by
  rw [List.getD_eq_getElem?_getD, List.getElem?_replicate]
  by_cases h : x < n
  · rw [if_pos h]; rfl
  · rw [if_neg h]; rfl

theorem getD_replicate_none (n x : Nat) :
    (List.replicate n (none : Option Nat)).getD x none = none := by
  rw [List.getD_eq_getElem?_getD, List.getElem?_replicate]
  by_cases h : x < n
  · rw [if_pos h]; rfl
  · rw [if_neg h]; rfl

theorem dcore_init (g : Graph) (start : Nat) (hs : start < g.length) :
    DCore g start [] []
      { dist := (List.replicate g.length Dist.inf).set start (.fin 0)
        prev := List.replicate g.length none
        prevPipe := List.replicate g.length none
        pq := [(.fin 0, start)] } ∧
    Covered []
      { dist := (List.replicate g.length Dist.inf).set start (.fin 0)
        prev := List.replicate g.length none
        prevPipe := List.replicate g.length none
        pq := [(.fin 0, start)] } := by
  have hlen : start < (List.replicate g.length Dist.inf).length := by
    rw [List.length_replicate]; exact hs
  have hd : ∀ x, ((List.replicate g.length Dist.inf).set start (.fin 0)).getD x .inf =
      if x = start then .fin 0 else .inf := by
    intro x
    rw [getD_set_eq _ _ _ _ _ hlen, getD_replicate_inf]
  constructor
  · refine ⟨by simp, by simp, hs, ?_, ?_, ?_, ?_, ?_, ?_, ?_, ?_, List.nodup_nil, ?_, ?_⟩
    · simp only; rw [hd, if_pos rfl]
    · exact getD_replicate_none _ _
    · intro v
      simp only
      rw [hd]
      by_cases hv : v = start
      · rw [if_pos hv]; exact le_refl _
      · rw [if_neg hv]; exact le_top
    · intro v hv hf
      simp only at hf
      rw [hd, if_neg hv] at hf
      exact absurd rfl hf
    · intro u hu
      exact absurd hu (List.not_mem_nil u)
    · intro kv hkv
      simp only [List.mem_singleton] at hkv
      subst hkv
      simp only
      rw [hd, if_pos rfl]
      exact ⟨WithTop.coe_ne_top, le_refl _, hs⟩
    · intro u hu
      exact absurd hu (List.not_mem_nil u)
    · intro u hu
      exact absurd hu (List.not_mem_nil u)
    · intro u hu
      exact absurd hu (List.not_mem_nil u)
    · intro u hu
      exact absurd hu (List.not_mem_nil u)
  · intro x hx _
    simp only at hx ⊢
    rw [hd] at hx ⊢
    by_cases hv : x = start
    · rw [if_pos hv, hv]
      exact List.mem_singleton_self _
    · rw [if_neg hv] at hx
      exact absurd rfl hx

/-- When the queue is empty, a walk of finite weight from a node with a
finite distance ends at a node with a finite distance. -/
theorem finite_of_walk (g : Graph) (start : Nat) (S : List Nat) (st : DijkstraState)
    (h : DCore g start S S st) (hc : Covered S st) (hq : st.pq = []) (x y : Nat)
    (es : List GraphEdge) (hwalk : GWalk g x es y) :
    (st.dist.getD x .inf).toW ≠ ⊤ → (walkWeight es).toW ≠ ⊤ →
      (st.dist.getD y .inf).toW ≠ ⊤ := by
  induction hwalk with
  | nil u => intro hx _; exact hx
  | cons x v e es he _ ih =>
    intro hx hwt
    have hxS : x ∈ S := by
      by_contra hxS
      have := hc x hx hxS
      rw [hq] at this
      exact absurd this (List.not_mem_nil _)
    rw [walkWeight_cons] at hwt
    have hw1 : e.weight.toW ≠ ⊤ := fun ht => hwt (by rw [ht, top_add])
    have hw2 : (walkWeight es).toW ≠ ⊤ := fun ht => hwt (by rw [ht, add_top])
    apply ih _ hw2
    have hcl := h.closed x hxS e he
    intro ht
    rw [ht, top_le_iff] at hcl
    exact WithTop.add_ne_top.mpr ⟨hx, hw1⟩ hcl

/-- The loop over `prev` returns the nodes of a walk from the start whose
weight is the distance of the node it starts from. -/
theorem walkPrev_spec (g : Graph) (start : Nat) (S F : List Nat) (st : DijkstraState)
    (h : DCore g start S F st) :
    ∀ (k v : Nat), S.indexOf v ≤ k → (st.dist.getD v .inf).toW ≠ ⊤ →
      ∀ fuel, k < fuel →
      ∃ l es, walkPrev st.prev fuel (some v) = some l ∧ GWalk g start es v ∧
        (walkWeight es).toW = (st.dist.getD v .inf).toW ∧
        l.reverse = start :: es.map (fun e => e.to_) := by
  intro k
  induction k with
  | zero =>
    intro v hk hf fuel hfuel
    obtain ⟨f1, rfl⟩ : ∃ f1, fuel = f1 + 1 := ⟨fuel - 1, by omega⟩
    by_cases hvs : v = start
    · subst hvs
      refine ⟨[v], [], ?_, GWalk.nil v, ?_, rfl⟩
      · rw [walkPrev, h.prev_start]
        cases f1 <;> rfl
      · rw [walkWeight_nil, h.dist_start]; rfl
    · obtain ⟨u, e, _, _, _, _, _, t6⟩ := h.tree v hvs hf
      exfalso
      by_cases hvS : v ∈ S
      · have := t6 hvS; omega
      · have := List.indexOf_eq_length.mpr hvS
        have h2 : S = [] := by
          cases S with
          | nil => rfl
          | cons a t => simp at this; omega
        obtain ⟨u, e, _, t2, _⟩ := h.tree v hvs hf
        rw [h2] at t2
        exact absurd t2 (List.not_mem_nil u)
  | succ k ih =>
    intro v hk hf fuel hfuel
    obtain ⟨f1, rfl⟩ : ∃ f1, fuel = f1 + 1 := ⟨fuel - 1, by omega⟩
    by_cases hvs : v = start
    · subst hvs
      refine ⟨[v], [], ?_, GWalk.nil v, ?_, rfl⟩
      · rw [walkPrev, h.prev_start]
        cases f1 <;> rfl
      · rw [walkWeight_nil, h.dist_start]; rfl
    · obtain ⟨u, e, t1, t2, t3, t4, t5, t6⟩ := h.tree v hvs hf
      have hidx : S.indexOf u ≤ k := by
        by_cases hvS : v ∈ S
        · have := t6 hvS; omega
        · have h1 := List.indexOf_eq_length.mpr hvS
          have h2 := List.indexOf_lt_length.mpr t2
          omega
      obtain ⟨l, es, hl, hwalk, hwt, hrev⟩ := ih u hidx (h.settled_fin u t2) f1 (by omega)
      refine ⟨v :: l, es ++ [e], ?_, ?_, ?_, ?_⟩
      · rw [walkPrev, t1, hl]
        rfl
      · have := gwalk_snoc g start u es e hwalk t3
        rw [t4] at this
        exact this
      · rw [walkWeight_append, hwt, t5, walkWeight_cons, walkWeight_nil, add_zero]
      · rw [List.reverse_cons, hrev, List.map_append, List.map_singleton, t4]
        rfl

/-! ## The shortest path on the built graph -/

theorem built_length (sqrt : ℚ → ℚ) (s : PipelineSystem) :
    (buildGraphForAlgorithms sqrt s).1.length = (collectNodes s.network).length := by
  rw [build_eq, length_buildArcs]

/-- An edge of the built graph leads to a node, and has the id and the
weight of the pipe of a connection between the two nodes. -/
theorem mem_adj_built (sqrt : ℚ → ℚ) (s : PipelineSystem) (u : Nat) (e : GraphEdge)
    (he : e ∈ adj (buildGraphForAlgorithms sqrt s).1 u) :
    e.to_ < (collectNodes s.network).length ∧
    ∃ pipe, edgePipe s e = some pipe ∧ pipe ∈ s.pipes ∧ e.weight = pipe.getWeight := by
  rw [build_eq] at he
  refine ⟨adj_to_lt _ _ (arcsOf_map_valid sqrt s) u e he, ?_⟩
  have hmap : ({ e with rev := 0 } : GraphEdge) ∈
      (adj (buildArcs (collectNodes s.network).length
        ((arcsOf sqrt s).map (fun a => (a, (0 : ℚ))))) u).map
        (fun e => { e with rev := 0 }) := List.mem_map.mpr ⟨e, he, rfl⟩
  rw [adj_buildArcs_map _ _ (arcsOf_map_valid sqrt s) u] at hmap
  obtain ⟨p, hp, hmem⟩ := List.mem_flatMap.mp hmap
  obtain ⟨a, ha, rfl⟩ := List.mem_map.mp hp
  obtain ⟨conn, _, pipe, hfind, harc⟩ := mem_arcsOf sqrt s a ha
  have hkey : e.pipeId = conn.pipeId ∧ e.weight = pipe.getWeight := by
    rcases List.mem_append.mp hmem with hm | hm
    · by_cases hu : u = a.s
      · rw [if_pos hu, List.mem_singleton] at hm
        have h1 := congrArg GraphEdge.pipeId hm
        have h2 := congrArg GraphEdge.weight hm
        simp only [forwardEdge] at h1 h2
        rw [harc] at h1 h2
        exact ⟨h1, h2⟩
      · rw [if_neg hu] at hm
        exact absurd hm (List.not_mem_nil _)
    · by_cases hu : u = a.t
      · rw [if_pos hu, List.mem_singleton] at hm
        have h1 := congrArg GraphEdge.pipeId hm
        have h2 := congrArg GraphEdge.weight hm
        simp only [backwardEdge] at h1 h2
        rw [harc] at h1 h2
        exact ⟨h1, h2⟩
      · rw [if_neg hu] at hm
        exact absurd hm (List.not_mem_nil _)
  refine ⟨pipe, ?_, List.mem_of_find?_eq_some hfind, hkey.2⟩
  unfold edgePipe
  rw [hkey.1]
  exact hfind

theorem built_to_lt (sqrt : ℚ → ℚ) (s : PipelineSystem) (x : Nat) (y : GraphEdge)
    (hy : y ∈ adj (buildGraphForAlgorithms sqrt s).1 x) :
    y.to_ < (buildGraphForAlgorithms sqrt s).1.length := by
  rw [built_length]
  exact (mem_adj_built sqrt s x y hy).1

theorem built_weight_nonneg (sqrt : ℚ → ℚ) (s : PipelineSystem)
    (hlen : ∀ p ∈ s.pipes, 0 ≤ p.length) (x : Nat) (y : GraphEdge)
    (hy : y ∈ adj (buildGraphForAlgorithms sqrt s).1 x) : (0 : WithTop ℚ) ≤ y.weight.toW := by
  obtain ⟨_, pipe, _, hp, hwt⟩ := mem_adj_built sqrt s x y hy
  rw [hwt]
  unfold Pipe.getWeight
  by_cases hr : pipe.underRepair = true
  · rw [if_pos hr]; exact le_top
  · rw [if_neg hr]
    exact WithTop.coe_le_coe.mpr (hlen pipe hp)

theorem dist_eq_inf (a : Dist) (h : a.toW = ⊤) : a = .inf := by
  cases a with
  | fin q => simp [Dist.toW] at h
  | inf => rfl

/-- The main loop on a graph without negative weights: with enough passes
it ends, either with an infinite distance of the end node, when every walk
from the start to the end has infinite weight, or with the least weight of
such a walk, and then the loop over `prev` returns the nodes of a walk of
that weight. -/
theorem dijkstra_run (g : Graph) (start endIndex : Nat)
    (hto : ∀ x y, y ∈ adj g x → y.to_ < g.length)
    (hw : ∀ x y, y ∈ adj g x → (0 : WithTop ℚ) ≤ y.weight.toW)
    (hs : start < g.length) (fuel : Nat) (hfuel : pendingEdges g [] + g.length + 2 ≤ fuel) :
    ∃ st2, dijkstraLoop g endIndex fuel
        { dist := (List.replicate g.length Dist.inf).set start (.fin 0)
          prev := List.replicate g.length none
          prevPipe := List.replicate g.length none
          pq := [(.fin 0, start)] } = some st2 ∧
      ((st2.dist.getD endIndex .inf = .inf ∧
          ∀ es, GWalk g start es endIndex → walkWeight es = .inf) ∨
       (∃ (d : ℚ) (l : List Nat) (es : List GraphEdge),
          st2.dist.getD endIndex .inf = .fin d ∧
          walkPrev st2.prev fuel (some endIndex) = some l ∧
          GWalk g start es endIndex ∧ walkWeight es = .fin d ∧
          l.reverse = start :: es.map (fun e => e.to_) ∧
          ∀ es2, GWalk g start es2 endIndex → (walkWeight es2).lt (.fin d) = false)) := by
  obtain ⟨h0, hc0⟩ := dcore_init g start hs
  obtain ⟨st2, S2, hloop, h2, hend, hfin⟩ :=
    dijkstraLoop_inv g start endIndex hto hw fuel _ [] h0 hc0 (List.not_mem_nil _)
      (by simp only [List.length_singleton]; omega)
  refine ⟨st2, hloop, ?_⟩
  rcases hfin with ⟨hq, hc2⟩ | ⟨d, hd, hlb⟩
  · left
    have htop : (st2.dist.getD endIndex .inf).toW = ⊤ := by
      by_contra hne
      have := hc2 endIndex hne hend
      rw [hq] at this
      exact absurd this (List.not_mem_nil _)
    refine ⟨dist_eq_inf _ htop, ?_⟩
    intro es hes
    apply dist_eq_inf
    by_contra hne
    exact finite_of_walk g start S2 st2 h2 hc2 hq start endIndex es hes
      (by rw [h2.dist_start]; exact WithTop.coe_ne_top) hne htop
  · right
    have hSlen : S2.length ≤ g.length := by
      have hsub : S2 ⊆ List.range g.length := by
        intro x hx
        exact List.mem_range.mpr (h2.settled_lt x hx)
      have := (List.Nodup.subperm h2.nodup hsub).length_le
      rwa [List.length_range] at this
    have hfinite : (st2.dist.getD endIndex .inf).toW ≠ ⊤ := by
      rw [hd]; exact WithTop.coe_ne_top
    obtain ⟨l, es, hl, hwalk, hwt, hrev⟩ :=
      walkPrev_spec g start S2 S2 st2 h2 S2.length endIndex List.indexOf_le_length hfinite
        fuel (by omega)
    refine ⟨d, l, es, hd, hl, hwalk, ?_, hrev, ?_⟩
    · rw [hd] at hwt
      exact (Dist.toW_inj _ _).mp hwt
    · intro es2 hes2
      have := hlb es2 hes2
      cases hb : (walkWeight es2).lt (.fin d) with
      | false => rfl
      | true =>
        rw [Dist.lt_iff] at hb
        exact absurd (lt_of_lt_of_le hb this) (lt_irrefl _)

theorem dijkstraShortestPath_absent (sqrt : ℚ → ℚ) (s : PipelineSystem) (fuel : Nat)
    (startId endId : Int)
    (h : ¬ (startId ∈ collectNodes s.network ∧ endId ∈ collectNodes s.network)) :
    dijkstraShortestPath sqrt s fuel startId endId = some (.inf, []) := by
  have h2 : ¬ (startId ∈ (buildGraphForAlgorithms sqrt s).2 ∧
      endId ∈ (buildGraphForAlgorithms sqrt s).2) := h
  unfold dijkstraShortestPath
  simp only
  rw [if_pos h2]

/-- The result of `dijkstraShortestPath` on a store without negative
lengths, for two ids that are nodes. -/
theorem dijkstraShortestPath_run (sqrt : ℚ → ℚ) (s : PipelineSystem)
    (hlen : ∀ p ∈ s.pipes, 0 ≤ p.length) (startId endId : Int)
    (hs : startId ∈ collectNodes s.network) (he : endId ∈ collectNodes s.network)
    (fuel : Nat)
    (hfuel : pendingEdges (buildGraphForAlgorithms sqrt s).1 [] +
      (buildGraphForAlgorithms sqrt s).1.length + 2 ≤ fuel) :
    (dijkstraShortestPath sqrt s fuel startId endId = some (.inf, []) ∧
      ∀ es, GWalk (buildGraphForAlgorithms sqrt s).1 (idToIndex (collectNodes s.network) startId)
        es (idToIndex (collectNodes s.network) endId) → walkWeight es = .inf) ∨
    (∃ (d : ℚ) (es : List GraphEdge),
      dijkstraShortestPath sqrt s fuel startId endId =
        some (.fin d, startId :: es.map (fun e => (collectNodes s.network).getD e.to_ 0)) ∧
      GWalk (buildGraphForAlgorithms sqrt s).1 (idToIndex (collectNodes s.network) startId)
        es (idToIndex (collectNodes s.network) endId) ∧
      walkWeight es = .fin d ∧
      ∀ es2, GWalk (buildGraphForAlgorithms sqrt s).1
        (idToIndex (collectNodes s.network) startId) es2
        (idToIndex (collectNodes s.network) endId) → (walkWeight es2).lt (.fin d) = false) := by
  have hsl : idToIndex (collectNodes s.network) startId <
      (buildGraphForAlgorithms sqrt s).1.length := by
    rw [built_length]; exact idToIndex_lt _ _ hs
  obtain ⟨st2, hloop, hres⟩ := dijkstra_run (buildGraphForAlgorithms sqrt s).1
    (idToIndex (collectNodes s.network) startId) (idToIndex (collectNodes s.network) endId)
    (built_to_lt sqrt s) (built_weight_nonneg sqrt s hlen) hsl fuel hfuel
  rw [built_length] at hloop
  have hmem : ¬ ¬ (startId ∈ (buildGraphForAlgorithms sqrt s).2 ∧
      endId ∈ (buildGraphForAlgorithms sqrt s).2) := not_not.mpr ⟨hs, he⟩
  unfold dijkstraShortestPath
  simp only
  rw [if_neg hmem]
  have hloop2 : dijkstraLoop (buildGraphForAlgorithms sqrt s).1
      (idToIndex (buildGraphForAlgorithms sqrt s).2 endId) fuel
      { dist := (List.replicate (buildGraphForAlgorithms sqrt s).2.length Dist.inf).set
          (idToIndex (buildGraphForAlgorithms sqrt s).2 startId) (.fin 0)
        prev := List.replicate (buildGraphForAlgorithms sqrt s).2.length none
        prevPipe := List.replicate (buildGraphForAlgorithms sqrt s).2.length none
        pq := [(.fin 0, idToIndex (buildGraphForAlgorithms sqrt s).2 startId)] } = some st2 :=
    hloop
  rw [hloop2]
  simp only
  rcases hres with ⟨hinf, hall⟩ | ⟨d, l, es, hd, hl, hwalk, hwt, hrev, hmin⟩
  · left
    refine ⟨?_, hall⟩
    have hinf2 : st2.dist.getD (idToIndex (buildGraphForAlgorithms sqrt s).2 endId) .inf =
        .inf := hinf
    rw [hinf2]
    rfl
  · right
    refine ⟨d, es, ?_, hwalk, hwt, hmin⟩
    have hd2 : st2.dist.getD (idToIndex (buildGraphForAlgorithms sqrt s).2 endId) .inf =
        .fin d := hd
    have hl2 : walkPrev st2.prev fuel
        (some (idToIndex (buildGraphForAlgorithms sqrt s).2 endId)) = some l := hl
    rw [hd2, hl2]
    have hlt : (Dist.fin d).lt .inf = true := rfl
    rw [if_pos hlt]
    simp only
    rw [hrev, List.map_cons, List.map_map]
    have hsid : (buildGraphForAlgorithms sqrt s).2.getD
        (idToIndex (collectNodes s.network) startId) 0 = startId := getD_idToIndex _ _ hs
    rw [hsid]
    rfl

theorem gwalk_last (g : Graph) (u v : Nat) (es : List GraphEdge) (h : GWalk g u es v) :
    (u :: es.map (fun e => e.to_)).getLast? = some v := by
  induction h with
  | nil u => rfl
  | cons u v e es _ _ ih =>
    rw [List.map_cons, List.getLast?_cons_cons]
    exact ih

theorem walkWeight_inf_of_mem (es : List GraphEdge) (e : GraphEdge) (he : e ∈ es)
    (hw : e.weight = .inf) : walkWeight es = .inf := by
  apply dist_eq_inf
  induction es with
  | nil => exact absurd he (List.not_mem_nil e)
  | cons x rest ih =>
    rw [walkWeight_cons]
    rcases List.mem_cons.mp he with hx | hx
    · rw [← hx, hw]
      exact top_add _
    · rw [ih hx]
      exact add_top _

/-! ## Pipes under repair and the shortest path -/

theorem path_ends (sqrt : ℚ → ℚ) (s : PipelineSystem) (startId endId : Int)
    (hs : startId ∈ collectNodes s.network) (he : endId ∈ collectNodes s.network)
    (es : List GraphEdge)
    (hwalk : GWalk (buildGraphForAlgorithms sqrt s).1 (idToIndex (collectNodes s.network) startId)
      es (idToIndex (collectNodes s.network) endId)) :
    (startId :: es.map (fun e => (collectNodes s.network).getD e.to_ 0)).getLast? =
      some endId := by
  have h1 := gwalk_last _ _ _ es hwalk
  have h2 : startId :: es.map (fun e => (collectNodes s.network).getD e.to_ 0) =
      (idToIndex (collectNodes s.network) startId :: es.map (fun e => e.to_)).map
        (fun i => (collectNodes s.network).getD i 0) := by
    rw [List.map_cons, List.map_map, getD_idToIndex _ _ hs]
    rfl
  rw [h2, List.getLast?_map, h1, Option.map_some', getD_idToIndex _ _ he]

/-! ## Finite distances come from walks over pipes in service -/

theorem floor_le_roundEven (t : ℚ) : ⌊t⌋ ≤ roundEven t := by
  unfold roundEven
  split_ifs <;> omega

theorem roundEven_le_floor_succ (t : ℚ) : roundEven t ≤ ⌊t⌋ + 1 := by
  unfold roundEven
  split_ifs <;> omega

theorem roundEven_intCast (n : ℤ) : roundEven (n : ℚ) = n := by
  unfold roundEven
  simp

/-- An integer below `t + 1/2` is not above the rounded `t`. -/
theorem le_roundEven (n : ℤ) (t : ℚ) (h : (n : ℚ) - 1 / 2 < t) : n ≤ roundEven t := by
  by_cases hf : n ≤ ⌊t⌋
  · exact le_trans hf (floor_le_roundEven t)
  · have h1 : n - 1 ≤ ⌊t⌋ := Int.le_floor.mpr (by push_cast; linarith)
    have h2 : ⌊t⌋ = n - 1 := by omega
    have h3 : (⌊t⌋ : ℚ) = (n : ℚ) - 1 := by rw [h2]; push_cast; ring
    unfold roundEven
    rw [if_neg (by rw [h3]; linarith), if_pos (by rw [h3]; linarith)]
    omega

/-- An integer above `t - 1/2` is not below the rounded `t`. -/
theorem roundEven_le (n : ℤ) (t : ℚ) (h : t < (n : ℚ) + 1 / 2) : roundEven t ≤ n := by
  have hlt : ⌊t⌋ < n + 1 := Int.floor_lt.mpr (by push_cast; linarith)
  by_cases hf : ⌊t⌋ < n
  · have := roundEven_le_floor_succ t
    omega
  · have h2 : ⌊t⌋ = n := by omega
    have h3 : (⌊t⌋ : ℚ) = (n : ℚ) := by rw [h2]
    unfold roundEven
    rw [if_pos (by rw [h3]; linarith)]
    omega

theorem roundEven_le_of_le (n : ℤ) (t : ℚ) (h : t ≤ (n : ℚ)) : roundEven t ≤ n :=
  roundEven_le n t (by linarith)

theorem le_roundEven_of_le (n : ℤ) (t : ℚ) (h : (n : ℚ) ≤ t) : n ≤ roundEven t :=
  le_roundEven n t (by linarith)

theorem roundEven_eq (t : ℚ) (n : ℤ) (h1 : (n : ℚ) - 1 / 2 < t) (h2 : t < (n : ℚ) + 1 / 2) :
    roundEven t = n :=
  le_antisymm (roundEven_le n t h2) (le_roundEven n t h1)

theorem roundEven_mono (s t : ℚ) (h : s ≤ t) : roundEven s ≤ roundEven t := by
  have hf : ⌊s⌋ ≤ ⌊t⌋ := Int.floor_mono h
  rcases eq_or_lt_of_le hf with hf | hf
  · unfold roundEven
    rw [hf]
    split_ifs <;> first | omega | (exfalso; linarith)
  · have h1 := roundEven_le_floor_succ s
    have h2 := floor_le_roundEven t
    omega

theorem abs_roundEven_sub (t : ℚ) : |(roundEven t : ℚ) - t| ≤ 1 / 2 := by
  have h1 := Int.floor_le t
  have h2 := Int.lt_floor_add_one t
  unfold roundEven
  split_ifs <;> rw [abs_le] <;> constructor <;> push_cast <;> linarith

/-! ## Rounding to the nearest `double` -/

theorem binaryExponent_ge (x : ℚ) : -1022 ≤ binaryExponent x := le_max_right _ _

theorem ulp_pos (x : ℚ) : (0 : ℚ) < 2 ^ (binaryExponent x - 52) := by positivity

theorem roundNearest_zero : roundNearest 0 = 0 := by
  unfold roundNearest
  rw [zero_div]
  have : roundEven 0 = 0 := by exact_mod_cast roundEven_intCast 0
  rw [this]
  simp

theorem grid_top (e : ℤ) : ((2 ^ 53 : ℤ) : ℚ) * 2 ^ (e - 52) = 2 ^ (e + 1) := by
  rw [show e + 1 = ((53 : ℕ) : ℤ) + (e - 52) by push_cast; ring,
    zpow_add₀ (by norm_num : (2 : ℚ) ≠ 0), zpow_natCast]
  push_cast
  rfl

theorem grid_bot (e : ℤ) : ((2 ^ 52 : ℤ) : ℚ) * 2 ^ (e - 52) = 2 ^ e := by
  have h : (2 : ℚ) ^ e = 2 ^ (((52 : ℕ) : ℤ) + (e - 52)) := by
    congr 1
    push_cast
    ring
  rw [h, zpow_add₀ (by norm_num : (2 : ℚ) ≠ 0), zpow_natCast]
  push_cast
  rfl

/-- For a positive `x` the exponent is that of the largest power of two not
above `x`, or `-1022` when that power is smaller. -/
theorem binaryExponent_pos (x : ℚ) (hx : 0 < x) :
    x < 2 ^ (binaryExponent x + 1) ∧
    (-1022 < binaryExponent x → (2 : ℚ) ^ binaryExponent x ≤ x) := by
  have h1 : (2 : ℚ) ^ Int.log 2 x ≤ x := by
    have := Int.zpow_log_le_self (b := 2) (by norm_num) hx
    simpa using this
  have h2 : x < (2 : ℚ) ^ (Int.log 2 x + 1) := by
    have := Int.lt_zpow_succ_log_self (b := 2) (by norm_num) x
    simpa using this
  unfold binaryExponent
  rw [abs_of_pos hx]
  constructor
  · refine lt_of_lt_of_le h2 ?_
    exact zpow_le_zpow_right₀ (by norm_num) (by have := le_max_left (Int.log 2 x) (-1022); omega)
  · intro h
    have : max (Int.log 2 x) (-1022) = Int.log 2 x := by
      rcases max_cases (Int.log 2 x) (-1022) with ⟨h3, _⟩ | ⟨h3, _⟩
      · exact h3
      · omega
    rw [this]
    exact h1

theorem binaryExponent_mono (x y : ℚ) (hx : 0 < x) (h : x ≤ y) :
    binaryExponent x ≤ binaryExponent y := by
  unfold binaryExponent
  rw [abs_of_pos hx, abs_of_pos (lt_of_lt_of_le hx h)]
  exact max_le_max (Int.log_mono_right hx h) le_rfl

/-- A multiple of the grid step that is not above `x` is not above the
rounded `x`. -/
theorem le_roundNearest (x : ℚ) (n : ℤ) (h : (n : ℚ) * 2 ^ (binaryExponent x - 52) ≤ x) :
    (n : ℚ) * 2 ^ (binaryExponent x - 52) ≤ roundNearest x := by
  unfold roundNearest
  apply mul_le_mul_of_nonneg_right _ (le_of_lt (ulp_pos x))
  have : n ≤ roundEven (x / 2 ^ (binaryExponent x - 52)) :=
    le_roundEven_of_le n _ ((le_div_iff₀ (ulp_pos x)).mpr h)
  exact_mod_cast this

theorem roundNearest_le (x : ℚ) (n : ℤ) (h : x ≤ (n : ℚ) * 2 ^ (binaryExponent x - 52)) :
    roundNearest x ≤ (n : ℚ) * 2 ^ (binaryExponent x - 52) := by
  unfold roundNearest
  apply mul_le_mul_of_nonneg_right _ (le_of_lt (ulp_pos x))
  have : roundEven (x / 2 ^ (binaryExponent x - 52)) ≤ n :=
    roundEven_le_of_le n _ ((div_le_iff₀ (ulp_pos x)).mpr h)
  exact_mod_cast this

theorem roundNearest_nonneg (x : ℚ) (h : 0 ≤ x) : 0 ≤ roundNearest x := by
  have := le_roundNearest x 0 (by simpa using h)
  simpa using this

/-- Rounding keeps the order of the positive numbers. -/
theorem roundNearest_mono (x y : ℚ) (hx : 0 ≤ x) (h : x ≤ y) :
    roundNearest x ≤ roundNearest y := by
  rcases eq_or_lt_of_le hx with hx0 | hx
  · rw [← hx0, roundNearest_zero]
    exact roundNearest_nonneg y (le_trans (le_of_eq hx0) h)
  have hy : 0 < y := lt_of_lt_of_le hx h
  rcases eq_or_lt_of_le (binaryExponent_mono x y hx h) with he | he
  · unfold roundNearest
    rw [he]
    apply mul_le_mul_of_nonneg_right _ (le_of_lt (ulp_pos y))
    have := roundEven_mono (x / 2 ^ (binaryExponent y - 52)) (y / 2 ^ (binaryExponent y - 52))
      (div_le_div_of_nonneg_right h (le_of_lt (ulp_pos y)))
    exact_mod_cast this
  · have h1 : roundNearest x ≤ (2 : ℚ) ^ (binaryExponent x + 1) := by
      have := roundNearest_le x (2 ^ 53) (by
        rw [grid_top]
        exact le_of_lt (binaryExponent_pos x hx).1)
      rw [grid_top] at this
      exact this
    have h2 : (2 : ℚ) ^ binaryExponent y ≤ roundNearest y := by
      have hlt : -1022 < binaryExponent y := by
        have := binaryExponent_ge x
        omega
      have := le_roundNearest y (2 ^ 52) (by
        rw [grid_bot]
        exact (binaryExponent_pos y hy).2 hlt)
      rw [grid_bot] at this
      exact this
    have h3 : (2 : ℚ) ^ (binaryExponent x + 1) ≤ 2 ^ binaryExponent y :=
      zpow_le_zpow_right₀ (by norm_num) (by omega)
    linarith

/-- The error of rounding: half a grid step, which is at most the fraction
`2^-53` of the number, or `2^-1075` in the range of the subnormal numbers. -/
theorem abs_roundNearest_sub (x : ℚ) :
    |roundNearest x - x| ≤ |x| / 2 ^ 53 + 1 / 2 ^ 1075 := by
  rcases eq_or_ne x 0 with hx0 | hx0
  · rw [hx0, roundNearest_zero]
    norm_num
  have hu := ulp_pos x
  have h1 : |roundNearest x - x| ≤ 2 ^ (binaryExponent x - 52) / 2 := by
    have h := abs_roundEven_sub (x / 2 ^ (binaryExponent x - 52))
    have heq : roundNearest x - x =
        ((roundEven (x / 2 ^ (binaryExponent x - 52)) : ℚ) - x / 2 ^ (binaryExponent x - 52)) *
          2 ^ (binaryExponent x - 52) := by
      unfold roundNearest
      field_simp
    rw [heq, abs_mul, abs_of_pos hu]
    calc |(roundEven (x / 2 ^ (binaryExponent x - 52)) : ℚ) - x / 2 ^ (binaryExponent x - 52)| *
          2 ^ (binaryExponent x - 52)
        ≤ 1 / 2 * 2 ^ (binaryExponent x - 52) := mul_le_mul_of_nonneg_right h (le_of_lt hu)
      _ = 2 ^ (binaryExponent x - 52) / 2 := by ring
  have hxa : 0 < |x| := abs_pos.mpr hx0
  have h2 : (2 : ℚ) ^ (binaryExponent x - 52) / 2 ≤ |x| / 2 ^ 53 + 1 / 2 ^ 1075 := by
    rcases eq_or_lt_of_le (binaryExponent_ge x) with he | he
    · rw [← he]
      have : (2 : ℚ) ^ ((-1022 : ℤ) - 52) / 2 = 1 / 2 ^ 1075 := by
        rw [show ((-1022 : ℤ) - 52) = -((1074 : ℕ) : ℤ) by norm_num, zpow_neg, zpow_natCast]
        rw [pow_succ (2 : ℚ) 1074]
        field_simp
      rw [this]
      have : 0 ≤ |x| / 2 ^ 53 := by positivity
      linarith
    · have hb : binaryExponent |x| = binaryExponent x := by
        unfold binaryExponent
        rw [abs_abs]
      have h3 := (binaryExponent_pos |x| hxa).2 (by rw [hb]; exact he)
      rw [hb] at h3
      have h4 : (2 : ℚ) ^ (binaryExponent x - 52) / 2 = 2 ^ binaryExponent x / 2 ^ 53 := by
        rw [zpow_sub₀ (by norm_num : (2 : ℚ) ≠ 0)]
        rw [show ((52 : ℤ)) = ((52 : ℕ) : ℤ) by norm_num, zpow_natCast, div_div]
        congr 1
        norm_num
      rw [h4]
      have h5 : (2 : ℚ) ^ binaryExponent x / 2 ^ 53 ≤ |x| / 2 ^ 53 :=
        div_le_div_of_nonneg_right h3 (by positivity)
      have : (0 : ℚ) ≤ 1 / 2 ^ 1075 := by positivity
      linarith
  exact le_trans h1 h2

/-- A number above `2^-1075` is not rounded to zero. -/
theorem roundNearest_pos (x : ℚ) (h : 1 / 2 ^ 1075 < x) : 1 / 2 ^ 1074 ≤ roundNearest x := by
  have hx : 0 < x := lt_trans (by positivity) h
  have hstep : (2 : ℚ) ^ ((-1022 : ℤ) - 52) = 1 / 2 ^ 1074 := by
    rw [show ((-1022 : ℤ) - 52) = -((1074 : ℕ) : ℤ) by norm_num, zpow_neg, zpow_natCast, one_div]
  rcases eq_or_lt_of_le (binaryExponent_ge x) with he | he
  · unfold roundNearest
    rw [← he, hstep]
    have : (1 : ℤ) ≤ roundEven (x / (1 / 2 ^ 1074)) := by
      apply le_roundEven
      rw [div_div_eq_mul_div, div_one]
      have : x * 2 ^ 1074 > 1 / 2 ^ 1075 * 2 ^ 1074 := by
        apply mul_lt_mul_of_pos_right h (by positivity)
      have h2 : (1 : ℚ) / 2 ^ 1075 * 2 ^ 1074 = 1 / 2 := by
        rw [pow_succ (2 : ℚ) 1074]
        field_simp
      push_cast
      linarith
    have h3 : ((1 : ℤ) : ℚ) ≤ (roundEven (x / (1 / 2 ^ 1074)) : ℚ) := Int.cast_le.mpr this
    calc (1 : ℚ) / 2 ^ 1074 = ((1 : ℤ) : ℚ) * (1 / 2 ^ 1074) := by rw [Int.cast_one, one_mul]
      _ ≤ (roundEven (x / (1 / 2 ^ 1074)) : ℚ) * (1 / 2 ^ 1074) :=
        mul_le_mul_of_nonneg_right h3 (by positivity)
  · have h1 := le_roundNearest x (2 ^ 52) (by
      rw [grid_bot]
      exact (binaryExponent_pos x hx).2 he)
    rw [grid_bot] at h1
    have h2 : (2 : ℚ) ^ ((-1022 : ℤ) - 52) ≤ 2 ^ binaryExponent x :=
      zpow_le_zpow_right₀ (by norm_num) (by omega)
    rw [hstep] at h2
    linarith

/-! ## Rounding of given numbers -/

theorem binaryExponent_eq (x : ℚ) (e : ℤ) (hx : 0 < x) (he : -1022 ≤ e)
    (h1 : (2 : ℚ) ^ e ≤ x ∨ e = -1022) (h2 : x < 2 ^ (e + 1)) : binaryExponent x = e := by
  have hlog : Int.log 2 x < e + 1 := by
    have := (Int.lt_zpow_iff_log_lt (b := 2) (by norm_num) hx (x := e + 1)).mp (by simpa using h2)
    exact this
  unfold binaryExponent
  rw [abs_of_pos hx]
  rcases h1 with h1 | h1
  · have : e ≤ Int.log 2 x :=
      (Int.zpow_le_iff_le_log (b := 2) (by norm_num) hx (x := e)).mp (by simpa using h1)
    rw [max_eq_left (by omega)]
    omega
  · rw [h1] at hlog ⊢
    exact max_eq_right (by omega)

/-- The rounded value of a positive `x` with `2^e ≤ x < 2^(e+1)` (or below
`2^-1021` for `e = -1022`) that lies less than half a step from the `n`-th
multiple of the step `2^(e-52)`. -/
theorem roundNearest_eq (x : ℚ) (e n : ℤ) (hx : 0 < x) (he : -1022 ≤ e)
    (h1 : (2 : ℚ) ^ e ≤ x ∨ e = -1022) (h2 : x < 2 ^ (e + 1))
    (h3 : ((n : ℚ) - 1 / 2) * 2 ^ (e - 52) < x) (h4 : x < ((n : ℚ) + 1 / 2) * 2 ^ (e - 52)) :
    roundNearest x = (n : ℚ) * 2 ^ (e - 52) := by
  unfold roundNearest
  rw [binaryExponent_eq x e hx he h1 h2]
  have hu : (0 : ℚ) < 2 ^ (e - 52) := by positivity
  rw [roundEven_eq _ n ((lt_div_iff₀ hu).mpr h3) ((div_lt_iff₀ hu).mpr h4)]

theorem roundNearest_hundredth : roundNearest (1 / 100) = 5764607523034235 / 2 ^ 59 := by
  have := roundNearest_eq (1 / 100) (-7) 5764607523034235 (by norm_num) (by norm_num)
    (Or.inl (by norm_num)) (by norm_num) (by norm_num) (by norm_num)
  rw [this]
  norm_num

theorem roundNearest_adjusted :
    roundNearest (1000 * (5764607523034235 / 2 ^ 59)) = 10 ∧
    roundNearest (2500 * (5764607523034235 / 2 ^ 59)) = 25 ∧
    roundNearest (5000 * (5764607523034235 / 2 ^ 59)) = 50 ∧
    roundNearest (10000 * (5764607523034235 / 2 ^ 59)) = 100 := by
  refine ⟨?_, ?_, ?_, ?_⟩
  · have := roundNearest_eq (1000 * (5764607523034235 / 2 ^ 59)) 3 (10 * 2 ^ 49)
      (by norm_num) (by norm_num) (Or.inl (by norm_num)) (by norm_num) (by norm_num)
      (by norm_num)
    rw [this]
    norm_num
  · have := roundNearest_eq (2500 * (5764607523034235 / 2 ^ 59)) 4 (25 * 2 ^ 48)
      (by norm_num) (by norm_num) (Or.inl (by norm_num)) (by norm_num) (by norm_num)
      (by norm_num)
    rw [this]
    norm_num
  · have := roundNearest_eq (5000 * (5764607523034235 / 2 ^ 59)) 5 (50 * 2 ^ 47)
      (by norm_num) (by norm_num) (Or.inl (by norm_num)) (by norm_num) (by norm_num)
      (by norm_num)
    rw [this]
    norm_num
  · have := roundNearest_eq (10000 * (5764607523034235 / 2 ^ 59)) 6 (100 * 2 ^ 46)
      (by norm_num) (by norm_num) (Or.inl (by norm_num)) (by norm_num) (by norm_num)
      (by norm_num)
    rw [this]
    norm_num

theorem roundNearest_diameter :
    roundNearest (500 / 1000) = 1 / 2 ∧
    roundNearest (700 / 1000) = 3152519739159347 / 2 ^ 52 ∧
    roundNearest (1000 / 1000) = 1 ∧
    roundNearest (1400 / 1000) = 3152519739159347 / 2 ^ 51 := by
  refine ⟨?_, ?_, ?_, ?_⟩
  · have := roundNearest_eq (500 / 1000) (-1) (2 ^ 52)
      (by norm_num) (by norm_num) (Or.inl (by norm_num)) (by norm_num) (by norm_num)
      (by norm_num)
    rw [this]
    norm_num
  · have := roundNearest_eq (700 / 1000) (-1) 6305039478318694
      (by norm_num) (by norm_num) (Or.inl (by norm_num)) (by norm_num) (by norm_num)
      (by norm_num)
    rw [this]
    norm_num
  · have := roundNearest_eq (1000 / 1000) 0 (2 ^ 52)
      (by norm_num) (by norm_num) (Or.inl (by norm_num)) (by norm_num) (by norm_num)
      (by norm_num)
    rw [this]
    norm_num
  · have := roundNearest_eq (1400 / 1000) 0 6305039478318694
      (by norm_num) (by norm_num) (Or.inl (by norm_num)) (by norm_num) (by norm_num)
      (by norm_num)
    rw [this]
    norm_num

/-- The lengths `1.5 + 21 * 2^-52` and `1.5 + 22 * 2^-52`, two neighbours
among the `double` numbers, have the same product with `1000.0`. -/
theorem roundNearest_collide :
    roundNearest ((3 / 2 + 21 / 2 ^ 52) * 1000) = 1500 + 21 / 2 ^ 42 ∧
    roundNearest ((3 / 2 + 22 / 2 ^ 52) * 1000) = 1500 + 21 / 2 ^ 42 := by
  constructor
  · have := roundNearest_eq ((3 / 2 + 21 / 2 ^ 52) * 1000) 10 (1500 * 2 ^ 42 + 21)
      (by norm_num) (by norm_num) (Or.inl (by norm_num)) (by norm_num) (by norm_num)
      (by norm_num)
    rw [this]
    norm_num
  · have := roundNearest_eq ((3 / 2 + 22 / 2 ^ 52) * 1000) 10 (1500 * 2 ^ 42 + 21)
      (by norm_num) (by norm_num) (Or.inl (by norm_num)) (by norm_num) (by norm_num)
      (by norm_num)
    rw [this]
    norm_num

/-! ## The range of `double` -/

theorem roundNearest_le_of_lt (x : ℚ) (n : ℤ)
    (h : x < ((n : ℚ) + 1 / 2) * 2 ^ (binaryExponent x - 52)) :
    roundNearest x ≤ (n : ℚ) * 2 ^ (binaryExponent x - 52) := by
  unfold roundNearest
  apply mul_le_mul_of_nonneg_right _ (le_of_lt (ulp_pos x))
  exact Int.cast_le.mpr (roundEven_le n _ ((div_lt_iff₀ (ulp_pos x)).mpr h))

set_option exponentiation.threshold 1100 in
theorem DBL_MAX_eq : DBL_MAX = 2 ^ 1024 - 2 ^ 971 := by
  unfold DBL_MAX
  norm_num

set_option exponentiation.threshold 1100 in
/-- The least number that is rounded beyond the largest finite `double`
lies half a step above it. -/
theorem roundNearest_threshold : roundNearest (2 ^ 1024 - 2 ^ 970) = 2 ^ 1024 := by
  unfold roundNearest
  rw [binaryExponent_eq (2 ^ 1024 - 2 ^ 970) 1023 (by norm_num) (by norm_num)
    (Or.inl (by norm_num)) (by norm_num)]
  have h : ((2 : ℚ) ^ 1024 - 2 ^ 970) / 2 ^ ((1023 : ℤ) - 52) = 2 ^ 53 - 1 / 2 := by norm_num
  rw [h]
  have hf : ⌊((2 : ℚ) ^ 53 - 1 / 2)⌋ = 2 ^ 53 - 1 := by
    rw [Int.floor_eq_iff]
    norm_num
  have hr : roundEven ((2 : ℚ) ^ 53 - 1 / 2) = 2 ^ 53 := by
    unfold roundEven
    rw [hf]
    norm_num
  rw [hr]
  norm_num

set_option exponentiation.threshold 1100 in
theorem roundNearest_overflow (x : ℚ) (h : 2 ^ 1024 - 2 ^ 970 ≤ x) : DBL_MAX < roundNearest x := by
  have := roundNearest_mono _ _ (by norm_num) h
  rw [roundNearest_threshold] at this
  rw [DBL_MAX_eq]
  have : (0 : ℚ) < 2 ^ 971 := by positivity
  linarith

set_option exponentiation.threshold 1100 in
theorem roundNearest_in_range (x : ℚ) (hx : 0 ≤ x) (h : x < 2 ^ 1024 - 2 ^ 970) :
    roundNearest x ≤ DBL_MAX := by
  rcases eq_or_lt_of_le hx with h0 | hpos
  · rw [← h0, roundNearest_zero]
    unfold DBL_MAX
    positivity
  by_cases he : binaryExponent x ≤ 1022
  · have h1 := roundNearest_le x (2 ^ 53) (by
      rw [grid_top]
      exact le_of_lt (binaryExponent_pos x hpos).1)
    rw [grid_top] at h1
    have h2 : (2 : ℚ) ^ (binaryExponent x + 1) ≤ 2 ^ (1023 : ℤ) :=
      zpow_le_zpow_right₀ (by norm_num) (by omega)
    have h3 : (2 : ℚ) ^ (1023 : ℤ) ≤ DBL_MAX := by
      rw [DBL_MAX_eq]
      norm_num
    linarith
  · have he2 : binaryExponent x = 1023 := by
      apply binaryExponent_eq x 1023 hpos (by norm_num) (Or.inl ?_) ?_
      · have := (binaryExponent_pos x hpos).2 (by omega)
        exact le_trans (zpow_le_zpow_right₀ (by norm_num) (by omega)) this
      · have h4 : (2 : ℚ) ^ ((1023 : ℤ) + 1) = 2 ^ 1024 := by norm_num
        rw [h4]
        have : (0 : ℚ) < 2 ^ 970 := by positivity
        linarith
    have h5 := roundNearest_le_of_lt x (2 ^ 53 - 1) (by
      rw [he2]
      have h6 : (((2 ^ 53 - 1 : ℤ) : ℚ) + 1 / 2) * 2 ^ ((1023 : ℤ) - 52) = 2 ^ 1024 - 2 ^ 970 := by
        norm_num
      rw [h6]
      exact h)
    rw [he2] at h5
    have h7 : ((2 ^ 53 - 1 : ℤ) : ℚ) * 2 ^ ((1023 : ℤ) - 52) = DBL_MAX := by
      rw [DBL_MAX_eq]
      norm_num
    rw [h7] at h5
    exact h5

theorem DBL_MAX_pos : 0 < DBL_MAX := by
  unfold DBL_MAX
  positivity

/-- The result of an operation whose exact result is not negative: `+∞`
from `2^1024 - 2^970` on, the rounded number below. -/
theorem ofExact_nonneg (x : ℚ) (hx : 0 ≤ x) :
    (2 ^ 1024 - 2 ^ 970 ≤ x ∧ Double.ofExact x = .pinf) ∨
    (x < 2 ^ 1024 - 2 ^ 970 ∧ Double.ofExact x = .fin (roundNearest x) ∧
      0 ≤ roundNearest x ∧ roundNearest x ≤ DBL_MAX) := by
  by_cases h : 2 ^ 1024 - 2 ^ 970 ≤ x
  · left
    refine ⟨h, ?_⟩
    unfold Double.ofExact
    rw [if_pos (roundNearest_overflow x h)]
  · right
    have h1 := roundNearest_in_range x hx (not_le.mp h)
    have h2 := roundNearest_nonneg x hx
    refine ⟨not_le.mp h, ?_, h2, h1⟩
    unfold Double.ofExact
    rw [if_neg (not_lt.mpr h1), if_neg]
    have := DBL_MAX_pos
    linarith

theorem ofExact_eq_pinf_iff (x : ℚ) (hx : 0 ≤ x) :
    Double.ofExact x = .pinf ↔ 2 ^ 1024 - 2 ^ 970 ≤ x := by
  rcases ofExact_nonneg x hx with ⟨h1, h2⟩ | ⟨h1, h2, _⟩
  · exact ⟨fun _ => h1, fun _ => h2⟩
  · constructor
    · intro h
      rw [h2] at h
      exact absurd h (by simp)
    · intro h
      exact absurd h (not_le.mpr h1)

theorem ofExact_zero : Double.ofExact 0 = .fin 0 := by
  rcases ofExact_nonneg 0 le_rfl with ⟨h1, _⟩ | ⟨_, h2, _⟩
  · exfalso
    have : (2 : ℚ) ^ 970 < 2 ^ 1024 := pow_lt_pow_right₀ (by norm_num) (by norm_num)
    linarith
  · rw [h2, roundNearest_zero]

/-- The result of an operation whose exact result lies above `2^-1075` and
below the range limit is a positive number. -/
theorem ofExact_pos (x : ℚ) (hx : 1 / 2 ^ 1075 < x) :
    Double.ofExact x = .pinf ∨
    (Double.ofExact x = .fin (roundNearest x) ∧ 1 / 2 ^ 1074 ≤ roundNearest x) := by
  have h0 : 0 ≤ x := le_of_lt (lt_trans (by positivity) hx)
  rcases ofExact_nonneg x h0 with ⟨_, h2⟩ | ⟨_, h2, _⟩
  · exact Or.inl h2
  · exact Or.inr ⟨h2, roundNearest_pos x hx⟩

/-! ## The order of the `double` values from zero on -/

theorem ofExact_nonNeg (x : ℚ) (hx : 0 ≤ x) : (Double.ofExact x).NonNeg := by
  rcases ofExact_nonneg x hx with ⟨_, h2⟩ | ⟨_, h2, h3, _⟩
  · rw [h2]
    trivial
  · rw [h2]
    exact h3

theorem Double.le_pinf (a : Double) (h : a.NonNeg) : Double.le a .pinf = true := by
  cases a with
  | fin q => rfl
  | pinf => rfl
  | ninf => exact absurd h (by simp [Double.NonNeg])
  | nan => exact absurd h (by simp [Double.NonNeg])

theorem Double.zero_le (a : Double) (h : a.NonNeg) : Double.le (.fin 0) a = true := by
  cases a with
  | fin q => simpa [Double.le, Double.NonNeg] using h
  | pinf => rfl
  | ninf => exact absurd h (by simp [Double.NonNeg])
  | nan => exact absurd h (by simp [Double.NonNeg])

theorem Double.le_self (a : Double) (h : a.NonNeg) : Double.le a a = true := by
  cases a with
  | fin q => simp [Double.le]
  | pinf => rfl
  | ninf => exact absurd h (by simp [Double.NonNeg])
  | nan => exact absurd h (by simp [Double.NonNeg])

theorem Double.lt_irrefl (a : Double) : Double.lt a a = false := by
  cases a <;> simp [Double.lt]

/-- Rounding and the range check keep the order of the exact results. -/
theorem ofExact_le (x y : ℚ) (hx : 0 ≤ x) (h : x ≤ y) :
    Double.le (Double.ofExact x) (Double.ofExact y) = true := by
  have hy : 0 ≤ y := le_trans hx h
  rcases ofExact_nonneg y hy with ⟨_, h2⟩ | ⟨h1, h2, _⟩
  · rw [h2]
    exact Double.le_pinf _ (ofExact_nonNeg x hx)
  · rcases ofExact_nonneg x hx with ⟨h3, _⟩ | ⟨_, h4, _⟩
    · exfalso
      linarith
    · rw [h2, h4]
      simpa [Double.le] using roundNearest_mono x y hx h

/-! ## Operations on the `double` values from zero on -/

theorem Double.div_fin_fin (a b : ℚ) :
    Double.div (.fin a) (.fin b) =
      if b = 0 then (if 0 < a then .pinf else if a < 0 then .ninf else .nan)
      else Double.ofExact (a / b) := rfl

theorem Double.div_fin_pinf (a : ℚ) : Double.div (.fin a) .pinf = .fin 0 := rfl

theorem Double.mul_fin_fin (a b : ℚ) : Double.mul (.fin a) (.fin b) = Double.ofExact (a * b) :=
  rfl

theorem Double.mul_fin_pinf (a : ℚ) :
    Double.mul (.fin a) .pinf = if 0 < a then .pinf else if a < 0 then .ninf else .nan := rfl

theorem Double.sqrt_fin (sqrt : ℚ → ℚ) (a : ℚ) :
    Double.sqrt sqrt (.fin a) =
      if a < 0 then .nan else if a = 0 then .fin 0 else .fin (sqrt a) := rfl

theorem Double.div_nonNeg (a : ℚ) (ha : 0 < a) (b : Double) (hb : b.NonNeg) :
    (Double.div (.fin a) b).NonNeg := by
  cases b with
  | fin y =>
    have hy : 0 ≤ y := hb
    rw [Double.div_fin_fin]
    by_cases h0 : y = 0
    · rw [if_pos h0, if_pos ha]
      trivial
    · rw [if_neg h0]
      exact ofExact_nonNeg _ (div_nonneg (le_of_lt ha) hy)
  | pinf => exact le_refl (0 : ℚ)
  | ninf => exact absurd hb (by simp [Double.NonNeg])
  | nan => exact absurd hb (by simp [Double.NonNeg])

/-- A larger divisor gives a quotient that is not larger. -/
theorem Double.div_antitone (a : ℚ) (ha : 0 < a) (b1 b2 : Double) (h1 : b1.NonNeg)
    (h2 : b2.NonNeg) (h : Double.le b1 b2 = true) :
    Double.le (Double.div (.fin a) b2) (Double.div (.fin a) b1) = true := by
  cases b2 with
  | fin y2 =>
    cases b1 with
    | fin y1 =>
      have hy1 : 0 ≤ y1 := h1
      have hle : y1 ≤ y2 := by simpa [Double.le] using h
      by_cases h0 : y1 = 0
      · have : Double.div (.fin a) (.fin y1) = .pinf := by
          rw [Double.div_fin_fin, if_pos h0, if_pos ha]
        rw [this]
        exact Double.le_pinf _ (Double.div_nonNeg a ha _ h2)
      · have hy1p : 0 < y1 := lt_of_le_of_ne hy1 (Ne.symm h0)
        have hy2p : 0 < y2 := lt_of_lt_of_le hy1p hle
        rw [Double.div_fin_fin, Double.div_fin_fin, if_neg h0, if_neg (ne_of_gt hy2p)]
        exact ofExact_le _ _ (div_nonneg (le_of_lt ha) (le_of_lt hy2p))
          (div_le_div_of_nonneg_left (le_of_lt ha) hy1p hle)
    | pinf => simp [Double.le] at h
    | ninf => exact absurd h1 (by simp [Double.NonNeg])
    | nan => exact absurd h1 (by simp [Double.NonNeg])
  | pinf =>
    have : Double.div (.fin a) .pinf = .fin 0 := rfl
    rw [this]
    exact Double.zero_le _ (Double.div_nonNeg a ha _ h1)
  | ninf => exact absurd h2 (by simp [Double.NonNeg])
  | nan => exact absurd h2 (by simp [Double.NonNeg])

/-- A larger dividend gives a quotient that is not smaller. -/
theorem Double.div_mono (a1 a2 : ℚ) (ha : 0 < a1) (h : a1 ≤ a2) (b : Double) (hb : b.NonNeg) :
    Double.le (Double.div (.fin a1) b) (Double.div (.fin a2) b) = true := by
  have ha2 : 0 < a2 := lt_of_lt_of_le ha h
  cases b with
  | fin y =>
    have hy : 0 ≤ y := hb
    rw [Double.div_fin_fin, Double.div_fin_fin]
    by_cases h0 : y = 0
    · rw [if_pos h0, if_pos ha, if_pos h0, if_pos ha2]
      rfl
    · rw [if_neg h0, if_neg h0]
      exact ofExact_le _ _ (div_nonneg (le_of_lt ha) hy) (div_le_div_of_nonneg_right h hy)
  | pinf => simp [Double.div, Double.le]
  | ninf => exact absurd hb (by simp [Double.NonNeg])
  | nan => exact absurd hb (by simp [Double.NonNeg])

theorem sqrt_pos_of_low (sqrt : ℚ → ℚ) (hsqrt : ∀ x, 0 < x → min x 1 ≤ sqrt x) (x : ℚ)
    (hx : 0 < x) : 0 < sqrt x :=
  lt_of_lt_of_le (lt_min hx one_pos) (hsqrt x hx)

theorem Double.sqrt_nonNeg (sqrt : ℚ → ℚ) (hsqrt : ∀ x, 0 < x → min x 1 ≤ sqrt x)
    (a : Double) (ha : a.NonNeg) : (Double.sqrt sqrt a).NonNeg := by
  cases a with
  | fin x =>
    have hx : 0 ≤ x := ha
    rw [Double.sqrt_fin, if_neg (not_lt.mpr hx)]
    by_cases h0 : x = 0
    · rw [if_pos h0]
      exact le_refl (0 : ℚ)
    · rw [if_neg h0]
      exact le_of_lt (sqrt_pos_of_low sqrt hsqrt x (lt_of_le_of_ne hx (Ne.symm h0)))
  | pinf => trivial
  | ninf => exact absurd ha (by simp [Double.NonNeg])
  | nan => exact absurd ha (by simp [Double.NonNeg])

theorem Double.sqrt_mono (sqrt : ℚ → ℚ) (hsqrt : ∀ x, 0 < x → min x 1 ≤ sqrt x)
    (hmono : ∀ x y, 0 < x → x ≤ y → sqrt x ≤ sqrt y) (a b : Double) (ha : a.NonNeg)
    (hb : b.NonNeg) (h : Double.le a b = true) :
    Double.le (Double.sqrt sqrt a) (Double.sqrt sqrt b) = true := by
  cases b with
  | fin y =>
    cases a with
    | fin x =>
      have hx : 0 ≤ x := ha
      have hle : x ≤ y := by simpa [Double.le] using h
      by_cases h0 : x = 0
      · have : Double.sqrt sqrt (.fin x) = .fin 0 := by
          rw [Double.sqrt_fin, if_neg (not_lt.mpr hx), if_pos h0]
        rw [this]
        exact Double.zero_le _ (Double.sqrt_nonNeg sqrt hsqrt _ hb)
      · have hxp : 0 < x := lt_of_le_of_ne hx (Ne.symm h0)
        have hyp : 0 < y := lt_of_lt_of_le hxp hle
        rw [Double.sqrt_fin, Double.sqrt_fin, if_neg (not_lt.mpr hx), if_neg h0,
          if_neg (not_lt.mpr (le_of_lt hyp)), if_neg (ne_of_gt hyp)]
        simpa [Double.le] using hmono x y hxp hle
    | pinf => simp [Double.le] at h
    | ninf => exact absurd ha (by simp [Double.NonNeg])
    | nan => exact absurd ha (by simp [Double.NonNeg])
  | pinf => exact Double.le_pinf _ (Double.sqrt_nonNeg sqrt hsqrt _ ha)
  | ninf => exact absurd hb (by simp [Double.NonNeg])
  | nan => exact absurd hb (by simp [Double.NonNeg])

theorem Double.mul_nonNeg (c : ℚ) (hc : 0 < c) (a : Double) (ha : a.NonNeg) :
    (Double.mul (.fin c) a).NonNeg := by
  cases a with
  | fin x => exact ofExact_nonNeg _ (mul_nonneg (le_of_lt hc) ha)
  | pinf =>
    rw [Double.mul_fin_pinf, if_pos hc]
    trivial
  | ninf => exact absurd ha (by simp [Double.NonNeg])
  | nan => exact absurd ha (by simp [Double.NonNeg])

theorem Double.mul_mono (c1 c2 : ℚ) (hc : 0 < c1) (hle : c1 ≤ c2) (a b : Double)
    (ha : a.NonNeg) (hb : b.NonNeg) (h : Double.le a b = true) :
    Double.le (Double.mul (.fin c1) a) (Double.mul (.fin c2) b) = true := by
  have hc2 : 0 < c2 := lt_of_lt_of_le hc hle
  cases b with
  | fin y =>
    cases a with
    | fin x =>
      have hx : 0 ≤ x := ha
      have hxy : x ≤ y := by simpa [Double.le] using h
      exact ofExact_le _ _ (mul_nonneg (le_of_lt hc) hx)
        (mul_le_mul hle hxy hx (le_of_lt hc2))
    | pinf => simp [Double.le] at h
    | ninf => exact absurd ha (by simp [Double.NonNeg])
    | nan => exact absurd ha (by simp [Double.NonNeg])
  | pinf =>
    have : Double.mul (.fin c2) .pinf = .pinf := by
      rw [Double.mul_fin_pinf, if_pos hc2]
    rw [this]
    exact Double.le_pinf _ (Double.mul_nonNeg c1 hc a ha)
  | ninf => exact absurd hb (by simp [Double.NonNeg])
  | nan => exact absurd hb (by simp [Double.NonNeg])

/-- Of two positive numbers, one at least twice the other and the smaller
at least ten steps of the subnormal grid, the rounded values differ. -/
theorem roundNearest_lt (x y : ℚ) (hx : 10 / 2 ^ 1074 ≤ x) (h : 2 * x ≤ y) :
    roundNearest x < roundNearest y := by
  have hx0 : 0 < x := lt_of_lt_of_le (by positivity) hx
  have hy0 : 0 < y := by linarith
  have h1 := abs_le.mp (abs_roundNearest_sub x)
  have h2 := abs_le.mp (abs_roundNearest_sub y)
  rw [abs_of_pos hx0] at h1
  rw [abs_of_pos hy0] at h2
  have h3 : (1 : ℚ) / 2 ^ 1075 = 1 / 2 ^ 1074 / 2 := by
    rw [pow_succ (2 : ℚ) 1074]
    field_simp
  have h4 : (10 : ℚ) / 2 ^ 1074 = 10 * (1 / 2 ^ 1074) := by ring
  have h5 : (0 : ℚ) < 1 / 2 ^ 1074 := by positivity
  have h6 : x / 2 ^ 53 ≤ x / 8 := by
    apply div_le_div_of_nonneg_left (le_of_lt hx0) (by norm_num) (by norm_num)
  have h7 : y / 2 ^ 53 ≤ y / 8 := by
    apply div_le_div_of_nonneg_left (le_of_lt hy0) (by norm_num) (by norm_num)
  rw [h3] at h1 h2
  rw [h4] at hx
  linarith [h1.2, h2.1]

/-! ## The capacity in the arithmetic of `double` -/

set_option exponentiation.threshold 1100 in
theorem ofExact_small (x : ℚ) (h0 : 0 ≤ x) (h1 : x ≤ 2 ^ 20) :
    Double.ofExact x = .fin (roundNearest x) := by
  rcases ofExact_nonneg x h0 with ⟨h2, _⟩ | ⟨_, h3, _⟩
  · exfalso
    have : (2 : ℚ) ^ 20 < 2 ^ 1024 - 2 ^ 970 := by norm_num
    linarith
  · exact h3

theorem getCapacityDouble_repair (pow5 sqrt : ℚ → ℚ) (p : Pipe) (h : p.underRepair = true) :
    p.getCapacityDouble pow5 sqrt = .fin 0 := by
  unfold Pipe.getCapacityDouble
  rw [if_pos h]

theorem getCapacityDouble_offTable (pow5 sqrt : ℚ → ℚ) (p : Pipe) (h : p.underRepair = false)
    (ht : isTableDiameter p.diameter = false) : p.getCapacityDouble pow5 sqrt = .fin 1000 := by
  have hn : ¬ (p.diameter = 500 ∨ p.diameter = 700 ∨ p.diameter = 1000 ∨ p.diameter = 1400) := by
    rw [← isTableDiameter_iff, ht]
    simp
  unfold Pipe.getCapacityDouble
  rw [h, find_PIPE_CAPACITIES]
  simp only [Bool.false_eq_true, if_false]
  rw [if_neg (fun h => hn (Or.inl h)), if_neg (fun h => hn (Or.inr (Or.inl h))),
    if_neg (fun h => hn (Or.inr (Or.inr (Or.inl h)))),
    if_neg (fun h => hn (Or.inr (Or.inr (Or.inr h))))]

/-- The product `cap.capacity * adjustment` is the hundredth of the table
entry, without an error. -/
theorem tableFactor (d : Int) (ht : isTableDiameter d = true) :
    Double.mul (.fin (tableCapacity d)) (Double.ofExact (1 / 100)) =
      .fin (tableCapacity d / 100) := by
  rw [ofExact_small (1 / 100) (by norm_num) (by norm_num), roundNearest_hundredth,
    Double.mul_fin_fin]
  obtain ⟨h1, h2, h3, h4⟩ := roundNearest_adjusted
  rw [isTableDiameter_iff] at ht
  unfold tableCapacity
  rcases ht with h | h | h | h <;> subst h
  · rw [if_pos rfl, ofExact_small _ (by norm_num) (by norm_num), h1]
    norm_num
  · rw [if_neg (by decide), if_pos rfl, ofExact_small _ (by norm_num) (by norm_num), h2]
    norm_num
  · rw [if_neg (by decide), if_neg (by decide), if_pos rfl,
      ofExact_small _ (by norm_num) (by norm_num), h3]
    norm_num
  · rw [if_neg (by decide), if_neg (by decide), if_neg (by decide),
      ofExact_small _ (by norm_num) (by norm_num), h4]
    norm_num

theorem tableDiameter (d : Int) (ht : isTableDiameter d = true) :
    Double.div (.fin (d : ℚ)) (.fin 1000) = .fin (roundNearest ((d : ℚ) / 1000)) := by
  rw [Double.div_fin_fin, if_neg (by norm_num)]
  rw [isTableDiameter_iff] at ht
  rcases ht with h | h | h | h <;> subst h <;>
    exact ofExact_small _ (by norm_num) (by norm_num)

/-- The capacity of a pipe in service with a diameter of the table. -/
theorem getCapacityDouble_table (pow5 sqrt : ℚ → ℚ) (p : Pipe) (h : p.underRepair = false)
    (ht : isTableDiameter p.diameter = true) :
    p.getCapacityDouble pow5 sqrt =
      Double.mul (.fin (tableCapacity p.diameter / 100))
        (Double.sqrt sqrt (Double.div (.fin (pow5 (roundNearest ((p.diameter : ℚ) / 1000))))
          (Double.ofExact (p.length * 1000)))) := by
  have hf := tableFactor p.diameter ht
  have hd := tableDiameter p.diameter ht
  have hcap : PIPE_CAPACITIES.find? (fun cap => cap.diameter == p.diameter) =
      some ⟨p.diameter, tableCapacity p.diameter⟩ := by
    rw [find_PIPE_CAPACITIES]
    rw [isTableDiameter_iff] at ht
    unfold tableCapacity
    rcases ht with h1 | h1 | h1 | h1 <;> rw [h1] <;> rfl
  unfold Pipe.getCapacityDouble
  rw [h, hcap]
  simp only [Bool.false_eq_true, if_false]
  rw [hf, hd, Double.mul_fin_fin]
  rfl

/-- The library function `pow(·, 5)`, correct to the fraction `2^-50`,
returns the fifth power of the diameter in metres to within a hundredth. -/
theorem pow5_table (pow5 : ℚ → ℚ)
    (hpow : ∀ x, 1 / 4 ≤ x → x ≤ 2 → |pow5 x - x ^ 5| ≤ x ^ 5 / 2 ^ 50)
    (d : Int) (ht : isTableDiameter d = true) :
    99 / 100 * ((d : ℚ) / 1000) ^ 5 ≤ pow5 (roundNearest ((d : ℚ) / 1000)) ∧
    pow5 (roundNearest ((d : ℚ) / 1000)) ≤ 101 / 100 * ((d : ℚ) / 1000) ^ 5 := by
  obtain ⟨h1, h2, h3, h4⟩ := roundNearest_diameter
  rw [isTableDiameter_iff] at ht
  rcases ht with h | h | h | h <;> subst h
  · have h5 : roundNearest (((500 : ℤ) : ℚ) / 1000) = 1 / 2 := by
      rw [show ((500 : ℤ) : ℚ) = 500 by norm_num]
      exact h1
    rw [h5]
    have := abs_le.mp (hpow (1 / 2) (by norm_num) (by norm_num))
    norm_num at this ⊢
    constructor <;> linarith [this.1, this.2]
  · have h5 : roundNearest (((700 : ℤ) : ℚ) / 1000) = 3152519739159347 / 2 ^ 52 := by
      rw [show ((700 : ℤ) : ℚ) = 700 by norm_num]
      exact h2
    rw [h5]
    have := abs_le.mp (hpow (3152519739159347 / 2 ^ 52) (by norm_num) (by norm_num))
    norm_num at this ⊢
    constructor <;> linarith [this.1, this.2]
  · have h5 : roundNearest (((1000 : ℤ) : ℚ) / 1000) = 1 := by
      rw [show ((1000 : ℤ) : ℚ) = 1000 by norm_num]
      exact h3
    rw [h5]
    have := abs_le.mp (hpow 1 (by norm_num) (by norm_num))
    norm_num at this ⊢
    constructor <;> linarith [this.1, this.2]
  · have h5 : roundNearest (((1400 : ℤ) : ℚ) / 1000) = 3152519739159347 / 2 ^ 51 := by
      rw [show ((1400 : ℤ) : ℚ) = 1400 by norm_num]
      exact h4
    rw [h5]
    have := abs_le.mp (hpow (3152519739159347 / 2 ^ 51) (by norm_num) (by norm_num))
    norm_num at this ⊢
    constructor <;> linarith [this.1, this.2]

/-- The table by diameter: the factor of the smaller diameter is at most
half that of the larger, and the fifth powers are more than a fiftieth
apart. -/
theorem table_order (d1 d2 : Int) (h1 : isTableDiameter d1 = true)
    (h2 : isTableDiameter d2 = true) (h : d1 < d2) :
    2 * (tableCapacity d1 / 100) ≤ tableCapacity d2 / 100 ∧
    101 / 100 * ((d1 : ℚ) / 1000) ^ 5 ≤ 99 / 100 * ((d2 : ℚ) / 1000) ^ 5 := by
  rw [isTableDiameter_iff] at h1 h2
  unfold tableCapacity
  rcases h1 with h1 | h1 | h1 | h1 <;> rcases h2 with h2 | h2 | h2 | h2 <;>
    subst h1 <;> subst h2 <;> first | (exfalso; omega) | (constructor <;> norm_num)

theorem table_bounds (d : Int) (ht : isTableDiameter d = true) :
    10 ≤ tableCapacity d / 100 ∧ (1 : ℚ) / 64 ≤ 99 / 100 * ((d : ℚ) / 1000) ^ 5 := by
  rw [isTableDiameter_iff] at ht
  unfold tableCapacity
  rcases ht with h | h | h | h <;> subst h <;> constructor <;> norm_num

set_option exponentiation.threshold 1100 in
/-- The value of `c * sqrt(pw / length_m)` for a positive `length_m = X`
before rounding: `0` when `X` is rounded beyond the largest finite number;
otherwise `+∞`, or a positive number that is computed without leaving the
finite numbers. -/
theorem capacityCore (sqrt : ℚ → ℚ) (hsqrt : ∀ x, 0 < x → min x 1 ≤ sqrt x)
    (c pw X : ℚ) (hc : 10 ≤ c) (hpw : 1 / 64 ≤ pw) (hX : 0 < X) :
    (2 ^ 1024 - 2 ^ 970 ≤ X ∧
      Double.mul (.fin c) (Double.sqrt sqrt (Double.div (.fin pw) (Double.ofExact X))) = .fin 0) ∨
    (X < 2 ^ 1024 - 2 ^ 970 ∧
      (Double.mul (.fin c) (Double.sqrt sqrt (Double.div (.fin pw) (Double.ofExact X))) = .pinf ∨
       (0 < roundNearest X ∧
        Double.mul (.fin c) (Double.sqrt sqrt (Double.div (.fin pw) (Double.ofExact X))) =
          .fin (roundNearest (c * sqrt (roundNearest (pw / roundNearest X)))) ∧
        1 / 2 ^ 1074 ≤ roundNearest (pw / roundNearest X) ∧
        1 / 2 ^ 1074 ≤ sqrt (roundNearest (pw / roundNearest X)) ∧
        1 / 2 ^ 1074 ≤ roundNearest (c * sqrt (roundNearest (pw / roundNearest X)))))) := by
  have hc0 : 0 < c := by linarith
  have hpw0 : 0 < pw := by linarith
  have hstep : (0 : ℚ) < 1 / 2 ^ 1074 := by positivity
  rcases ofExact_nonneg X (le_of_lt hX) with ⟨h1, h2⟩ | ⟨h1, h2, h3, h4⟩
  · left
    refine ⟨h1, ?_⟩
    rw [h2, Double.div_fin_pinf, Double.sqrt_fin, if_neg (lt_irrefl 0), if_pos rfl,
      Double.mul_fin_fin, mul_zero, ofExact_zero]
  · right
    refine ⟨h1, ?_⟩
    rw [h2, Double.div_fin_fin]
    rcases eq_or_lt_of_le h3 with h0 | hlm
    · left
      rw [if_pos h0.symm, if_pos hpw0]
      have : Double.sqrt sqrt .pinf = .pinf := rfl
      rw [this, Double.mul_fin_pinf, if_pos hc0]
    · rw [if_neg (ne_of_gt hlm)]
      have hq : 1 / 2 ^ 1075 < pw / roundNearest X := by
        rw [lt_div_iff₀ hlm]
        have h5 : (1 : ℚ) / 2 ^ 1075 * roundNearest X ≤ 1 / 2 ^ 1075 * DBL_MAX :=
          mul_le_mul_of_nonneg_left h4 (by positivity)
        have h6 : (1 : ℚ) / 2 ^ 1075 * DBL_MAX < 1 / 64 := by
          rw [DBL_MAX_eq]
          norm_num
        linarith
      rcases ofExact_pos _ hq with h7 | ⟨h7, h8⟩
      · left
        rw [h7]
        have : Double.sqrt sqrt .pinf = .pinf := rfl
        rw [this, Double.mul_fin_pinf, if_pos hc0]
      · have hq0 : 0 < roundNearest (pw / roundNearest X) := lt_of_lt_of_le hstep h8
        have hs : 1 / 2 ^ 1074 ≤ sqrt (roundNearest (pw / roundNearest X)) := by
          refine le_trans (le_min h8 ?_) (hsqrt _ hq0)
          rw [div_le_one (by positivity)]
          exact one_le_pow₀ (by norm_num)
        rw [h7, Double.sqrt_fin, if_neg (not_lt.mpr (le_of_lt hq0)), if_neg (ne_of_gt hq0),
          Double.mul_fin_fin]
        have hcs : 1 / 2 ^ 1075 < c * sqrt (roundNearest (pw / roundNearest X)) := by
          have h9 : (1 : ℚ) / 2 ^ 1075 < 1 / 2 ^ 1074 := by
            rw [pow_succ (2 : ℚ) 1074]
            apply div_lt_div_of_pos_left one_pos (by positivity)
            linarith [show (0 : ℚ) < 2 ^ 1074 by positivity]
          nlinarith
        rcases ofExact_pos _ hcs with h10 | ⟨h10, h11⟩
        · exact Or.inl h10
        · exact Or.inr ⟨hlm, h10, h8, hs, h11⟩

theorem capacity_overflow (sqrt : ℚ → ℚ) (c pw X : ℚ) (h : 2 ^ 1024 - 2 ^ 970 ≤ X) :
    Double.mul (.fin c) (Double.sqrt sqrt (Double.div (.fin pw) (Double.ofExact X))) = .fin 0 := by
  have hX : 0 ≤ X := by
    have : (2 : ℚ) ^ 970 < 2 ^ 1024 := pow_lt_pow_right₀ (by norm_num) (by norm_num)
    linarith
  rw [(ofExact_eq_pinf_iff X hX).mpr h, Double.div_fin_pinf, Double.sqrt_fin,
    if_neg (lt_irrefl 0), if_pos rfl, Double.mul_fin_fin, mul_zero, ofExact_zero]

set_option exponentiation.threshold 1100 in
theorem long_overflows : (2 : ℚ) ^ 1024 - 2 ^ 970 ≤ 10 ^ 306 * 1000 := by norm_num

/-- The capacity of a pipe in service that is `10^306` km long, whatever its
diameter in the table. -/
theorem getCapacityDouble_long (pow5 sqrt : ℚ → ℚ) (d : Int) (ht : isTableDiameter d = true) :
    (pipeInService d (10 ^ 306)).getCapacityDouble pow5 sqrt = .fin 0 := by
  rw [getCapacityDouble_table pow5 sqrt _ rfl ht]
  exact capacity_overflow sqrt _ _ _ long_overflows

theorem ofExact_congr (x y : ℚ) (h : roundNearest x = roundNearest y) :
    Double.ofExact x = Double.ofExact y := by
  unfold Double.ofExact
  rw [h]

/-- Two pipes in service of a diameter in the table whose lengths have the
same product with `1000.0` have the same capacity. -/
theorem getCapacityDouble_congr (pow5 sqrt : ℚ → ℚ) (d : Int) (ht : isTableDiameter d = true)
    (l1 l2 : ℚ) (h : roundNearest (l1 * 1000) = roundNearest (l2 * 1000)) :
    (pipeInService d l1).getCapacityDouble pow5 sqrt =
      (pipeInService d l2).getCapacityDouble pow5 sqrt := by
  rw [getCapacityDouble_table pow5 sqrt _ rfl ht, getCapacityDouble_table pow5 sqrt _ rfl ht]
  have h1 : (pipeInService d l1).length = l1 := rfl
  have h2 : (pipeInService d l2).length = l2 := rfl
  have h3 : (pipeInService d l1).diameter = d := rfl
  have h4 : (pipeInService d l2).diameter = d := rfl
  rw [h1, h2, h3, h4, ofExact_congr _ _ h]

/-! ## Claims -/

/-- C1 (fails on the code): on the store whose only connection is `1 → 2`,
over a pipe in service, the query from 2 to 1 returns distance 5 and the
path `[2, 1]`, for every amount of fuel from 2 on, although no connection
leads from 2 to 1: the search follows the backward edge that the builder
adds for the flow computation. -/
theorem dijkstra_follows_backward_edge (sqrt : ℚ → ℚ) (k : Nat) :
    dijkstraShortestPath sqrt storeAB (2 + k) 2 1 = some (.fin 5, [2, 1]) ∧
      ¬ ∃ conn ∈ storeAB.network, conn.startId = 2 ∧ conn.endId = 1 := by
  refine ⟨dijkstraShortestPath_mono sqrt storeAB 2 1 2 _ ?_ k, by decide⟩
  with_unfolding_all rfl

/-- C2 (fails on the code): whatever the store, the source and the sink,
every entry of the flow map returned by `edmondsKarpMaxFlow` is 0, because
the map is filled from the graph as built and not from the residual graph
that carries the pushed flow. -/
theorem flowMap_records_no_flow (sqrt : ℚ → ℚ) (s : PipelineSystem) (fuel : Nat)
    (sourceId sinkId : Int) (total : ℚ) (fm : List ((Int × Int) × ℚ))
    (h : edmondsKarpMaxFlow sqrt s fuel sourceId sinkId = some (total, fm)) :
    ∀ kv ∈ fm, kv.2 = 0 := by
  unfold edmondsKarpMaxFlow at h
  simp only at h
  by_cases hmem : (sourceId ∈ (buildGraphForAlgorithms sqrt s).2 ∧
      sinkId ∈ (buildGraphForAlgorithms sqrt s).2)
  · rw [if_neg (not_not.mpr hmem)] at h
    split at h
    · simp at h
    · simp only [Option.some.injEq, Prod.mk.injEq] at h
      rw [← h.2]
      exact flowMapOf_values _ _ (edges_build_flow_zero sqrt s)
  · rw [if_pos hmem] at h
    simp only [Option.some.injEq, Prod.mk.injEq] at h
    rw [← h.2]; simp

/-- C2, the series path `1 → 2 → 3` with capacities 1000 and 2500: the
total is 1000 and the map is `{(1,2): 0, (2,3): 0}`. -/
theorem flowMap_records_no_flow_witness :
    edmondsKarpMaxFlow (fun _ => 100) storeSeries 10 1 3
        = some (1000, [((1, 2), 0), ((2, 3), 0)]) ∧
      ∀ kv ∈ [(((1 : Int), (2 : Int)), (0 : ℚ)), ((2, 3), 0)], kv.2 = 0 :=
  ⟨by decide!, flowMap_records_no_flow (fun _ => 100) storeSeries 10 1 3 1000 _ (by decide!)⟩

/-- C7: for a store with distinct station ids, a non-empty network and no
directed cycle among the station-to-station connections, `topologicalSort`
(with fuel beyond the number of stations) prints an order that is a
rearrangement of the station ids, so it holds every station exactly once,
and in which `u` comes before `v` for every connection `u → v` between two
stations. -/
theorem topologicalSort_acyclic (s : PipelineSystem) (fuel : Nat)
    (hdist : (stationIds s).Nodup) (hnet : s.network ≠ [])
    (hac : ¬ HasStationCycle s) (hfuel : s.stations.length < fuel) :
    ∃ order, topologicalSort s fuel = some (.order order) ∧
      order.Perm (stationIds s) ∧ ∀ u v, StationEdge s u v → Before order u v := by
  obtain ⟨result, hres⟩ := kahnResult_terminates s fuel hfuel
  have hfin := kahnResult_final s fuel result hres
  have hperm := kahnFinal_perm_of_acyclic s result hfin hac hdist
  refine ⟨result, ?_, hperm, ?_⟩
  · rw [topologicalSort_eq s fuel result hnet hres]
    have hlen : result.length = s.stations.length := by
      rw [hperm.length_eq]; simp [stationIds]
    simp [hlen]
  · intro u v huv
    apply hfin.sound u v huv
    exact kahnFinal_all_of_acyclic s result hfin hac v huv.2.2

/-- C7 on the series store `1 → 2 → 3`. -/
theorem topologicalSort_acyclic_witness :
    ∃ order, topologicalSort storeSeries 4 = some (.order order) ∧
      order.Perm (stationIds storeSeries) ∧
      ∀ u v, StationEdge storeSeries u v → Before order u v :=
  topologicalSort_acyclic storeSeries 4 (by decide) (by decide)
    (by
      rintro ⟨v, hv⟩
      have hfin := kahnResult_final storeSeries 4 [1, 2, 3] (by decide)
      have hst := (transGen_fst_station storeSeries v v hv).1
      have hmem : v ∈ [(1 : Int), 2, 3] := by
        obtain ⟨st, hst1, hid⟩ := hst
        simp only [storeSeries, List.mem_cons, List.mem_singleton, List.not_mem_nil,
          or_false] at hst1
        rcases hst1 with rfl | rfl | rfl <;> simp [← hid]
      exact kahnFinal_cycle_not_mem storeSeries _ hfin v hv hmem)
    (by decide)

/-- C8: for a store with distinct station ids and a non-empty network,
`topologicalSort` (with fuel beyond the number of stations) reports a cycle
exactly when the station-to-station connections contain a directed cycle,
and this is exactly when the emitted list is shorter than the station
count. -/
theorem topologicalSort_cycle_iff (s : PipelineSystem) (fuel : Nat)
    (hdist : (stationIds s).Nodup) (hnet : s.network ≠ [])
    (hfuel : s.stations.length < fuel) :
    ∃ result, kahnResult s fuel = some result ∧
      ((∃ reported, topologicalSort s fuel = some (.cycle reported)) ↔ HasStationCycle s) ∧
      (result.length < s.stations.length ↔ HasStationCycle s) := by
  obtain ⟨result, hres⟩ := kahnResult_terminates s fuel hfuel
  have hfin := kahnResult_final s fuel result hres
  have heq := topologicalSort_eq s fuel result hnet hres
  have hlen : s.stations.length = (stationIds s).length := by simp [stationIds]
  refine ⟨result, hres, ?_⟩
  by_cases hcyc : HasStationCycle s
  · obtain ⟨v, hv⟩ := hcyc
    have hvr : v ∉ result := kahnFinal_cycle_not_mem s result hfin v hv
    have hvs : v ∈ stationIds s := by
      obtain ⟨st, hst, hid⟩ := (transGen_fst_station s v v hv).1
      exact List.mem_map.mpr ⟨st, hst, hid⟩
    have hsub : (v :: result) ⊆ stationIds s := by
      intro x hx
      rcases List.mem_cons.mp hx with rfl | hx
      · exact hvs
      · obtain ⟨st, hst, hid⟩ := hfin.stations x hx
        exact List.mem_map.mpr ⟨st, hst, hid⟩
    have hle := (List.subperm_of_subset (List.nodup_cons.mpr ⟨hvr, hfin.nodup⟩) hsub).length_le
    simp only [List.length_cons] at hle
    have hlt : result.length < s.stations.length := by omega
    have hne : result.length ≠ s.stations.length := by omega
    rw [if_pos hne] at heq
    exact ⟨⟨fun _ => ⟨v, hv⟩, fun _ => ⟨_, heq⟩⟩, ⟨fun _ => ⟨v, hv⟩, fun _ => hlt⟩⟩
  · have hperm := kahnFinal_perm_of_acyclic s result hfin hcyc hdist
    have hl : result.length = s.stations.length := by rw [hperm.length_eq, hlen]
    rw [if_neg (not_not.mpr hl)] at heq
    refine ⟨⟨?_, fun h => absurd h hcyc⟩, ⟨fun h => by omega, fun h => absurd h hcyc⟩⟩
    rintro ⟨reported, hrep⟩
    rw [heq] at hrep
    simp at hrep

/-- C8 on the store `1 → 2 → 3 → 1`. -/
theorem topologicalSort_cycle_iff_witness :
    ∃ result, kahnResult storeCycle 4 = some result ∧
      ((∃ reported, topologicalSort storeCycle 4 = some (.cycle reported)) ↔
        HasStationCycle storeCycle) ∧
      (result.length < storeCycle.stations.length ↔ HasStationCycle storeCycle) :=
  topologicalSort_cycle_iff storeCycle 4 (by decide) (by decide) (by decide)

/-- C9: whenever `topologicalSort` reports a cycle, the ids it lists are
exactly the ids of the stations that Kahn's loop did not emit, and every
station on a directed cycle of station-to-station connections is among
them. -/
theorem topologicalSort_cycle_report (s : PipelineSystem) (fuel : Nat) (reported : List Int)
    (h : topologicalSort s fuel = some (.cycle reported)) :
    ∃ result, kahnResult s fuel = some result ∧
      (∀ id, id ∈ reported ↔ (IsStationId s id ∧ id ∉ result)) ∧
      (∀ v, Relation.TransGen (StationEdge s) v v → v ∈ reported) := by
  have hnet : s.network ≠ [] := by
    intro hn
    unfold topologicalSort at h
    rw [if_pos hn] at h
    simp at h
  cases hres : kahnResult s fuel with
  | none =>
    unfold topologicalSort at h
    rw [if_neg hnet, hres] at h
    simp at h
  | some result =>
    have hfin := kahnResult_final s fuel result hres
    rw [topologicalSort_eq s fuel result hnet hres] at h
    by_cases hlen : result.length ≠ s.stations.length
    case neg => rw [if_neg hlen] at h; simp at h
    rw [if_pos hlen] at h
    simp only [Option.some.injEq, TopoResult.cycle.injEq] at h
    have hrep : ∀ id, id ∈ reported ↔ (IsStationId s id ∧ id ∉ result) := by
      intro id
      rw [← h]
      simp only [List.mem_map, List.mem_filter, decide_eq_true_eq, IsStationId]
      constructor
      · rintro ⟨st, ⟨hst, hnot⟩, rfl⟩
        exact ⟨⟨st, hst, rfl⟩, hnot⟩
      · rintro ⟨⟨st, hst, rfl⟩, hnot⟩
        exact ⟨st, ⟨hst, hnot⟩, rfl⟩
    refine ⟨result, rfl, hrep, ?_⟩
    intro v hv
    exact (hrep v).mpr ⟨(transGen_fst_station s v v hv).1,
      kahnFinal_cycle_not_mem s result hfin v hv⟩

/-- C9 on the store `1 → 2 → 3 → 1`: the report lists 1, 2 and 3. -/
theorem topologicalSort_cycle_report_witness :
    topologicalSort storeCycle 4 = some (.cycle [1, 2, 3]) ∧
    ∃ result, kahnResult storeCycle 4 = some result ∧
      (∀ id, id ∈ [(1 : Int), 2, 3] ↔ (IsStationId storeCycle id ∧ id ∉ result)) ∧
      (∀ v, Relation.TransGen (StationEdge storeCycle) v v → v ∈ [(1 : Int), 2, 3]) :=
  ⟨by decide, topologicalSort_cycle_report storeCycle 4 [1, 2, 3] (by decide)⟩

/-- C10: when the station ids are, in some store order, the distinct ids
of a chain `a, b, …` and the connections between two stations are exactly
the arcs of that chain, each to the next, `topologicalSort` (with fuel
beyond the number of stations) prints exactly the chain. -/
theorem topologicalSort_chain (s : PipelineSystem) (fuel : Nat) (a b : Int) (rest : List Int)
    (hnd : (a :: b :: rest).Nodup)
    (hst : (stationIds s).Perm (a :: b :: rest))
    (hedges : (stationEdges s).Perm ((a :: b :: rest).zip (b :: rest)))
    (hfuel : s.stations.length < fuel) :
    topologicalSort s fuel = some (.order (a :: b :: rest)) := by
  have hE : ∀ u v, StationEdge s u v ↔ (u, v) ∈ (a :: b :: rest).zip (b :: rest) := by
    intro u v
    rw [← mem_stationEdges, hedges.mem_iff]
  have htg : ∀ u v, Relation.TransGen (StationEdge s) u v →
      (a :: b :: rest).indexOf u < (a :: b :: rest).indexOf v := by
    intro u v huv
    induction huv with
    | single hedge => exact zip_tail_indexOf_lt _ hnd _ _ ((hE _ _).mp hedge)
    | tail _ hedge ih => exact lt_trans ih (zip_tail_indexOf_lt _ hnd _ _ ((hE _ _).mp hedge))
  have hac : ¬ HasStationCycle s := by
    rintro ⟨v, hv⟩
    exact lt_irrefl _ (htg v v hv)
  have hnet : s.network ≠ [] := by
    intro hn
    have hnil : stationEdges s = [] := by unfold stationEdges; rw [hn]; rfl
    rw [hnil] at hedges
    have := hedges.length_eq
    simp at this
  have hdist : (stationIds s).Nodup := hst.nodup_iff.mpr hnd
  obtain ⟨order, hkahn⟩ := kahnResult_terminates s fuel hfuel
  have hfin := kahnResult_final s fuel order hkahn
  have hperm := kahnFinal_perm_of_acyclic s order hfin hac hdist
  have hres : topologicalSort s fuel = some (.order order) := by
    rw [topologicalSort_eq s fuel order hnet hkahn]
    have hlen : order.length = s.stations.length := by
      rw [hperm.length_eq]; simp [stationIds]
    simp [hlen]
  have hbefore : ∀ u v, StationEdge s u v → Before order u v := fun u v huv =>
    hfin.sound u v huv (kahnFinal_all_of_acyclic s order hfin hac v huv.2.2)
  have hond : order.Nodup := hfin.nodup
  have hpc : order.Perm (a :: b :: rest) := hperm.trans hst
  haveI : IsTrans Int (fun x y => order.indexOf x < order.indexOf y) :=
    ⟨fun _ _ _ h1 h2 => lt_trans h1 h2⟩
  haveI : IsAntisymm Int (fun x y => order.indexOf x < order.indexOf y) :=
    ⟨fun _ _ h1 h2 => absurd h2 (lt_asymm h1)⟩
  have hs1 : List.Sorted (fun x y => order.indexOf x < order.indexOf y) order :=
    pairwise_indexOf_of_nodup order hond
  have hs2 : List.Sorted (fun x y => order.indexOf x < order.indexOf y) (a :: b :: rest) := by
    apply List.chain'_iff_pairwise.mp
    apply chain'_of_zip_tail
    intro p hp
    exact ((hbefore p.1 p.2 ((hE p.1 p.2).mpr hp)).indexOf_lt hond).2
  rw [hres, List.eq_of_perm_of_sorted hpc hs1 hs2]

/-- C10 on stations 1, 2, 3 with the connections `1 → 2 → 3`: the output
is `[1, 2, 3]`. -/
theorem topologicalSort_chain_witness :
    topologicalSort storeSeries 4 = some (.order [1, 2, 3]) :=
  topologicalSort_chain storeSeries 4 1 2 [3] (by decide) (by decide) (by decide) (by decide)

/-- C3: for a store whose pipes have non-negative capacities and a source
and a sink that are distinct nodes of the built graph, `edmondsKarpMaxFlow`
returns with enough fuel, and the total it returns is at most the capacity
of every cut that has the source on one side and the sink on the other,
hence at most the least such capacity. -/
theorem maxFlow_le_cut (sqrt : ℚ → ℚ) (s : PipelineSystem) (sourceId sinkId : Int)
    (hcap : ∀ p ∈ s.pipes, 0 ≤ p.getCapacity sqrt) (hne : sourceId ≠ sinkId)
    (hsrc : sourceId ∈ (buildGraphForAlgorithms sqrt s).2)
    (hsnk : sinkId ∈ (buildGraphForAlgorithms sqrt s).2) :
    ∃ fuel0, ∀ fuel, fuel0 ≤ fuel →
      ∃ total fm, edmondsKarpMaxFlow sqrt s fuel sourceId sinkId = some (total, fm) ∧
        ∀ S : Int → Bool, S sourceId = true → S sinkId = false →
          total ≤ cutCapacity sqrt s S := by
  rw [build_nodes] at hsrc hsnk
  obtain ⟨fuel0, h⟩ := edmondsKarpResidual_spec sqrt s sourceId sinkId hcap hne hsrc hsnk
  refine ⟨fuel0, fun fuel hfuel => ?_⟩
  obtain ⟨total, g, hres, hinv⟩ := h fuel hfuel
  obtain ⟨fm, hfm⟩ := edmondsKarpMaxFlow_of_residual sqrt s fuel sourceId sinkId total g hres
  refine ⟨total, fm, hfm, fun S hS1 hS2 => ?_⟩
  rw [← arcCut_eq_cutCapacity]
  apply flow_le_cut _ _ _ _ g total (arcsOf_valid sqrt s) (idToIndex_lt _ _ hsrc) hinv
  · simp only [getD_idToIndex _ _ hsrc, hS1]
  · simp only [getD_idToIndex _ _ hsnk, hS2]

/-- C3 on the series store `1 → 2 → 3` with capacities 1000 and 2500. -/
theorem maxFlow_le_cut_witness :
    ∃ fuel0, ∀ fuel, fuel0 ≤ fuel →
      ∃ total fm, edmondsKarpMaxFlow (fun _ => 100) storeSeries fuel 1 3 = some (total, fm) ∧
        ∀ S : Int → Bool, S 1 = true → S 3 = false →
          total ≤ cutCapacity (fun _ => 100) storeSeries S :=
  maxFlow_le_cut (fun _ => 100) storeSeries 1 3
    (fun p _ => getCapacity_nonneg _ (fun _ => by norm_num) p) (by decide) (by decide)
    (by decide)

/-- C5: for every store and every source and sink with different ids,
`edmondsKarpMaxFlow` returns with enough fuel, and the residual graph at
the exit of its loop is the built graph with some flow on the forward edge
of every connection (and the negated flow on the backward edge) such that
at every node other than the source and the sink the flow on the entering
connections equals the flow on the leaving ones, and the returned total is
the flow leaving the source minus the flow entering it. The square root is
taken to be non-negative. -/
theorem maxFlow_conservation (sqrt : ℚ → ℚ) (s : PipelineSystem) (sourceId sinkId : Int)
    (hsqrt : ∀ x, 0 ≤ sqrt x) (hne : sourceId ≠ sinkId) :
    ∃ fuel0, ∀ fuel, fuel0 ≤ fuel →
      ∃ (total : ℚ) (residual : Graph) (fa : List (Arc × ℚ)),
        edmondsKarpResidual sqrt s fuel sourceId sinkId = some (total, residual) ∧
        (∃ fm, edmondsKarpMaxFlow sqrt s fuel sourceId sinkId = some (total, fm)) ∧
        fa.map Prod.fst = arcsOf sqrt s ∧
        residual = buildArcs (buildGraphForAlgorithms sqrt s).2.length fa ∧
        (∀ y, y ≠ idToIndex (buildGraphForAlgorithms sqrt s).2 sourceId →
          y ≠ idToIndex (buildGraphForAlgorithms sqrt s).2 sinkId →
          inflow fa y = outflow fa y) ∧
        total = outflow fa (idToIndex (buildGraphForAlgorithms sqrt s).2 sourceId)
          - inflow fa (idToIndex (buildGraphForAlgorithms sqrt s).2 sourceId) := by
  have hcap : ∀ p ∈ s.pipes, 0 ≤ p.getCapacity sqrt := fun p _ => getCapacity_nonneg sqrt hsqrt p
  rw [build_nodes]
  have hfinish : ∀ fuel total g,
      edmondsKarpResidual sqrt s fuel sourceId sinkId = some (total, g) →
      FlowInv (collectNodes s.network).length (idToIndex (collectNodes s.network) sourceId)
        (idToIndex (collectNodes s.network) sinkId) (arcsOf sqrt s) g total →
      ∃ (total : ℚ) (residual : Graph) (fa : List (Arc × ℚ)),
        edmondsKarpResidual sqrt s fuel sourceId sinkId = some (total, residual) ∧
        (∃ fm, edmondsKarpMaxFlow sqrt s fuel sourceId sinkId = some (total, fm)) ∧
        fa.map Prod.fst = arcsOf sqrt s ∧
        residual = buildArcs (collectNodes s.network).length fa ∧
        (∀ y, y ≠ idToIndex (collectNodes s.network) sourceId →
          y ≠ idToIndex (collectNodes s.network) sinkId → inflow fa y = outflow fa y) ∧
        total = outflow fa (idToIndex (collectNodes s.network) sourceId)
          - inflow fa (idToIndex (collectNodes s.network) sourceId) := by
    intro fuel total g hres hinv
    obtain ⟨_, fa, hfa, hg, hcons, htot⟩ := hinv
    refine ⟨total, g, fa, hres, edmondsKarpMaxFlow_of_residual sqrt s fuel _ _ total g hres,
      hfa, hg, ?_, ?_⟩
    · intro y h1 h2
      have := hcons y h1 h2
      rw [netOut_eq] at this
      linarith
    · rw [← htot, netOut_eq]
  by_cases hmem : (sourceId ∈ collectNodes s.network ∧ sinkId ∈ collectNodes s.network)
  · obtain ⟨fuel0, h⟩ := edmondsKarpResidual_spec sqrt s sourceId sinkId hcap hne hmem.1 hmem.2
    refine ⟨fuel0, fun fuel hfuel => ?_⟩
    obtain ⟨total, g, hres, hinv⟩ := h fuel hfuel
    exact hfinish fuel total g hres hinv
  · refine ⟨0, fun fuel _ => ?_⟩
    apply hfinish fuel 0 (buildGraphForAlgorithms sqrt s).1
    · unfold edmondsKarpResidual
      simp only [build_nodes]
      rw [if_pos hmem]
    · exact flowInv_init sqrt s _ _ hcap

/-- C5 on the series store `1 → 2 → 3`. -/
theorem maxFlow_conservation_witness :
    ∃ fuel0, ∀ fuel, fuel0 ≤ fuel →
      ∃ (total : ℚ) (residual : Graph) (fa : List (Arc × ℚ)),
        edmondsKarpResidual (fun _ => 100) storeSeries fuel 1 3 = some (total, residual) ∧
        (∃ fm, edmondsKarpMaxFlow (fun _ => 100) storeSeries fuel 1 3 = some (total, fm)) ∧
        fa.map Prod.fst = arcsOf (fun _ => 100) storeSeries ∧
        residual = buildArcs (buildGraphForAlgorithms (fun _ => 100) storeSeries).2.length fa ∧
        (∀ y, y ≠ idToIndex (buildGraphForAlgorithms (fun _ => 100) storeSeries).2 1 →
          y ≠ idToIndex (buildGraphForAlgorithms (fun _ => 100) storeSeries).2 3 →
          inflow fa y = outflow fa y) ∧
        total = outflow fa (idToIndex (buildGraphForAlgorithms (fun _ => 100) storeSeries).2 1)
          - inflow fa (idToIndex (buildGraphForAlgorithms (fun _ => 100) storeSeries).2 1) :=
  maxFlow_conservation (fun _ => 100) storeSeries 1 3 (fun _ => by norm_num) (by decide)

/-- C6: for a store and a source and a sink that are distinct nodes of the
built graph, `edmondsKarpMaxFlow` returns with enough fuel, so its loop
terminates; at every state the loop passes through, the total is at most
the sum of the capacities of the connections leaving the source, and a pass
that does not stop adds a bottleneck above `1e-9`. The square root is taken
to be non-negative. -/
theorem maxFlow_terminates (sqrt : ℚ → ℚ) (s : PipelineSystem) (sourceId sinkId : Int)
    (hsqrt : ∀ x, 0 ≤ sqrt x) (hne : sourceId ≠ sinkId)
    (hsrc : sourceId ∈ (buildGraphForAlgorithms sqrt s).2)
    (hsnk : sinkId ∈ (buildGraphForAlgorithms sqrt s).2) :
    ∃ fuel0, ∀ fuel, fuel0 ≤ fuel →
      (∃ total fm, edmondsKarpMaxFlow sqrt s fuel sourceId sinkId = some (total, fm) ∧
        total ≤ sourceOutCapacity sqrt s sourceId) ∧
      ∀ g total,
        Reached fuel (idToIndex (buildGraphForAlgorithms sqrt s).2 sourceId)
          (idToIndex (buildGraphForAlgorithms sqrt s).2 sinkId)
          (buildGraphForAlgorithms sqrt s).2.length (buildGraphForAlgorithms sqrt s).1 g total →
        total ≤ sourceOutCapacity sqrt s sourceId ∧
        ∀ pathFlow g1,
          augmentOnce fuel (idToIndex (buildGraphForAlgorithms sqrt s).2 sourceId)
            (idToIndex (buildGraphForAlgorithms sqrt s).2 sinkId)
            (buildGraphForAlgorithms sqrt s).2.length g = some (some (pathFlow, g1)) →
          eps < pathFlow := by
  have hcap : ∀ p ∈ s.pipes, 0 ≤ p.getCapacity sqrt := fun p _ => getCapacity_nonneg sqrt hsqrt p
  rw [build_nodes] at hsrc hsnk ⊢
  have hs := idToIndex_lt _ _ hsrc
  have hne' : idToIndex (collectNodes s.network) sourceId
      ≠ idToIndex (collectNodes s.network) sinkId :=
    fun h => hne (idToIndex_inj _ _ _ hsrc h)
  have hbound : ∀ g total,
      FlowInv (collectNodes s.network).length (idToIndex (collectNodes s.network) sourceId)
        (idToIndex (collectNodes s.network) sinkId) (arcsOf sqrt s) g total →
      total ≤ sourceOutCapacity sqrt s sourceId := by
    intro g total hinv
    refine le_trans ?_ (cutCapacity_source_le sqrt s hcap sourceId)
    rw [← arcCut_eq_cutCapacity]
    apply flow_le_cut _ _ _ _ g total (arcsOf_valid sqrt s) hs hinv
    · simp only [getD_idToIndex _ _ hsrc, decide_True]
    · simp only [getD_idToIndex _ _ hsnk]
      simpa using Ne.symm hne
  obtain ⟨fuel0, h⟩ := edmondsKarpResidual_spec sqrt s sourceId sinkId hcap hne hsrc hsnk
  refine ⟨max fuel0 ((collectNodes s.network).length + 1), fun fuel hfuel => ⟨?_, ?_⟩⟩
  · obtain ⟨total, g, hres, hinv⟩ := h fuel (le_trans (le_max_left _ _) hfuel)
    obtain ⟨fm, hfm⟩ := edmondsKarpMaxFlow_of_residual sqrt s fuel sourceId sinkId total g hres
    exact ⟨total, fm, hfm, hbound g total hinv⟩
  · intro g total hreach
    have hinner : (collectNodes s.network).length < fuel := by
      have := le_trans (le_max_right fuel0 ((collectNodes s.network).length + 1)) hfuel
      omega
    have hinv := reached_flowInv _ _ _ (arcsOf sqrt s) fuel _ (arcsOf_valid sqrt s) hs hne'
      hinner (flowInv_init sqrt s _ _ hcap) g total hreach
    refine ⟨hbound g total hinv, fun pathFlow g1 hstep => ?_⟩
    rcases augmentOnce_spec _ _ _ (arcsOf sqrt s) g total fuel (arcsOf_valid sqrt s) hs hne'
      hinner hinv with h1 | ⟨f, g', h1, hf, _⟩
    · rw [h1] at hstep; simp at hstep
    · rw [h1] at hstep
      simp only [Option.some.injEq, Prod.mk.injEq] at hstep
      rw [← hstep.1]
      exact hf

/-- C6 on the series store `1 → 2 → 3`. -/
theorem maxFlow_terminates_witness :
    ∃ fuel0, ∀ fuel, fuel0 ≤ fuel →
      (∃ total fm, edmondsKarpMaxFlow (fun _ => 100) storeSeries fuel 1 3 = some (total, fm) ∧
        total ≤ sourceOutCapacity (fun _ => 100) storeSeries 1) ∧
      ∀ g total,
        Reached fuel (idToIndex (buildGraphForAlgorithms (fun _ => 100) storeSeries).2 1)
          (idToIndex (buildGraphForAlgorithms (fun _ => 100) storeSeries).2 3)
          (buildGraphForAlgorithms (fun _ => 100) storeSeries).2.length
          (buildGraphForAlgorithms (fun _ => 100) storeSeries).1 g total →
        total ≤ sourceOutCapacity (fun _ => 100) storeSeries 1 ∧
        ∀ pathFlow g1,
          augmentOnce fuel (idToIndex (buildGraphForAlgorithms (fun _ => 100) storeSeries).2 1)
            (idToIndex (buildGraphForAlgorithms (fun _ => 100) storeSeries).2 3)
            (buildGraphForAlgorithms (fun _ => 100) storeSeries).2.length g
              = some (some (pathFlow, g1)) →
          eps < pathFlow :=
  maxFlow_terminates (fun _ => 100) storeSeries 1 3 (fun _ => by norm_num) (by decide)
    (by decide) (by decide)

/-- C4: when the network consists of two connections in series over three
different nodes, `s → m` and `m → t`, in either order of creation, and both
carry a capacity above `1e-9`, `edmondsKarpMaxFlow(s, t)` returns with
enough fuel and its total is the smaller of the two capacities. -/
theorem maxFlow_series (sqrt : ℚ → ℚ) (st : PipelineSystem) (conn1 conn2 : NetworkConnection)
    (hnet : st.network = [conn1, conn2] ∨ st.network = [conn2, conn1])
    (hser : conn1.endId = conn2.startId)
    (hd1 : conn1.startId ≠ conn1.endId) (hd2 : conn2.startId ≠ conn2.endId)
    (hd3 : conn1.startId ≠ conn2.endId)
    (hc1 : eps < connCapacity sqrt st conn1) (hc2 : eps < connCapacity sqrt st conn2) :
    ∃ fuel0, ∀ fuel, fuel0 ≤ fuel →
      ∃ fm, edmondsKarpMaxFlow sqrt st fuel conn1.startId conn2.endId
        = some (min (connCapacity sqrt st conn1) (connCapacity sqrt st conn2), fm) := by
  have hm1 : conn1 ∈ st.network := by rcases hnet with h | h <;> rw [h] <;> simp
  have hm2 : conn2 ∈ st.network := by rcases hnet with h | h <;> rw [h] <;> simp
  have hn1s := (mem_collectNodes st.network _).mpr ⟨conn1, hm1, Or.inl rfl⟩
  have hn1e := (mem_collectNodes st.network _).mpr ⟨conn1, hm1, Or.inr rfl⟩
  have hn2s := (mem_collectNodes st.network _).mpr ⟨conn2, hm2, Or.inl rfl⟩
  have hn2e := (mem_collectNodes st.network _).mpr ⟨conn2, hm2, Or.inr rfl⟩
  obtain ⟨a1, ha1, hcap1, hs1, ht1⟩ : ∃ a, arcOf sqrt st (collectNodes st.network) conn1 = some a ∧
      a.cap = connCapacity sqrt st conn1 ∧ a.s = idToIndex (collectNodes st.network) conn1.startId ∧
      a.t = idToIndex (collectNodes st.network) conn1.endId := by
    rcases arcOf_cap sqrt st (collectNodes st.network) conn1 with ⟨_, h0⟩ | h
    · rw [h0] at hc1
      exact absurd hc1 (not_lt.mpr (le_of_lt eps_pos))
    · exact h
  obtain ⟨a2, ha2, hcap2, hs2, ht2⟩ : ∃ a, arcOf sqrt st (collectNodes st.network) conn2 = some a ∧
      a.cap = connCapacity sqrt st conn2 ∧ a.s = idToIndex (collectNodes st.network) conn2.startId ∧
      a.t = idToIndex (collectNodes st.network) conn2.endId := by
    rcases arcOf_cap sqrt st (collectNodes st.network) conn2 with ⟨_, h0⟩ | h
    · rw [h0] at hc2
      exact absurd hc2 (not_lt.mpr (le_of_lt eps_pos))
    · exact h
  have harcs : arcsOf sqrt st = [a1, a2] ∨ arcsOf sqrt st = [a2, a1] := by
    unfold arcsOf
    have hfm : ∀ (L : List NetworkConnection) (c d : NetworkConnection) (a b : Arc),
        arcOf sqrt st (collectNodes st.network) c = some a →
        arcOf sqrt st (collectNodes st.network) d = some b → L = [c, d] →
        L.filterMap (arcOf sqrt st (collectNodes st.network)) = [a, b] := by
      intro L c d a b hc hd hL
      subst hL
      simp [List.filterMap_cons, hc, hd]
    rcases hnet with h | h
    · exact Or.inl (hfm _ _ _ _ _ ha1 ha2 h)
    · exact Or.inr (hfm _ _ _ _ _ ha2 ha1 h)
  have hnonneg : ∀ a ∈ arcsOf sqrt st, 0 ≤ a.cap := by
    intro a ha
    rcases harcs with h | h <;> rw [h] at ha <;>
      simp only [List.mem_cons, List.mem_singleton, List.not_mem_nil, or_false] at ha <;>
      rcases ha with rfl | rfl <;> linarith [eps_pos]
  have e12 : a1.t = a2.s := by rw [ht1, hs2, hser]
  have d1 : a1.s ≠ a1.t := by
    rw [hs1, ht1]; exact fun h => hd1 (idToIndex_inj _ _ _ hn1s h)
  have d2 : a2.s ≠ a2.t := by
    rw [hs2, ht2]; exact fun h => hd2 (idToIndex_inj _ _ _ hn2s h)
  have d3 : a1.s ≠ a2.t := by
    rw [hs1, ht2]; exact fun h => hd3 (idToIndex_inj _ _ _ hn1s h)
  have v1 : a1.s < (collectNodes st.network).length ∧ a1.t < (collectNodes st.network).length := by
    rw [hs1, ht1]; exact ⟨idToIndex_lt _ _ hn1s, idToIndex_lt _ _ hn1e⟩
  have v2 : a2.s < (collectNodes st.network).length ∧ a2.t < (collectNodes st.network).length := by
    rw [hs2, ht2]; exact ⟨idToIndex_lt _ _ hn2s, idToIndex_lt _ _ hn2e⟩
  obtain ⟨fuel0, h⟩ := series_core (collectNodes st.network).length (arcsOf sqrt st) a1 a2
    (buildGraphForAlgorithms sqrt st).1 harcs e12 d1 d2 d3 v1 v2 (by rw [hcap1]; exact hc1)
    (by rw [hcap2]; exact hc2) (build_eq sqrt st) (flowInv_init_arcs sqrt st _ _ hnonneg)
  refine ⟨fuel0, fun fuel hfuel => ?_⟩
  obtain ⟨g, hg⟩ := h fuel hfuel
  apply edmondsKarpMaxFlow_of_residual sqrt st fuel _ _ _ g
  unfold edmondsKarpResidual
  simp only [build_nodes]
  rw [if_neg (not_not.mpr ⟨hn1s, hn2e⟩), ← hs1, ← ht2, ← hcap1, ← hcap2]
  exact hg

/-- C4 on the series store `1 → 2 → 3` with capacities 1000 and 2500: the
total is 1000. -/
theorem maxFlow_series_witness :
    (∃ fuel0, ∀ fuel, fuel0 ≤ fuel →
      ∃ fm, edmondsKarpMaxFlow (fun _ => 100) storeSeries fuel 1 3
        = some (min (connCapacity (fun _ => 100) storeSeries
              ⟨1, 1, 2, .STATION_TO_STATION, .STATION_TO_STATION⟩)
            (connCapacity (fun _ => 100) storeSeries
              ⟨2, 2, 3, .STATION_TO_STATION, .STATION_TO_STATION⟩), fm)) ∧
    min (connCapacity (fun _ => 100) storeSeries
          ⟨1, 1, 2, .STATION_TO_STATION, .STATION_TO_STATION⟩)
        (connCapacity (fun _ => 100) storeSeries
          ⟨2, 2, 3, .STATION_TO_STATION, .STATION_TO_STATION⟩) = 1000 :=
  ⟨maxFlow_series (fun _ => 100) storeSeries
      ⟨1, 1, 2, .STATION_TO_STATION, .STATION_TO_STATION⟩
      ⟨2, 2, 3, .STATION_TO_STATION, .STATION_TO_STATION⟩
      (Or.inl rfl) rfl (by decide) (by decide) (by decide) (by decide!) (by decide!),
    by decide!⟩

/-- C17: `getObjectInfo` resolves an id to a station whenever some station
has it (whether or not a pipe has it too), to a pipe only when no station
has it and some pipe does, and returns no index exactly when neither has it;
the index returned is the position of the first station, or else of the first
pipe, with the id. -/
theorem getObjectInfo_resolves (s : PipelineSystem) (id : Int) :
    (IsStationId s id → ∃ i, getObjectInfo s id = (true, some i) ∧
        IsFirst (fun st => st.id = id) s.stations i) ∧
    (¬ IsStationId s id → IsPipeId s id → ∃ i, getObjectInfo s id = (false, some i) ∧
        IsFirst (fun p => p.id = id) s.pipes i) ∧
    (∀ i, getObjectInfo s id = (false, some i) → ¬ IsStationId s id ∧ IsPipeId s id) ∧
    ((getObjectInfo s id).2 = none ↔ (¬ IsStationId s id ∧ ¬ IsPipeId s id)) := by
  rcases getObjectInfo_cases s id with ⟨h1, i, hi, hf⟩ | ⟨h1, h2, i, hi, hf⟩ | ⟨h1, h2, hi⟩
  · refine ⟨fun _ => ⟨i, hi, hf⟩, fun h => absurd h1 h, ?_, ?_⟩
    · intro j hj; rw [hi] at hj; simp at hj
    · rw [hi]; simp [h1]
  · refine ⟨fun h => absurd h h1, fun _ _ => ⟨i, hi, hf⟩, fun _ _ => ⟨h1, h2⟩, ?_⟩
    rw [hi]; simp [h2]
  · refine ⟨fun h => absurd h h1, fun _ h => absurd h h2, ?_, ?_⟩
    · intro j hj; rw [hi] at hj; simp at hj
    · rw [hi]; simp [h1, h2]

/-- C12: `canConnectObjects` accepts a request exactly when the two ids
differ, each is the id of a station or of a pipe, neither resolves to a pipe
under repair, no connection with the same start and end exists, and, when
both resolve to pipes, both pipes have the requested diameter. A request
from an id to itself is therefore rejected in every store, and so is one
between pipes of diameter 500 and 700 with diameter 500. -/
theorem canConnectObjects_accepts_iff (s : PipelineSystem) (startId endId diameter : Int) :
    (canConnectObjects s startId endId diameter = true ↔
      (startId ≠ endId ∧
       (IsStationId s startId ∨ IsPipeId s startId) ∧
       (IsStationId s endId ∨ IsPipeId s endId) ∧
       (∀ p, ResolvesToPipe s startId p → p.underRepair = false) ∧
       (∀ p, ResolvesToPipe s endId p → p.underRepair = false) ∧
       (∀ conn ∈ s.network, ¬ (conn.startId = startId ∧ conn.endId = endId)) ∧
       (∀ p q, ResolvesToPipe s startId p → ResolvesToPipe s endId q →
          p.diameter = diameter ∧ q.diameter = diameter))) ∧
    canConnectObjects s 5 5 500 = false ∧
    (∀ p q, ResolvesToPipe s startId p → ResolvesToPipe s endId q →
      p.diameter = 500 → q.diameter = 700 → canConnectObjects s startId endId 500 = false) := by
  refine ⟨canConnectObjects_eq_true s startId endId diameter, ?_, ?_⟩
  · simp [canConnectObjects]
  · intro p q hp hq hpd hqd
    cases hc : canConnectObjects s startId endId 500 with
    | false => rfl
    | true =>
      have := ((canConnectObjects_eq_true s startId endId 500).mp hc).2.2.2.2.2.2 p q hp hq
      omega

/-- C13: a request that `canConnectObjects` rejects leaves the store as it
was: pipes, stations, connections and both counters. -/
theorem connectObjects_rejected_unchanged (s : PipelineSystem) (inp : ConnectInput)
    (h : canConnectObjects s inp.startId inp.endId inp.diameter = false) :
    connectObjects s inp = s ∧
    (connectObjects s inp).pipes = s.pipes ∧ (connectObjects s inp).stations = s.stations ∧
    (connectObjects s inp).network = s.network ∧
    (connectObjects s inp).nextPipeId = s.nextPipeId ∧
    (connectObjects s inp).nextStationId = s.nextStationId := by
  rw [connectObjects_of_rejected s inp h]
  exact ⟨rfl, rfl, rfl, rfl, rfl, rfl⟩

/-- C13 on the store `1 → 2`, asked for the connection `1 → 2` a second time. -/
theorem connectObjects_rejected_unchanged_witness :
    canConnectObjects storeAB 1 2 500 = false ∧
    connectObjects storeAB ⟨1, 1, 2, 500, "p", 1⟩ = storeAB ∧
    (connectObjects storeAB ⟨1, 1, 2, 500, "p", 1⟩).pipes = storeAB.pipes ∧
    (connectObjects storeAB ⟨1, 1, 2, 500, "p", 1⟩).stations = storeAB.stations ∧
    (connectObjects storeAB ⟨1, 1, 2, 500, "p", 1⟩).network = storeAB.network ∧
    (connectObjects storeAB ⟨1, 1, 2, 500, "p", 1⟩).nextPipeId = storeAB.nextPipeId ∧
    (connectObjects storeAB ⟨1, 1, 2, 500, "p", 1⟩).nextStationId = storeAB.nextStationId :=
  ⟨by decide, connectObjects_rejected_unchanged storeAB ⟨1, 1, 2, 500, "p", 1⟩ (by decide)⟩

/-- C14: on an accepted request, if some pipe of the diameter is neither in
use nor under repair, the first such pipe in store order is marked in use
with the two ids of the request and nothing else in the pipe list or the
counters changes; otherwise a pipe with the id `nextPipeId` and the diameter
is appended, in use with the two ids, and `nextPipeId` grows by one. In both
cases one connection (pipe id, startId, endId) is appended, and its two type
tags are `determineConnectionType` of how the two ids resolve. -/
theorem connectObjects_accepted (s : PipelineSystem) (inp : ConnectInput)
    (hacc : canConnectObjects s inp.startId inp.endId inp.diameter = true) :
    (∀ i p, s.pipes.get? i = some p → IsFirst (IsAvailable inp.diameter) s.pipes i →
      connectObjects s inp =
        { s with
          pipes := s.pipes.set i
            { p with inUse := true, startId := inp.startId, endId := inp.endId,
                     startType := requestTag s inp.startId inp.endId,
                     endType := requestTag s inp.startId inp.endId },
          network := s.network ++
            [⟨p.id, inp.startId, inp.endId,
              determineConnectionType (getObjectInfo s inp.startId).1 (getObjectInfo s inp.endId).1,
              determineConnectionType (getObjectInfo s inp.startId).1
                (getObjectInfo s inp.endId).1⟩] }) ∧
    ((∀ p ∈ s.pipes, ¬ IsAvailable inp.diameter p) →
      connectObjects s inp =
        { s with
          pipes := s.pipes ++
            [⟨s.nextPipeId, inp.name, inp.length, inp.diameter, false, true, inp.startId,
              inp.endId, requestTag s inp.startId inp.endId,
              requestTag s inp.startId inp.endId⟩],
          network := s.network ++
            [⟨s.nextPipeId, inp.startId, inp.endId,
              determineConnectionType (getObjectInfo s inp.startId).1 (getObjectInfo s inp.endId).1,
              determineConnectionType (getObjectInfo s inp.startId).1
                (getObjectInfo s inp.endId).1⟩],
          nextPipeId := s.nextPipeId + 1 }) := by
  constructor
  · intro i p hp hfirst
    rw [connectObjects_of_accepted s inp hacc,
      (findAvailablePipeByDiameter_eq_some s inp.diameter i).mpr hfirst]
    simp only [hp]
    rfl
  · intro hnone
    rw [connectObjects_of_accepted s inp hacc,
      (findAvailablePipeByDiameter_eq_none s inp.diameter).mpr hnone]
    rfl

/-- C14 on two stations and free pipes of diameter 700, 500, 500: the
request `1 → 2` with diameter 500 takes the second pipe. -/
theorem connectObjects_accepted_witness :
    canConnectObjects storeFree 1 2 500 = true ∧
    connectObjects storeFree ⟨1, 1, 2, 500, "c", 1⟩ =
      { storeFree with
        pipes :=
          [⟨1, "p1", 5, 700, false, false, 0, 0, .STATION_TO_STATION, .STATION_TO_STATION⟩,
           ⟨2, "p2", 5, 500, false, true, 1, 2, .STATION_TO_STATION, .STATION_TO_STATION⟩,
           ⟨3, "p3", 5, 500, false, false, 0, 0, .STATION_TO_STATION, .STATION_TO_STATION⟩],
        network := [⟨2, 1, 2, .STATION_TO_STATION, .STATION_TO_STATION⟩] } :=
  ⟨by decide,
   (connectObjects_accepted storeFree ⟨1, 1, 2, 500, "c", 1⟩ (by decide)).1 1
     ⟨2, "p2", 5, 500, false, false, 0, 0, .STATION_TO_STATION, .STATION_TO_STATION⟩ rfl
     ⟨⟨_, rfl, rfl, rfl, rfl⟩, fun j hj b hb hav => by
        have hj0 : j = 0 := by omega
        subst hj0
        have hb2 : b.diameter = 700 := by
          have := Option.some.inj hb
          rw [← this]
        have hb3 : b.diameter = 500 := hav.1
        omega⟩⟩

/-- C11 (amended): with any fuel above the station count `topologicalSort`
finishes. On a store without connections it returns early and gives neither
an order nor a cycle report. On a store with a connection it gives exactly
one of the two: an order, which is then a permutation of the ids of all the
stations, or a cycle report, which lists ids of stations. -/
theorem topologicalSort_outcome (s : PipelineSystem) (fuel : Nat)
    (hfuel : s.stations.length < fuel) :
    (s.network = [] → topologicalSort s fuel = some .emptyNetwork) ∧
    (s.network ≠ [] →
      ((∃ order, topologicalSort s fuel = some (.order order) ∧ order.Perm (stationIds s)) ∨
       (∃ cyc, topologicalSort s fuel = some (.cycle cyc) ∧ ∀ id ∈ cyc, IsStationId s id)) ∧
      ¬ ((∃ order, topologicalSort s fuel = some (.order order)) ∧
         (∃ cyc, topologicalSort s fuel = some (.cycle cyc)))) := by
  constructor
  · intro hnet
    simp [topologicalSort, hnet]
  · intro hnet
    obtain ⟨result, hres⟩ := kahnResult_terminates s fuel hfuel
    have hfin := kahnResult_final s fuel result hres
    have heq := topologicalSort_eq s fuel result hnet hres
    constructor
    · by_cases hlen : result.length ≠ s.stations.length
      · right
        rw [if_pos hlen] at heq
        refine ⟨_, heq, ?_⟩
        intro id hid
        obtain ⟨st, hst, rfl⟩ := List.mem_map.mp hid
        exact ⟨st, (List.mem_filter.mp hst).1, rfl⟩
      · left
        rw [if_neg hlen] at heq
        refine ⟨result, heq, ?_⟩
        have hsub : result ⊆ stationIds s := by
          intro v hv
          obtain ⟨st, hst, hid⟩ := hfin.stations v hv
          exact List.mem_map.mpr ⟨st, hst, hid⟩
        apply (List.subperm_of_subset hfin.nodup hsub).perm_of_length_le
        simp only [stationIds, List.length_map]
        omega
    · rintro ⟨⟨order, ho⟩, ⟨cyc, hc⟩⟩
      rw [ho] at hc
      exact absurd hc (by simp)

/-- C11 on the cycle `1 → 2 → 3 → 1`: the outcome is the cycle report. -/
theorem topologicalSort_outcome_witness :
    storeCycle.stations.length < 4 ∧
    (storeCycle.network ≠ [] →
      ((∃ order, topologicalSort storeCycle 4 = some (.order order) ∧
          order.Perm (stationIds storeCycle)) ∨
       (∃ cyc, topologicalSort storeCycle 4 = some (.cycle cyc) ∧
          ∀ id ∈ cyc, IsStationId storeCycle id)) ∧
      ¬ ((∃ order, topologicalSort storeCycle 4 = some (.order order)) ∧
         (∃ cyc, topologicalSort storeCycle 4 = some (.cycle cyc)))) :=
  ⟨by decide, (topologicalSort_outcome storeCycle 4 (by decide)).2⟩

/-- C11 as stated fails on two stations without a connection: for every fuel
the outcome is the early return, neither an order nor a cycle report. -/
theorem topologicalSort_outcome_counterexample :
    (∀ fuel, topologicalSort storeTwoStations fuel = some TopoResult.emptyNetwork) ∧
    ¬ ∃ fuel, (∃ order, topologicalSort storeTwoStations fuel = some (.order order)) ∨
      (∃ cyc, topologicalSort storeTwoStations fuel = some (.cycle cyc)) := by
  have h : ∀ fuel, topologicalSort storeTwoStations fuel = some TopoResult.emptyNetwork := by
    intro fuel
    simp [topologicalSort, storeTwoStations]
  refine ⟨h, ?_⟩
  rintro ⟨fuel, ⟨order, ho⟩ | ⟨cyc, hc⟩⟩
  · rw [h fuel] at ho; exact absurd ho (by simp)
  · rw [h fuel] at hc; exact absurd hc (by simp)

/-- C20: the ids that `buildGraphForAlgorithms` enters into `idToIndex` are
exactly the ids that occur as the start or the end of some connection, each
once; the index of such an id is the number of smaller such ids (the k-th
smallest receives k - 1), so the indices are different for different ids,
grow with the ids, and fill `0 .. n - 1`. -/
theorem idToIndex_ascending (sqrt : ℚ → ℚ) (s : PipelineSystem) :
    (∀ id, id ∈ (buildGraphForAlgorithms sqrt s).2 ↔ id ∈ endpointIds s) ∧
    (buildGraphForAlgorithms sqrt s).2.Nodup ∧
    (buildGraphForAlgorithms sqrt s).2.length = (endpointIds s).card ∧
    (∀ id ∈ endpointIds s,
      idToIndex (buildGraphForAlgorithms sqrt s).2 id =
        ((endpointIds s).filter (fun x => x < id)).card) ∧
    (∀ a ∈ endpointIds s, ∀ b ∈ endpointIds s, a < b →
      idToIndex (buildGraphForAlgorithms sqrt s).2 a <
        idToIndex (buildGraphForAlgorithms sqrt s).2 b) ∧
    (∀ k, k < (endpointIds s).card →
      ∃ id ∈ endpointIds s, idToIndex (buildGraphForAlgorithms sqrt s).2 id = k) := by
  rw [build_nodes]
  have hfin := collectNodes_toFinset s
  have hsorted := collectNodes_sorted s.network
  have hnodup := collectNodes_nodup s.network
  have hmem : ∀ id, id ∈ collectNodes s.network ↔ id ∈ endpointIds s := by
    intro id; rw [← hfin, List.mem_toFinset]
  have hlen : (collectNodes s.network).length = (endpointIds s).card := by
    rw [← hfin, List.toFinset_card_of_nodup hnodup]
  refine ⟨hmem, hnodup, hlen, ?_, ?_, ?_⟩
  · intro id hid
    unfold idToIndex
    have hf : Finset.filter (fun x => x < id) (collectNodes s.network).toFinset =
        ((collectNodes s.network).filter (fun x => decide (x < id))).toFinset := by
      ext x; simp
    rw [indexOf_eq_countLt _ hsorted id ((hmem id).mpr hid), ← hfin, hf,
      List.toFinset_card_of_nodup (hnodup.filter _)]
  · intro a ha b hb hab
    unfold idToIndex
    have ha2 := (hmem a).mpr ha
    have hb2 := (hmem b).mpr hb
    by_contra hcon
    have hle : (collectNodes s.network).indexOf b ≤ (collectNodes s.network).indexOf a := by
      omega
    have hia := List.indexOf_lt_length.mpr ha2
    have hib := List.indexOf_lt_length.mpr hb2
    rcases Nat.lt_or_eq_of_le hle with hlt | heq
    · have := List.pairwise_iff_getElem.mp hsorted _ _ hib hia hlt
      simp only [List.getElem_indexOf] at this
      omega
    · have h1 : (collectNodes s.network)[(collectNodes s.network).indexOf b] =
          (collectNodes s.network)[(collectNodes s.network).indexOf a] := by
        congr 1
      simp only [List.getElem_indexOf] at h1
      omega
  · intro k hk
    rw [← hlen] at hk
    refine ⟨(collectNodes s.network)[k], (hmem _).mp (List.getElem_mem hk), ?_⟩
    unfold idToIndex
    exact List.indexOf_getElem hnodup k hk

/-- C15: in every store that the menu reaches from the empty store, for
every ordered pair of ids at most one connection has that start and that
end, and no connection has its start equal to its end. -/
theorem reachable_network_distinct (s : PipelineSystem) (h : Reachable s) :
    (∀ a b, s.network.countP (fun conn => decide (conn.startId = a ∧ conn.endId = b)) ≤ 1) ∧
    (∀ conn ∈ s.network, conn.startId ≠ conn.endId) := by
  induction h with
  | init => exact ⟨fun a b => by simp [emptyStore], fun conn hc => by simp [emptyStore] at hc⟩
  | step s c _ _ ih =>
    rcases execute_network s c with hsub | ⟨inp, pid, _, hacc, hnet⟩
    · exact ⟨fun a b => le_trans (hsub.countP_le _) (ih.1 a b),
        fun conn hc => ih.2 conn (hsub.subset hc)⟩
    · obtain ⟨hne, hfresh⟩ := canConnectObjects_fresh s _ _ _ hacc
      rw [hnet]
      constructor
      · intro a b
        rw [List.countP_append]
        by_cases hab : inp.startId = a ∧ inp.endId = b
        · obtain ⟨rfl, rfl⟩ := hab
          rw [hfresh]
          simp [List.countP_cons]
        · have : List.countP (fun conn => decide (conn.startId = a ∧ conn.endId = b))
              [(⟨pid, inp.startId, inp.endId, requestTag s inp.startId inp.endId,
                requestTag s inp.startId inp.endId⟩ : NetworkConnection)] = 0 := by
            rw [List.countP_eq_zero]
            intro conn hc
            rw [List.mem_singleton] at hc
            subst hc
            simpa using hab
          rw [this]
          exact ih.1 a b
      · intro conn hc
        rcases List.mem_append.mp hc with hc | hc
        · exact ih.2 conn hc
        · rw [List.mem_singleton] at hc
          subst hc
          exact hne

/-- C15 on the store reached by adding two stations and connecting them. -/
theorem reachable_network_distinct_witness :
    Reachable (executeAll emptyStore scriptConnect) ∧
    (∀ a b, (executeAll emptyStore scriptConnect).network.countP
        (fun conn => decide (conn.startId = a ∧ conn.endId = b)) ≤ 1) ∧
    (∀ conn ∈ (executeAll emptyStore scriptConnect).network, conn.startId ≠ conn.endId) :=
  ⟨reachable_executeAll scriptConnect scriptConnect_valid,
   reachable_network_distinct _ (reachable_executeAll scriptConnect scriptConnect_valid)⟩

/-- C16 (amended): in every store that the menu reaches from the empty
store, the two type tags of a connection are equal, and they are
`determineConnectionType` of how the two ids resolved, station first, in the
earlier store in which `connectObjects` appended the connection; no later
action rewrites them. In the current store an endpoint tagged as a station
is still the id of a station, and the tag equals `determineConnectionType`
of the current resolution exactly when no endpoint tagged as a pipe is by
now the id of a station. -/
theorem reachable_tags (s : PipelineSystem) (h : Reachable s) :
    ∀ conn ∈ s.network,
      conn.endType = conn.startType ∧
      (∃ (s0 : PipelineSystem) (inp : ConnectInput),
        Reachable s0 ∧ canConnectObjects s0 inp.startId inp.endId inp.diameter = true ∧
        (connectObjects s0 inp).network = s0.network ++ [conn] ∧
        ReachableFrom (connectObjects s0 inp) s ∧
        conn.startType = determineConnectionType (getObjectInfo s0 conn.startId).1
          (getObjectInfo s0 conn.endId).1) ∧
      (StartTaggedStation conn → IsStationId s conn.startId) ∧
      (EndTaggedStation conn → IsStationId s conn.endId) ∧
      (conn.startType = determineConnectionType (getObjectInfo s conn.startId).1
          (getObjectInfo s conn.endId).1 ↔
        ((IsStationId s conn.startId → StartTaggedStation conn) ∧
         (IsStationId s conn.endId → EndTaggedStation conn))) := by
  intro conn hc
  obtain ⟨s0, inp, h1, h2, h3, h4, h5, h6, h7, h8⟩ := reachable_created s h conn hc
  have hinv := reachable_tagInv s h conn hc
  have htag : conn.startType = determineConnectionType (getObjectInfo s0 conn.startId).1
      (getObjectInfo s0 conn.endId).1 := by
    rw [h7, h5, h6]; rfl
  refine ⟨by rw [h7, h8], ⟨s0, inp, h1, h2, h3, h4, htag⟩, hinv.1, hinv.2, ?_⟩
  have hs : StartTaggedStation conn ↔ (getObjectInfo s0 conn.startId).1 = true := by
    unfold StartTaggedStation
    rw [htag]
    exact determineConnectionType_start _ _
  have he : EndTaggedStation conn ↔ (getObjectInfo s0 conn.endId).1 = true := by
    unfold EndTaggedStation
    rw [htag]
    exact determineConnectionType_end _ _
  have h1s := hinv.1
  have h1e := hinv.2
  rw [hs] at h1s ⊢
  rw [he] at h1e ⊢
  rw [htag, determineConnectionType_inj, ← getObjectInfo_isStation, ← getObjectInfo_isStation]
  rw [← getObjectInfo_isStation] at h1s h1e
  revert h1s h1e
  cases (getObjectInfo s0 conn.startId).1 <;> cases (getObjectInfo s0 conn.endId).1 <;>
    cases (getObjectInfo s conn.startId).1 <;> cases (getObjectInfo s conn.endId).1 <;> simp

/-- C16 on the store reached by adding two stations and connecting them. -/
theorem reachable_tags_witness :
    Reachable (executeAll emptyStore scriptConnect) ∧
    ∀ conn ∈ (executeAll emptyStore scriptConnect).network,
      conn.endType = conn.startType ∧
      (∃ (s0 : PipelineSystem) (inp : ConnectInput),
        Reachable s0 ∧ canConnectObjects s0 inp.startId inp.endId inp.diameter = true ∧
        (connectObjects s0 inp).network = s0.network ++ [conn] ∧
        ReachableFrom (connectObjects s0 inp) (executeAll emptyStore scriptConnect) ∧
        conn.startType = determineConnectionType (getObjectInfo s0 conn.startId).1
          (getObjectInfo s0 conn.endId).1) ∧
      (StartTaggedStation conn → IsStationId (executeAll emptyStore scriptConnect) conn.startId) ∧
      (EndTaggedStation conn → IsStationId (executeAll emptyStore scriptConnect) conn.endId) ∧
      (conn.startType =
          determineConnectionType
            (getObjectInfo (executeAll emptyStore scriptConnect) conn.startId).1
            (getObjectInfo (executeAll emptyStore scriptConnect) conn.endId).1 ↔
        ((IsStationId (executeAll emptyStore scriptConnect) conn.startId →
            StartTaggedStation conn) ∧
         (IsStationId (executeAll emptyStore scriptConnect) conn.endId →
            EndTaggedStation conn))) :=
  ⟨reachable_executeAll scriptConnect scriptConnect_valid,
   reachable_tags _ (reachable_executeAll scriptConnect scriptConnect_valid)⟩

/-- C16 as stated fails on a reachable store: two pipes and a station are
added, station 1 is connected to pipe 2, and a second station is added. The
connection `1 → 2` keeps the tag `STATION_TO_PIPE`, while the id 2 now
resolves to the new station, so that the current resolution gives
`STATION_TO_STATION`. -/
theorem reachable_tags_counterexample :
    Reachable (executeAll emptyStore scriptRetag) ∧
    ∃ conn ∈ (executeAll emptyStore scriptRetag).network,
      conn.startType = .STATION_TO_PIPE ∧
      determineConnectionType (getObjectInfo (executeAll emptyStore scriptRetag) conn.startId).1
        (getObjectInfo (executeAll emptyStore scriptRetag) conn.endId).1 = .STATION_TO_STATION ∧
      conn.startType ≠
        determineConnectionType (getObjectInfo (executeAll emptyStore scriptRetag) conn.startId).1
          (getObjectInfo (executeAll emptyStore scriptRetag) conn.endId).1 := by
  refine ⟨reachable_executeAll scriptRetag scriptRetag_valid,
    ⟨1, 1, 2, .STATION_TO_PIPE, .STATION_TO_PIPE⟩, ?_, rfl, ?_, ?_⟩
  · rw [scriptRetag_network]; exact List.mem_singleton.mpr rfl
  · exact scriptRetag_resolution
  · show ConnectionType.STATION_TO_PIPE ≠ _
    rw [scriptRetag_resolution]
    decide

/-- C26 (amended): when the connection list is empty, or the id is the id of
no pipe, or the first pipe with the id is not in use, `disconnectPipe`
leaves the store as it is. When the connection list is not empty and the
first pipe with the id is in use, the store after is the store before with
the connections of that pipe id filtered out (the others stay, in their
order) and with that one pipe set to not in use with start and end 0;
every other pipe, the stations and both counters are as before. -/
theorem disconnectPipe_spec (s : PipelineSystem) (pipeId : Int) :
    (s.network = [] → disconnectPipe s pipeId = s) ∧
    (¬ IsPipeId s pipeId → disconnectPipe s pipeId = s) ∧
    (∀ i p, IsFirst (fun q => q.id = pipeId) s.pipes i → s.pipes.get? i = some p →
      p.inUse = false → disconnectPipe s pipeId = s) ∧
    (s.network ≠ [] → ∀ i p, IsFirst (fun q => q.id = pipeId) s.pipes i →
      s.pipes.get? i = some p → p.inUse = true →
      disconnectPipe s pipeId =
        { pipes := s.pipes.set i { p with inUse := false, startId := 0, endId := 0 },
          stations := s.stations,
          network := s.network.filter (fun conn => decide (conn.pipeId ≠ pipeId)),
          nextPipeId := s.nextPipeId,
          nextStationId := s.nextStationId }) := by
  refine ⟨?_, ?_, ?_, ?_⟩
  · intro h
    simp [disconnectPipe, h]
  · intro h
    unfold disconnectPipe
    rw [(findPipeIndexById_eq_none s pipeId).mpr h]
    split_ifs <;> rfl
  · intro i p hi hp hu
    unfold disconnectPipe
    rw [(findPipeIndexById_eq_some s pipeId i).mpr hi]
    by_cases hemp : s.network.isEmpty = true
    · rw [if_pos hemp]
    · rw [if_neg hemp]
      simp only [hp]
      rw [if_pos (by simp [hu])]
  · intro hne i p hi hp hu
    unfold disconnectPipe
    rw [(findPipeIndexById_eq_some s pipeId i).mpr hi]
    have hemp : ¬ s.network.isEmpty = true := by
      cases hn : s.network with
      | nil => exact absurd hn hne
      | cons a l => simp
    rw [if_neg hemp]
    simp only [hp]
    rw [if_neg (by simp [hu])]
    have hf : (fun conn : NetworkConnection => !(conn.pipeId == pipeId)) =
        (fun conn => decide (conn.pipeId ≠ pipeId)) := by
      funext conn
      by_cases h : conn.pipeId = pipeId <;> simp [h]
    rw [hf]

/-- C26 as stated fails on a store with a pipe in use and an empty
connection list: `disconnectPipe` returns at its first test and the pipe
stays in use with its start and end. -/
theorem disconnectPipe_spec_counterexample :
    storeDangling.pipes.map (fun p => (p.id, p.inUse)) = [(1, true)] ∧
    (disconnectPipe storeDangling 1).pipes.map (fun p => (p.inUse, p.startId, p.endId)) =
      [(true, 1, 2)] := by
  decide

/-- C21: in the graph that `buildGraphForAlgorithms` returns, the adjacency
list of every node `u` is, `rev` apart, the following list: the connections
in network order, each whose `pipeId` is the id of a pipe giving its forward
edge (to the index of its end, with its `pipeId`, the capacity and the weight
of the first pipe with that id, flow 0) when `u` is the index of its start,
and its residual edge (to the index of its start, capacity 0, flow 0) when
`u` is the index of its end; a connection whose `pipeId` is the id of no
pipe gives nothing. So each such connection has one forward and one residual
edge, there is no other edge, and the edges of a node stand in the order of
the connections. -/
theorem buildGraph_edges (sqrt : ℚ → ℚ) (s : PipelineSystem) (u : Nat) :
    (adj (buildGraphForAlgorithms sqrt s).1 u).map (fun e => { e with rev := 0 }) =
      s.network.flatMap (expectedEdges sqrt s u) := by
  rw [build_eq, adj_buildArcs_map _ _ (arcsOf_map_valid sqrt s) u]
  exact flatMap_arcs_eq sqrt s u s.network

/-- C28: when no connection has its start equal to its end, every edge `e`
at position `i` of a node `u` of the built graph has a sibling at position
`e.rev` of the node `e.to_`, which leads back to `u` and has `rev = i`; the
two are the forward edge and the residual edge of one connection, so one of
them is the residual edge, with capacity 0, and the other the forward edge,
with the capacity of the pipe. -/
theorem buildGraph_siblings (sqrt : ℚ → ℚ) (s : PipelineSystem)
    (hloop : ∀ conn ∈ s.network, conn.startId ≠ conn.endId)
    (u i : Nat) (e : GraphEdge)
    (he : (adj (buildGraphForAlgorithms sqrt s).1 u)[i]? = some e) :
    ∃ e' : GraphEdge,
      (adj (buildGraphForAlgorithms sqrt s).1 e.to_)[e.rev]? = some e' ∧
      e'.to_ = u ∧ e'.rev = i ∧
      ∃ conn ∈ s.network, ∃ pipe,
        s.pipes.find? (fun p => p.id == conn.pipeId) = some pipe ∧
        ((IsForwardOf sqrt s conn pipe u e ∧ IsResidualOf s conn pipe e.to_ e') ∨
         (IsResidualOf s conn pipe u e ∧ IsForwardOf sqrt s conn pipe e.to_ e')) := by
  rw [build_eq] at he ⊢
  have hl : ∀ p ∈ (arcsOf sqrt s).map (fun a => (a, (0 : ℚ))), p.1.s ≠ p.1.t := by
    intro p hp
    obtain ⟨a, ha, rfl⟩ := List.mem_map.mp hp
    exact arcsOf_noLoop sqrt s hloop a ha
  obtain ⟨k, a, x, j, hk, hcase⟩ :=
    pair_buildArcs _ _ (arcsOf_map_valid sqrt s) hl u i e he
  have hmem := List.getElem?_mem hk
  obtain ⟨a1, ha1, hax⟩ := List.mem_map.mp hmem
  simp only [Prod.mk.injEq] at hax
  obtain ⟨rfl, rfl⟩ := hax
  obtain ⟨conn, hc, pipe, hpipe, rfl⟩ := mem_arcsOf sqrt s a1 ha1
  rcases hcase with ⟨h1, h2, h3⟩ | ⟨h1, h2, h3⟩
  · subst h2
    refine ⟨_, h3, h1, rfl, conn, hc, pipe, hpipe, Or.inl ⟨?_, ?_⟩⟩
    · exact ⟨h1.symm, rfl, rfl, rfl, rfl, rfl⟩
    · exact ⟨rfl, rfl, rfl, rfl, rfl, by simp [backwardEdge]⟩
  · subst h2
    refine ⟨_, h3, h1, rfl, conn, hc, pipe, hpipe, Or.inr ⟨?_, ?_⟩⟩
    · exact ⟨h1.symm, rfl, rfl, rfl, rfl, by simp [backwardEdge]⟩
    · exact ⟨rfl, rfl, rfl, rfl, rfl, rfl⟩

/-- C28 on the series store `1 → 2 → 3`: the first edge of node 0 and its
sibling, the first edge of node 1. -/
theorem buildGraph_siblings_witness :
    (∀ conn ∈ storeSeries.network, conn.startId ≠ conn.endId) ∧
    ∃ e e' : GraphEdge,
      (adj (buildGraphForAlgorithms (fun _ => 100) storeSeries).1 0)[0]? = some e ∧
      (adj (buildGraphForAlgorithms (fun _ => 100) storeSeries).1 e.to_)[e.rev]? = some e' ∧
      e'.to_ = 0 ∧ e'.rev = 0 :=
  ⟨by decide, by
    have he : (adj (buildGraphForAlgorithms (fun _ => 100) storeSeries).1 0)[0]? =
        some ⟨1, 1, 1000, 0, .fin 5, 0⟩ := by
      with_unfolding_all rfl
    obtain ⟨e', h1, h2, h3, _⟩ :=
      buildGraph_siblings (fun _ => 100) storeSeries (by decide) 0 0 _ he
    exact ⟨_, e', he, h1, h2, h3⟩⟩

/-- C29: for a network without a connection from an id to itself, distinct
source and sink that are nodes, and a square root without negative values:
with enough fuel, after every augmentation of `edmondsKarpMaxFlow` (every
pair of residual graph and total that the loop passes through, and the pair
at its exit) every edge has its sibling at position `rev` of the node it
leads to, with the negated flow; of the two one has capacity 0 (the residual
edge) and the other (the forward edge) carries a flow between 0 and its
capacity; and the total is the sum of the flows of the edges at the source,
the net flow that leaves it. -/
theorem maxFlow_residual_invariants (sqrt : ℚ → ℚ) (s : PipelineSystem)
    (sourceId sinkId : Int) (hsqrt : ∀ x, 0 ≤ sqrt x)
    (hloop : ∀ conn ∈ s.network, conn.startId ≠ conn.endId) (hne : sourceId ≠ sinkId)
    (hsrc : sourceId ∈ (buildGraphForAlgorithms sqrt s).2)
    (hsnk : sinkId ∈ (buildGraphForAlgorithms sqrt s).2) :
    ∃ fuel0, ∀ fuel, fuel0 ≤ fuel →
      (∀ g total,
        Reached fuel (idToIndex (buildGraphForAlgorithms sqrt s).2 sourceId)
          (idToIndex (buildGraphForAlgorithms sqrt s).2 sinkId)
          (buildGraphForAlgorithms sqrt s).2.length (buildGraphForAlgorithms sqrt s).1 g total →
        ResidualOK g (idToIndex (buildGraphForAlgorithms sqrt s).2 sourceId) total) ∧
      ∃ total g, edmondsKarpResidual sqrt s fuel sourceId sinkId = some (total, g) ∧
        ResidualOK g (idToIndex (buildGraphForAlgorithms sqrt s).2 sourceId) total := by
  rw [build_nodes] at hsrc hsnk ⊢
  have hcap : ∀ p ∈ s.pipes, 0 ≤ p.getCapacity sqrt :=
    fun p _ => getCapacity_nonneg sqrt hsqrt p
  have hvalid := arcsOf_valid sqrt s
  have hl := arcsOf_noLoop sqrt s hloop
  have hsi : idToIndex (collectNodes s.network) sourceId < (collectNodes s.network).length :=
    idToIndex_lt _ _ hsrc
  have hidx : idToIndex (collectNodes s.network) sourceId ≠
      idToIndex (collectNodes s.network) sinkId :=
    fun h => hne (idToIndex_inj _ _ _ hsrc h)
  obtain ⟨fuel0, hrun⟩ := edmondsKarpResidual_spec sqrt s sourceId sinkId hcap hne hsrc hsnk
  refine ⟨max fuel0 ((collectNodes s.network).length + 1), fun fuel hfuel => ⟨?_, ?_⟩⟩
  · intro g total hreach
    have hinv := reached_flowInv _ _ _ (arcsOf sqrt s) fuel _ hvalid hsi hidx
      (by have := le_max_right fuel0 ((collectNodes s.network).length + 1); omega)
      (flowInv_init sqrt s _ _ hcap) g total hreach
    exact flowInv_residualOK _ _ _ _ _ _ hvalid hl hinv
  · obtain ⟨total, g, hres, hinv⟩ := hrun fuel (le_trans (le_max_left _ _) hfuel)
    exact ⟨total, g, hres, flowInv_residualOK _ _ _ _ _ _ hvalid hl hinv⟩

/-- C29 on the series store `1 → 2 → 3` with source 1 and sink 3. -/
theorem maxFlow_residual_invariants_witness :
    ∃ fuel0, ∀ fuel, fuel0 ≤ fuel →
      (∀ g total,
        Reached fuel (idToIndex (buildGraphForAlgorithms (fun _ => 100) storeSeries).2 1)
          (idToIndex (buildGraphForAlgorithms (fun _ => 100) storeSeries).2 3)
          (buildGraphForAlgorithms (fun _ => 100) storeSeries).2.length
          (buildGraphForAlgorithms (fun _ => 100) storeSeries).1 g total →
        ResidualOK g (idToIndex (buildGraphForAlgorithms (fun _ => 100) storeSeries).2 1)
          total) ∧
      ∃ total g, edmondsKarpResidual (fun _ => 100) storeSeries fuel 1 3 = some (total, g) ∧
        ResidualOK g (idToIndex (buildGraphForAlgorithms (fun _ => 100) storeSeries).2 1)
          total :=
  maxFlow_residual_invariants (fun _ => 100) storeSeries 1 3 (fun _ => by norm_num)
    (by decide) (by decide) (by decide) (by decide)

/-- C27 (amended): `deleteObjects` for stations, for any selection; `D` is
the list `selectedStationIds` of the ids of the selected stations (every
id of the input that is the id of a station, or every station for `all`).
The stations after are the stations at the positions not selected, so that
with distinct station ids no station with an id of `D` is left; the
connections after are the connections that have neither start nor end in
`D`, in their order; a pipe whose start or end is in `D` is released
(`inUse = false`, start and end 0) and every other pipe is as before; the
counters do not change. -/
theorem deleteObjects_stations_spec (s : PipelineSystem) (input : Selection) :
    (deleteObjects s false input).stations =
      keepAt (fun i => decide (i ∉ selectMultipleObjects (getStationIds s) input)) s.stations ∧
    (∀ S ∈ selectedStationIds s input, IsStationId s S) ∧
    (∀ tokens S, input = .ids tokens → S ∈ tokens → IsStationId s S →
      S ∈ selectedStationIds s input) ∧
    (input = .all → ∀ S, IsStationId s S → S ∈ selectedStationIds s input) ∧
    ((stationIds s).Nodup → ∀ S ∈ selectedStationIds s input,
      ¬ IsStationId (deleteObjects s false input) S) ∧
    (deleteObjects s false input).network =
      s.network.filter (fun conn =>
        decide (conn.startId ∉ selectedStationIds s input ∧
          conn.endId ∉ selectedStationIds s input)) ∧
    (deleteObjects s false input).pipes =
      s.pipes.map (fun p =>
        if p.startId ∈ selectedStationIds s input ∨ p.endId ∈ selectedStationIds s input then
          { p with inUse := false, startId := 0, endId := 0 }
        else p) ∧
    (deleteObjects s false input).nextPipeId = s.nextPipeId ∧
    (deleteObjects s false input).nextStationId = s.nextStationId := by
  rw [deleteObjects_stations_eq]
  refine ⟨rfl, ?_, ?_, ?_, ?_, rfl, rfl, rfl, rfl⟩
  · intro S hS
    obtain ⟨i, st, _, hst, hid⟩ := (mem_selectedStationIds s input S).mp hS
    exact ⟨st, List.get?_mem hst, hid⟩
  · intro tokens S hin hS hst
    subst hin
    obtain ⟨i, st, hfind, hget, hid⟩ := findIdx?_stationIds s S hst
    exact (mem_selectedStationIds s _ S).mpr
      ⟨i, st, (mem_selectMultipleObjects_ids _ _ _).mpr ⟨S, hS, hfind⟩, hget, hid⟩
  · intro hin S hst
    subst hin
    obtain ⟨st, hmem, hid⟩ := hst
    obtain ⟨i, hi⟩ := List.get?_of_mem hmem
    refine (mem_selectedStationIds s _ S).mpr ⟨i, st, ?_, hi, hid⟩
    rw [mem_selectMultipleObjects_all]
    unfold getStationIds
    rw [List.length_map]
    by_contra hcon
    rw [List.get?_eq_getElem?, List.getElem?_eq_none (not_lt.mp hcon)] at hi
    simp at hi
  · intro hnd S hS hleft
    obtain ⟨i, st, hi, hst, hid⟩ := (mem_selectedStationIds s input S).mp hS
    obtain ⟨st2, hst2, hid2⟩ := hleft
    simp only at hst2
    obtain ⟨j, hj, hPj⟩ := (mem_keepAt _ _ _).mp hst2
    have hnd2 : (s.stations.map (fun st : CompressorStation => st.id)).Nodup := hnd
    have hij : i = j :=
      get?_inj_of_nodup_map (fun st : CompressorStation => st.id) s.stations i j st st2 hnd2
        hst hj (by show st.id = st2.id; rw [hid, hid2])
    subst hij
    simp only [decide_eq_true_eq] at hPj
    exact hPj hi

/-- C27 as stated fails when two stations are selected: on the series store
`1 → 2 → 3` with the stations 1 and 3 selected, the connection `2 → 3` does
not touch station 1 and is removed all the same, and its pipe 2, which does
not name station 1, is released. -/
theorem deleteObjects_stations_spec_counterexample :
    (1 : Int) ∈ selectedStationIds storeSeries (.ids [1, 3]) ∧
    (⟨2, 2, 3, .STATION_TO_STATION, .STATION_TO_STATION⟩ : NetworkConnection) ∈
      storeSeries.network ∧
    (deleteObjects storeSeries false (.ids [1, 3])).network = [] ∧
    storeSeries.pipes.map (fun p => (p.id, p.inUse, p.startId, p.endId)) =
      [(1, true, 1, 2), (2, true, 2, 3)] ∧
    (deleteObjects storeSeries false (.ids [1, 3])).pipes.map
        (fun p => (p.id, p.inUse, p.startId, p.endId)) =
      [(1, false, 0, 0), (2, false, 0, 0)] := by
  decide

/-- C30: in every store that the menu reaches from the empty store by
adding, editing, connecting, disconnecting and deleting, pipe ids are
distinct, the `pipeId` of every connection is the id of a pipe of the store
that is in use and has the start and the end of the connection, no two
connections have the same `pipeId`, and every pipe in use is the pipe of
exactly one connection. -/
theorem reachable_pipes_connections (s : PipelineSystem) (h : Reachable s) :
    (s.pipes.map (fun p => p.id)).Nodup ∧
    (∀ conn ∈ s.network, ∃ p ∈ s.pipes, p.id = conn.pipeId ∧ p.inUse = true ∧
      p.startId = conn.startId ∧ p.endId = conn.endId) ∧
    (s.network.map (fun conn => conn.pipeId)).Nodup ∧
    (∀ p ∈ s.pipes, p.inUse = true →
      s.network.countP (fun conn => conn.pipeId == p.id) = 1) := by
  obtain ⟨h1, _, h3, h4, h5⟩ := reachable_pipeInv s h
  exact ⟨h1, h3, h4, fun p hp hu => countP_pipeId_eq_one _ _ h4 (h5 p hp hu)⟩

/-- C30 at the store after two stations are added and connected. -/
theorem reachable_pipes_connections_witness :
    Reachable (executeAll emptyStore scriptConnect) ∧
    (executeAll emptyStore scriptConnect).network.map (fun conn => conn.pipeId) = [1] ∧
    (((executeAll emptyStore scriptConnect).pipes.map (fun p => p.id)).Nodup ∧
    (∀ conn ∈ (executeAll emptyStore scriptConnect).network,
      ∃ p ∈ (executeAll emptyStore scriptConnect).pipes, p.id = conn.pipeId ∧ p.inUse = true ∧
        p.startId = conn.startId ∧ p.endId = conn.endId) ∧
    ((executeAll emptyStore scriptConnect).network.map (fun conn => conn.pipeId)).Nodup ∧
    (∀ p ∈ (executeAll emptyStore scriptConnect).pipes, p.inUse = true →
      (executeAll emptyStore scriptConnect).network.countP
        (fun conn => conn.pipeId == p.id) = 1)) :=
  ⟨reachable_executeAll scriptConnect scriptConnect_valid, by decide,
   reachable_pipes_connections _ (reachable_executeAll scriptConnect scriptConnect_valid)⟩

/-- C24 (fails on the code): in the store where pipe 1 connects the free
pipes 2 and 3 (three `addPipe` of diameter 500 and one `connectObjects`
from pipe 2 to pipe 3), the ids 2 and 3 are the start and the end of the
connection `2 → 3`, which is a chain from 2 to 3, and both are nodes for
the builder of lr4; but of the three pipes `buildGraph` of lr3 makes only
the mediating pipe 1 a node, and `findPath` from 2 to 3 answers, for every
number of passes allowed, that the points are not connected to the network
instead of returning the path `[2, 3]`. -/
theorem findPath_misses_connected_pipes :
    ConnPath storePipeEnds [2, 3] ∧
    collectNodes storePipeEnds.network = [2, 3] ∧
    mapHas (buildGraph storePipeEnds) 1 = true ∧
    mapHas (buildGraph storePipeEnds) 2 = false ∧
    mapHas (buildGraph storePipeEnds) 3 = false ∧
    findPath storePipeEnds 3 2 3 = some .notConnected ∧
    ¬ ∃ fuel path pipesPath total,
      findPath storePipeEnds fuel 2 3 = some (.found path pipesPath total) := by
  have hn : ¬ IsGraphNode storePipeEnds 2 := by
    rw [← mapHas_buildGraph]
    decide
  have hall : ∀ fuel, findPath storePipeEnds fuel 2 3 = some .notConnected := fun fuel =>
    findPath_notConnected storePipeEnds fuel 2 3 (by decide) (by decide) (by decide)
      (Or.inl hn)
  refine ⟨?_, by decide, by decide, by decide, by decide, hall 3, ?_⟩
  · unfold ConnPath
    exact List.Chain'.cons ⟨⟨1, 2, 3, .PIPE_TO_PIPE, .PIPE_TO_PIPE⟩, by decide, rfl, rfl⟩
      (List.chain'_singleton 3)
  · rintro ⟨fuel, path, pipesPath, total, h⟩
    rw [hall fuel] at h
    simp at h

/-- C25 (amended): `findPath` of lr3, for a network that is not empty and a
start and an end that are nodes of the graph it builds: when no chain of
connections through nodes of the graph leads from the start to the end, and
so in particular when no chain of connections at all does, the result with
enough passes allowed is the message that no path was found, which carries
no path, no pipes and no length. -/
theorem findPath_noPath (s : PipelineSystem) (fuel : Nat) (startId endId : Int)
    (hfuel : s.network.length + 2 ≤ fuel) (hnet : s.network ≠ [])
    (hs : IsGraphNode s startId) (he : IsGraphNode s endId) :
    ((¬ ∃ path, NodePath s path ∧ path.head? = some startId ∧
        path.getLast? = some endId) →
      findPath s fuel startId endId = some .noPath) ∧
    ((¬ ∃ path, ConnPath s path ∧ path.head? = some startId ∧
        path.getLast? = some endId) →
      findPath s fuel startId endId = some .noPath) := by
  refine ⟨findPath_noPath_of s fuel startId endId hfuel hnet hs he, ?_⟩
  intro hno
  apply findPath_noPath_of s fuel startId endId hfuel hnet hs he
  rintro ⟨path, hp, hh, hl⟩
  exact hno ⟨path, nodePath_connPath s path hp, hh, hl⟩

/-- C25 at the series store: no chain leads from station 3 to station 1. -/
theorem findPath_noPath_witness : findPath storeSeries 4 3 1 = some .noPath :=
  (findPath_noPath storeSeries 4 3 1 (by decide) (by decide)
    (Or.inl ⟨⟨3, "C", 1, 1, 1⟩, by decide, rfl⟩)
    (Or.inl ⟨⟨1, "A", 1, 1, 1⟩, by decide, rfl⟩)).2
    (by
      rintro ⟨path, hp, hh, hl⟩
      unfold ConnPath at hp
      cases path with
      | nil => simp at hh
      | cons a t =>
        simp only [List.head?_cons, Option.some.injEq] at hh
        subst hh
        cases t with
        | nil => simp at hl
        | cons b t2 =>
          rw [List.chain'_cons] at hp
          obtain ⟨⟨conn, hc, h1, _⟩, _⟩ := hp
          simp only [storeSeries, List.mem_cons, List.mem_singleton, List.not_mem_nil,
            or_false] at hc
          rcases hc with rfl | rfl <;> simp at h1)

/-- C25 as stated fails for the empty network: two stations are nodes of the
graph, no chain of connections leads from station 1 to station 2, and
`findPath` answers that the network is empty, not that no path was found. -/
theorem findPath_noPath_counterexample :
    mapHas (buildGraph storeTwoStations) 1 = true ∧
    mapHas (buildGraph storeTwoStations) 2 = true ∧
    (¬ ∃ path, ConnPath storeTwoStations path ∧ path.head? = some 1 ∧
      path.getLast? = some 2) ∧
    findPath storeTwoStations 2 1 2 = some .emptyNetwork ∧
    ¬ ∃ fuel, findPath storeTwoStations fuel 1 2 = some .noPath := by
  refine ⟨by decide, by decide, ?_, findPath_empty _ _ _ _ rfl, ?_⟩
  · rintro ⟨path, hp, hh, hl⟩
    unfold ConnPath at hp
    cases path with
    | nil => simp at hh
    | cons a t =>
      simp only [List.head?_cons, Option.some.injEq] at hh
      subst hh
      cases t with
      | nil => simp at hl
      | cons b t2 =>
        rw [List.chain'_cons] at hp
        obtain ⟨⟨conn, hc, _⟩, _⟩ := hp
        simp [storeTwoStations] at hc
  · rintro ⟨fuel, h⟩
    rw [findPath_empty storeTwoStations fuel 1 2 rfl] at h
    simp at h

/-- C22: for a store in which no pipe has a negative length, and with
enough passes allowed, `dijkstraShortestPath` returns `(+∞, [])` when the
start or the end is not a node of the built graph, or when every walk from
the start to the end in the built adjacency lists has infinite weight;
otherwise, when some walk has finite weight, it returns a finite distance
`d` and a path that begins with the start and ends with the end, which is
the sequence of the nodes of a walk `es` in the built adjacency lists whose
weights add up to `d`, and no walk from the start to the end has a total
weight below `d`. -/
theorem dijkstra_shortest (sqrt : ℚ → ℚ) (s : PipelineSystem) (startId endId : Int)
    (hlen : ∀ p ∈ s.pipes, 0 ≤ p.length) :
    ∃ fuel0, ∀ fuel, fuel0 ≤ fuel →
      ((startId ∉ (buildGraphForAlgorithms sqrt s).2 ∨
          endId ∉ (buildGraphForAlgorithms sqrt s).2 ∨
          ∀ es, GWalk (buildGraphForAlgorithms sqrt s).1
            (idToIndex (buildGraphForAlgorithms sqrt s).2 startId) es
            (idToIndex (buildGraphForAlgorithms sqrt s).2 endId) → walkWeight es = .inf) →
        dijkstraShortestPath sqrt s fuel startId endId = some (.inf, [])) ∧
      (startId ∈ (buildGraphForAlgorithms sqrt s).2 →
        endId ∈ (buildGraphForAlgorithms sqrt s).2 →
        (∃ es, GWalk (buildGraphForAlgorithms sqrt s).1
            (idToIndex (buildGraphForAlgorithms sqrt s).2 startId) es
            (idToIndex (buildGraphForAlgorithms sqrt s).2 endId) ∧ walkWeight es ≠ .inf) →
        ∃ (d : ℚ) (path : List Int) (es : List GraphEdge),
          dijkstraShortestPath sqrt s fuel startId endId = some (.fin d, path) ∧
          path.head? = some startId ∧ path.getLast? = some endId ∧
          GWalk (buildGraphForAlgorithms sqrt s).1
            (idToIndex (buildGraphForAlgorithms sqrt s).2 startId) es
            (idToIndex (buildGraphForAlgorithms sqrt s).2 endId) ∧
          path = startId ::
            es.map (fun e => (buildGraphForAlgorithms sqrt s).2.getD e.to_ 0) ∧
          walkWeight es = .fin d ∧
          ∀ es2, GWalk (buildGraphForAlgorithms sqrt s).1
            (idToIndex (buildGraphForAlgorithms sqrt s).2 startId) es2
            (idToIndex (buildGraphForAlgorithms sqrt s).2 endId) →
            (walkWeight es2).lt (.fin d) = false) := by
  refine ⟨pendingEdges (buildGraphForAlgorithms sqrt s).1 [] +
    (buildGraphForAlgorithms sqrt s).1.length + 2, ?_⟩
  intro fuel hfuel
  simp only [build_nodes]
  constructor
  · intro hcase
    by_cases hmem : startId ∈ collectNodes s.network ∧ endId ∈ collectNodes s.network
    · rcases dijkstraShortestPath_run sqrt s hlen startId endId hmem.1 hmem.2 fuel hfuel with
        ⟨hres, _⟩ | ⟨d, es, _, hwalk, hwt, _⟩
      · exact hres
      · rcases hcase with hc | hc | hc
        · exact absurd hmem.1 hc
        · exact absurd hmem.2 hc
        · have := hc es hwalk
          rw [hwt] at this
          simp at this
    · exact dijkstraShortestPath_absent sqrt s fuel startId endId hmem
  · intro hs he hex
    rcases dijkstraShortestPath_run sqrt s hlen startId endId hs he fuel hfuel with
      ⟨_, hall⟩ | ⟨d, es, hres, hwalk, hwt, hmin⟩
    · obtain ⟨es, hes, hne⟩ := hex
      exact absurd (hall es hes) hne
    · exact ⟨d, _, es, hres, rfl, path_ends sqrt s startId endId hs he es hwalk, hwalk, rfl,
        hwt, hmin⟩

/-- C22 at the series store, from station 1 to station 3: distance 10 along
`[1, 2, 3]`. -/
theorem dijkstra_shortest_witness :
    dijkstraShortestPath (fun x => x) storeSeries 9 1 3 = some (.fin 10, [1, 2, 3]) ∧
    ∃ fuel0, ∀ fuel, fuel0 ≤ fuel →
      ((1 ∉ (buildGraphForAlgorithms (fun x => x) storeSeries).2 ∨
          3 ∉ (buildGraphForAlgorithms (fun x => x) storeSeries).2 ∨
          ∀ es, GWalk (buildGraphForAlgorithms (fun x => x) storeSeries).1
            (idToIndex (buildGraphForAlgorithms (fun x => x) storeSeries).2 1) es
            (idToIndex (buildGraphForAlgorithms (fun x => x) storeSeries).2 3) →
            walkWeight es = .inf) →
        dijkstraShortestPath (fun x => x) storeSeries fuel 1 3 = some (.inf, [])) ∧
      (1 ∈ (buildGraphForAlgorithms (fun x => x) storeSeries).2 →
        3 ∈ (buildGraphForAlgorithms (fun x => x) storeSeries).2 →
        (∃ es, GWalk (buildGraphForAlgorithms (fun x => x) storeSeries).1
            (idToIndex (buildGraphForAlgorithms (fun x => x) storeSeries).2 1) es
            (idToIndex (buildGraphForAlgorithms (fun x => x) storeSeries).2 3) ∧
            walkWeight es ≠ .inf) →
        ∃ (d : ℚ) (path : List Int) (es : List GraphEdge),
          dijkstraShortestPath (fun x => x) storeSeries fuel 1 3 = some (.fin d, path) ∧
          path.head? = some 1 ∧ path.getLast? = some 3 ∧
          GWalk (buildGraphForAlgorithms (fun x => x) storeSeries).1
            (idToIndex (buildGraphForAlgorithms (fun x => x) storeSeries).2 1) es
            (idToIndex (buildGraphForAlgorithms (fun x => x) storeSeries).2 3) ∧
          path = (1 : Int) ::
            es.map (fun e => (buildGraphForAlgorithms (fun x => x) storeSeries).2.getD e.to_ 0) ∧
          walkWeight es = .fin d ∧
          ∀ es2, GWalk (buildGraphForAlgorithms (fun x => x) storeSeries).1
            (idToIndex (buildGraphForAlgorithms (fun x => x) storeSeries).2 1) es2
            (idToIndex (buildGraphForAlgorithms (fun x => x) storeSeries).2 3) →
            (walkWeight es2).lt (.fin d) = false) :=
  ⟨by with_unfolding_all rfl,
   dijkstra_shortest (fun x => x) storeSeries 1 3 (by
    intro p hp
    simp only [storeSeries, List.mem_cons, List.mem_singleton, List.not_mem_nil, or_false] at hp
    rcases hp with rfl | rfl <;> norm_num)⟩

/-- C18 (amended): for a pipe of positive length, `getCapacity` computed in
the arithmetic of `double` is `0.0` exactly when the pipe is under repair,
or its diameter is in the table and the product `length * 1000.0` is rounded
beyond the largest finite number, which is so from `2^1024 - 2^970` on; in
every other case the result is above zero (a positive number or `+∞`), for a
diameter of the table and for any other diameter. The library function
`pow(·, 5)` is assumed correct to the fraction `2^-50` between `1/4` and
`2`, and `sqrt(x)` not below the smaller of `x` and `1`. -/
theorem getCapacityDouble_eq_zero_iff (pow5 sqrt : ℚ → ℚ)
    (hpow : ∀ x, 1 / 4 ≤ x → x ≤ 2 → |pow5 x - x ^ 5| ≤ x ^ 5 / 2 ^ 50)
    (hsqrt : ∀ x, 0 < x → min x 1 ≤ sqrt x) (p : Pipe) (hlen : 0 < p.length) :
    (p.getCapacityDouble pow5 sqrt = .fin 0 ↔
      p.underRepair = true ∨
        (isTableDiameter p.diameter = true ∧ 2 ^ 1024 - 2 ^ 970 ≤ p.length * 1000)) ∧
    (p.getCapacityDouble pow5 sqrt ≠ .fin 0 →
      Double.lt (.fin 0) (p.getCapacityDouble pow5 sqrt) = true) := by
  cases hr : p.underRepair with
  | true =>
    rw [getCapacityDouble_repair pow5 sqrt p hr]
    exact ⟨⟨fun _ => Or.inl rfl, fun _ => rfl⟩, fun h => absurd rfl h⟩
  | false =>
    cases ht : isTableDiameter p.diameter with
    | false =>
      rw [getCapacityDouble_offTable pow5 sqrt p hr ht]
      refine ⟨⟨fun h => ?_, fun h => ?_⟩, fun _ => by simp [Double.lt]⟩
      · simp at h
      · rcases h with h | h
        · simp at h
        · simp at h
    | true =>
      rw [getCapacityDouble_table pow5 sqrt p hr ht]
      obtain ⟨hc, hpw⟩ := table_bounds p.diameter ht
      have hpw2 := (pow5_table pow5 hpow p.diameter ht).1
      rcases capacityCore sqrt hsqrt _ _ (p.length * 1000) hc (le_trans hpw hpw2)
        (by positivity) with ⟨h1, h2⟩ | ⟨h1, h2 | ⟨_, h2, _, _, h3⟩⟩
      · rw [h2]
        exact ⟨⟨fun _ => Or.inr ⟨rfl, h1⟩, fun _ => rfl⟩, fun h => absurd rfl h⟩
      · rw [h2]
        refine ⟨⟨fun h => ?_, fun h => ?_⟩, fun _ => rfl⟩
        · simp at h
        · rcases h with h | h
          · simp at h
          · exact absurd h.2 (not_le.mpr h1)
      · rw [h2]
        have hpos : (0 : ℚ) <
            roundNearest (tableCapacity p.diameter / 100 *
              sqrt (roundNearest (pow5 (roundNearest ((p.diameter : ℚ) / 1000)) /
                roundNearest (p.length * 1000)))) :=
          lt_of_lt_of_le (by positivity) h3
        refine ⟨⟨fun h => ?_, fun h => ?_⟩, fun _ => by simpa [Double.lt] using hpos⟩
        · simp only [Double.fin.injEq] at h
          rw [h] at hpos
          exact absurd hpos (lt_irrefl 0)
        · rcases h with h | h
          · simp at h
          · exact absurd h.2 (not_le.mpr h1)

/-- C18 at the pipe of diameter 500 and length 5, with the exact fifth power
in the place of `pow` and the identity in the place of `sqrt`. -/
theorem getCapacityDouble_eq_zero_iff_witness :
    (∀ x : ℚ, 1 / 4 ≤ x → x ≤ 2 → |(fun y : ℚ => y ^ 5) x - x ^ 5| ≤ x ^ 5 / 2 ^ 50) ∧
    (∀ x : ℚ, 0 < x → min x 1 ≤ (fun y : ℚ => y) x) ∧
    0 < (pipeInService 500 5).length ∧
    (((pipeInService 500 5).getCapacityDouble (fun y => y ^ 5) (fun y => y) = .fin 0 ↔
      (pipeInService 500 5).underRepair = true ∨
        (isTableDiameter (pipeInService 500 5).diameter = true ∧
          2 ^ 1024 - 2 ^ 970 ≤ (pipeInService 500 5).length * 1000)) ∧
     ((pipeInService 500 5).getCapacityDouble (fun y => y ^ 5) (fun y => y) ≠ .fin 0 →
      Double.lt (.fin 0)
        ((pipeInService 500 5).getCapacityDouble (fun y => y ^ 5) (fun y => y)) = true)) :=
  ⟨fun x _ _ => by simp only [sub_self, abs_zero]; positivity,
   fun x _ => min_le_left x 1,
   by norm_num [pipeInService],
   getCapacityDouble_eq_zero_iff (fun y => y ^ 5) (fun y => y)
     (fun x _ _ => by simp only [sub_self, abs_zero]; positivity)
     (fun x _ => min_le_left x 1) (pipeInService 500 5) (by norm_num [pipeInService])⟩

/-- C18 as stated fails for a very long pipe: a pipe in service of diameter
500 and length `10^306` km, a length that `getDoubleInput` accepts, has the
capacity `0.0` whatever `pow` and `sqrt` return, because `length * 1000.0` is
`+∞` and the quotient under the root is `0`. -/
theorem getCapacityDouble_eq_zero_iff_counterexample :
    0 < (pipeInService 500 (10 ^ 306)).length ∧
    (pipeInService 500 (10 ^ 306)).underRepair = false ∧
    Double.mul (.fin (pipeInService 500 (10 ^ 306)).length) (.fin 1000) = .pinf ∧
    ∀ pow5 sqrt : ℚ → ℚ,
      (pipeInService 500 (10 ^ 306)).getCapacityDouble pow5 sqrt = .fin 0 := by
  refine ⟨by norm_num [pipeInService], rfl, ?_,
    fun pow5 sqrt => getCapacityDouble_long pow5 sqrt 500 (by decide)⟩
  rw [Double.mul_fin_fin]
  exact (ofExact_eq_pinf_iff _ (by norm_num [pipeInService])).mpr long_overflows

/-- C19 (amended): in the arithmetic of `double`, for two pipes in service,
the first of positive length. At equal length and for two diameters of the
table, the pipe of the larger diameter has a capacity that is not lower,
and that is higher unless both capacities are `0.0` or both are `+∞`. At
equal diameter, in the table or not, the longer pipe has a capacity that is
not higher. The library function `pow(·, 5)` is assumed correct to the
fraction `2^-50` between `1/4` and `2`, and `sqrt` to keep the order of the
positive numbers and to return for `x` not less than the smaller of `x` and
`1`. -/
theorem getCapacityDouble_monotone (pow5 sqrt : ℚ → ℚ)
    (hpow : ∀ x, 1 / 4 ≤ x → x ≤ 2 → |pow5 x - x ^ 5| ≤ x ^ 5 / 2 ^ 50)
    (hsqrt : ∀ x, 0 < x → min x 1 ≤ sqrt x)
    (hmono : ∀ x y, 0 < x → x ≤ y → sqrt x ≤ sqrt y) (p q : Pipe)
    (hp : p.underRepair = false) (hq : q.underRepair = false) (hlen : 0 < p.length) :
    (p.length = q.length → isTableDiameter p.diameter = true →
      isTableDiameter q.diameter = true → p.diameter < q.diameter →
      Double.le (p.getCapacityDouble pow5 sqrt) (q.getCapacityDouble pow5 sqrt) = true ∧
      (p.getCapacityDouble pow5 sqrt ≠ .fin 0 → p.getCapacityDouble pow5 sqrt ≠ .pinf →
        Double.lt (p.getCapacityDouble pow5 sqrt) (q.getCapacityDouble pow5 sqrt) = true)) ∧
    (p.diameter = q.diameter → p.length < q.length →
      Double.le (q.getCapacityDouble pow5 sqrt) (p.getCapacityDouble pow5 sqrt) = true) := by
  constructor
  · intro hl hpt hqt hd
    rw [getCapacityDouble_table pow5 sqrt p hp hpt, getCapacityDouble_table pow5 sqrt q hq hqt,
      ← hl]
    obtain ⟨hcp, hpwp⟩ := table_bounds p.diameter hpt
    obtain ⟨hcq, hpwq⟩ := table_bounds q.diameter hqt
    obtain ⟨hc2, hpw2⟩ := table_order p.diameter q.diameter hpt hqt hd
    have hbp := pow5_table pow5 hpow p.diameter hpt
    have hbq := pow5_table pow5 hpow q.diameter hqt
    have hpwp0 : 1 / 64 ≤ pow5 (roundNearest ((p.diameter : ℚ) / 1000)) := le_trans hpwp hbp.1
    have hpwq0 : 1 / 64 ≤ pow5 (roundNearest ((q.diameter : ℚ) / 1000)) := le_trans hpwq hbq.1
    have hpw : pow5 (roundNearest ((p.diameter : ℚ) / 1000)) ≤
        pow5 (roundNearest ((q.diameter : ℚ) / 1000)) := by linarith [hbp.2, hbq.1]
    have hX : (0 : ℚ) < p.length * 1000 := by positivity
    have hLM := ofExact_nonNeg (p.length * 1000) (le_of_lt hX)
    have hdiv := Double.div_mono _ _ (by linarith) hpw _ hLM
    have hdp := Double.div_nonNeg (pow5 (roundNearest ((p.diameter : ℚ) / 1000))) (by linarith)
      _ hLM
    have hdq := Double.div_nonNeg (pow5 (roundNearest ((q.diameter : ℚ) / 1000))) (by linarith)
      _ hLM
    have hs := Double.sqrt_mono sqrt hsqrt hmono _ _ hdp hdq hdiv
    refine ⟨Double.mul_mono _ _ (by linarith) (by linarith) _ _
      (Double.sqrt_nonNeg sqrt hsqrt _ hdp) (Double.sqrt_nonNeg sqrt hsqrt _ hdq) hs, ?_⟩
    intro hne0 hneinf
    rcases capacityCore sqrt hsqrt _ _ (p.length * 1000) hcp hpwp0 hX with
      ⟨_, h2⟩ | ⟨h1, h2 | ⟨hlm, h2, hqp, hsp, h3⟩⟩
    · exact absurd h2 hne0
    · exact absurd h2 hneinf
    · rw [h2]
      rcases capacityCore sqrt hsqrt _ _ (p.length * 1000) hcq hpwq0 hX with
        ⟨h4, _⟩ | ⟨_, h5 | ⟨_, h5, _, _, _⟩⟩
      · exact absurd h4 (not_le.mpr h1)
      · rw [h5]
        rfl
      · rw [h5]
        have hqq : roundNearest (pow5 (roundNearest ((p.diameter : ℚ) / 1000)) /
              roundNearest (p.length * 1000)) ≤
            roundNearest (pow5 (roundNearest ((q.diameter : ℚ) / 1000)) /
              roundNearest (p.length * 1000)) :=
          roundNearest_mono _ _ (div_nonneg (by linarith) (le_of_lt hlm))
            (div_le_div_of_nonneg_right hpw (le_of_lt hlm))
        have hq0 : 0 < roundNearest (pow5 (roundNearest ((p.diameter : ℚ) / 1000)) /
            roundNearest (p.length * 1000)) := lt_of_lt_of_le (by positivity) hqp
        have hss := hmono _ _ hq0 hqq
        have hlt := roundNearest_lt
          (tableCapacity p.diameter / 100 *
            sqrt (roundNearest (pow5 (roundNearest ((p.diameter : ℚ) / 1000)) /
              roundNearest (p.length * 1000))))
          (tableCapacity q.diameter / 100 *
            sqrt (roundNearest (pow5 (roundNearest ((q.diameter : ℚ) / 1000)) /
              roundNearest (p.length * 1000))))
          (by
            have h12 : (0 : ℚ) < 1 / 2 ^ 1074 := by positivity
            rw [show (10 : ℚ) / 2 ^ 1074 = 10 * (1 / 2 ^ 1074) by ring]
            exact mul_le_mul hcp hsp (le_of_lt h12) (by linarith))
          (by
            have h13 : (0 : ℚ) ≤ sqrt (roundNearest (pow5 (roundNearest ((p.diameter : ℚ) / 1000)) /
              roundNearest (p.length * 1000))) := le_trans (by positivity) hsp
            calc 2 * (tableCapacity p.diameter / 100 *
                  sqrt (roundNearest (pow5 (roundNearest ((p.diameter : ℚ) / 1000)) /
                    roundNearest (p.length * 1000))))
                = 2 * (tableCapacity p.diameter / 100) *
                  sqrt (roundNearest (pow5 (roundNearest ((p.diameter : ℚ) / 1000)) /
                    roundNearest (p.length * 1000))) := by ring
              _ ≤ tableCapacity q.diameter / 100 *
                  sqrt (roundNearest (pow5 (roundNearest ((q.diameter : ℚ) / 1000)) /
                    roundNearest (p.length * 1000))) :=
                mul_le_mul hc2 hss h13 (by linarith))
        simpa [Double.lt] using hlt
  · intro hd hl
    have hlq : 0 < q.length := lt_trans hlen hl
    have hX : (0 : ℚ) ≤ p.length * 1000 := by positivity
    cases ht : isTableDiameter p.diameter with
    | false =>
      rw [getCapacityDouble_offTable pow5 sqrt p hp ht,
        getCapacityDouble_offTable pow5 sqrt q hq (by rw [← hd]; exact ht)]
      simp [Double.le]
    | true =>
      have hqt : isTableDiameter q.diameter = true := by rw [← hd]; exact ht
      rw [getCapacityDouble_table pow5 sqrt p hp ht, getCapacityDouble_table pow5 sqrt q hq hqt,
        ← hd]
      obtain ⟨hc, hpw⟩ := table_bounds p.diameter ht
      have hpw0 : 0 < pow5 (roundNearest ((p.diameter : ℚ) / 1000)) := by
        linarith [(pow5_table pow5 hpow p.diameter ht).1]
      have hLp := ofExact_nonNeg (p.length * 1000) hX
      have hLq := ofExact_nonNeg (q.length * 1000) (by positivity)
      have hle := ofExact_le (p.length * 1000) (q.length * 1000) hX (by linarith)
      have hdiv := Double.div_antitone _ hpw0 _ _ hLp hLq hle
      have hdp := Double.div_nonNeg _ hpw0 _ hLp
      have hdq := Double.div_nonNeg _ hpw0 _ hLq
      have hs := Double.sqrt_mono sqrt hsqrt hmono _ _ hdq hdp hdiv
      exact Double.mul_mono _ _ (by linarith) le_rfl _ _
        (Double.sqrt_nonNeg sqrt hsqrt _ hdq) (Double.sqrt_nonNeg sqrt hsqrt _ hdp) hs

/-- C19 at the pipes of diameter 500 and 700 (length 5) and of length 5 and
6 (diameter 500), with the exact fifth power in the place of `pow` and the
identity in the place of `sqrt`. -/
theorem getCapacityDouble_monotone_witness :
    (∀ x : ℚ, 1 / 4 ≤ x → x ≤ 2 → |(fun y : ℚ => y ^ 5) x - x ^ 5| ≤ x ^ 5 / 2 ^ 50) ∧
    (∀ x : ℚ, 0 < x → min x 1 ≤ (fun y : ℚ => y) x) ∧
    (∀ x y : ℚ, 0 < x → x ≤ y → (fun z : ℚ => z) x ≤ (fun z : ℚ => z) y) ∧
    (pipeInService 500 5).underRepair = false ∧ (pipeInService 700 5).underRepair = false ∧
    0 < (pipeInService 500 5).length ∧
    Double.le ((pipeInService 500 5).getCapacityDouble (fun y => y ^ 5) (fun y => y))
      ((pipeInService 700 5).getCapacityDouble (fun y => y ^ 5) (fun y => y)) = true ∧
    Double.le ((pipeInService 500 6).getCapacityDouble (fun y => y ^ 5) (fun y => y))
      ((pipeInService 500 5).getCapacityDouble (fun y => y ^ 5) (fun y => y)) = true :=
  ⟨fun x _ _ => by simp only [sub_self, abs_zero]; positivity,
   fun x _ => min_le_left x 1,
   fun _ _ _ hxy => hxy,
   rfl, rfl, by norm_num [pipeInService],
   ((getCapacityDouble_monotone (fun y => y ^ 5) (fun y => y)
      (fun x _ _ => by simp only [sub_self, abs_zero]; positivity)
      (fun x _ => min_le_left x 1) (fun _ _ _ hxy => hxy)
      (pipeInService 500 5) (pipeInService 700 5) rfl rfl (by norm_num [pipeInService])).1
      rfl (by decide) (by decide) (by decide)).1,
   (getCapacityDouble_monotone (fun y => y ^ 5) (fun y => y)
      (fun x _ _ => by simp only [sub_self, abs_zero]; positivity)
      (fun x _ => min_le_left x 1) (fun _ _ _ hxy => hxy)
      (pipeInService 500 5) (pipeInService 500 6) rfl rfl (by norm_num [pipeInService])).2
      rfl (by norm_num [pipeInService])⟩

/-- C19 as stated fails in three ways, whatever `pow` and `sqrt` return.
Outside the table: pipes in service of diameter 600 and 800 and of length 1
both have the capacity `1000.0`. Beyond the range: pipes of diameter 500 and
1400 and of length `10^306` both have the capacity `0.0`. By rounding: the
pipes of diameter 500 and of the neighbouring lengths `1.5 + 21 * 2^-52` and
`1.5 + 22 * 2^-52` have the same `length * 1000.0`, and so the same
capacity. -/
theorem getCapacityDouble_monotone_counterexample :
    ((pipeInService 600 1).underRepair = false ∧ (pipeInService 800 1).underRepair = false ∧
      (pipeInService 600 1).length = (pipeInService 800 1).length ∧
      0 < (pipeInService 600 1).length ∧
      (pipeInService 600 1).diameter < (pipeInService 800 1).diameter ∧
      ∀ pow5 sqrt : ℚ → ℚ,
        Double.lt ((pipeInService 600 1).getCapacityDouble pow5 sqrt)
          ((pipeInService 800 1).getCapacityDouble pow5 sqrt) = false) ∧
    ((pipeInService 500 (10 ^ 306)).length = (pipeInService 1400 (10 ^ 306)).length ∧
      0 < (pipeInService 500 (10 ^ 306)).length ∧
      isTableDiameter (pipeInService 500 (10 ^ 306)).diameter = true ∧
      isTableDiameter (pipeInService 1400 (10 ^ 306)).diameter = true ∧
      (pipeInService 500 (10 ^ 306)).diameter < (pipeInService 1400 (10 ^ 306)).diameter ∧
      ∀ pow5 sqrt : ℚ → ℚ,
        Double.lt ((pipeInService 500 (10 ^ 306)).getCapacityDouble pow5 sqrt)
          ((pipeInService 1400 (10 ^ 306)).getCapacityDouble pow5 sqrt) = false) ∧
    ((pipeInService 500 (3 / 2 + 21 / 2 ^ 52)).diameter =
        (pipeInService 500 (3 / 2 + 22 / 2 ^ 52)).diameter ∧
      isTableDiameter (pipeInService 500 (3 / 2 + 21 / 2 ^ 52)).diameter = true ∧
      0 < (pipeInService 500 (3 / 2 + 21 / 2 ^ 52)).length ∧
      (pipeInService 500 (3 / 2 + 21 / 2 ^ 52)).length <
        (pipeInService 500 (3 / 2 + 22 / 2 ^ 52)).length ∧
      ∀ pow5 sqrt : ℚ → ℚ,
        Double.lt ((pipeInService 500 (3 / 2 + 22 / 2 ^ 52)).getCapacityDouble pow5 sqrt)
          ((pipeInService 500 (3 / 2 + 21 / 2 ^ 52)).getCapacityDouble pow5 sqrt) = false) := by
  refine ⟨⟨rfl, rfl, rfl, by norm_num [pipeInService], by decide, ?_⟩,
    ⟨rfl, by norm_num [pipeInService], by decide, by decide, by decide, ?_⟩,
    ⟨rfl, by decide, by norm_num [pipeInService], by norm_num [pipeInService], ?_⟩⟩
  · intro pow5 sqrt
    rw [getCapacityDouble_offTable pow5 sqrt _ rfl (by decide),
      getCapacityDouble_offTable pow5 sqrt _ rfl (by decide)]
    exact Double.lt_irrefl _
  · intro pow5 sqrt
    rw [getCapacityDouble_long pow5 sqrt 500 (by decide),
      getCapacityDouble_long pow5 sqrt 1400 (by decide)]
    exact Double.lt_irrefl _
  · intro pow5 sqrt
    rw [getCapacityDouble_congr pow5 sqrt 500 (by decide) (3 / 2 + 22 / 2 ^ 52)
      (3 / 2 + 21 / 2 ^ 52) (by rw [roundNearest_collide.1, roundNearest_collide.2])]
    exact Double.lt_irrefl _

end Pipeline
